import Mathlib

/-!
# JSONGrapher utilities: equation records, equation evaluation and unit scaling

A shallow embedding of `src/utils/json_equationer/equation_creator.js`,
`src/utils/json_equationer/equation_evaluator.js` and `src/utils/unitScaling.js`.

* JavaScript strings are lists of characters.  Every pattern of the embedded code mentions
  characters of the Basic Multilingual Plane only, so a character of the model stands for
  what the pattern sees as one unit.  Where the source compares the `length` of texts,
  the model counts UTF-16 code units (`jsLength`).
* Regular expressions are terms of `Re`, run by a backtracking matcher that lists its
  results in priority order; `replaceGo` and `matchAllGo` are the scans of a `g` expression.
* JavaScript values are terms of `JSVal`; finite numbers are rationals.  A method returns
  an `Outcome`: whether it returned or threw, and the record it leaves behind.
* What the code gets from outside is a parameter: the expression evaluator, the binding
  of the global `jsonInput`, the conversion backend, and the conversions `toStr` and
  `toNumber` of values that are no strings or numbers.
-/

namespace JSONGrapher

/-! ## A backtracking matcher for the regular expressions of the source -/

/-- Matcher state: the text already consumed (most recent character first), the
text still ahead, and the capture groups recorded so far (latest first). -/
structure MState where
  before : List Char
  after : List Char
  caps : List (Nat × List Char)
deriving DecidableEq, Repr

/-- Abstract syntax of the regular expressions that occur in the source. -/
inductive Re where
  /-- one character satisfying a predicate: a literal, a class, `\d`, `.` -/
  | chr (p : Char → Bool)
  /-- Pattern `^` without the `m` flag -/
  | bos
  /-- Pattern `$` without the `m` flag -/
  | eos
  /-- Pattern `\b` -/
  | wordb
  /-- concatenation -/
  | seq (a b : Re)
  /-- Pattern `a?` (greedy) -/
  | opt (a : Re)
  /-- Pattern `a*` (greedy) -/
  | star (a : Re)
  /-- Pattern `a*?` (lazy) -/
  | lazyStar (a : Re)
  /-- capture group number `n` -/
  | grp (n : Nat) (a : Re)

/-- JavaScript `\w` of JavaScript: ASCII letters, digits and underscore. -/
def isWordChar (c : Char) : Bool :=
  c.isAlpha || c.isDigit || c == '_'

/-- Line terminators of ECMAScript: the characters `.` does not match. -/
def isLineTerminator (c : Char) : Bool :=
  c == '\n' || c == '\r' || c == Char.ofNat 0x2028 || c == Char.ofNat 0x2029

/-- Whether a character option (none at either end of the input) is a word character. -/
def isWordAt : Option Char → Bool
  | none => false
  | some c => isWordChar c

/-- Greedy iteration: the results of one more iteration that made progress, each
continued, come before the result of stopping here. -/
def starLoop (f : MState → List MState) : Nat → MState → List MState
  | 0, st => [st]
  | n + 1, st =>
    ((f st).filter (fun st' => decide (st'.after.length < st.after.length))).flatMap
      (starLoop f n) ++ [st]

/-- Lazy iteration: stopping here comes before the results of one more iteration. -/
def lazyLoop (f : MState → List MState) : Nat → MState → List MState
  | 0, st => [st]
  | n + 1, st =>
    st :: ((f st).filter (fun st' => decide (st'.after.length < st.after.length))).flatMap
      (lazyLoop f n)

/-- The text consumed between an earlier state and a later one. -/
def consumed (st st' : MState) : List Char :=
  (st'.before.take (st'.before.length - st.before.length)).reverse

/-- All ways of matching a regular expression at a state, in the priority order
of a backtracking matcher. -/
def Re.run : Re → MState → List MState
  | .chr p, st =>
    match st.after with
    | c :: r => if p c then [{ st with before := c :: st.before, after := r }] else []
    | [] => []
  | .bos, st => if st.before.isEmpty then [st] else []
  | .eos, st => if st.after.isEmpty then [st] else []
  | .wordb, st =>
    if isWordAt st.before.head? != isWordAt st.after.head? then [st] else []
  | .seq a b, st => (a.run st).flatMap b.run
  | .opt a, st => a.run st ++ [st]
  | .star a, st => starLoop a.run st.after.length st
  | .lazyStar a, st => lazyLoop a.run st.after.length st
  | .grp n a, st => (a.run st).map (fun st' => { st' with caps := (n, consumed st st') :: st'.caps })

/-- JavaScript `a+` (greedy). -/
def Re.plus (a : Re) : Re := .seq a (.star a)

/-- A literal character. -/
def Re.lit (c : Char) : Re := .chr (fun x => x == c)

/-- A literal string. -/
def Re.str : List Char → Re
  | [] => .opt (.chr (fun _ => false))
  | [c] => .lit c
  | c :: cs => .seq (.lit c) (Re.str cs)

/-- Leftmost match: the first start position, from the current one on, at which
the expression matches, with the matcher's preferred end state. -/
def search (re : Re) : List Char → List Char → Option (MState × MState)
  | before, [] => (re.run ⟨before, [], []⟩).head?.map (fun m => (⟨before, [], []⟩, m))
  | before, c :: r =>
    match (re.run ⟨before, c :: r, []⟩).head? with
    | some m => some (⟨before, c :: r, []⟩, m)
    | none => search re (c :: before) r

/-- JavaScript `RegExp.prototype.test` for an expression without the `g` flag. -/
def Re.test (re : Re) (s : List Char) : Bool := (search re [] s).isSome

/-- A piece of a replacement string: a literal character or a group reference `$n`. -/
inductive ReplTok where
  | lit (c : Char)
  | group (n : Nat)

/-- The replacement text for one match; a group that did not take part gives nothing. -/
def expandTemplate (template : List ReplTok) (m : MState) : List Char :=
  template.flatMap (fun t =>
    match t with
    | .lit c => [c]
    | .group n => (m.caps.lookup n).getD [])

/-- The scan of `String.prototype.replace` with a `g` expression, position by position:
`skip` counts the characters of the current match still to be dropped.  After an empty
match the scan copies one character and moves on. -/
def replaceGo (re : Re) (template : List ReplTok) : Nat → List Char → List Char → List Char
  | _ + 1, _, [] => []
  | 0, before, [] =>
    match (re.run ⟨before, [], []⟩).head? with
    | some m => expandTemplate template m
    | none => []
  | skip + 1, before, c :: r => replaceGo re template skip (c :: before) r
  | 0, before, c :: r =>
    match (re.run ⟨before, c :: r, []⟩).head? with
    | some m =>
      expandTemplate template m ++
        (if (c :: r).length - m.after.length = 0 then c :: replaceGo re template 0 (c :: before) r
         else replaceGo re template ((c :: r).length - m.after.length - 1) (c :: before) r)
    | none => c :: replaceGo re template 0 (c :: before) r

/-- JavaScript `s.replace(re, template)` for an expression with the `g` flag. -/
def Re.replaceAll (re : Re) (template : List ReplTok) (s : List Char) : List Char :=
  replaceGo re template 0 [] s

/-- The scan of a `while ((match = re.exec(s)) !== null)` loop that collects `match[0]`,
position by position as in `replaceGo`, for a `g` expression that matches no empty text
(on an empty match the loop of the source would not advance). -/
def matchAllGo (re : Re) : Nat → List Char → List Char → List (List Char)
  | _ + 1, _, [] => []
  | 0, before, [] =>
    match (re.run ⟨before, [], []⟩).head? with
    | some _ => [[]]
    | none => []
  | skip + 1, before, c :: r => matchAllGo re skip (c :: before) r
  | 0, before, c :: r =>
    match (re.run ⟨before, c :: r, []⟩).head? with
    | some m =>
      (c :: r).take ((c :: r).length - m.after.length) ::
        (if (c :: r).length - m.after.length = 0 then matchAllGo re 0 (c :: before) r
         else matchAllGo re ((c :: r).length - m.after.length - 1) (c :: before) r)
    | none => matchAllGo re 0 (c :: before) r

/-- All matches of a `g` expression, left to right (`match[0]` of each). -/
def Re.matchAll (re : Re) (s : List Char) : List (List Char) := matchAllGo re 0 [] s

/-! ## String operations -/

/-- The scan of `s.split(sep)` for a non-empty separator: `skip` counts the characters of
the current separator still to be dropped, `cur` is the piece being collected (reversed). -/
def splitGo (sep : List Char) : Nat → List Char → List Char → List (List Char)
  | _, cur, [] => [cur.reverse]
  | skip + 1, cur, _ :: r => splitGo sep skip cur r
  | 0, cur, c :: r =>
    if sep.isPrefixOf (c :: r) then cur.reverse :: splitGo sep (sep.length - 1) [] r
    else splitGo sep 0 (c :: cur) r

/-- JavaScript `s.split(sep)`; an empty separator splits into single characters. -/
def splitOn (sep s : List Char) : List (List Char) :=
  if sep.isEmpty then s.map (fun c => [c]) else splitGo sep 0 [] s

/-- JavaScript `parts.join(glue)`. -/
def joinWith (glue : List Char) : List (List Char) → List Char
  | [] => []
  | [p] => p
  | p :: rest => p ++ glue ++ joinWith glue rest

/-- White space and line terminators, the characters `String.prototype.trim` removes. -/
def isTrimChar (c : Char) : Bool :=
  c == '\t' || c == '\n' || c == Char.ofNat 0x0B || c == Char.ofNat 0x0C || c == '\r' ||
  c == ' ' || c == Char.ofNat 0xA0 || c == Char.ofNat 0x1680 ||
  (decide (0x2000 ≤ c.toNat) && decide (c.toNat ≤ 0x200A)) ||
  c == Char.ofNat 0x2028 || c == Char.ofNat 0x2029 || c == Char.ofNat 0x202F ||
  c == Char.ofNat 0x205F || c == Char.ofNat 0x3000 || c == Char.ofNat 0xFEFF

/-- JavaScript `s.trim()`. -/
def trim (s : List Char) : List Char :=
  ((s.dropWhile isTrimChar).reverse.dropWhile isTrimChar).reverse

/-- JavaScript `s.includes(sub)`. -/
def includes (s sub : List Char) : Bool :=
  s.tails.any (fun t => sub.isPrefixOf t)

/-- JavaScript `s.replace(/\^/g, "**")`. -/
def replaceCarets (s : List Char) : List Char :=
  (Re.lit '^').replaceAll [.lit '*', .lit '*'] s

/-! ## JavaScript values -/

/-- A JavaScript number: not-a-number, the two infinities, or a finite value. -/
inductive JSNum where
  | nan
  | posInf
  | negInf
  | fin (q : ℚ)
deriving DecidableEq

/-- JavaScript values as far as the embedded code inspects them.  An array without holes
is `arr`; `sparse` is an array given slot by slot, a slot holding a value or being empty
(a hole, as in `[1, ,]` or `new Array(2)`).  `Map` keys are strings, and objects are
compared by content. -/
inductive JSVal where
  | undefined
  | null
  | bool (b : Bool)
  | num (x : JSNum)
  | str (s : List Char)
  | arr (items : List JSVal)
  | sparse (slots : List (Option JSVal))
  | map (entries : List (String × JSVal))
  | set (items : List JSVal)
  | obj (fields : List (String × JSVal))

/-- The errors the embedded code throws or lets escape. -/
inductive JSError where
  | referenceError (msg : String)
  | typeError (msg : String)
  | syntaxError (msg : String)
  | error (msg : String)
deriving DecidableEq, Repr

/-- The number `q` as a JavaScript value. -/
def jsNum (q : ℚ) : JSVal := .num (.fin q)

/-- JavaScript `v === undefined`. -/
def JSVal.isUndefined : JSVal → Bool
  | .undefined => true
  | _ => false

/-- JavaScript `typeof v === 'number'`. -/
def JSVal.isNumber : JSVal → Bool
  | .num _ => true
  | _ => false

/-- JavaScript `v === null`. -/
def JSVal.isNull : JSVal → Bool
  | .null => true
  | _ => false

/-- JavaScript `v === 3`. -/
def JSVal.isThree : JSVal → Bool
  | .num (.fin q) => decide (q = 3)
  | _ => false

/-- JavaScript `Map.prototype.get` on an entry list (`undefined` for a missing key). -/
def mapGet : List (String × JSVal) → String → JSVal
  | [], _ => .undefined
  | (k, v) :: rest, key => if k = key then v else mapGet rest key

/-- JavaScript `Map.prototype.has`. -/
def mapHas : List (String × JSVal) → String → Bool
  | [], _ => false
  | (k, _) :: rest, key => if k = key then true else mapHas rest key

/-- JavaScript `Map.prototype.set`: an existing key keeps its place, a new key goes last. -/
def mapSet : List (String × JSVal) → String → JSVal → List (String × JSVal)
  | [], key, v => [(key, v)]
  | (k, w) :: rest, key, v => if k = key then (k, v) :: rest else (k, w) :: mapSet rest key v

/-- JavaScript `for (let [key, value] of entries) map.set(key, value)`. -/
def setAll (map entries : List (String × JSVal)) : List (String × JSVal) :=
  entries.foldl (fun dict kv => mapSet dict kv.1 kv.2) map

/-- An `Equation` instance: its `equationDict` map. -/
structure Equation where
  equationDict : List (String × JSVal)

/-- What a method call leaves behind: whether it returned or threw, and the record
afterwards. -/
structure Outcome where
  result : Except JSError Unit
  state : Equation

/-! ## Equation records (`equation_creator.js`) -/

/-- The pattern `/^\d+(\.\d+)?(.*)?$/` of `validateUnit`. -/
def unitPattern : Re :=
  .seq .bos (.seq (Re.plus (.chr Char.isDigit))
    (.seq (.opt (.grp 1 (.seq (Re.lit '.') (Re.plus (.chr Char.isDigit)))))
      (.seq (.opt (.grp 2 (.star (.chr (fun c => !isLineTerminator c))))) .eos)))

deriving instance DecidableEq for Except

/-- Source function `Equation.validateUnit`: throws unless the value matches `unitPattern`. -/
def validateUnit (value : List Char) : Except JSError Unit :=
  if !unitPattern.test value then
    .error (.error ("Invalid format: '" ++ String.mk value ++
      "'. Expected a numeric value, optionally followed by a unit."))
  else .ok ()

/-- JavaScript `Boolean(v)`: the truthiness of a value. -/
def JSVal.truthy : JSVal → Bool
  | .undefined => false
  | .null => false
  | .bool b => b
  | .num .nan => false
  | .num (.fin q) => decide (q ≠ 0)
  | .num _ => true
  | .str s => !s.isEmpty
  | _ => true

/-- JavaScript `x > 0` for a number. -/
def JSNum.gtZero : JSNum → Bool
  | .nan => false
  | .posInf => true
  | .negInf => false
  | .fin q => decide (0 < q)

/-- JavaScript `v > 0`.  `undefined` converts to `NaN`, `null` to 0 and a boolean to 0 or 1; the
conversion of strings and objects is supplied from outside as `toNumber`. -/
def JSVal.gtZero (toNumber : JSVal → JSNum) : JSVal → Bool
  | .undefined => false
  | .null => false
  | .bool b => b
  | .num x => x.gtZero
  | v => (toNumber v).gtZero

/-- JavaScript `v.size` for a value that is neither `undefined` nor `null`: the entry count of a
`Map` or `Set`, the own property of a plain object, `undefined` otherwise. -/
def JSVal.size : JSVal → JSVal
  | .map entries => jsNum entries.length
  | .set items => jsNum items.length
  | .obj fields => mapGet fields "size"
  | _ => .undefined

/-- JavaScript `String(v)` as `RegExp.prototype.test` applies it to its argument: a string is taken
as it is; the conversion of other values is supplied from outside as `toStr`. -/
def JSVal.asString (toStr : JSVal → List Char) : JSVal → List Char
  | .str s => s
  | v => toStr v

/-- The ten default fields the constructor starts from. -/
def defaultEquationDict : List (String × JSVal) :=
  [("equation_string", .str []), ("x_variable", .str []), ("y_variable", .str []),
   ("constants", .map []), ("num_of_points", .null),
   ("x_range_default", .arr [jsNum 0, jsNum 1]), ("x_range_limits", .arr [.null, .null]),
   ("x_points_specified", .arr []), ("points_spacing", .str []),
   ("reverse_scaling", .bool false)]

/-- The `Equation` constructor; a call without argument passes `null`. -/
def Equation.create (toNumber : JSVal → JSNum) (initialDict : JSVal) : Except JSError Equation :=
  if initialDict.truthy && initialDict.size.gtZero toNumber then
    match initialDict with
    | .map entries =>
      .ok ⟨setAll defaultEquationDict entries⟩
    | _ => .error (.typeError "initialDict must be a Map.")
  else .ok ⟨defaultEquationDict⟩

/-- The loop `for (let [name, value] of constants)` of `addConstants`: validate, then
insert into the record's constants map, entry by entry. -/
def addEntries (toStr : JSVal → List Char) (eq : Equation) : List (String × JSVal) → Outcome
  | [] => ⟨.ok (), eq⟩
  | (name, value) :: rest =>
    match validateUnit (value.asString toStr) with
    | .error e => ⟨.error e, eq⟩
    | .ok _ =>
      match mapGet eq.equationDict "constants" with
      | .map constants =>
        addEntries toStr
          ⟨mapSet eq.equationDict "constants" (.map (mapSet constants name value))⟩ rest
      | _ => ⟨.error (.typeError "this.equationDict.get(...).set is not a function"), eq⟩

/-- The loop `for (let constantMap of constants)` of `addConstants`. -/
def addMaps (toStr : JSVal → List Char) (eq : Equation) : List JSVal → Outcome
  | [] => ⟨.ok (), eq⟩
  | .map entries :: rest =>
    match addEntries toStr eq entries with
    | ⟨.ok _, eq'⟩ => addMaps toStr eq' rest
    | failed => failed
  | _ :: _ =>
    ⟨.error (.error "Each item in the list must be a Map containing a constant name-value pair."),
      eq⟩

/-- Source function `Equation.addConstants`. -/
def addConstants (toStr : JSVal → List Char) (eq : Equation) (constants : JSVal) : Outcome :=
  match constants with
  | .map entries => addEntries toStr eq entries
  | .arr items => addMaps toStr eq items
  | .sparse slots => addMaps toStr eq (slots.map (fun slot => slot.getD .undefined))
  | _ => ⟨.error (.typeError
      "Expected a Map for one constant or an array of Maps for multiple constants."), eq⟩

/-- JavaScript `Array.isArray(v)` together with the items of the array as indexing and
iteration read them: a hole reads as `undefined`. -/
def JSVal.arrayItems : JSVal → Option (List JSVal)
  | .arr items => some items
  | .sparse slots => some (slots.map (fun slot => slot.getD .undefined))
  | _ => none

/-- JavaScript `Array.isArray(v)` together with the slots of the array, for the methods that
tell a hole from a value. -/
def JSVal.arraySlots : JSVal → Option (List (Option JSVal))
  | .arr items => some (items.map some)
  | .sparse slots => some slots
  | _ => none

/-- JavaScript `Array.prototype.every` on the slots of an array: the test is not called
for a hole, so a hole never makes it fail. -/
def everySlot (test : JSVal → Bool) (slots : List (Option JSVal)) : Bool :=
  slots.all (fun slot =>
    match slot with
    | some item => test item
    | none => true)

/-- JavaScript `Number.isInteger(v)`. -/
def JSVal.isInteger : JSVal → Bool
  | .num (.fin q) => decide (q.den = 1)
  | _ => false

/-- JavaScript `x <= 0` for a number. -/
def JSNum.leZero : JSNum → Bool
  | .nan => false
  | .posInf => false
  | .negInf => true
  | .fin q => decide (q ≤ 0)

/-- JavaScript `v <= 0` where `v` has passed `Number.isInteger` (the only place the source
compares). -/
def JSVal.leZero : JSVal → Bool
  | .num x => x.leZero
  | _ => false

/-- A setter that stores without validation (`setXVariable`, `setEquation`, ...). -/
def setField (key : String) (eq : Equation) (v : JSVal) : Outcome :=
  ⟨.ok (), ⟨mapSet eq.equationDict key v⟩⟩

/-- Source function `Equation.setXVariable`. -/
def setXVariable (eq : Equation) (xVariable : JSVal) : Outcome := setField "x_variable" eq xVariable

/-- Source function `Equation.setYVariable`. -/
def setYVariable (eq : Equation) (yVariable : JSVal) : Outcome := setField "y_variable" eq yVariable

/-- Source function `Equation.setZVariable`. -/
def setZVariable (eq : Equation) (zVariable : JSVal) : Outcome := setField "z_variable" eq zVariable

/-- Source function `Equation.setEquation`. -/
def setEquation (eq : Equation) (equationString : JSVal) : Outcome :=
  setField "equation_string" eq equationString

/-- The common body of `setXRangeDefault`, `setYRangeDefault` and `setZRangeDefault`:
`if (!Array.isArray(r) || r.length !== 2 || !r.every(i => typeof i === 'number')) throw`. -/
def setRangeDefault (key : String) (message : String) (eq : Equation) (range : JSVal) : Outcome :=
  match range.arraySlots with
  | none => ⟨.error (.error message), eq⟩
  | some slots =>
    if slots.length != 2 || !everySlot JSVal.isNumber slots then ⟨.error (.error message), eq⟩
    else ⟨.ok (), ⟨mapSet eq.equationDict key range⟩⟩

/-- Source function `Equation.setXRangeDefault`. -/
def setXRangeDefault (eq : Equation) (xRange : JSVal) : Outcome :=
  setRangeDefault "x_range_default" "x_range must be an array of two numeric values." eq xRange

/-- Source function `Equation.setYRangeDefault`. -/
def setYRangeDefault (eq : Equation) (yRange : JSVal) : Outcome :=
  setRangeDefault "y_range_default" "y_range must be an array of two numeric values." eq yRange

/-- Source function `Equation.setZRangeDefault`. -/
def setZRangeDefault (eq : Equation) (zRange : JSVal) : Outcome :=
  setRangeDefault "z_range_default" "z_range must be an array of two numeric values." eq zRange

/-- The common body of `setXRangeLimits`, `setYRangeLimits` and `setZRangeLimits`: two
checks, each with its own message. -/
def setRangeLimits (key : String) (shapeMessage elementMessage : String) (eq : Equation)
    (limits : JSVal) : Outcome :=
  match limits.arraySlots with
  | none => ⟨.error (.error shapeMessage), eq⟩
  | some slots =>
    if slots.length != 2 then ⟨.error (.error shapeMessage), eq⟩
    else if !everySlot (fun i => i.isNumber || i.isNull) slots then
      ⟨.error (.error elementMessage), eq⟩
    else ⟨.ok (), ⟨mapSet eq.equationDict key limits⟩⟩

/-- Source function `Equation.setXRangeLimits`. -/
def setXRangeLimits (eq : Equation) (xLimits : JSVal) : Outcome :=
  setRangeLimits "x_range_limits" "x_limits must be an array of two elements (numeric or null)."
    "Elements in x_limits must be numeric or null." eq xLimits

/-- Source function `Equation.setYRangeLimits`. -/
def setYRangeLimits (eq : Equation) (yLimits : JSVal) : Outcome :=
  setRangeLimits "y_range_limits" "y_limits must be an array of two elements (numeric or null)."
    "Elements in y_limits must be numeric or null." eq yLimits

/-- Source function `Equation.setZRangeLimits`. -/
def setZRangeLimits (eq : Equation) (zLimits : JSVal) : Outcome :=
  setRangeLimits "z_range_limits" "z_limits must be an array of two elements (numeric or null)."
    "Elements in z_limits must be numeric or null." eq zLimits

/-- Source function `Equation.setNumOfPoints`. -/
def setNumOfPoints (eq : Equation) (numPoints : JSVal) : Outcome :=
  if !numPoints.isInteger || numPoints.leZero then
    ⟨.error (.error "Number of points must be a positive integer."), eq⟩
  else ⟨.ok (), ⟨mapSet eq.equationDict "num_of_points" numPoints⟩⟩

/-- The mutating methods of an `Equation`, each with its argument. -/
inductive Call where
  | addConstants (constants : JSVal)
  | setXVariable (v : JSVal)
  | setYVariable (v : JSVal)
  | setZVariable (v : JSVal)
  | setXRangeDefault (v : JSVal)
  | setXRangeLimits (v : JSVal)
  | setYRangeDefault (v : JSVal)
  | setYRangeLimits (v : JSVal)
  | setZRangeDefault (v : JSVal)
  | setZRangeLimits (v : JSVal)
  | setNumOfPoints (v : JSVal)
  | setEquation (v : JSVal)

/-- One method call on a record. -/
def Equation.call (toStr : JSVal → List Char) (eq : Equation) : Call → Outcome
  | .addConstants c => addConstants toStr eq c
  | .setXVariable v => setXVariable eq v
  | .setYVariable v => setYVariable eq v
  | .setZVariable v => setZVariable eq v
  | .setXRangeDefault v => setXRangeDefault eq v
  | .setXRangeLimits v => setXRangeLimits eq v
  | .setYRangeDefault v => setYRangeDefault eq v
  | .setYRangeLimits v => setYRangeLimits eq v
  | .setZRangeDefault v => setZRangeDefault eq v
  | .setZRangeLimits v => setZRangeLimits eq v
  | .setNumOfPoints v => setNumOfPoints eq v
  | .setEquation v => setEquation eq v

/-- The record after a sequence of calls, each made whether or not the previous one threw. -/
def Equation.after (toStr : JSVal → List Char) (eq : Equation) (calls : List Call) : Equation :=
  calls.foldl (fun e c => (e.call toStr c).state) eq

/-- JavaScript `v === true`. -/
def JSVal.isTrue : JSVal → Bool
  | .bool true => true
  | _ => false

/-- One run of `evaluateEquation`: the map it returned and the record afterwards. -/
structure EvaluationRun where
  returned : List (String × JSVal)
  state : Equation

/-- Source function `Equation.evaluateEquation(removeEquationFields, verbose)`.  The function
`evaluateEquationDict` that the class imports is defined in no file of the repository; it
is a parameter here, taken as a function from the entries of the record's map and
`verbose` to the entries of the evaluated map. -/
def evaluateEquation
    (evaluateEquationDict : List (String × JSVal) → JSVal → List (String × JSVal))
    (eq : Equation) (removeEquationFields verbose : JSVal) : EvaluationRun :=
  let evaluatedDict := evaluateEquationDict eq.equationDict verbose
  let graphicalDimensionality :=
    if mapHas evaluatedDict "graphical_dimensionality" then
      mapGet evaluatedDict "graphical_dimensionality"
    else jsNum 2
  let withXY := mapSet (mapSet (mapSet (mapSet eq.equationDict
    "x_units" (mapGet evaluatedDict "x_units"))
    "y_units" (mapGet evaluatedDict "y_units"))
    "x_points" (mapGet evaluatedDict "x_points"))
    "y_points" (mapGet evaluatedDict "y_points")
  let equationDict :=
    if graphicalDimensionality.isThree then
      mapSet (mapSet withXY "z_units" (mapGet evaluatedDict "z_units"))
        "z_points" (mapGet evaluatedDict "z_points")
    else withXY
  if removeEquationFields.isTrue then
    let reducedXY := mapSet (mapSet (mapSet (mapSet []
      "x_units" (mapGet equationDict "x_units"))
      "y_units" (mapGet equationDict "y_units"))
      "x_points" (mapGet equationDict "x_points"))
      "y_points" (mapGet equationDict "y_points")
    let newEquationDict :=
      if graphicalDimensionality.isThree then
        mapSet (mapSet reducedXY "z_units" (mapGet equationDict "z_units"))
          "z_points" (mapGet equationDict "z_points")
      else reducedXY
    ⟨newEquationDict, ⟨newEquationDict⟩⟩
  else ⟨equationDict, ⟨equationDict⟩⟩

/-! ## Grid assembly (`getZMatrix`) -/

/-- JavaScript `[...new Set(points)]`: the distinct values in order of first occurrence. -/
def distinctValues {α : Type} [DecidableEq α] (points : List α) : List α :=
  points.foldl (fun seen v => if v ∈ seen then seen else seen ++ [v]) []

/-- JavaScript `.sort((a, b) => a - b)` on finite numbers: ascending order. -/
def sortAscending {α : Type} [LinearOrder α] (l : List α) : List α :=
  l.insertionSort (fun a b => a ≤ b)

/-- JavaScript `zPoints[k]`, which is `undefined` past the end. -/
def zAt (zPoints : List JSVal) (k : Nat) : JSVal := zPoints.getD k .undefined

/-- JavaScript `zMatrix[xIdx][yIdx] = v`. -/
def setCell (zMatrix : List (List JSVal)) (xIdx yIdx : Nat) (v : JSVal) : List (List JSVal) :=
  zMatrix.set xIdx ((zMatrix.getD xIdx []).set yIdx v)

/-- The search loop of the branch for records that are not three-dimensional: the first
`k` below `xPoints.length` with `xPoints[k] === x && yPoints[k] === y`. -/
def findPair {α : Type} [DecidableEq α] (xPoints yPoints : List α) (x y : α) : Option Nat :=
  (List.range xPoints.length).find?
    (fun k => decide (xPoints[k]? = some x) && decide (yPoints[k]? = some y))

/-- Body of the inner loop of `getZMatrix` for one pair `(x, y)`; the state is the matrix
and `pointIndex`. -/
def fillCell {α : Type} [DecidableEq α] (dim : JSVal) (xPoints yPoints : List α)
    (zPoints : List JSVal) (uniqueX uniqueY : List α)
    (st : List (List JSVal) × Nat) (x y : α) : List (List JSVal) × Nat :=
  let xIdx := uniqueX.indexOf x
  let yIdx := uniqueY.indexOf y
  if dim.isThree && !(zAt zPoints st.2).isUndefined then
    (setCell st.1 xIdx yIdx (zAt zPoints st.2), st.2 + 1)
  else if !dim.isThree then
    match findPair xPoints yPoints x y with
    | some k => (setCell st.1 xIdx yIdx (zAt zPoints k), st.2)
    | none => st
  else st

/-- Source function `Equation.getZMatrix` called with the three arrays given (the coordinates
are finite numbers; the record supplies `graphical_dimensionality`). -/
def getZMatrix {α : Type} [LinearOrder α] (eq : Equation) (xPoints yPoints : List α)
    (zPoints : List JSVal) : List (List JSVal) :=
  let uniqueX := sortAscending (distinctValues xPoints)
  let uniqueY := sortAscending (distinctValues yPoints)
  let zMatrix := uniqueX.map (fun _ => uniqueY.map (fun _ => JSVal.num .nan))
  let dim := mapGet eq.equationDict "graphical_dimensionality"
  (uniqueX.foldl (fun st x =>
      uniqueY.foldl (fun st y => fillCell dim xPoints yPoints zPoints uniqueX uniqueY st x y) st)
    (zMatrix, 0)).1

/-- The cell `zMatrix[i][j]`, if there is one. -/
def cellAt (zMatrix : List (List JSVal)) (i j : Nat) : Option JSVal :=
  zMatrix[i]?.bind (fun row => row[j]?)

/-! ## The specification's words for the setter arguments -/

/-- An array of exactly two numbers. -/
def IsNumberPair (v : JSVal) : Prop :=
  ∃ a b : JSNum, v = .arr [.num a, .num b]

/-- A number or `null`. -/
def IsNumberOrNull (v : JSVal) : Prop :=
  (∃ x : JSNum, v = .num x) ∨ v = .null

/-- An array of exactly two elements, each a number or `null`. -/
def IsLimitPair (v : JSVal) : Prop :=
  ∃ a b : JSVal, v = .arr [a, b] ∧ IsNumberOrNull a ∧ IsNumberOrNull b

/-- An integer greater than 0. -/
def IsPositiveInteger (v : JSVal) : Prop :=
  ∃ n : ℤ, 0 < n ∧ v = jsNum n

/-! ## Equation evaluation (`equation_evaluator.js`) -/

/-- How a global name that a function reads without declaring it is bound when the function
runs (`jsonInput` in `solveEquation`, `datasereriesDict` in `scaleDataseriesDict`): not
declared at all (reading it throws a `ReferenceError`), or bound to a value. -/
inductive GlobalBinding where
  | undeclared
  | value (v : JSVal)

/-- JavaScript `v.name` for the property names the source reads (`equation`, `constants`), which no
built-in prototype defines: a `TypeError` on `undefined` and `null`, the own property of
a plain object, `undefined` otherwise. -/
def getProp (v : JSVal) (name : String) : Except JSError JSVal :=
  match v with
  | .undefined => .error (.typeError ("Cannot read properties of undefined (reading '" ++
      name ++ "')"))
  | .null => .error (.typeError ("Cannot read properties of null (reading '" ++ name ++ "')"))
  | .obj fields => .ok (mapGet fields name)
  | _ => .ok .undefined

/-- The pairs `[index, item]` of an array or string, as object spread sees them. -/
def indexed (items : List JSVal) : List (String × JSVal) :=
  (List.range items.length).zip items |>.map (fun p => (toString p.1, p.2))

/-- The pairs `[index, item]` of an array with holes, as object spread sees them: a hole
is no property. -/
def indexedSlots (slots : List (Option JSVal)) : List (String × JSVal) :=
  (List.range slots.length).zip slots |>.filterMap
    (fun p => p.2.map (fun item => (toString p.1, item)))

/-- The own enumerable properties `{...v}` copies: the fields of a plain object, the
indexed items of an array or string, nothing otherwise. -/
def ownProps : JSVal → List (String × JSVal)
  | .obj fields => fields
  | .arr items => indexed items
  | .sparse slots => indexedSlots slots
  | .str s => indexed (s.map (fun c => JSVal.str [c]))
  | _ => []

/-- The message of a thrown error, as the `catch` block logs it. -/
def JSError.message : JSError → String
  | .referenceError msg => msg
  | .typeError msg => msg
  | .syntaxError msg => msg
  | .error msg => msg

/-- One run of `solveEquation`: what it returned or threw, the calls it made to the
expression evaluator (expression and scope), and what it wrote with `console.error`. -/
structure SolveRun where
  outcome : Except JSError JSVal
  evaluatorCalls : List (JSVal × List (String × JSVal))
  errorLog : List String

/-- The left-hand side `solveEquation` compares with the dependent variable: the text
before the first `=` of the equation with `^` replaced by `**`, trimmed. -/
def leftHandSide (equationString : List Char) : List Char :=
  (((splitOn ['='] (replaceCarets equationString)).map trim).head?).getD []

/-- The expression `solveEquation` hands to the evaluator: the second piece of the split,
trimmed, or `undefined` when the equation has no `=`. -/
def rightHandSide (equationString : List Char) : JSVal :=
  match ((splitOn ['='] (replaceCarets equationString)).map trim)[1]? with
  | some rhs => .str rhs
  | none => .undefined

/-- Source function `solveEquation(equationString, independentVariables, dependentVariable)`,
with the expression evaluator `math.evaluate` (which returns a value or throws an error with a
message) and the binding of the global `jsonInput` as parameters. -/
def solveEquation (mathEvaluate : JSVal → List (String × JSVal) → Except String JSVal)
    (jsonInput : GlobalBinding) (equationString : List Char) (independentVariables : JSVal)
    (dependentVariable : List Char) : SolveRun :=
  match jsonInput with
  | .undeclared => ⟨.error (.referenceError "jsonInput is not defined"), [], []⟩
  | .value input =>
    if leftHandSide equationString ≠ dependentVariable then
      ⟨.ok .null, [], ["Dependent variable '" ++ String.mk dependentVariable ++
        "' is not properly isolated on the left-hand side."]⟩
    else
      match (getProp input "equation").bind (fun e => getProp e "constants") with
      | .error e => ⟨.ok .null, [], [e.message]⟩
      | .ok constants =>
        let scope := setAll (setAll [] (ownProps constants)) (ownProps independentVariables)
        match mathEvaluate (rightHandSide equationString) scope with
        | .ok value => ⟨.ok value, [(rightHandSide equationString, scope)], []⟩
        | .error msg => ⟨.ok .null, [(rightHandSide equationString, scope)], [msg]⟩

/-! ## Unit text normalisation and scaling (`unitScaling.js`) -/

/-- U+00B5, the micro sign: the only micro symbol the bytes of `unitScaling.js` contain. -/
def microSign : Char := Char.ofNat 0xB5

/-- U+03BC, the Greek small letter mu, which the comments of `tagMicroUnits` name. -/
def greekMu : Char := Char.ofNat 0x3BC

/-- U+1D6C2, which the comments of `tagMicroUnits` name. -/
def mathMu : Char := Char.ofNat 0x1D6C2

/-- U+1D6C1, which the comments of `tagMicroUnits` name. -/
def mathBoldMu : Char := Char.ofNat 0x1D6C1

/-- The pattern `/<([^>]*)>/g` of `removeTaggedStrings` and `extractTaggedStrings`. -/
def tagPattern : Re :=
  .seq (Re.lit '<') (.seq (.grp 1 (.star (.chr (fun c => c != '>')))) (Re.lit '>'))

/-- Source function `removeTaggedStrings`: `text.replace(/<([^>]*)>/g, '$1')`. -/
def removeTaggedStrings (text : List Char) : List Char :=
  tagPattern.replaceAll [.group 1] text

/-- JavaScript `s.length`: the number of UTF-16 code units of a text, two for a character
outside the Basic Multilingual Plane. -/
def jsLength (s : List Char) : Nat :=
  (s.map (fun c => if c.toNat < 0x10000 then 1 else 2)).sum

/-- JavaScript `.sort((a, b) => b.length - a.length)`: a stable sort, longest first. -/
def sortLongestFirst (l : List (List Char)) : List (List Char) :=
  l.insertionSort (fun a b => jsLength a ≥ jsLength b)

/-- JavaScript `match.slice(1, -1)`. -/
def sliceInner (s : List Char) : List Char := (s.drop 1).dropLast

/-- Source function `extractTaggedStrings`. -/
def extractTaggedStrings (text : List Char) : List (List Char) :=
  sortLongestFirst (distinctValues ((tagPattern.matchAll text).map sliceInner))

/-- The characters with a meaning of their own in the source text of a regular expression
or in a replacement string. -/
def isSyntaxChar (c : Char) : Bool :=
  "^$\\.*+?()[]{}|".toList.contains c

/-- The expression `new RegExp("\\b" + customUnit + "\\b", 'g')` for a token without syntax
characters: a word boundary, the token as literal text, a word boundary. -/
def wordPattern (customUnit : List Char) : Re :=
  .seq .wordb (.seq (Re.str customUnit) .wordb)

/-- The replacement `<` + customUnit + `>` for a token without syntax characters. -/
def markupTemplate (customUnit : List Char) : List ReplTok :=
  .lit '<' :: (customUnit.map .lit ++ [.lit '>'])

/-- Source function `returnCustomUnitsMarkup(unitsString, customUnitsList)`.  A token is put
into the expression and into the replacement as it is; the model reads both as literal text, which
is what they mean when the token has no syntax character, and gives `none` when some
token has one. -/
def returnCustomUnitsMarkup (unitsString : List Char) (customUnitsList : List (List Char)) :
    Option (List Char) :=
  if customUnitsList.all (fun customUnit => customUnit.all (fun c => !isSyntaxChar c)) then
    some ((sortLongestFirst customUnitsList).foldl
      (fun unitsString customUnit =>
        (wordPattern customUnit).replaceAll (markupTemplate customUnit) unitsString)
      unitsString)
  else none

/-- The array `microSymbols` of `tagMicroUnits`, as the bytes of the source file give it:
the micro sign twice and the two-character string `??` twice. -/
def microSymbols : List (List Char) :=
  [[microSign], [microSign], ['?', '?'], ['?', '?']]

/-- The pattern built in `tagMicroUnits`: a character of the class made of the joined
`microSymbols`, then `([a-zA-Z]+)`. -/
def microPattern : Re :=
  .seq (.chr (fun c => microSymbols.flatten.contains c)) (.grp 1 (Re.plus (.chr Char.isAlpha)))

/-- The placeholder text that replaces one match of `tagMicroUnits`. -/
def frogified (matchStr : List Char) : List Char :=
  "<microfrog".toList ++ matchStr.drop 1 ++ ['>']

/-- Source function `tagMicroUnits`. -/
def tagMicroUnits (unitsString : List Char) : List Char :=
  if !microSymbols.any (fun symbol => includes unitsString symbol) then unitsString
  else
    let tempMatches := microPattern.matchAll unitsString
    let sortedMatches := sortLongestFirst (distinctValues tempMatches)
    sortedMatches.foldl
      (fun unitsString matchStr => joinWith (frogified matchStr) (splitOn matchStr unitsString))
      unitsString

/-- The procedure in the words of the specification for `tagMicroUnits`: one pass from left
to right that replaces every match of the micro pattern (a character of the symbol class,
then one or more ASCII letters, as many as there are) by `<microfrog`, the letters, `>`. -/
def tagSinglePass (unitsString : List Char) : List Char :=
  microPattern.replaceAll ("<microfrog".toList.map ReplTok.lit ++ [.group 1, .lit '>'])
    unitsString

/-- The pattern `/<microfrog([a-zA-Z]+)>/g` of `untagMicroUnits`. -/
def frogPattern : Re :=
  .seq (Re.str "<microfrog".toList) (.seq (.grp 1 (Re.plus (.chr Char.isAlpha))) (Re.lit '>'))

/-- Source function `untagMicroUnits`. -/
def untagMicroUnits (unitsString : List Char) : List Char :=
  if !includes unitsString "<microfrog".toList then unitsString
  else frogPattern.replaceAll [.lit microSign, .group 1] unitsString

/-- The pattern `/1\/\((1\/.*?)\)/g` of `convertInverseUnits`. -/
def nestedInversePattern : Re :=
  .seq (Re.str "1/(".toList)
    (.seq (.grp 1 (.seq (Re.str "1/".toList) (.lazyStar (.chr (fun c => !isLineTerminator c)))))
      (Re.lit ')'))

/-- The pattern `/1\/([a-zA-Z]+)/g` of `convertInverseUnits`. -/
def simpleInversePattern : Re :=
  .seq (Re.str "1/".toList) (.grp 1 (Re.plus (.chr Char.isAlpha)))

/-- The replacement `($1)**(-1)`. -/
def inverseTemplate : List ReplTok :=
  [.lit '(', .group 1, .lit ')', .lit '*', .lit '*', .lit '(', .lit '-', .lit '1', .lit ')']

/-- One pass of the loop of `convertInverseUnits`: both patterns, in order. -/
def convertInversePass (expression : List Char) : List Char :=
  simpleInversePattern.replaceAll inverseTemplate
    (nestedInversePattern.replaceAll inverseTemplate expression)

/-- Source function `convertInverseUnits(expression, depth)`. -/
def convertInverseUnits : List Char → Nat → List Char
  | expression, 0 => expression
  | expression, depth + 1 =>
    if convertInversePass expression = expression then expression
    else convertInverseUnits (convertInversePass expression) depth

/-- What the conversion backend throws: the `name` and `message` of the error. -/
structure BackendError where
  name : String
  message : String
deriving DecidableEq, Repr

/-- Source function `unitpy_U_PYTHON(unit).to_PYTHON(targetUnits)`, the placeholder backend of
the source.  The ratios are the decimal literals of the source, taken as rationals. -/
def unitpy_U_PYTHON (unit targetUnits : List Char) : Except BackendError ℚ :=
  if unit = "kg".toList ∧ targetUnits = "g".toList then .ok 1000
  else if unit = "g".toList ∧ targetUnits = "kg".toList then .ok 0.001
  else if unit = "m".toList ∧ targetUnits = "cm".toList then .ok 100
  else if unit = "cm".toList ∧ targetUnits = "m".toList then .ok 0.01
  else if unit = "s".toList ∧ targetUnits = "ms".toList then .ok 1000
  else if unit = targetUnits then .ok 1
  else .error ⟨"Error", "_PYTHON placeholder: Cannot convert " ++ String.mk unit ++ " to " ++
    String.mk targetUnits ++ ". Implement your unit conversion logic."⟩

/-- One run of `getUnitsScalingRatio`: what it returned or threw, the custom units it
registered with `addCustomUnitToUnitpy_PYTHON`, and the conversions it asked of the
backend (unit and target of each attempt). -/
structure ScalingRun where
  outcome : Except JSError ℚ
  registered : List (List Char)
  conversions : List (List Char × List Char)

/-- JavaScript `message.includes(part)` on message texts. -/
def messageIncludes (message part : String) : Bool :=
  includes message.toList part.toList

/-- The error `getUnitsScalingRatio` throws when the retry fails too. -/
def conversionError (e : BackendError) (unitsString1 unitsString2 processed1 processed2 :
    List Char) : JSError :=
  if e.name = "Error" ∧
      (messageIncludes e.message "Cannot convert" || messageIncludes e.message "Missing key") then
    .error ("Error during unit conversion in getUnitsScalingRatio: " ++ e.message ++
      ". Ensure all unit definitions are correctly set. Unit 1: " ++ String.mk unitsString1 ++
      ", Unit 2: " ++ String.mk unitsString2)
  else if e.name = "Error" ∧
      (messageIncludes e.message "invalid" || messageIncludes e.message "formatted") then
    .error ("Error during unit conversion in getUnitsScalingRatio: " ++ e.message ++
      ". Make sure unit values are valid and properly formatted. Unit 1: " ++
      String.mk unitsString1 ++ ", Unit 2: " ++ String.mk unitsString2)
  else
    .error ("An unexpected error occurred in getUnitsScalingRatio when trying to convert units: "
      ++ e.message ++ ". Double-check that your records have the same units. Original Unit 1: "
      ++ String.mk unitsString1 ++ ", Original Unit 2: " ++ String.mk unitsString2 ++
      ". Processed Unit 1: " ++ String.mk processed1 ++ ", Processed Unit 2: " ++
      String.mk processed2)

/-- Source function `getUnitsScalingRatio(unitsString1, unitsString2)` over a conversion backend. -/
def getUnitsScalingRatio (backend : List Char → List Char → Except BackendError ℚ)
    (unitsString1 unitsString2 : List Char) : ScalingRun :=
  if unitsString1 = unitsString2 then ⟨.ok 1, [], []⟩
  else
    let tagged1 := tagMicroUnits (replaceCarets unitsString1)
    let tagged2 := tagMicroUnits (replaceCarets unitsString2)
    let registered := extractTaggedStrings tagged1 ++ extractTaggedStrings tagged2
    let processed1 := removeTaggedStrings tagged1
    let processed2 := removeTaggedStrings tagged2
    match backend processed1 processed2 with
    | .ok ratio => ⟨.ok ratio, registered, [(processed1, processed2)]⟩
    | .error _ =>
      let inverted1 := convertInverseUnits processed1 100
      let inverted2 := convertInverseUnits processed2 100
      match backend inverted1 inverted2 with
      | .ok ratio =>
        ⟨.ok ratio, registered, [(processed1, processed2), (inverted1, inverted2)]⟩
      | .error e =>
        ⟨.error (conversionError e unitsString1 unitsString2 inverted1 inverted2), registered,
          [(processed1, processed2), (inverted1, inverted2)]⟩

/-! ### Scaling of data values -/

/-- JavaScript `a * b` on numbers (finite values multiply as rationals). -/
def JSNum.mul : JSNum → JSNum → JSNum
  | .nan, _ => .nan
  | _, .nan => .nan
  | .fin a, .fin b => .fin (a * b)
  | .fin a, .posInf => if a = 0 then .nan else if 0 < a then .posInf else .negInf
  | .fin a, .negInf => if a = 0 then .nan else if 0 < a then .negInf else .posInf
  | .posInf, .fin b => if b = 0 then .nan else if 0 < b then .posInf else .negInf
  | .negInf, .fin b => if b = 0 then .nan else if 0 < b then .negInf else .posInf
  | .posInf, .posInf => .posInf
  | .posInf, .negInf => .negInf
  | .negInf, .posInf => .negInf
  | .negInf, .negInf => .posInf

/-- JavaScript `parseFloat(val)`: a number comes back as it is (its decimal text parses to
itself); `undefined`, `null` and booleans give `NaN`, as their texts start with no number;
how the text of a string or of an object parses is supplied from outside as `parseText`. -/
def parseFloat (parseText : JSVal → JSNum) : JSVal → JSNum
  | .num x => x
  | .undefined => .nan
  | .null => .nan
  | .bool _ => .nan
  | v => parseText v

/-- JavaScript `values.map(val => parseFloat(val) * factor)`: a `TypeError` unless `values` is an
array. -/
def scaleValues (parseText : JSVal → JSNum) (factor : JSNum) (values : JSVal) :
    Except JSError JSVal :=
  match values with
  | .arr items => .ok (.arr (items.map (fun val => .num ((parseFloat parseText val).mul factor))))
  | .sparse slots =>
    .ok (.sparse (slots.map
      (Option.map (fun val => .num ((parseFloat parseText val).mul factor)))))
  | .undefined => .error (.typeError "Cannot read properties of undefined (reading 'map')")
  | .null => .error (.typeError "Cannot read properties of null (reading 'map')")
  | _ => .error (.typeError "map is not a function")

/-- JavaScript `object.name = v` on a plain object: an existing property keeps its place, a new
one goes last. -/
def setProp (object : JSVal) (name : String) (v : JSVal) : JSVal :=
  match object with
  | .obj fields => .obj (mapSet fields name v)
  | other => other

/-- One statement of `scaleDataseriesDict`,
`if (dataseriesDict.name && factor !== 1) dataseriesDict.name = source.name.map(...)`:
the series afterwards, or the error thrown.  `source` is the binding of the name the
right-hand side reads the array from. -/
def scaleAxis (parseText : JSVal → JSNum) (dataseriesDict : JSVal) (name : String)
    (sourceName : String) (source : GlobalBinding) (factor : JSNum) : Except JSError JSVal :=
  match getProp dataseriesDict name with
  | .error e => .error e
  | .ok current =>
    if current.truthy && decide (factor ≠ .fin 1) then
      match source with
      | .undeclared => .error (.referenceError (sourceName ++ " is not defined"))
      | .value from_ =>
        match (getProp from_ name).bind (scaleValues parseText factor) with
        | .error e => .error e
        | .ok scaled => .ok (setProp dataseriesDict name scaled)
    else .ok dataseriesDict

/-- One run of `scaleDataseriesDict`: what it returned or threw, and the series object as
the call leaves it (the function writes into its argument). -/
structure SeriesRun where
  outcome : Except JSError JSVal
  series : JSVal

/-- Source function `scaleDataseriesDict(dataseriesDict, numToScaleXValuesBy, numToScaleYValuesBy,
numToScaleZValuesBy)`.  The statement for `x` reads its array from the name
`datasereriesDict`, which the module does not declare: `global` is the binding of that
name.  The statements for `y` and `z` read from the argument. -/
def scaleDataseriesDict (global : GlobalBinding) (parseText : JSVal → JSNum)
    (dataseriesDict : JSVal) (numToScaleXValuesBy numToScaleYValuesBy numToScaleZValuesBy : JSNum) :
    SeriesRun :=
  match scaleAxis parseText dataseriesDict "x" "datasereriesDict" global numToScaleXValuesBy with
  | .error e => ⟨.error e, dataseriesDict⟩
  | .ok afterX =>
    match scaleAxis parseText afterX "y" "dataseriesDict" (.value afterX) numToScaleYValuesBy with
    | .error e => ⟨.error e, afterX⟩
    | .ok afterY =>
      match scaleAxis parseText afterY "z" "dataseriesDict" (.value afterY) numToScaleZValuesBy with
      | .error e => ⟨.error e, afterY⟩
      | .ok afterZ => ⟨.ok afterZ, afterZ⟩

mutual
/-- What `JSON.parse(JSON.stringify(v))` makes of a value that is an array item or a kept
object property: `undefined` and the numbers that are not finite become `null`, a `Map`
or `Set` becomes an empty object. -/
def jsonValue : JSVal → JSVal
  | .undefined => .null
  | .null => .null
  | .bool b => .bool b
  | .num (.fin q) => .num (.fin q)
  | .num _ => .null
  | .str s => .str s
  | .arr items => .arr (jsonItems items)
  | .sparse slots => .arr (jsonSlots slots)
  | .map _ => .obj []
  | .set _ => .obj []
  | .obj fields => .obj (jsonFields fields)
/-- The items of an array after the round trip through JSON. -/
def jsonItems : List JSVal → List JSVal
  | [] => []
  | v :: rest => jsonValue v :: jsonItems rest
/-- The slots of an array with holes after the round trip through JSON: a hole becomes
`null`. -/
def jsonSlots : List (Option JSVal) → List JSVal
  | [] => []
  | none :: rest => .null :: jsonSlots rest
  | some v :: rest => jsonValue v :: jsonSlots rest
/-- The properties of an object after the round trip through JSON: a property that holds
`undefined` is left out. -/
def jsonFields : List (String × JSVal) → List (String × JSVal)
  | [] => []
  | (k, v) :: rest =>
    if v.isUndefined then jsonFields rest else (k, jsonValue v) :: jsonFields rest
end

/-- JavaScript `JSON.parse(JSON.stringify(v))`: for `undefined` there is no JSON text, and parsing
fails. -/
def jsonCopy (v : JSVal) : Except JSError JSVal :=
  if v.isUndefined then .error (.syntaxError "\"undefined\" is not valid JSON")
  else .ok (jsonValue v)

/-- The loop of `scaleFigDictValues` over the series of the copy, in order; the first call
that throws ends it. -/
def scaleEachSeries (global : GlobalBinding) (parseText : JSVal → JSNum)
    (numToScaleXValuesBy numToScaleYValuesBy : JSNum) : List JSVal → Except JSError (List JSVal)
  | [] => .ok []
  | series :: rest =>
    match (scaleDataseriesDict global parseText series numToScaleXValuesBy numToScaleYValuesBy
        (.fin 1)).outcome with
    | .error e => .error e
    | .ok scaled =>
      match scaleEachSeries global parseText numToScaleXValuesBy numToScaleYValuesBy rest with
      | .error e => .error e
      | .ok others => .ok (scaled :: others)

/-- Source function `scaleFigDictValues(figDict, numToScaleXValuesBy, numToScaleYValuesBy)`: the new
figure it returns, or the error it throws.  The function writes into its copy only, so
the argument is after the call what it was before.  The result is `none` where the model
does not follow the source: when `data` of the copy is a plain object with a `length`
property. -/
def scaleFigDictValues (global : GlobalBinding) (parseText : JSVal → JSNum) (figDict : JSVal)
    (numToScaleXValuesBy numToScaleYValuesBy : JSNum) : Option (Except JSError JSVal) :=
  match jsonCopy figDict with
  | .error e => some (.error e)
  | .ok scaledFigDict =>
    match getProp scaledFigDict "data" with
    | .error e => some (.error e)
    | .ok (.arr data) =>
      match scaleEachSeries global parseText numToScaleXValuesBy numToScaleYValuesBy data with
      | .error e => some (.error e)
      | .ok scaled => some (.ok (setProp scaledFigDict "data" (.arr scaled)))
    | .ok .undefined =>
      some (.error (.typeError "Cannot read properties of undefined (reading 'length')"))
    | .ok .null =>
      some (.error (.typeError "Cannot read properties of null (reading 'length')"))
    | .ok (.str s) =>
      if s.isEmpty then some (.ok scaledFigDict)
      else some (.error (.typeError "Cannot assign to read only property '0' of string"))
    | .ok (.obj fields) =>
      if (mapGet fields "length").isUndefined then some (.ok scaledFigDict) else none
    | .ok _ => some (.ok scaledFigDict)

/-! ## Plot styles (`styleUtils.js`) -/

/-- JavaScript `typeof v === "string"`. -/
def JSVal.isString : JSVal → Bool
  | .str _ => true
  | _ => false

/-- JavaScript `typeof v === "object"`: true of `null`, arrays, maps, sets and plain
objects. -/
def JSVal.isObject : JSVal → Bool
  | .null => true
  | .arr _ => true
  | .sparse _ => true
  | .map _ => true
  | .set _ => true
  | .obj _ => true
  | _ => false

/-- JavaScript `v ?? null`. -/
def JSVal.orNull : JSVal → JSVal
  | .undefined => .null
  | v => v

/-- The named own properties of a value whose `typeof` is `"object"`: the fields of a plain
object; an array, map or set made from data carries none. -/
def namedProperties : JSVal → List (String × JSVal)
  | .obj fields => fields
  | _ => []

/-- What a call of `parsePlotStyle` leaves behind: the object it returns, and the named
properties of its argument afterwards (the object branch assigns to them). -/
structure ParsedPlotStyle where
  layout_style : JSVal
  trace_styles_collection : JSVal
  properties : List (String × JSVal)

/-- Source function `parsePlotStyle` (the warnings it prints are left out). -/
def parsePlotStyle (plotStyle : JSVal) : Except JSError ParsedPlotStyle :=
  if plotStyle.isNull then .ok ⟨.null, .null, []⟩
  else if plotStyle.isString then .ok ⟨plotStyle, plotStyle, []⟩
  else
    match plotStyle.arrayItems with
    | some [first, second] => .ok ⟨first, second, []⟩
    | _ =>
      if plotStyle.isObject then
        let props := namedProperties plotStyle
        let props :=
          if !(mapGet props "trace_styles_collection").truthy then
            if (mapGet props "trace_style_collection").truthy then
              mapSet props "trace_styles_collection" (mapGet props "trace_style_collection")
            else if (mapGet props "traces_style_collection").truthy then
              mapSet props "trace_styles_collection" (mapGet props "traces_style_collection")
            else mapSet props "trace_styles_collection" (.str [])
          else props
        let props :=
          if !(mapGet props "layout_style").truthy then mapSet props "layout_style" (.str [])
          else props
        .ok ⟨(mapGet props "layout_style").orNull,
          (mapGet props "trace_styles_collection").orNull, props⟩
      else
        .error (.error ("Invalid plot style: Must be null, a string, an array of two items, " ++
          "or an object with valid fields."))

/-- JavaScript `a / b` on numbers (finite values divide as rationals; the one zero of the
model is the positive zero). -/
def JSNum.div : JSNum → JSNum → JSNum
  | .nan, _ => .nan
  | _, .nan => .nan
  | .fin a, .fin b =>
    if b = 0 then (if a = 0 then .nan else if 0 < a then .posInf else .negInf)
    else .fin (a / b)
  | .fin _, .posInf => .fin 0
  | .fin _, .negInf => .fin 0
  | .posInf, .fin b => if 0 ≤ b then .posInf else .negInf
  | .negInf, .fin b => if 0 ≤ b then .negInf else .posInf
  | .posInf, .posInf => .nan
  | .posInf, .negInf => .nan
  | .negInf, .posInf => .nan
  | .negInf, .negInf => .nan

/-- JavaScript `Math.max(a, b)` on numbers. -/
def JSNum.max : JSNum → JSNum → JSNum
  | .nan, _ => .nan
  | _, .nan => .nan
  | .posInf, _ => .posInf
  | _, .posInf => .posInf
  | .negInf, b => b
  | a, .negInf => a
  | .fin a, .fin b => .fin (Max.max a b)

/-- JavaScript `Math.max(...values)` on numbers: `-Infinity` for no value. -/
def mathMax (values : List JSNum) : JSNum := values.foldl JSNum.max .negInf

/-- The number a value stands for in arithmetic: a number is itself, any other value is
converted by `toNumber`, supplied from outside. -/
def JSVal.asNumber (toNumber : JSVal → JSNum) : JSVal → JSNum
  | .num x => x
  | v => toNumber v

/-- The inner function `normalizeToMax` of `prepareBubbleSizes`, on the items of an array. -/
def normalizeToMax (toNumber : JSVal → JSNum) (startingList : List JSVal) : List JSVal :=
  let maxValue := mathMax (startingList.map (JSVal.asNumber toNumber))
  if maxValue = .fin 0 then startingList.map (fun _ => jsNum 0)
  else startingList.map (fun value => .num ((value.asNumber toNumber).div maxValue))

/-- Whether a value is an array with a hole. -/
def JSVal.hasHoles : JSVal → Bool
  | .sparse slots => slots.any Option.isNone
  | _ => false

/-- Source function `prepareBubbleSizes`, on the fields of the data series: the series
afterwards, or the error thrown.  `none` stands for a series the model does not cover: one
whose `marker` is truthy and not a plain object, or whose sizes are an array with a hole.
A `marker.size` that is not an array makes the spread or the call of `map` in
`normalizeToMax` throw, and the `catch` replaces that error. -/
def prepareBubbleSizes (toNumber : JSVal → JSNum) (dataSeries : List (String × JSVal)) :
    Option (Except JSError (List (String × JSVal))) :=
  let dataSeries :=
    if !(mapGet dataSeries "marker").truthy then mapSet dataSeries "marker" (.obj [])
    else dataSeries
  match mapGet dataSeries "marker" with
  | .obj marker =>
    let marker :=
      if (mapGet dataSeries "z_points").truthy then
        mapSet marker "size" (mapGet dataSeries "z_points")
      else if (mapGet dataSeries "z").truthy then mapSet marker "size" (mapGet dataSeries "z")
      else marker
    if (mapGet marker "size").hasHoles then none
    else
      match (mapGet marker "size").arrayItems with
      | none =>
        some (.error (.error ("Error: During bubble plot bubble size normalization, an issue " ++
          "occurred. This usually means the z variable hasn't been populated, such as by " ++
          "equation evaluation set to false or simulation evaluation set to false.")))
      | some sizes =>
        let marker := mapSet marker "size" (.arr (normalizeToMax toNumber sizes))
        let maxBubbleSize :=
          if (mapGet dataSeries "max_bubble_size").truthy then mapGet dataSeries "max_bubble_size"
          else jsNum 10
        let marker := mapSet marker "size"
          (.arr ((normalizeToMax toNumber sizes).map
            (fun value => .num ((value.asNumber toNumber).mul (maxBubbleSize.asNumber toNumber)))))
        let dataSeries := mapSet dataSeries "marker" (.obj marker)
        let dataSeries :=
          if (mapGet dataSeries "z_points").truthy then
            mapSet dataSeries "text" (mapGet dataSeries "z_points")
          else if (mapGet dataSeries "z").truthy then
            mapSet dataSeries "text" (mapGet dataSeries "z")
          else dataSeries
        some (.ok dataSeries)
  | _ => none

/-! ## The range sampler (section 4.2 of the specification) -/

/-- Modelled from the spec: the field `points_spacing` of a record, "enum {Linear,
Logarithmic} governing sample distribution".  The sampler is part of `evaluateEquationDict`,
which `equation_creator.js` imports and no file of the repository defines. -/
inductive Spacing where
  | linear
  | logarithmic
deriving DecidableEq

/-- Modelled from the spec: "generate `num_of_points` samples spanning `x_range_default`,
spaced Linearly", the endpoints included: sample `i` of `n` is
`lo + i * (hi - lo) / (n - 1)`, and a single sample is `lo`.  Missing from the sources:
`evaluateEquationDict`. -/
def linearSamples (lo hi : ℚ) (n : Nat) : List ℚ :=
  (List.range n).map
    (fun (i : Nat) => if n = 1 then lo else lo + (i : ℚ) * (hi - lo) / ((n : ℚ) - 1))

/-- Modelled from the spec: a sample "outside a set limit" of `x_range_limits` "is a
validation error"; either limit may be unset.  Missing from the sources:
`evaluateEquationDict`. -/
def withinLimits (limits : Option ℚ × Option ℚ) (v : ℚ) : Bool :=
  (match limits.1 with
    | some low => decide (low ≤ v)
    | none => true) &&
  (match limits.2 with
    | some high => decide (v ≤ high)
    | none => true)

/-- Modelled from the spec: the range sampler of section 4.2.  Explicit points, when there
are any, are used as they are; otherwise `num_of_points` samples are generated over
`x_range_default` with the given spacing (logarithmic spacing fails unless both bounds are
strictly positive; its samples are supplied from outside as `logSamples`); every sample is
checked against `x_range_limits`; with `reverse_scaling` the sequence is reversed.
Missing from the sources: `evaluateEquationDict`, of which the sampler is a part. -/
def rangeSampler (logSamples : ℚ → ℚ → Nat → List ℚ) (xPointsSpecified : List ℚ)
    (xRangeDefault : ℚ × ℚ) (numOfPoints : Nat) (pointsSpacing : Spacing)
    (xRangeLimits : Option ℚ × Option ℚ) (reverseScaling : Bool) : Except String (List ℚ) :=
  let generated : Except String (List ℚ) :=
    if !xPointsSpecified.isEmpty then .ok xPointsSpecified
    else
      match pointsSpacing with
      | .linear => .ok (linearSamples xRangeDefault.1 xRangeDefault.2 numOfPoints)
      | .logarithmic =>
        if 0 < xRangeDefault.1 ∧ 0 < xRangeDefault.2 then
          .ok (logSamples xRangeDefault.1 xRangeDefault.2 numOfPoints)
        else .error "Logarithmic spacing requires strictly positive bounds"
  match generated with
  | .error e => .error e
  | .ok samples =>
    if samples.all (withinLimits xRangeLimits) then
      .ok (if reverseScaling then samples.reverse else samples)
    else .error "A sample lies outside x_range_limits"

/-! ## Auxiliary definitions used in the proofs -/

/-- The results of `p*` at a state, listed explicitly: longest run first. -/
def charRuns (p : Char → Bool) : List Char → List Char → List (Nat × List Char) → List MState
  | l, [], k => [⟨l, [], k⟩]
  | l, c :: r, k =>
    if p c then charRuns p (c :: l) r k ++ [⟨l, c :: r, k⟩] else [⟨l, c :: r, k⟩]

/-- A matrix with `R` rows of `C` cells each. -/
def HasShape (m : List (List JSVal)) (R C : Nat) : Prop :=
  m.length = R ∧ ∀ row ∈ m, row.length = C

/-- The inner and outer loops of `getZMatrix` run over an explicit list of pairs. -/
def fillAll {α : Type} [DecidableEq α] (dim : JSVal) (xPoints yPoints : List α)
    (zPoints : List JSVal) (uniqueX uniqueY : List α) (pairs : List (α × α))
    (st : List (List JSVal) × Nat) : List (List JSVal) × Nat :=
  pairs.foldl (fun st p => fillCell dim xPoints yPoints zPoints uniqueX uniqueY st p.1 p.2) st

/-- A record whose `graphical_dimensionality` is 3, used as a concrete input. -/
def surfaceRecord : Equation :=
  ⟨[("graphical_dimensionality", .num (.fin 3))]⟩

/-- A record whose `graphical_dimensionality` is 2, used as a concrete input. -/
def planarRecord : Equation :=
  ⟨[("graphical_dimensionality", .num (.fin 2))]⟩

/-- The invariant on constants: every value of the record's constants map passes
`validateUnit`. -/
def ConstantsValid (toStr : JSVal → List Char) (eq : Equation) : Prop :=
  ∀ cm, mapGet eq.equationDict "constants" = .map cm →
    ∀ kv ∈ cm, validateUnit (kv.2.asString toStr) = .ok ()

/-- The `jsonData` object of `equation_evaluator_test_input.js`. -/
def arrheniusData : JSVal :=
  .obj [("equation", .obj
    [("equation_string", .str "k = A * e^((-Ea) / (R * T))".toList),
     ("constants", .obj [("R", jsNum 8.314), ("A", jsNum 1e13), ("e", jsNum 2.71828)])])]

/-- The `variables` object of `equation_evaluator_test_input.js`. -/
def arrheniusVariables : JSVal :=
  .obj [("Ea", jsNum 40000), ("T", jsNum 300), ("R", jsNum 8.314), ("A", jsNum 1e13),
    ("e", jsNum 2.71828)]

/-- An evaluator that fails on every expression, used as a concrete input. -/
def failingEvaluator : JSVal → List (String × JSVal) → Except String JSVal :=
  fun _ _ => .error "Undefined symbol"

/-- An evaluator that returns the same value for every expression, used as a concrete
input. -/
def constantEvaluator (v : JSVal) : JSVal → List (String × JSVal) → Except String JSVal :=
  fun _ _ => .ok v

/-- JavaScript `t.split(m).join(rep)`: every occurrence of `m`, left to right, replaced by `rep`. -/
def replaceStr (m rep t : List Char) : List Char := joinWith rep (splitOn m t)

/-- A character of the class `tagMicroUnits` builds from `microSymbols`. -/
def isMicro (c : Char) : Bool := microSymbols.flatten.contains c

/-- Whether a text starts with an ASCII letter. -/
def startsWithLetter : List Char → Bool
  | [] => false
  | x :: _ => x.isAlpha

/-- Predicate `IsUnit u s`: `u` is one of the maximal matches of the micro pattern in `s`, that is
a character of the class followed by the longest run of letters after it. -/
inductive IsUnit : List Char → List Char → Prop where
  | here (c : Char) (X rest : List Char) : isMicro c = true → X ≠ [] →
      (∀ x ∈ X, x.isAlpha = true) → startsWithLetter rest = false →
      IsUnit (c :: X) (c :: (X ++ rest))
  | afterPlain (u : List Char) (c : Char) (r : List Char) :
      (isMicro c && startsWithLetter r) = false → IsUnit u r → IsUnit u (c :: r)
  | afterUnit (u : List Char) (c : Char) (X rest : List Char) : isMicro c = true → X ≠ [] →
      (∀ x ∈ X, x.isAlpha = true) → startsWithLetter rest = false →
      IsUnit u rest → IsUnit u (c :: (X ++ rest))

/-- Predicate `Rendered S s t`: `t` is `s` with exactly those maximal matches of the micro pattern
that belong to `S` replaced by their placeholder token. -/
inductive Rendered (S : List (List Char)) : List Char → List Char → Prop where
  | nil : Rendered S [] []
  | plain (c : Char) (r t : List Char) :
      (isMicro c && startsWithLetter r) = false → Rendered S r t → Rendered S (c :: r) (c :: t)
  | tagged (c : Char) (X rest t : List Char) : isMicro c = true → X ≠ [] →
      (∀ x ∈ X, x.isAlpha = true) → startsWithLetter rest = false → (c :: X) ∈ S →
      Rendered S rest t → Rendered S (c :: (X ++ rest)) (frogified (c :: X) ++ t)
  | untouched (c : Char) (X rest t : List Char) : isMicro c = true → X ≠ [] →
      (∀ x ∈ X, x.isAlpha = true) → startsWithLetter rest = false → (c :: X) ∉ S →
      Rendered S rest t → Rendered S (c :: (X ++ rest)) (c :: (X ++ t))

/-- A series with `x`, `y` and a name, used as a concrete input. -/
def sampleSeries : List (String × JSVal) :=
  [("x", .arr [jsNum 1, jsNum 2]), ("y", .arr [jsNum 3, jsNum 4]), ("name", .str "run".toList)]

/-- A figure with one series and a title, used as a concrete input. -/
def sampleFigure : List (String × JSVal) :=
  [("data", .arr [.obj sampleSeries]), ("title", .str "rates".toList)]

/-- A backend that knows no unit and says so without naming it, used as a concrete input. -/
def missingKeyBackend : List Char → List Char → Except BackendError ℚ :=
  fun _ _ => .error ⟨"Error", "Missing key"⟩

/-- The backend errors for which `getUnitsScalingRatio` has a message of their own: the
name is `Error` and the message holds one of the four phrases the source looks for. -/
def isKnownFailure (e : BackendError) : Bool :=
  decide (e.name = "Error") &&
    (messageIncludes e.message "Cannot convert" || messageIncludes e.message "Missing key" ||
      messageIncludes e.message "invalid" || messageIncludes e.message "formatted")

/-- The scan behind `tagContents`: outside a tag (`none`) it looks for the next `<`; inside
one (`some acc`, with `acc` the content read so far, reversed) it reads up to the next
`>`.  A tag still open at the end of the text is no tag. -/
def tagScan : Option (List Char) → List Char → List (List Char)
  | _, [] => []
  | none, c :: r => if c = '<' then tagScan (some []) r else tagScan none r
  | some acc, c :: r =>
    if c = '>' then acc.reverse :: tagScan none r else tagScan (some (c :: acc)) r

/-- The specification's words for the tags of a text: the contents of its `<...>` tags, left
to right, a tag being a `<`, characters other than `>`, and a `>`. -/
def tagContents (text : List Char) : List (List Char) := tagScan none text

/-- The results of `p*?` at a state, listed explicitly: shortest run first. -/
def lazyRuns (p : Char → Bool) : List Char → List Char → List (Nat × List Char) → List MState
  | l, [], k => [⟨l, [], k⟩]
  | l, c :: r, k => ⟨l, c :: r, k⟩ :: (if p c then lazyRuns p (c :: l) r k else [])

/-- The number of occurrences of a text in another: the places at which it starts. -/
def occurrences (sub s : List Char) : Nat :=
  s.tails.countP (fun t => sub.isPrefixOf t)

/-- The number of occurrences of `1/` in an expression. -/
def inverseCount (expression : List Char) : Nat := occurrences "1/".toList expression

/-- Whether a text starts with a word character. -/
def startsWithWord : List Char → Bool
  | [] => false
  | x :: _ => isWordChar x

/-- Predicate `Marked S s t`: `t` is `s` with exactly those whole words (maximal runs of word
characters) that belong to `S` wrapped in one pair of brackets `<` and `>`. -/
inductive Marked (S : List (List Char)) : List Char → List Char → Prop where
  | nil : Marked S [] []
  | sep (c : Char) (r t : List Char) :
      isWordChar c = false → Marked S r t → Marked S (c :: r) (c :: t)
  | word (w r t : List Char) : w ≠ [] → (∀ x ∈ w, isWordChar x = true) →
      startsWithWord r = false → w ∉ S → Marked S r t → Marked S (w ++ r) (w ++ t)
  | wrapped (w r t : List Char) : w ≠ [] → (∀ x ∈ w, isWordChar x = true) →
      startsWithWord r = false → w ∈ S → Marked S r t →
      Marked S (w ++ r) ('<' :: (w ++ '>' :: t))

/-- The fields `evaluateEquation` writes: the output fields of a record. -/
def outputKeys : List String :=
  ["x_units", "y_units", "x_points", "y_points", "z_units", "z_points"]

/-- An evaluator that returns the same planar result for every record, used as a concrete
input. -/
def planarEvaluator : List (String × JSVal) → JSVal → List (String × JSVal) :=
  fun _ _ => [("x_units", .str "K".toList), ("y_units", .str "1/s".toList),
    ("x_points", .arr [jsNum 300]), ("y_points", .arr [jsNum 2])]

/-- The `graphicalDimensionality` that `evaluateEquation` reads from the evaluated map: the
field of that name, or 2 when the map has none. -/
def evaluatedDimensionality (evaluatedDict : List (String × JSVal)) : JSVal :=
  if mapHas evaluatedDict "graphical_dimensionality" then
    mapGet evaluatedDict "graphical_dimensionality"
  else jsNum 2

/-- The largest value of a list of rationals (`0` for the empty list). -/
def largest : List ℚ → ℚ
  | [] => 0
  | z :: rest => rest.foldl max z

/-- A series with negative `z` values, used as a concrete input. -/
def negativeSeries : List (String × JSVal) := [("z", .arr [jsNum (-2), jsNum (-1)])]

/-- A series with a negative `max_bubble_size`, used as a concrete input. -/
def negativeBubbleSeries : List (String × JSVal) :=
  [("z", .arr [jsNum 1, jsNum 2]), ("max_bubble_size", jsNum (-5))]

/-- A series with `z` values 1, 2 and 4 and no other field, used as a concrete input. -/
def bubbleSeries : List (String × JSVal) := [("z", .arr ([1, 2, 4].map jsNum))]

/-! ## Theorems -/

theorem mem_run_chr (p : Char → Bool) (st st' : MState) :
    st' ∈ (Re.chr p).run st ↔
      ∃ c r, st.after = c :: r ∧ p c = true ∧ st' = ⟨c :: st.before, r, st.caps⟩ := by
  obtain ⟨l, a, k⟩ := st
  cases a with
  | nil => simp [Re.run]
  | cons c r =>
    by_cases h : p c = true
    · simp only [Re.run, h, if_true, List.mem_singleton, List.cons.injEq]
      constructor
      · intro e
        exact ⟨c, r, ⟨rfl, rfl⟩, h, e⟩
      · rintro ⟨c', r', ⟨rfl, rfl⟩, _, e⟩
        exact e
    · simp only [Re.run, h, List.cons.injEq]
      constructor
      · intro e
        simp at e
      · rintro ⟨c', r', ⟨rfl, rfl⟩, h', _⟩
        exact absurd h' h

theorem run_chr_cons (p : Char → Bool) (l r : List Char) (c : Char) (k : List (Nat × List Char)) :
    (Re.chr p).run ⟨l, c :: r, k⟩ = if p c = true then [⟨c :: l, r, k⟩] else [] := rfl

theorem run_chr_nil (p : Char → Bool) (l : List Char) (k : List (Nat × List Char)) :
    (Re.chr p).run ⟨l, [], k⟩ = [] := rfl

theorem mem_run_seq (a b : Re) (st st' : MState) :
    st' ∈ (Re.seq a b).run st ↔ ∃ m, m ∈ a.run st ∧ st' ∈ b.run m := by
  simp [Re.run, List.mem_flatMap]

theorem mem_run_opt (a : Re) (st st' : MState) :
    st' ∈ (Re.opt a).run st ↔ st' ∈ a.run st ∨ st' = st := by
  simp [Re.run]

theorem starLoop_chr (p : Char → Bool) (k : List (Nat × List Char)) :
    ∀ (r l : List Char) (n : Nat), r.length ≤ n →
      starLoop (Re.chr p).run n ⟨l, r, k⟩ = charRuns p l r k := by
  intro r
  induction r with
  | nil =>
    intro l n _
    cases n <;> simp [starLoop, charRuns, run_chr_nil]
  | cons c r ih =>
    intro l n hn
    cases n with
    | zero => simp at hn
    | succ n =>
      have hn' : r.length ≤ n := by simpa using hn
      by_cases h : p c = true
      · simp [starLoop, charRuns, run_chr_cons, h, ih (c :: l) n hn']
      · simp [starLoop, charRuns, run_chr_cons, h]

theorem run_star_chr (p : Char → Bool) (st : MState) :
    (Re.star (Re.chr p)).run st = charRuns p st.before st.after st.caps := by
  obtain ⟨l, r, k⟩ := st
  simp only [Re.run]
  exact starLoop_chr p k r l r.length (le_refl _)

theorem mem_charRuns (p : Char → Bool) (k : List (Nat × List Char)) (st' : MState) :
    ∀ (r l : List Char), st' ∈ charRuns p l r k ↔
      ∃ ds rest, r = ds ++ rest ∧ (∀ c ∈ ds, p c = true) ∧ st' = ⟨ds.reverse ++ l, rest, k⟩ := by
  intro r
  induction r with
  | nil =>
    intro l
    simp only [charRuns, List.mem_singleton]
    constructor
    · intro h
      exact ⟨[], [], rfl, by simp, by simpa using h⟩
    · rintro ⟨ds, rest, h1, _, h3⟩
      have h4 : ds = [] ∧ rest = [] := by simpa using h1.symm
      simpa [h4.1, h4.2] using h3
  | cons c r ih =>
    intro l
    by_cases h : p c = true
    · simp only [charRuns, h, if_true, List.mem_append, List.mem_singleton, ih]
      constructor
      · rintro (⟨ds, rest, h1, h2, h3⟩ | h3)
        · refine ⟨c :: ds, rest, by simp [h1], ?_, by simp [h3]⟩
          intro x hx
          rcases List.mem_cons.mp hx with rfl | hx
          · exact h
          · exact h2 x hx
        · exact ⟨[], c :: r, rfl, by simp, by simpa using h3⟩
      · rintro ⟨ds, rest, h1, h2, h3⟩
        cases ds with
        | nil =>
          right
          simp only [List.nil_append] at h1
          subst h1
          simpa using h3
        | cons d ds =>
          left
          simp only [List.cons_append, List.cons.injEq] at h1
          refine ⟨ds, rest, h1.2, fun x hx => h2 x (List.mem_cons_of_mem _ hx), ?_⟩
          simpa [h1.1] using h3
    · simp only [charRuns, h, if_false, List.mem_singleton]
      constructor
      · intro h3
        exact ⟨[], c :: r, rfl, by simp, by simpa using h3⟩
      · rintro ⟨ds, rest, h1, h2, h3⟩
        cases ds with
        | nil =>
          simp only [List.nil_append] at h1
          subst h1
          simpa using h3
        | cons d ds =>
          simp only [List.cons_append, List.cons.injEq] at h1
          exact absurd (h2 d (List.mem_cons_self _ _)) (by rw [← h1.1]; exact h)

theorem mem_run_grp (n : Nat) (a : Re) (st st' : MState) :
    st' ∈ (Re.grp n a).run st ↔
      ∃ m, m ∈ a.run st ∧ st' = { m with caps := (n, consumed st m) :: m.caps } := by
  simp only [Re.run, List.mem_map]
  constructor
  · rintro ⟨m, hm, e⟩
    exact ⟨m, hm, e.symm⟩
  · rintro ⟨m, hm, e⟩
    exact ⟨m, hm, e.symm⟩

theorem mem_run_star_chr (p : Char → Bool) (st st' : MState) :
    st' ∈ (Re.star (Re.chr p)).run st ↔
      ∃ ds rest, st.after = ds ++ rest ∧ (∀ c ∈ ds, p c = true) ∧
        st' = ⟨ds.reverse ++ st.before, rest, st.caps⟩ := by
  rw [run_star_chr, mem_charRuns]

theorem mem_run_plus_chr (p : Char → Bool) (st st' : MState) :
    st' ∈ (Re.plus (Re.chr p)).run st ↔
      ∃ ds rest, ds ≠ [] ∧ st.after = ds ++ rest ∧ (∀ c ∈ ds, p c = true) ∧
        st' = ⟨ds.reverse ++ st.before, rest, st.caps⟩ := by
  simp only [Re.plus, mem_run_seq, mem_run_chr, mem_run_star_chr]
  constructor
  · rintro ⟨m, ⟨c, r, h1, h2, rfl⟩, ds, rest, h3, h4, rfl⟩
    simp only at h3
    refine ⟨c :: ds, rest, by simp, by simp [h1, h3], ?_, by simp⟩
    intro x hx
    rcases List.mem_cons.mp hx with rfl | hx
    · exact h2
    · exact h4 x hx
  · rintro ⟨ds, rest, h1, h2, h3, rfl⟩
    cases ds with
    | nil => exact absurd rfl h1
    | cons d ds =>
      refine ⟨⟨d :: st.before, ds ++ rest, st.caps⟩, ⟨d, ds ++ rest, by simp [h2], ?_, rfl⟩,
        ds, rest, rfl, fun x hx => h3 x (List.mem_cons_of_mem _ hx), by simp⟩
      exact h3 d (List.mem_cons_self _ _)

theorem mem_run_eos (st st' : MState) :
    st' ∈ Re.eos.run st ↔ st.after = [] ∧ st' = st := by
  obtain ⟨l, r, k⟩ := st
  cases r <;> simp [Re.run]

theorem search_bos_none (x : Re) :
    ∀ (after before : List Char), before ≠ [] → search (Re.seq Re.bos x) before after = none := by
  intro after
  induction after with
  | nil =>
    intro before hb
    cases before with
    | nil => exact absurd rfl hb
    | cons b bs => simp [search, Re.run]
  | cons c r ih =>
    intro before hb
    cases before with
    | nil => exact absurd rfl hb
    | cons b bs =>
      have e : (Re.seq Re.bos x).run ⟨b :: bs, c :: r, []⟩ = [] := by simp [Re.run]
      simp only [search, e, List.head?_nil]
      exact ih (c :: b :: bs) (by simp)

theorem test_bos_iff (x : Re) (v : List Char) :
    (Re.seq Re.bos x).test v = true ↔ ∃ st', st' ∈ x.run ⟨[], v, []⟩ := by
  have e : (Re.seq Re.bos x).run ⟨[], v, []⟩ = x.run ⟨[], v, []⟩ := by simp [Re.run]
  have hne : ∀ l : List MState, (∃ st', st' ∈ l) ↔ l.head?.isSome = true := by
    intro l
    cases l <;> simp
  rw [hne]
  cases v with
  | nil =>
    simp only [Re.test, search, e]
    cases (x.run ⟨[], [], []⟩).head? <;> simp
  | cons c r =>
    simp only [Re.test, search, e]
    cases h : (x.run ⟨[], c :: r, []⟩).head? with
    | none => simp [search_bos_none x r [c] (by simp)]
    | some m => simp

/-- The optional fraction `(\.\d+)?` consumes nothing, or a dot and one or more digits. -/
theorem optFraction_after (m1 m2 : MState) :
    (m2 ∈ (Re.opt (Re.grp 1 (Re.seq (Re.lit '.') (Re.plus (Re.chr Char.isDigit))))).run m1 →
      ∃ frac, m1.after = frac ++ m2.after ∧
        (frac = [] ∨ ∃ fs, fs ≠ [] ∧ (∀ c ∈ fs, c.isDigit = true) ∧ frac = '.' :: fs)) ∧
    (∀ frac rest, m1.after = frac ++ rest →
      (frac = [] ∨ ∃ fs, fs ≠ [] ∧ (∀ c ∈ fs, c.isDigit = true) ∧ frac = '.' :: fs) →
      ∃ m, m ∈ (Re.opt (Re.grp 1 (Re.seq (Re.lit '.')
        (Re.plus (Re.chr Char.isDigit))))).run m1 ∧ m.after = rest) := by
  simp only [mem_run_opt, mem_run_grp, mem_run_seq, Re.lit, mem_run_chr, mem_run_plus_chr]
  constructor
  · rintro (⟨m, ⟨m', ⟨c, r, h1, h2, rfl⟩, fs, rest, h3, h4, h5, rfl⟩, rfl⟩ | rfl)
    · have hc : c = '.' := by simpa using h2
      subst hc
      simp only at h4
      exact ⟨'.' :: fs, by simp [h1, h4], Or.inr ⟨fs, h3, h5, rfl⟩⟩
    · exact ⟨[], by simp, Or.inl rfl⟩
  · rintro frac rest h1 (rfl | ⟨fs, h3, h4, rfl⟩)
    · exact ⟨m1, Or.inr rfl, by simpa using h1⟩
    · exact ⟨_, Or.inl ⟨⟨fs.reverse ++ '.' :: m1.before, rest, m1.caps⟩,
        ⟨⟨'.' :: m1.before, fs ++ rest, m1.caps⟩,
          ⟨'.', fs ++ rest, by simpa using h1, by simp, rfl⟩,
          fs, rest, h3, rfl, h4, rfl⟩, rfl⟩, rfl⟩

/-- The optional rest `(.*)?` consumes any run of characters that are not line terminators. -/
theorem optRest_after (m2 m3 : MState) :
    (m3 ∈ (Re.opt (Re.grp 2 (Re.star (Re.chr (fun c => !isLineTerminator c))))).run m2 →
      ∃ suffix, m2.after = suffix ++ m3.after ∧ ∀ c ∈ suffix, isLineTerminator c = false) ∧
    (∀ suffix rest, m2.after = suffix ++ rest → (∀ c ∈ suffix, isLineTerminator c = false) →
      ∃ m, m ∈ (Re.opt (Re.grp 2 (Re.star (Re.chr (fun c => !isLineTerminator c))))).run m2 ∧
        m.after = rest) := by
  simp only [mem_run_opt, mem_run_grp, mem_run_star_chr]
  constructor
  · rintro (⟨m, ⟨ds, rest, h1, h2, rfl⟩, rfl⟩ | rfl)
    · exact ⟨ds, h1, fun c hc => by simpa using h2 c hc⟩
    · exact ⟨[], by simp, by simp⟩
  · intro suffix rest h1 h2
    exact ⟨_, Or.inl ⟨⟨suffix.reverse ++ m2.before, rest, m2.caps⟩,
      ⟨suffix, rest, h1, fun c hc => by simpa using h2 c hc, rfl⟩, rfl⟩, rfl⟩

theorem unitPattern_test_iff (v : List Char) :
    unitPattern.test v = true ↔
      ∃ ds frac suffix, v = ds ++ frac ++ suffix ∧ ds ≠ [] ∧ (∀ c ∈ ds, c.isDigit = true) ∧
        (frac = [] ∨ ∃ fs, fs ≠ [] ∧ (∀ c ∈ fs, c.isDigit = true) ∧ frac = '.' :: fs) ∧
        (∀ c ∈ suffix, isLineTerminator c = false) := by
  unfold unitPattern
  rw [test_bos_iff]
  constructor
  · rintro ⟨st', h⟩
    rw [mem_run_seq] at h
    obtain ⟨m1, h1, h⟩ := h
    rw [mem_run_seq] at h
    obtain ⟨m2, h2, h⟩ := h
    rw [mem_run_seq] at h
    obtain ⟨m3, h3, h⟩ := h
    rw [mem_run_eos] at h
    rw [mem_run_plus_chr] at h1
    obtain ⟨ds, rest, hds, hv, hd, rfl⟩ := h1
    obtain ⟨frac, hf, hfrac⟩ := (optFraction_after _ m2).1 h2
    obtain ⟨suffix, hs, hsuf⟩ := (optRest_after m2 m3).1 h3
    refine ⟨ds, frac, suffix, ?_, hds, hd, ?_, hsuf⟩
    · simp only at hv hf
      rw [hv, hf, hs, h.1]
      simp
    · exact hfrac
  · rintro ⟨ds, frac, suffix, hv, hds, hd, hfrac, hsuf⟩
    have hm1 : (⟨ds.reverse ++ [], frac ++ suffix, []⟩ : MState) ∈
        (Re.plus (Re.chr Char.isDigit)).run ⟨[], v, []⟩ := by
      rw [mem_run_plus_chr]
      exact ⟨ds, frac ++ suffix, hds, by simp [hv], hd, rfl⟩
    obtain ⟨m2, hm2, e2⟩ :=
      (optFraction_after ⟨ds.reverse ++ [], frac ++ suffix, []⟩ ⟨[], [], []⟩).2 frac suffix rfl hfrac
    obtain ⟨m3, hm3, e3⟩ := (optRest_after m2 m2).2 suffix [] (by simp [e2]) hsuf
    exact ⟨m3, (mem_run_seq _ _ _ _).2 ⟨_, hm1, (mem_run_seq _ _ _ _).2 ⟨m2, hm2,
      (mem_run_seq _ _ _ _).2 ⟨m3, hm3, (mem_run_eos _ _).2 ⟨e3, rfl⟩⟩⟩⟩⟩

theorem validateUnit_ok_iff (v : List Char) :
    validateUnit v = .ok () ↔ unitPattern.test v = true := by
  unfold validateUnit
  cases unitPattern.test v <;> simp

theorem validateUnit_error_iff (v : List Char) :
    (∃ msg, validateUnit v = .error msg) ↔ ¬ unitPattern.test v = true := by
  unfold validateUnit
  cases unitPattern.test v <;> simp

/-- C1: `validateUnit` returns without error exactly for the values that begin with one
or more ASCII digits, optionally followed by a dot and one or more digits, followed by
any suffix without a line terminator; for every other value it throws.  It throws for
"abc" and accepts "9.8 m/s**2". -/
theorem validateUnit_accepts_iff_numeric_prefix (v : List Char) :
    (validateUnit v = .ok () ↔
      ∃ ds frac suffix, v = ds ++ frac ++ suffix ∧ ds ≠ [] ∧ (∀ c ∈ ds, c.isDigit = true) ∧
        (frac = [] ∨ ∃ fs, fs ≠ [] ∧ (∀ c ∈ fs, c.isDigit = true) ∧ frac = '.' :: fs) ∧
        (∀ c ∈ suffix, isLineTerminator c = false)) ∧
    ((∃ msg, validateUnit v = .error msg) ↔
      ¬ ∃ ds frac suffix, v = ds ++ frac ++ suffix ∧ ds ≠ [] ∧ (∀ c ∈ ds, c.isDigit = true) ∧
        (frac = [] ∨ ∃ fs, fs ≠ [] ∧ (∀ c ∈ fs, c.isDigit = true) ∧ frac = '.' :: fs) ∧
        (∀ c ∈ suffix, isLineTerminator c = false)) ∧
    (∃ msg, validateUnit "abc".toList = .error msg) ∧
    validateUnit "9.8 m/s**2".toList = .ok () := by
  refine ⟨?_, ?_, ?_, ?_⟩
  · rw [validateUnit_ok_iff, unitPattern_test_iff]
  · rw [validateUnit_error_iff, unitPattern_test_iff]
  · exact (validateUnit_error_iff _).2 (by decide)
  · exact (validateUnit_ok_iff _).2 (by decide)

theorem distinctValues_aux {α : Type} [DecidableEq α] (xs : List α) :
    ∀ seen : List α, seen.Nodup →
      (xs.foldl (fun seen v => if v ∈ seen then seen else seen ++ [v]) seen).Nodup ∧
      ∀ v, v ∈ xs.foldl (fun seen v => if v ∈ seen then seen else seen ++ [v]) seen ↔
        v ∈ seen ∨ v ∈ xs := by
  induction xs with
  | nil => intro seen h; simp [h]
  | cons x xs ih =>
    intro seen h
    simp only [List.foldl_cons]
    by_cases hx : x ∈ seen
    · simp only [hx, if_true]
      refine ⟨(ih seen h).1, fun v => ?_⟩
      rw [(ih seen h).2 v]
      constructor
      · rintro (a | a)
        · exact Or.inl a
        · exact Or.inr (List.mem_cons_of_mem _ a)
      · rintro (a | a)
        · exact Or.inl a
        · rcases List.mem_cons.mp a with rfl | a
          · exact Or.inl hx
          · exact Or.inr a
    · simp only [hx, if_false]
      have h' : (seen ++ [x]).Nodup := by
        rw [List.nodup_append]
        refine ⟨h, List.nodup_singleton x, ?_⟩
        intro a ha hb
        rw [List.mem_singleton] at hb
        exact hx (hb ▸ ha)
      refine ⟨(ih _ h').1, fun v => ?_⟩
      rw [(ih _ h').2 v]
      simp only [List.mem_append, List.mem_singleton, List.mem_cons]
      tauto

theorem nodup_distinctValues {α : Type} [DecidableEq α] (xs : List α) :
    (distinctValues xs).Nodup :=
  (distinctValues_aux xs [] List.nodup_nil).1

theorem mem_distinctValues {α : Type} [DecidableEq α] (xs : List α) (v : α) :
    v ∈ distinctValues xs ↔ v ∈ xs := by
  unfold distinctValues
  rw [(distinctValues_aux xs [] List.nodup_nil).2 v]
  simp

theorem mem_sortAscending {α : Type} [LinearOrder α] (l : List α) (v : α) :
    v ∈ sortAscending l ↔ v ∈ l :=
  (List.perm_insertionSort _ l).mem_iff

theorem nodup_sortAscending {α : Type} [LinearOrder α] (l : List α) (h : l.Nodup) :
    (sortAscending l).Nodup :=
  (List.perm_insertionSort _ l).nodup_iff.2 h

theorem sorted_sortAscending {α : Type} [LinearOrder α] (l : List α) (h : l.Nodup) :
    (sortAscending l).Sorted (fun a b => a < b) := by
  have h1 : (sortAscending l).Sorted (fun a b => a ≤ b) := List.sorted_insertionSort _ l
  have h2 := nodup_sortAscending l h
  exact (List.Sorted.lt_of_le h1 h2)

/-- The sorted distinct values of a list are the strictly ascending list with the same members. -/
theorem sortAscending_distinctValues_eq {α : Type} [LinearOrder α] (xs ux : List α)
    (hs : ux.Sorted (fun a b => a < b)) (hm : ∀ v, v ∈ ux ↔ v ∈ xs) :
    sortAscending (distinctValues xs) = ux := by
  have hn := nodup_distinctValues xs
  have h1 := sorted_sortAscending _ hn
  have hp : List.Perm (sortAscending (distinctValues xs)) ux := by
    rw [List.perm_ext_iff_of_nodup (nodup_sortAscending _ hn) hs.nodup]
    intro v
    rw [mem_sortAscending, mem_distinctValues, hm]
  exact List.eq_of_perm_of_sorted hp h1 hs

theorem cellAt_setCell_same (m : List (List JSVal)) (R C i j : Nat) (v : JSVal)
    (hm : HasShape m R C) (hi : i < R) (hj : j < C) :
    cellAt (setCell m i j v) i j = some v := by
  obtain ⟨h1, h2⟩ := hm
  have hi' : i < m.length := by omega
  have hrow : m[i].length = C := h2 _ (List.getElem_mem _)
  simp [cellAt, setCell, List.getElem?_set, hi', hrow, hj, List.getD_eq_getElem _ _ hi']

theorem cellAt_setCell_ne (m : List (List JSVal)) (i j i' j' : Nat) (v : JSVal)
    (h : ¬ (i = i' ∧ j = j')) :
    cellAt (setCell m i j v) i' j' = cellAt m i' j' := by
  unfold cellAt setCell
  by_cases hi : i = i'
  · subst hi
    have hj : j ≠ j' := fun e => h ⟨rfl, e⟩
    by_cases hl : i < m.length
    · simp [List.getElem?_set, hl, hj, List.getD_eq_getElem _ _ hl]
    · simp [List.getElem?_set, hl]
      have : m[i]? = none := by simp; omega
      simp [this]
  · simp [List.getElem?_set, hi]

theorem hasShape_setCell (m : List (List JSVal)) (R C i j : Nat) (v : JSVal)
    (hm : HasShape m R C) : HasShape (setCell m i j v) R C := by
  obtain ⟨h1, h2⟩ := hm
  refine ⟨by simp [setCell, h1], ?_⟩
  intro row hrow
  unfold setCell at hrow
  rcases List.mem_or_eq_of_mem_set hrow with h | h
  · exact h2 row h
  · subst h
    rw [List.length_set]
    by_cases hl : i < m.length
    · rw [List.getD_eq_getElem _ _ hl]
      exact h2 _ (List.getElem_mem _)
    · rw [List.set_eq_of_length_le (by omega)] at hrow
      have := h2 _ hrow
      simpa using this

theorem foldl_nested {σ α β : Type} (f : σ → α → β → σ) (ys : List β) :
    ∀ (xs : List α) (s : σ),
      xs.foldl (fun st x => ys.foldl (fun st y => f st x y) st) s =
        (xs.flatMap (fun x => ys.map (fun y => (x, y)))).foldl (fun st p => f st p.1 p.2) s := by
  intro xs
  induction xs with
  | nil => intro s; rfl
  | cons x xs ih =>
    intro s
    simp only [List.foldl_cons, List.flatMap_cons, List.foldl_append, List.foldl_map]
    exact ih _

theorem getZMatrix_eq_fillAll {α : Type} [LinearOrder α] (eq : Equation) (xPoints yPoints : List α)
    (zPoints : List JSVal) :
    getZMatrix eq xPoints yPoints zPoints =
      (fillAll (mapGet eq.equationDict "graphical_dimensionality") xPoints yPoints zPoints
        (sortAscending (distinctValues xPoints)) (sortAscending (distinctValues yPoints))
        ((sortAscending (distinctValues xPoints)).flatMap (fun x =>
          (sortAscending (distinctValues yPoints)).map (fun y => (x, y))))
        ((sortAscending (distinctValues xPoints)).map (fun _ =>
          (sortAscending (distinctValues yPoints)).map (fun _ => JSVal.num .nan)), 0)).1 := by
  unfold getZMatrix fillAll
  simp only
  rw [foldl_nested]

theorem fillCell_frame {α : Type} [DecidableEq α] (dim : JSVal) (xPoints yPoints : List α)
    (zPoints : List JSVal) (uniqueX uniqueY : List α) (st : List (List JSVal) × Nat) (x y : α)
    (i j : Nat) (h : ¬ (uniqueX.indexOf x = i ∧ uniqueY.indexOf y = j)) :
    cellAt (fillCell dim xPoints yPoints zPoints uniqueX uniqueY st x y).1 i j = cellAt st.1 i j := by
  unfold fillCell
  simp only
  split
  · exact cellAt_setCell_ne _ _ _ _ _ _ h
  · split
    · split
      · exact cellAt_setCell_ne _ _ _ _ _ _ h
      · rfl
    · rfl

theorem fillCell_shape {α : Type} [DecidableEq α] (dim : JSVal) (xPoints yPoints : List α)
    (zPoints : List JSVal) (uniqueX uniqueY : List α) (st : List (List JSVal) × Nat) (x y : α)
    (R C : Nat) (h : HasShape st.1 R C) :
    HasShape (fillCell dim xPoints yPoints zPoints uniqueX uniqueY st x y).1 R C := by
  unfold fillCell
  simp only
  split
  · exact hasShape_setCell _ _ _ _ _ _ h
  · split
    · split
      · exact hasShape_setCell _ _ _ _ _ _ h
      · exact h
    · exact h

theorem fillAll_frame {α : Type} [DecidableEq α] (dim : JSVal) (xPoints yPoints : List α)
    (zPoints : List JSVal) (uniqueX uniqueY : List α) (i j : Nat) :
    ∀ (pairs : List (α × α)) (st : List (List JSVal) × Nat),
      (∀ p ∈ pairs, ¬ (uniqueX.indexOf p.1 = i ∧ uniqueY.indexOf p.2 = j)) →
      cellAt (fillAll dim xPoints yPoints zPoints uniqueX uniqueY pairs st).1 i j =
        cellAt st.1 i j := by
  intro pairs
  induction pairs with
  | nil => intro st _; rfl
  | cons p ps ih =>
    intro st h
    have e : fillAll dim xPoints yPoints zPoints uniqueX uniqueY (p :: ps) st =
        fillAll dim xPoints yPoints zPoints uniqueX uniqueY ps
          (fillCell dim xPoints yPoints zPoints uniqueX uniqueY st p.1 p.2) := rfl
    rw [e, ih _ (fun q hq => h q (List.mem_cons_of_mem _ hq))]
    exact fillCell_frame _ _ _ _ _ _ _ _ _ _ _ (h p (List.mem_cons_self _ _))

theorem fillAll_shape {α : Type} [DecidableEq α] (dim : JSVal) (xPoints yPoints : List α)
    (zPoints : List JSVal) (uniqueX uniqueY : List α) (R C : Nat) :
    ∀ (pairs : List (α × α)) (st : List (List JSVal) × Nat), HasShape st.1 R C →
      HasShape (fillAll dim xPoints yPoints zPoints uniqueX uniqueY pairs st).1 R C := by
  intro pairs
  induction pairs with
  | nil => intro st h; exact h
  | cons p ps ih =>
    intro st h
    exact ih _ (fillCell_shape _ _ _ _ _ _ _ _ _ _ _ h)

theorem fillCell_three {α : Type} [DecidableEq α] (dim : JSVal) (xPoints yPoints : List α)
    (zPoints : List JSVal) (uniqueX uniqueY : List α) (st : List (List JSVal) × Nat) (x y : α)
    (hdim : dim.isThree = true) (hz : (zAt zPoints st.2).isUndefined = false) :
    fillCell dim xPoints yPoints zPoints uniqueX uniqueY st x y =
      (setCell st.1 (uniqueX.indexOf x) (uniqueY.indexOf y) (zAt zPoints st.2), st.2 + 1) := by
  simp [fillCell, hdim, hz]

theorem fillCell_notThree {α : Type} [DecidableEq α] (dim : JSVal) (xPoints yPoints : List α)
    (zPoints : List JSVal) (uniqueX uniqueY : List α) (st : List (List JSVal) × Nat) (x y : α)
    (hdim : dim.isThree = false) :
    fillCell dim xPoints yPoints zPoints uniqueX uniqueY st x y =
      match findPair xPoints yPoints x y with
      | some k => (setCell st.1 (uniqueX.indexOf x) (uniqueY.indexOf y) (zAt zPoints k), st.2)
      | none => st := by
  simp [fillCell, hdim]

theorem fillAll_three {α : Type} [DecidableEq α] (dim : JSVal) (xPoints yPoints : List α)
    (zPoints : List JSVal) (uniqueX uniqueY : List α) (R C i j : Nat)
    (hdim : dim.isThree = true) (hi : i < R) (hj : j < C) :
    ∀ (pairs : List (α × α)) (st : List (List JSVal) × Nat),
      (pairs.map (fun p => (uniqueX.indexOf p.1, uniqueY.indexOf p.2))).Nodup →
      HasShape st.1 R C →
      (∀ t, t < pairs.length → (zAt zPoints (st.2 + t)).isUndefined = false) →
      ∀ (t : Nat) (p : α × α), pairs[t]? = some p →
        uniqueX.indexOf p.1 = i → uniqueY.indexOf p.2 = j →
        cellAt (fillAll dim xPoints yPoints zPoints uniqueX uniqueY pairs st).1 i j =
          some (zAt zPoints (st.2 + t)) := by
  intro pairs
  induction pairs with
  | nil => intro st _ _ _ t p hp; simp at hp
  | cons q qs ih =>
    intro st hnd hs hz t p hp hpi hpj
    have e : fillAll dim xPoints yPoints zPoints uniqueX uniqueY (q :: qs) st =
        fillAll dim xPoints yPoints zPoints uniqueX uniqueY qs
          (fillCell dim xPoints yPoints zPoints uniqueX uniqueY st q.1 q.2) := rfl
    have hz0 : (zAt zPoints st.2).isUndefined = false := by
      simpa using hz 0 (by simp)
    rw [e, fillCell_three _ _ _ _ _ _ _ _ _ hdim hz0]
    rw [List.map_cons, List.nodup_cons] at hnd
    cases t with
    | zero =>
      simp only [List.getElem?_cons_zero, Option.some.injEq] at hp
      subst hp
      rw [fillAll_frame]
      · rw [hpi, hpj]
        simpa using cellAt_setCell_same _ _ _ _ _ _ hs hi hj
      · intro r hr hcontra
        apply hnd.1
        rw [List.mem_map]
        exact ⟨r, hr, by rw [hcontra.1, hcontra.2, hpi, hpj]⟩
    | succ t =>
      simp only [List.getElem?_cons_succ] at hp
      have := ih (setCell st.1 (uniqueX.indexOf q.1) (uniqueY.indexOf q.2) (zAt zPoints st.2),
        st.2 + 1) hnd.2 (hasShape_setCell _ _ _ _ _ _ hs)
        (fun t' ht' => by
          have := hz (t' + 1) (by simpa using ht')
          simpa [Nat.add_assoc, Nat.add_comm 1 t'] using this) t p hp hpi hpj
      simpa [Nat.add_assoc, Nat.add_comm 1 t] using this

theorem fillAll_notThree {α : Type} [DecidableEq α] (dim : JSVal) (xPoints yPoints : List α)
    (zPoints : List JSVal) (uniqueX uniqueY : List α) (R C i j : Nat)
    (hdim : dim.isThree = false) (hi : i < R) (hj : j < C) :
    ∀ (pairs : List (α × α)) (st : List (List JSVal) × Nat),
      (pairs.map (fun p => (uniqueX.indexOf p.1, uniqueY.indexOf p.2))).Nodup →
      HasShape st.1 R C →
      ∀ (p : α × α), p ∈ pairs → uniqueX.indexOf p.1 = i → uniqueY.indexOf p.2 = j →
        cellAt (fillAll dim xPoints yPoints zPoints uniqueX uniqueY pairs st).1 i j =
          match findPair xPoints yPoints p.1 p.2 with
          | some k => some (zAt zPoints k)
          | none => cellAt st.1 i j := by
  intro pairs
  induction pairs with
  | nil => intro st _ _ p hp; simp at hp
  | cons q qs ih =>
    intro st hnd hs p hp hpi hpj
    have e : fillAll dim xPoints yPoints zPoints uniqueX uniqueY (q :: qs) st =
        fillAll dim xPoints yPoints zPoints uniqueX uniqueY qs
          (fillCell dim xPoints yPoints zPoints uniqueX uniqueY st q.1 q.2) := rfl
    rw [List.map_cons, List.nodup_cons] at hnd
    rw [e]
    rcases List.mem_cons.mp hp with rfl | hp'
    · rw [fillAll_frame]
      · rw [fillCell_notThree _ _ _ _ _ _ _ _ _ hdim]
        cases findPair xPoints yPoints p.1 p.2 with
        | none => rfl
        | some k =>
          simp only
          rw [hpi, hpj]
          exact cellAt_setCell_same _ _ _ _ _ _ hs hi hj
      · intro r hr hcontra
        apply hnd.1
        rw [List.mem_map]
        exact ⟨r, hr, by rw [hcontra.1, hcontra.2, hpi, hpj]⟩
    · rw [ih _ hnd.2 (fillCell_shape _ _ _ _ _ _ _ _ _ _ _ hs) p hp' hpi hpj]
      have hq : ¬ (uniqueX.indexOf q.1 = i ∧ uniqueY.indexOf q.2 = j) := by
        intro hcontra
        apply hnd.1
        rw [List.mem_map]
        exact ⟨p, hp', by rw [hcontra.1, hcontra.2, hpi, hpj]⟩
      rw [fillCell_frame _ _ _ _ _ _ _ _ _ _ _ hq]

theorem mem_pairs {α : Type} (X Y : List α) (p : α × α) :
    p ∈ X.flatMap (fun x => Y.map (fun y => (x, y))) ↔ p.1 ∈ X ∧ p.2 ∈ Y := by
  obtain ⟨a, b⟩ := p
  simp only [List.mem_flatMap, List.mem_map, Prod.mk.injEq]
  constructor
  · rintro ⟨x, hx, y, hy, rfl, rfl⟩
    exact ⟨hx, hy⟩
  · rintro ⟨hx, hy⟩
    exact ⟨a, hx, b, hy, rfl, rfl⟩

theorem nodup_pairs {α : Type} (X Y : List α) (hX : X.Nodup) (hY : Y.Nodup) :
    (X.flatMap (fun x => Y.map (fun y => (x, y)))).Nodup :=
  List.Nodup.product hX hY

theorem nodup_addresses {α : Type} [DecidableEq α] (X Y : List α) (hX : X.Nodup) (hY : Y.Nodup) :
    ((X.flatMap (fun x => Y.map (fun y => (x, y)))).map
      (fun p => (X.indexOf p.1, Y.indexOf p.2))).Nodup := by
  apply List.Nodup.map_on _ (nodup_pairs X Y hX hY)
  intro p hp q hq h
  rw [mem_pairs] at hp hq
  simp only [Prod.mk.injEq] at h
  exact Prod.ext ((List.indexOf_inj hp.1 hq.1).1 h.1) ((List.indexOf_inj hp.2 hq.2).1 h.2)

theorem hasShape_init {α : Type} (X Y : List α) :
    HasShape (X.map (fun _ => Y.map (fun _ => JSVal.num .nan))) X.length Y.length := by
  refine ⟨by simp, ?_⟩
  intro row hrow
  rw [List.mem_map] at hrow
  obtain ⟨_, _, rfl⟩ := hrow
  simp

theorem pairs_map_fst {α : Type} (X Y : List α) :
    (X.flatMap (fun x => Y.map (fun y => (x, y)))).map Prod.fst =
      X.flatMap (fun x => Y.map (fun _ => x)) := by
  induction X with
  | nil => rfl
  | cons x X ih => simp [List.flatMap_cons, ih]

theorem pairs_map_snd {α : Type} (X Y : List α) :
    (X.flatMap (fun x => Y.map (fun y => (x, y)))).map Prod.snd = X.flatMap (fun _ => Y) := by
  induction X with
  | nil => rfl
  | cons x X ih => simp [List.flatMap_cons, ih]

theorem length_pairs {α : Type} (X Y : List α) :
    (X.flatMap (fun x => Y.map (fun y => (x, y)))).length = X.length * Y.length := by
  induction X with
  | nil => simp
  | cons x X ih => simp [List.flatMap_cons, ih, Nat.succ_mul, Nat.add_comm]

theorem pairs_getElem? {α : Type} (Y : List α) :
    ∀ (X : List α) (i j : Nat) (hi : i < X.length) (hj : j < Y.length),
      (X.flatMap (fun x => Y.map (fun y => (x, y))))[i * Y.length + j]? = some (X[i], Y[j]) := by
  intro X
  induction X with
  | nil => intro i j hi; simp at hi
  | cons x X ih =>
    intro i j hi hj
    cases i with
    | zero =>
      simp only [List.flatMap_cons, Nat.zero_mul, Nat.zero_add, List.getElem_cons_zero]
      rw [List.getElem?_append_left (by simpa using hj)]
      simp [hj]
    | succ i =>
      have hi' : i < X.length := by simpa using hi
      simp only [List.flatMap_cons, List.getElem_cons_succ]
      rw [List.getElem?_append_right (by simp [Nat.succ_mul]; omega)]
      have e : (i + 1) * Y.length + j - (List.map (fun y => (x, y)) Y).length =
          i * Y.length + j := by
        simp [Nat.succ_mul]; omega
      rw [e]
      exact ih i j hi' hj

/-- C2: for a record whose `graphical_dimensionality` is 3 and samples listed in nested
order over strictly ascending `X` (outer) and `Y` (inner), the cell `M[i][j]` of
`getZMatrix` is the z of the sample whose x is `X[i]` and whose y is `Y[j]`; that sample
sits at position `i * |Y| + j`.  For x=[1,1,2,2], y=[10,20,10,20], z=[1,2,3,4] the cell
`M[1][1]` is 4. -/
theorem getZMatrix_nested_order {α : Type} [LinearOrder α] (eq : Equation) (X Y : List α)
    (zPoints : List JSVal)
    (hdim : mapGet eq.equationDict "graphical_dimensionality" = .num (.fin 3))
    (hX : X.Sorted (fun a b => a < b)) (hY : Y.Sorted (fun a b => a < b))
    (hlen : zPoints.length = X.length * Y.length)
    (hdef : ∀ z ∈ zPoints, z.isUndefined = false) :
    (∀ (i j k : Nat) (hi : i < X.length) (hj : j < Y.length),
      (X.flatMap (fun x => Y.map (fun _ => x)))[k]? = some X[i] →
      (X.flatMap (fun _ => Y))[k]? = some Y[j] →
      cellAt (getZMatrix eq (X.flatMap (fun x => Y.map (fun _ => x)))
        (X.flatMap (fun _ => Y)) zPoints) i j = zPoints[k]?) ∧
    (∀ (i j : Nat) (hi : i < X.length) (hj : j < Y.length),
      (X.flatMap (fun x => Y.map (fun _ => x)))[i * Y.length + j]? = some X[i] ∧
      (X.flatMap (fun _ => Y))[i * Y.length + j]? = some Y[j]) ∧
    cellAt (getZMatrix surfaceRecord [(1 : ℚ), 1, 2, 2] [10, 20, 10, 20]
      [jsNum 1, jsNum 2, jsNum 3, jsNum 4]) 1 1 = some (jsNum 4) := by
  refine ⟨?_, ?_, rfl⟩
  · intro i j k hi hj hx hy
    have hXne : X ≠ [] := by rintro rfl; simp at hi
    have hYne : Y ≠ [] := by rintro rfl; simp at hj
    obtain ⟨x0, hx0⟩ := List.exists_mem_of_ne_nil X hXne
    obtain ⟨y0, hy0⟩ := List.exists_mem_of_ne_nil Y hYne
    have hux : sortAscending (distinctValues (X.flatMap (fun x => Y.map (fun _ => x)))) = X := by
      apply sortAscending_distinctValues_eq _ _ hX
      intro v
      simp only [List.mem_flatMap, List.mem_map]
      constructor
      · intro hv
        exact ⟨v, hv, y0, hy0, rfl⟩
      · rintro ⟨x, hx', _, _, rfl⟩
        exact hx'
    have huy : sortAscending (distinctValues (X.flatMap (fun _ => Y))) = Y := by
      apply sortAscending_distinctValues_eq _ _ hY
      intro v
      simp only [List.mem_flatMap]
      constructor
      · intro hv
        exact ⟨x0, hx0, hv⟩
      · rintro ⟨_, _, hv⟩
        exact hv
    rw [getZMatrix_eq_fillAll, hux, huy]
    have hp : (X.flatMap (fun x => Y.map (fun y => (x, y))))[k]? = some (X[i], Y[j]) := by
      rw [← pairs_map_fst X Y, List.getElem?_map] at hx
      rw [← pairs_map_snd X Y, List.getElem?_map] at hy
      cases h : (X.flatMap (fun x => Y.map (fun y => (x, y))))[k]? with
      | none => simp [h] at hx
      | some p =>
        simp only [h, Option.map_some', Option.some.injEq] at hx hy
        rw [← hx, ← hy]
    have hk : k < X.length * Y.length := by
      rw [← length_pairs]
      exact (List.getElem?_eq_some_iff.1 hp).1
    have := fillAll_three (mapGet eq.equationDict "graphical_dimensionality")
      (X.flatMap (fun x => Y.map (fun _ => x))) (X.flatMap (fun _ => Y)) zPoints X Y
      X.length Y.length i j (by rw [hdim]; rfl) hi hj
      (X.flatMap (fun x => Y.map (fun y => (x, y))))
      (X.map (fun _ => Y.map (fun _ => JSVal.num .nan)), 0)
      (nodup_addresses X Y hX.nodup hY.nodup) (hasShape_init X Y)
      (fun t ht => by
        rw [length_pairs, ← hlen] at ht
        apply hdef
        simp only [Nat.zero_add, zAt]
        rw [List.getD_eq_getElem _ _ ht]
        exact List.getElem_mem _)
      k (X[i], Y[j]) hp (List.indexOf_getElem hX.nodup i hi) (List.indexOf_getElem hY.nodup j hj)
    rw [this]
    simp only [Nat.zero_add, zAt]
    rw [List.getD_eq_getElem _ _ (by omega), List.getElem?_eq_getElem (by omega)]
  · intro i j hi hj
    have hp := pairs_getElem? Y X i j hi hj
    constructor
    · rw [← pairs_map_fst X Y, List.getElem?_map, hp]
      rfl
    · rw [← pairs_map_snd X Y, List.getElem?_map, hp]
      rfl

theorem getZMatrix_nested_order_witness :
    mapGet surfaceRecord.equationDict "graphical_dimensionality" = .num (.fin 3) ∧
    List.Sorted (fun a b => a < b) [(1 : ℕ), 2] ∧
    List.Sorted (fun a b => a < b) [(10 : ℕ), 20] ∧
    cellAt (getZMatrix surfaceRecord ([(1 : ℕ), 2].flatMap (fun x => [(10 : ℕ), 20].map (fun _ => x)))
      ([(1 : ℕ), 2].flatMap (fun _ => [(10 : ℕ), 20]))
      [jsNum 1, jsNum 2, jsNum 3, jsNum 4]) 1 1 = some (jsNum 4) :=
  ⟨rfl, by decide, by decide,
    (getZMatrix_nested_order surfaceRecord [(1 : ℕ), 2] [(10 : ℕ), 20]
      [jsNum 1, jsNum 2, jsNum 3, jsNum 4] rfl (by decide) (by decide) rfl
      (by
        intro z hz
        simp only [List.mem_cons, List.mem_singleton, List.not_mem_nil, or_false] at hz
        rcases hz with rfl | rfl | rfl | rfl <;> rfl)).1 1 1 3 (by decide) (by decide) rfl rfl⟩

theorem findPair_some {α : Type} [DecidableEq α] (xPoints yPoints : List α) (x y : α) (k : Nat)
    (h : findPair xPoints yPoints x y = some k) :
    xPoints[k]? = some x ∧ yPoints[k]? = some y ∧
      ∀ k', k' < k → ¬ (xPoints[k']? = some x ∧ yPoints[k']? = some y) := by
  unfold findPair at h
  have h1 := List.find?_some h
  simp only [Bool.and_eq_true, decide_eq_true_eq] at h1
  refine ⟨h1.1, h1.2, ?_⟩
  intro k' hk' hc
  rw [List.find?_range_eq_some] at h
  have := h.2.2 k' hk'
  simp [hc.1, hc.2] at this

theorem findPair_none {α : Type} [DecidableEq α] (xPoints yPoints : List α) (x y : α)
    (h : findPair xPoints yPoints x y = none) (k : Nat) :
    ¬ (xPoints[k]? = some x ∧ yPoints[k]? = some y) := by
  unfold findPair at h
  rw [List.find?_eq_none] at h
  intro hc
  have hk : k < xPoints.length := (List.getElem?_eq_some_iff.1 hc.1).1
  have := h k (List.mem_range.2 hk)
  simp [hc.1, hc.2] at this

theorem findPair_first {α : Type} [DecidableEq α] (xPoints yPoints : List α) (x y : α) (k : Nat)
    (hk : xPoints[k]? = some x ∧ yPoints[k]? = some y)
    (hfirst : ∀ k', k' < k → ¬ (xPoints[k']? = some x ∧ yPoints[k']? = some y)) :
    findPair xPoints yPoints x y = some k := by
  cases h : findPair xPoints yPoints x y with
  | none => exact absurd hk (findPair_none _ _ _ _ h k)
  | some k0 =>
    obtain ⟨a, b, c⟩ := findPair_some _ _ _ _ _ h
    rcases Nat.lt_trichotomy k0 k with hlt | heq | hgt
    · exact absurd ⟨a, b⟩ (hfirst k0 hlt)
    · rw [heq]
    · exact absurd hk (c k hgt)

theorem cellAt_init {α : Type} (X Y : List α) (i j : Nat) (hi : i < X.length) (hj : j < Y.length) :
    cellAt (X.map (fun _ => Y.map (fun _ => JSVal.num .nan))) i j = some (JSVal.num .nan) := by
  simp [cellAt, hi, hj]

theorem nodup_unique {α : Type} [LinearOrder α] (xs : List α) :
    (sortAscending (distinctValues xs)).Nodup :=
  nodup_sortAscending _ (nodup_distinctValues xs)

theorem mem_unique {α : Type} [LinearOrder α] (xs : List α) (v : α) :
    v ∈ sortAscending (distinctValues xs) ↔ v ∈ xs := by
  rw [mem_sortAscending, mem_distinctValues]

/-- In the branch for records that are not three-dimensional, the cell of `(x, y)` holds
the z of the first sample with that pair, or `NaN` when there is none. -/
theorem getZMatrix_notThree_cell {α : Type} [LinearOrder α] (eq : Equation)
    (xPoints yPoints : List α) (zPoints : List JSVal)
    (hdim : (mapGet eq.equationDict "graphical_dimensionality").isThree = false)
    (x y : α) (hx : x ∈ xPoints) (hy : y ∈ yPoints) :
    cellAt (getZMatrix eq xPoints yPoints zPoints)
        ((sortAscending (distinctValues xPoints)).indexOf x)
        ((sortAscending (distinctValues yPoints)).indexOf y) =
      match findPair xPoints yPoints x y with
      | some k => some (zAt zPoints k)
      | none => some (JSVal.num .nan) := by
  have hx' := (mem_unique xPoints x).2 hx
  have hy' := (mem_unique yPoints y).2 hy
  have hi := List.indexOf_lt_length.2 hx'
  have hj := List.indexOf_lt_length.2 hy'
  rw [getZMatrix_eq_fillAll]
  rw [fillAll_notThree _ xPoints yPoints zPoints _ _ _ _ _ _ hdim hi hj _ _
    (nodup_addresses _ _ (nodup_unique xPoints) (nodup_unique yPoints)) (hasShape_init _ _)
    (x, y) ((mem_pairs _ _ _).2 ⟨hx', hy'⟩) rfl rfl]
  cases findPair xPoints yPoints x y with
  | some k => rfl
  | none => exact cellAt_init _ _ _ _ hi hj

theorem getZMatrix_shape {α : Type} [LinearOrder α] (eq : Equation)
    (xPoints yPoints : List α) (zPoints : List JSVal) :
    HasShape (getZMatrix eq xPoints yPoints zPoints)
      (sortAscending (distinctValues xPoints)).length
      (sortAscending (distinctValues yPoints)).length := by
  rw [getZMatrix_eq_fillAll]
  exact fillAll_shape _ _ _ _ _ _ _ _ _ _ (hasShape_init _ _)

theorem isThree_eq_false_of_ne (v : JSVal) (h : v ≠ .num (.fin 3)) : v.isThree = false := by
  cases v with
  | num x =>
    cases x with
    | fin q =>
      by_cases hq : q = 3
      · exact absurd (by rw [hq]) h
      · simp [JSVal.isThree, hq]
    | _ => rfl
  | _ => rfl

/-- C20: for a record that is not three-dimensional and parallel arrays with pairwise
distinct `(x, y)` pairs, `getZMatrix` returns a rectangular matrix with one row per
distinct x value in ascending order and one column per distinct y value in ascending
order; the cell of sample `k` holds `z_k`, and a cell whose pair matches no sample is
`NaN`. -/
theorem getZMatrix_planar_grid {α : Type} [LinearOrder α] (eq : Equation)
    (xPoints yPoints : List α) (zPoints : List JSVal)
    (hdim : mapGet eq.equationDict "graphical_dimensionality" ≠ .num (.fin 3))
    (hdistinct : (xPoints.zip yPoints).Nodup) :
    ∃ uniqueX uniqueY : List α,
      uniqueX.Sorted (fun a b => a < b) ∧ (∀ v, v ∈ uniqueX ↔ v ∈ xPoints) ∧
      uniqueY.Sorted (fun a b => a < b) ∧ (∀ v, v ∈ uniqueY ↔ v ∈ yPoints) ∧
      (getZMatrix eq xPoints yPoints zPoints).length = uniqueX.length ∧
      (∀ row ∈ getZMatrix eq xPoints yPoints zPoints, row.length = uniqueY.length) ∧
      (∀ (k : Nat) (x y : α) (z : JSVal),
        xPoints[k]? = some x → yPoints[k]? = some y → zPoints[k]? = some z →
        cellAt (getZMatrix eq xPoints yPoints zPoints) (uniqueX.indexOf x) (uniqueY.indexOf y) =
          some z) ∧
      (∀ (i j : Nat) (x y : α), uniqueX[i]? = some x → uniqueY[j]? = some y →
        (∀ k : Nat, ¬ (xPoints[k]? = some x ∧ yPoints[k]? = some y)) →
        cellAt (getZMatrix eq xPoints yPoints zPoints) i j = some (JSVal.num .nan)) := by
  have hd := isThree_eq_false_of_ne _ hdim
  refine ⟨sortAscending (distinctValues xPoints), sortAscending (distinctValues yPoints),
    sorted_sortAscending _ (nodup_distinctValues _), mem_unique xPoints,
    sorted_sortAscending _ (nodup_distinctValues _), mem_unique yPoints,
    (getZMatrix_shape eq xPoints yPoints zPoints).1,
    (getZMatrix_shape eq xPoints yPoints zPoints).2, ?_, ?_⟩
  · intro k x y z hx hy hz
    rw [getZMatrix_notThree_cell eq xPoints yPoints zPoints hd x y
      (List.getElem?_mem hx) (List.getElem?_mem hy)]
    cases h : findPair xPoints yPoints x y with
    | none => exact absurd ⟨hx, hy⟩ (findPair_none _ _ _ _ h k)
    | some k' =>
      obtain ⟨a, b, _⟩ := findPair_some _ _ _ _ _ h
      have e1 : (xPoints.zip yPoints)[k']? = some (x, y) := List.getElem?_zip_eq_some.2 ⟨a, b⟩
      have e2 : (xPoints.zip yPoints)[k]? = some (x, y) := List.getElem?_zip_eq_some.2 ⟨hx, hy⟩
      have hk' : k' < (xPoints.zip yPoints).length := (List.getElem?_eq_some_iff.1 e1).1
      have : k' = k := List.getElem?_inj hk' hdistinct (e1.trans e2.symm)
      subst this
      simp only [zAt]
      rw [List.getD_eq_getElem?_getD, hz]
      rfl
  · intro i j x y hx hy hnone
    have hi := (List.getElem?_eq_some_iff.1 hx).1
    have hj := (List.getElem?_eq_some_iff.1 hy).1
    have ex : (sortAscending (distinctValues xPoints)).indexOf x = i := by
      have := List.indexOf_getElem (nodup_unique xPoints) i hi
      rwa [(List.getElem?_eq_some_iff.1 hx).2] at this
    have ey : (sortAscending (distinctValues yPoints)).indexOf y = j := by
      have := List.indexOf_getElem (nodup_unique yPoints) j hj
      rwa [(List.getElem?_eq_some_iff.1 hy).2] at this
    have := getZMatrix_notThree_cell eq xPoints yPoints zPoints hd x y
      ((mem_unique xPoints x).1 (List.getElem?_mem hx))
      ((mem_unique yPoints y).1 (List.getElem?_mem hy))
    rw [ex, ey] at this
    rw [this]
    cases h : findPair xPoints yPoints x y with
    | none => rfl
    | some k' =>
      obtain ⟨a, b, _⟩ := findPair_some _ _ _ _ _ h
      exact absurd ⟨a, b⟩ (hnone k')

theorem getZMatrix_planar_grid_witness :
    mapGet planarRecord.equationDict "graphical_dimensionality" ≠ .num (.fin 3) ∧
    ([(1 : ℕ), 2, 1].zip [(10 : ℕ), 10, 20]).Nodup ∧
    ∃ uniqueX uniqueY : List ℕ,
      (getZMatrix planarRecord [(1 : ℕ), 2, 1] [(10 : ℕ), 10, 20]
        [jsNum 5, jsNum 6, jsNum 7]).length = uniqueX.length ∧
      cellAt (getZMatrix planarRecord [(1 : ℕ), 2, 1] [(10 : ℕ), 10, 20]
        [jsNum 5, jsNum 6, jsNum 7]) (uniqueX.indexOf 2) (uniqueY.indexOf 10) = some (jsNum 6) :=
  ⟨by simp [planarRecord, mapGet], by decide,
    (getZMatrix_planar_grid planarRecord [(1 : ℕ), 2, 1] [(10 : ℕ), 10, 20]
      [jsNum 5, jsNum 6, jsNum 7] (by simp [planarRecord, mapGet]) (by decide)).imp
      (fun _ h => h.imp (fun _ h' => ⟨h'.2.2.2.2.1, h'.2.2.2.2.2.2.1 1 2 10 (jsNum 6) rfl rfl rfl⟩))⟩

/-- The cell of a pair shared by entries 0 and 1 holds the z of entry 0, not of entry 1. -/
theorem getZMatrix_last_write_counterexample :
    [(1 : ℕ), 1][0]? = [(1 : ℕ), 1][1]? ∧ [(10 : ℕ), 10][0]? = [(10 : ℕ), 10][1]? ∧
    cellAt (getZMatrix planarRecord [(1 : ℕ), 1] [(10 : ℕ), 10] [jsNum 5, jsNum 6]) 0 0 =
      [jsNum 5, jsNum 6][0]? ∧
    cellAt (getZMatrix planarRecord [(1 : ℕ), 1] [(10 : ℕ), 10] [jsNum 5, jsNum 6]) 0 0 ≠
      [jsNum 5, jsNum 6][1]? := by
  refine ⟨rfl, rfl, rfl, ?_⟩
  have h : cellAt (getZMatrix planarRecord [(1 : ℕ), 1] [(10 : ℕ), 10] [jsNum 5, jsNum 6]) 0 0 =
      some (jsNum 5) := rfl
  rw [h]
  simp [jsNum]

/-- C19 (amended): for a record that is not three-dimensional, when entries `k1 < k2`
share the pair `(x, y)` and `k1` is the first entry with that pair, the cell of the pair
holds `zPoints[k1]`: the first match wins. -/
theorem getZMatrix_first_match_wins {α : Type} [LinearOrder α] (eq : Equation)
    (xPoints yPoints : List α) (zPoints : List JSVal)
    (hdim : mapGet eq.equationDict "graphical_dimensionality" ≠ .num (.fin 3))
    (k1 k2 : Nat) (x y : α) (_h12 : k1 < k2)
    (h1 : xPoints[k1]? = some x ∧ yPoints[k1]? = some y)
    (_h2 : xPoints[k2]? = some x ∧ yPoints[k2]? = some y)
    (hfirst : ∀ k, k < k1 → ¬ (xPoints[k]? = some x ∧ yPoints[k]? = some y)) :
    cellAt (getZMatrix eq xPoints yPoints zPoints)
        ((sortAscending (distinctValues xPoints)).indexOf x)
        ((sortAscending (distinctValues yPoints)).indexOf y) = some (zAt zPoints k1) := by
  rw [getZMatrix_notThree_cell eq xPoints yPoints zPoints (isThree_eq_false_of_ne _ hdim) x y
    (List.getElem?_mem h1.1) (List.getElem?_mem h1.2),
    findPair_first xPoints yPoints x y k1 h1 hfirst]

theorem getZMatrix_first_match_wins_witness :
    mapGet planarRecord.equationDict "graphical_dimensionality" ≠ .num (.fin 3) ∧
    cellAt (getZMatrix planarRecord [(1 : ℕ), 1] [(10 : ℕ), 10] [jsNum 5, jsNum 6])
        ((sortAscending (distinctValues [(1 : ℕ), 1])).indexOf 1)
        ((sortAscending (distinctValues [(10 : ℕ), 10])).indexOf 10) =
      some (zAt [jsNum 5, jsNum 6] 0) :=
  ⟨by simp [planarRecord, mapGet],
    getZMatrix_first_match_wins planarRecord [(1 : ℕ), 1] [(10 : ℕ), 10] [jsNum 5, jsNum 6]
      (by simp [planarRecord, mapGet]) 0 1 1 10 (by decide) ⟨rfl, rfl⟩ ⟨rfl, rfl⟩
      (fun k hk => absurd hk (Nat.not_lt_zero k))⟩

theorem isNumber_iff (v : JSVal) : v.isNumber = true ↔ ∃ x : JSNum, v = .num x := by
  cases v <;> simp [JSVal.isNumber]

theorem isNumberOrNull_iff (v : JSVal) : (v.isNumber || v.isNull) = true ↔ IsNumberOrNull v := by
  cases v <;> simp [JSVal.isNumber, JSVal.isNull, IsNumberOrNull]

theorem everySlot_some (test : JSVal → Bool) (items : List JSVal) :
    everySlot test (items.map some) = items.all test := by
  induction items with
  | nil => rfl
  | cons a items ih =>
    simp only [everySlot, List.map_cons, List.all_cons] at ih ⊢
    rw [ih]

theorem arraySlots_of_not_sparse (v : JSVal) (h : ∀ slots, v ≠ .sparse slots)
    (slots : List (Option JSVal)) :
    v.arraySlots = some slots ↔ ∃ items, v = .arr items ∧ slots = items.map some := by
  cases v with
  | arr items =>
    simp only [JSVal.arraySlots, Option.some.injEq, JSVal.arr.injEq]
    constructor
    · intro e; exact ⟨items, rfl, e.symm⟩
    · rintro ⟨items', rfl, e⟩; exact e.symm
  | sparse slots' => exact absurd rfl (h slots')
  | _ => simp [JSVal.arraySlots]

theorem isNumberPair_iff (v : JSVal) (h : ∀ slots, v ≠ .sparse slots) :
    IsNumberPair v ↔
      ∃ slots, v.arraySlots = some slots ∧ slots.length = 2 ∧
        everySlot JSVal.isNumber slots = true := by
  constructor
  · rintro ⟨a, b, rfl⟩
    exact ⟨_, rfl, rfl, by simp [everySlot, JSVal.isNumber]⟩
  · rintro ⟨slots, h1, h2, h3⟩
    obtain ⟨items, rfl, rfl⟩ := (arraySlots_of_not_sparse v h slots).1 h1
    rw [everySlot_some] at h3
    rw [List.length_map] at h2
    obtain ⟨a, b, rfl⟩ := List.length_eq_two.1 h2
    simp only [List.all_cons, List.all_nil, Bool.and_true, Bool.and_eq_true, isNumber_iff] at h3
    obtain ⟨⟨x, rfl⟩, ⟨y, rfl⟩⟩ := h3
    exact ⟨x, y, rfl⟩

theorem isLimitPair_iff (v : JSVal) (h : ∀ slots, v ≠ .sparse slots) :
    IsLimitPair v ↔
      ∃ slots, v.arraySlots = some slots ∧ slots.length = 2 ∧
        everySlot (fun i => i.isNumber || i.isNull) slots = true := by
  constructor
  · rintro ⟨a, b, rfl, ha, hb⟩
    refine ⟨_, rfl, rfl, ?_⟩
    rw [everySlot_some]
    simp only [List.all_cons, List.all_nil, Bool.and_true, Bool.and_eq_true, isNumberOrNull_iff]
    exact ⟨ha, hb⟩
  · rintro ⟨slots, h1, h2, h3⟩
    obtain ⟨items, rfl, rfl⟩ := (arraySlots_of_not_sparse v h slots).1 h1
    rw [everySlot_some] at h3
    rw [List.length_map] at h2
    obtain ⟨a, b, rfl⟩ := List.length_eq_two.1 h2
    simp only [List.all_cons, List.all_nil, Bool.and_true, Bool.and_eq_true,
      isNumberOrNull_iff] at h3
    exact ⟨a, b, rfl, h3.1, h3.2⟩

theorem shapeCheck_iff (n : Nat) (b : Bool) : (n != 2 || !b) = true ↔ ¬ (n = 2 ∧ b = true) := by
  cases b <;> simp

/-- What `setRangeDefault` does, for any key and message: it stores an array of two slots
in which `every` finds numbers only, and throws otherwise. -/
theorem setRangeDefault_slots (key message : String) (eq : Equation) (v : JSVal) :
    ((∃ slots, v.arraySlots = some slots ∧ slots.length = 2 ∧
        everySlot JSVal.isNumber slots = true) →
      setRangeDefault key message eq v = ⟨.ok (), ⟨mapSet eq.equationDict key v⟩⟩) ∧
    (¬ (∃ slots, v.arraySlots = some slots ∧ slots.length = 2 ∧
        everySlot JSVal.isNumber slots = true) →
      setRangeDefault key message eq v = ⟨.error (.error message), eq⟩) := by
  cases h : v.arraySlots with
  | none =>
    refine ⟨fun hp => ?_, fun _ => ?_⟩
    · obtain ⟨_, hp, _⟩ := hp
      exact absurd hp (by simp)
    · simp only [setRangeDefault, h]
  | some slots =>
    have hdef : setRangeDefault key message eq v =
        if (slots.length != 2 || !everySlot JSVal.isNumber slots) = true then
          ⟨.error (.error message), eq⟩
        else ⟨.ok (), ⟨mapSet eq.equationDict key v⟩⟩ := by
      simp only [setRangeDefault, h]
    rw [hdef]
    by_cases hc : (slots.length != 2 || !everySlot JSVal.isNumber slots) = true
    · rw [if_pos hc]
      rw [shapeCheck_iff] at hc
      refine ⟨fun hp => ?_, fun _ => rfl⟩
      obtain ⟨slots', e, h2, h3⟩ := hp
      cases e
      exact absurd ⟨h2, h3⟩ hc
    · rw [if_neg hc]
      rw [shapeCheck_iff, not_not] at hc
      refine ⟨fun _ => rfl, fun hp => ?_⟩
      exact absurd ⟨slots, rfl, hc.1, hc.2⟩ hp

/-- What `setRangeDefault` does with an argument that is not an array with holes. -/
theorem setRangeDefault_spec (key message : String) (eq : Equation) (v : JSVal)
    (hv : ∀ slots, v ≠ .sparse slots) :
    (IsNumberPair v →
      setRangeDefault key message eq v = ⟨.ok (), ⟨mapSet eq.equationDict key v⟩⟩) ∧
    (¬ IsNumberPair v →
      setRangeDefault key message eq v = ⟨.error (.error message), eq⟩) := by
  rw [isNumberPair_iff v hv]
  exact setRangeDefault_slots key message eq v

/-- What `setRangeLimits` does, for any key and messages: it stores an array of two slots
in which `every` finds numbers and `null` only, and throws otherwise. -/
theorem setRangeLimits_slots (key m1 m2 : String) (eq : Equation) (v : JSVal) :
    ((∃ slots, v.arraySlots = some slots ∧ slots.length = 2 ∧
        everySlot (fun i => i.isNumber || i.isNull) slots = true) →
      setRangeLimits key m1 m2 eq v = ⟨.ok (), ⟨mapSet eq.equationDict key v⟩⟩) ∧
    (¬ (∃ slots, v.arraySlots = some slots ∧ slots.length = 2 ∧
        everySlot (fun i => i.isNumber || i.isNull) slots = true) →
      ∃ e, setRangeLimits key m1 m2 eq v = ⟨.error e, eq⟩) := by
  cases h : v.arraySlots with
  | none =>
    refine ⟨fun hp => ?_, fun _ => ⟨.error m1, by simp only [setRangeLimits, h]⟩⟩
    obtain ⟨_, hp, _⟩ := hp
    exact absurd hp (by simp)
  | some slots =>
    have hdef : setRangeLimits key m1 m2 eq v =
        if (slots.length != 2) = true then ⟨.error (.error m1), eq⟩
        else if (!everySlot (fun i => i.isNumber || i.isNull) slots) = true then
          ⟨.error (.error m2), eq⟩
        else ⟨.ok (), ⟨mapSet eq.equationDict key v⟩⟩ := by
      simp only [setRangeLimits, h]
    rw [hdef]
    by_cases h2 : slots.length = 2
    · have hc2 : ¬ (slots.length != 2) = true := by simp [h2]
      rw [if_neg hc2]
      by_cases h3 : everySlot (fun i => i.isNumber || i.isNull) slots = true
      · have hc3 : ¬ (!everySlot (fun i => i.isNumber || i.isNull) slots) = true := by
          simp [h3]
        rw [if_neg hc3]
        exact ⟨fun _ => rfl, fun hp => absurd ⟨slots, rfl, h2, h3⟩ hp⟩
      · have hc3 : (!everySlot (fun i => i.isNumber || i.isNull) slots) = true := by
          simpa using h3
        rw [if_pos hc3]
        refine ⟨fun hp => ?_, fun _ => ⟨_, rfl⟩⟩
        obtain ⟨slots', e, _, h3'⟩ := hp
        cases e
        exact absurd h3' h3
    · have hc2 : (slots.length != 2) = true := by simpa using h2
      rw [if_pos hc2]
      refine ⟨fun hp => ?_, fun _ => ⟨_, rfl⟩⟩
      obtain ⟨slots', e, h2', _⟩ := hp
      cases e
      exact absurd h2' h2

/-- What `setRangeLimits` does with an argument that is not an array with holes. -/
theorem setRangeLimits_spec (key m1 m2 : String) (eq : Equation) (v : JSVal)
    (hv : ∀ slots, v ≠ .sparse slots) :
    (IsLimitPair v →
      setRangeLimits key m1 m2 eq v = ⟨.ok (), ⟨mapSet eq.equationDict key v⟩⟩) ∧
    (¬ IsLimitPair v →
      ∃ e, setRangeLimits key m1 m2 eq v = ⟨.error e, eq⟩) := by
  rw [isLimitPair_iff v hv]
  exact setRangeLimits_slots key m1 m2 eq v

theorem isPositiveInteger_iff (v : JSVal) :
    IsPositiveInteger v ↔ (v.isInteger = true ∧ v.leZero = false) := by
  constructor
  · rintro ⟨n, hn, rfl⟩
    have h1 : ¬ ((n : ℚ) ≤ 0) := by
      exact_mod_cast not_le.2 hn
    simp [jsNum, JSVal.isInteger, JSVal.leZero, JSNum.leZero, h1]
  · rintro ⟨h1, h2⟩
    cases v with
    | num x =>
      cases x with
      | fin q =>
        simp only [JSVal.isInteger, decide_eq_true_eq] at h1
        simp only [JSVal.leZero, JSNum.leZero, decide_eq_false_iff_not, not_le] at h2
        refine ⟨q.num, ?_, ?_⟩
        · exact Rat.num_pos.2 h2
        · rw [jsNum, Rat.coe_int_num_of_den_eq_one h1]
      | nan => simp [JSVal.isInteger] at h1
      | posInf => simp [JSVal.isInteger] at h1
      | negInf => simp [JSVal.isInteger] at h1
    | _ => simp [JSVal.isInteger] at h1

theorem setNumOfPoints_spec (eq : Equation) (v : JSVal) :
    (IsPositiveInteger v →
      setNumOfPoints eq v = ⟨.ok (), ⟨mapSet eq.equationDict "num_of_points" v⟩⟩) ∧
    (¬ IsPositiveInteger v →
      setNumOfPoints eq v =
        ⟨.error (.error "Number of points must be a positive integer."), eq⟩) := by
  rw [isPositiveInteger_iff]
  unfold setNumOfPoints
  cases h1 : v.isInteger <;> cases h2 : v.leZero <;> simp

theorem jsNum_injective (a b : ℚ) (h : jsNum a = jsNum b) : a = b := by
  simpa [jsNum] using h

theorem not_isPositiveInteger_half : ¬ IsPositiveInteger (jsNum (5 / 2)) := by
  rintro ⟨n, _, h⟩
  have h1 : (5 / 2 : ℚ) = n := jsNum_injective _ _ h
  have h2 : (5 : ℚ) = 2 * n := by linarith
  have h3 : (5 : ℤ) = 2 * n := by exact_mod_cast h2
  omega

/-- On an argument that is not an array with holes, each of `setXRangeDefault`,
`setYRangeDefault` and `setZRangeDefault` stores the argument in its `*_range_default`
field exactly when it is an array of exactly two numbers, and otherwise throws and leaves
the whole record unchanged. -/
theorem rangeDefault_setters_without_holes (eq : Equation) (v : JSVal)
    (hv : ∀ slots, v ≠ .sparse slots) :
    (IsNumberPair v →
      setXRangeDefault eq v = ⟨.ok (), ⟨mapSet eq.equationDict "x_range_default" v⟩⟩ ∧
      setYRangeDefault eq v = ⟨.ok (), ⟨mapSet eq.equationDict "y_range_default" v⟩⟩ ∧
      setZRangeDefault eq v = ⟨.ok (), ⟨mapSet eq.equationDict "z_range_default" v⟩⟩) ∧
    (¬ IsNumberPair v →
      (∃ e, setXRangeDefault eq v = ⟨.error e, eq⟩) ∧
      (∃ e, setYRangeDefault eq v = ⟨.error e, eq⟩) ∧
      (∃ e, setZRangeDefault eq v = ⟨.error e, eq⟩)) :=
  ⟨fun h => ⟨(setRangeDefault_spec _ _ eq v hv).1 h, (setRangeDefault_spec _ _ eq v hv).1 h,
      (setRangeDefault_spec _ _ eq v hv).1 h⟩,
    fun h => ⟨⟨_, (setRangeDefault_spec _ _ eq v hv).2 h⟩,
      ⟨_, (setRangeDefault_spec _ _ eq v hv).2 h⟩,
      ⟨_, (setRangeDefault_spec _ _ eq v hv).2 h⟩⟩⟩

/-- C14 (what the code does): the array `[1, ,]`, of length two with a hole in its second
slot, is not an array of two numbers, yet each of `setXRangeDefault`, `setYRangeDefault`
and `setZRangeDefault` stores it without throwing, because `every` does not call its test
for a hole; the same happens with `new Array(2)`, which holds no number at all.  The
dense array `[1]` is rejected with the record unchanged. -/
theorem rangeDefault_setters_store_holed (eq : Equation) :
    ¬ IsNumberPair (.sparse [some (jsNum 1), none]) ∧
    setXRangeDefault eq (.sparse [some (jsNum 1), none]) =
      ⟨.ok (), ⟨mapSet eq.equationDict "x_range_default" (.sparse [some (jsNum 1), none])⟩⟩ ∧
    setYRangeDefault eq (.sparse [some (jsNum 1), none]) =
      ⟨.ok (), ⟨mapSet eq.equationDict "y_range_default" (.sparse [some (jsNum 1), none])⟩⟩ ∧
    setZRangeDefault eq (.sparse [some (jsNum 1), none]) =
      ⟨.ok (), ⟨mapSet eq.equationDict "z_range_default" (.sparse [some (jsNum 1), none])⟩⟩ ∧
    setXRangeDefault eq (.sparse [none, none]) =
      ⟨.ok (), ⟨mapSet eq.equationDict "x_range_default" (.sparse [none, none])⟩⟩ ∧
    setXRangeDefault eq (.arr [jsNum 1]) =
      ⟨.error (.error "x_range must be an array of two numeric values."), eq⟩ :=
  ⟨fun h => (by obtain ⟨a, b, h⟩ := h; cases h),
    rfl, rfl, rfl, rfl, rfl⟩

/-- On an argument that is not an array with holes, each of `setXRangeLimits`,
`setYRangeLimits` and `setZRangeLimits` stores the argument in its `*_range_limits` field
exactly when it is an array of exactly two elements that are each a number or `null` (so
`[null, 500]`, `[100, null]` and `[null, null]` are accepted), and otherwise throws and
leaves the whole record unchanged. -/
theorem rangeLimits_setters_without_holes (eq : Equation) (v : JSVal)
    (hv : ∀ slots, v ≠ .sparse slots) :
    (IsLimitPair v →
      setXRangeLimits eq v = ⟨.ok (), ⟨mapSet eq.equationDict "x_range_limits" v⟩⟩ ∧
      setYRangeLimits eq v = ⟨.ok (), ⟨mapSet eq.equationDict "y_range_limits" v⟩⟩ ∧
      setZRangeLimits eq v = ⟨.ok (), ⟨mapSet eq.equationDict "z_range_limits" v⟩⟩) ∧
    (¬ IsLimitPair v →
      (∃ e, setXRangeLimits eq v = ⟨.error e, eq⟩) ∧
      (∃ e, setYRangeLimits eq v = ⟨.error e, eq⟩) ∧
      (∃ e, setZRangeLimits eq v = ⟨.error e, eq⟩)) ∧
    IsLimitPair (.arr [.null, jsNum 500]) ∧ IsLimitPair (.arr [jsNum 100, .null]) ∧
    IsLimitPair (.arr [.null, .null]) :=
  ⟨fun h => ⟨(setRangeLimits_spec _ _ _ eq v hv).1 h, (setRangeLimits_spec _ _ _ eq v hv).1 h,
      (setRangeLimits_spec _ _ _ eq v hv).1 h⟩,
    fun h => ⟨(setRangeLimits_spec _ _ _ eq v hv).2 h, (setRangeLimits_spec _ _ _ eq v hv).2 h,
      (setRangeLimits_spec _ _ _ eq v hv).2 h⟩,
    ⟨_, _, rfl, Or.inr rfl, Or.inl ⟨_, rfl⟩⟩, ⟨_, _, rfl, Or.inl ⟨_, rfl⟩, Or.inr rfl⟩,
    ⟨_, _, rfl, Or.inr rfl, Or.inr rfl⟩⟩

/-- C15 (what the code does): the array `[100, ,]`, of length two with a hole in its second
slot, is not an array of two elements that are numbers or `null` (the hole reads as
`undefined`), yet each of `setXRangeLimits`, `setYRangeLimits` and `setZRangeLimits`
stores it without throwing, because `every` does not call its test for a hole; the same
happens with `new Array(2)`.  The dense array `[100, undefined]` is rejected with the
record unchanged, and `[null, 500]`, `[100, null]` and `[null, null]` are stored. -/
theorem rangeLimits_setters_store_holed (eq : Equation) :
    ¬ IsLimitPair (.sparse [some (jsNum 100), none]) ∧
    setXRangeLimits eq (.sparse [some (jsNum 100), none]) =
      ⟨.ok (), ⟨mapSet eq.equationDict "x_range_limits" (.sparse [some (jsNum 100), none])⟩⟩ ∧
    setYRangeLimits eq (.sparse [some (jsNum 100), none]) =
      ⟨.ok (), ⟨mapSet eq.equationDict "y_range_limits" (.sparse [some (jsNum 100), none])⟩⟩ ∧
    setZRangeLimits eq (.sparse [some (jsNum 100), none]) =
      ⟨.ok (), ⟨mapSet eq.equationDict "z_range_limits" (.sparse [some (jsNum 100), none])⟩⟩ ∧
    setXRangeLimits eq (.sparse [none, none]) =
      ⟨.ok (), ⟨mapSet eq.equationDict "x_range_limits" (.sparse [none, none])⟩⟩ ∧
    setXRangeLimits eq (.arr [jsNum 100, .undefined]) =
      ⟨.error (.error "Elements in x_limits must be numeric or null."), eq⟩ ∧
    setXRangeLimits eq (.arr [.null, jsNum 500]) =
      ⟨.ok (), ⟨mapSet eq.equationDict "x_range_limits" (.arr [.null, jsNum 500])⟩⟩ ∧
    setXRangeLimits eq (.arr [jsNum 100, .null]) =
      ⟨.ok (), ⟨mapSet eq.equationDict "x_range_limits" (.arr [jsNum 100, .null])⟩⟩ ∧
    setXRangeLimits eq (.arr [.null, .null]) =
      ⟨.ok (), ⟨mapSet eq.equationDict "x_range_limits" (.arr [.null, .null])⟩⟩ :=
  ⟨fun h => (by obtain ⟨a, b, h, _⟩ := h; cases h),
    rfl, rfl, rfl, rfl, rfl, rfl, rfl, rfl⟩

/-- C16: `setNumOfPoints(n)` sets `num_of_points` to `n` exactly when `n` is an integer
greater than 0; for zero, negative numbers, non-integers and non-numbers it throws and
leaves the record unchanged. -/
theorem setNumOfPoints_sets_iff_positive_integer (eq : Equation) (v : JSVal) :
    (IsPositiveInteger v →
      setNumOfPoints eq v = ⟨.ok (), ⟨mapSet eq.equationDict "num_of_points" v⟩⟩) ∧
    (¬ IsPositiveInteger v → ∃ e, setNumOfPoints eq v = ⟨.error e, eq⟩) ∧
    (∃ e, setNumOfPoints eq (jsNum 0) = ⟨.error e, eq⟩) ∧
    (∃ e, setNumOfPoints eq (jsNum (-3)) = ⟨.error e, eq⟩) ∧
    (∃ e, setNumOfPoints eq (jsNum (5 / 2)) = ⟨.error e, eq⟩) ∧
    (∃ e, setNumOfPoints eq (.str "10".toList) = ⟨.error e, eq⟩) ∧
    (∃ e, setNumOfPoints eq (.num .posInf) = ⟨.error e, eq⟩) :=
  ⟨(setNumOfPoints_spec eq v).1, fun h => ⟨_, (setNumOfPoints_spec eq v).2 h⟩,
    ⟨_, rfl⟩, ⟨_, rfl⟩, ⟨_, (setNumOfPoints_spec eq _).2 not_isPositiveInteger_half⟩,
    ⟨_, rfl⟩, ⟨_, rfl⟩⟩

theorem setNumOfPoints_sets_iff_positive_integer_witness :
    IsPositiveInteger (jsNum 10) ∧ ¬ IsPositiveInteger (jsNum (5 / 2)) ∧
    setNumOfPoints ⟨defaultEquationDict⟩ (jsNum 10) =
      ⟨.ok (), ⟨mapSet defaultEquationDict "num_of_points" (jsNum 10)⟩⟩ ∧
    ∃ e, setNumOfPoints ⟨defaultEquationDict⟩ (jsNum (5 / 2)) = ⟨.error e, ⟨defaultEquationDict⟩⟩ :=
  ⟨⟨10, by decide, by simp⟩, not_isPositiveInteger_half,
    (setNumOfPoints_sets_iff_positive_integer ⟨defaultEquationDict⟩ (jsNum 10)).1
      ⟨10, by decide, by simp⟩,
    (setNumOfPoints_sets_iff_positive_integer ⟨defaultEquationDict⟩ (jsNum (5 / 2))).2.1
      not_isPositiveInteger_half⟩

theorem mapGet_mapSet_same (m : List (String × JSVal)) (k : String) (v : JSVal) :
    mapGet (mapSet m k v) k = v := by
  induction m with
  | nil => simp [mapSet, mapGet]
  | cons p m ih =>
    obtain ⟨k', w⟩ := p
    by_cases h : k' = k
    · simp [mapSet, mapGet, h]
    · simp [mapSet, mapGet, h, ih]

theorem mapGet_mapSet_ne (m : List (String × JSVal)) (k k' : String) (v : JSVal) (h : k ≠ k') :
    mapGet (mapSet m k v) k' = mapGet m k' := by
  induction m with
  | nil => simp [mapSet, mapGet, h]
  | cons p m ih =>
    obtain ⟨k0, w⟩ := p
    by_cases h0 : k0 = k
    · subst h0
      simp [mapSet, mapGet, h]
    · by_cases h1 : k0 = k'
      · subst h1
        simp [mapSet, mapGet, h0]
      · simp [mapSet, mapGet, h0, h1, ih]

theorem mem_mapSet (m : List (String × JSVal)) (k : String) (v : JSVal) (p : String × JSVal)
    (h : p ∈ mapSet m k v) : p ∈ m ∨ p = (k, v) := by
  induction m with
  | nil => right; simpa [mapSet] using h
  | cons q m ih =>
    obtain ⟨k0, w⟩ := q
    by_cases h0 : k0 = k
    · subst h0
      simp only [mapSet, if_true, List.mem_cons] at h
      rcases h with h | h
      · exact Or.inr h
      · exact Or.inl (List.mem_cons_of_mem _ h)
    · simp only [mapSet, h0, if_false, List.mem_cons] at h
      rcases h with h | h
      · exact Or.inl (h ▸ List.mem_cons_self _ _)
      · rcases ih h with h' | h'
        · exact Or.inl (List.mem_cons_of_mem _ h')
        · exact Or.inr h'

theorem setAll_cons (m : List (String × JSVal)) (kv : String × JSVal)
    (rest : List (String × JSVal)) :
    setAll m (kv :: rest) = setAll (mapSet m kv.1 kv.2) rest := rfl

theorem setAll_append (m a b : List (String × JSVal)) :
    setAll m (a ++ b) = setAll (setAll m a) b := by
  simp [setAll, List.foldl_append]

theorem mapGet_setAll_of_not_mem (k : String) :
    ∀ (entries m : List (String × JSVal)), k ∉ entries.map Prod.fst →
      mapGet (setAll m entries) k = mapGet m k := by
  intro entries
  induction entries with
  | nil => intro m _; rfl
  | cons kv rest ih =>
    intro m h
    simp only [List.map_cons, List.mem_cons, not_or] at h
    rw [setAll_cons, ih _ h.2, mapGet_mapSet_ne _ _ _ _ (Ne.symm h.1)]

/-- After setting a list of entries, a key holds the last value given for it. -/
theorem mapGet_setAll_last (m a b : List (String × JSVal)) (k : String) (v : JSVal)
    (h : k ∉ b.map Prod.fst) :
    mapGet (setAll m (a ++ (k, v) :: b)) k = v := by
  rw [setAll_append, setAll_cons, mapGet_setAll_of_not_mem k b _ h, mapGet_mapSet_same]

theorem mapGet_setAll_of_mem (entries : List (String × JSVal)) :
    ∀ (m : List (String × JSVal)), (entries.map Prod.fst).Nodup →
      ∀ kv ∈ entries, mapGet (setAll m entries) kv.1 = kv.2 := by
  induction entries with
  | nil => intro m _ kv h; simp at h
  | cons p rest ih =>
    intro m hnd kv hkv
    rw [List.map_cons, List.nodup_cons] at hnd
    rcases List.mem_cons.mp hkv with rfl | h
    · rw [setAll_cons, mapGet_setAll_of_not_mem _ rest _ hnd.1, mapGet_mapSet_same]
    · rw [setAll_cons]
      exact ih _ hnd.2 kv h

theorem create_map (toNumber : JSVal → JSNum) (m : List (String × JSVal)) :
    Equation.create toNumber (.map m) = .ok ⟨setAll defaultEquationDict m⟩ := by
  cases m with
  | nil => rfl
  | cons kv rest =>
    have h : (JSVal.map (kv :: rest)).size.gtZero toNumber = true := by
      simp only [JSVal.size, jsNum, JSVal.gtZero, JSNum.gtZero, decide_eq_true_eq]
      exact_mod_cast Nat.succ_pos rest.length
    simp only [Equation.create, JSVal.truthy, h, Bool.and_self, if_true]

/-- C17: called with no argument or an empty `Map` the constructor yields exactly the ten
default fields; called with a `Map` `m`, every key of `m` holds the value `m` gives it
and every other key holds what the defaults give it. -/
theorem constructor_merges_field_by_field (toNumber : JSVal → JSNum)
    (m : List (String × JSVal)) (hkeys : (m.map Prod.fst).Nodup) :
    Equation.create toNumber .null = .ok ⟨defaultEquationDict⟩ ∧
    Equation.create toNumber .undefined = .ok ⟨defaultEquationDict⟩ ∧
    Equation.create toNumber (.map []) = .ok ⟨defaultEquationDict⟩ ∧
    defaultEquationDict =
      [("equation_string", .str []), ("x_variable", .str []), ("y_variable", .str []),
       ("constants", .map []), ("num_of_points", .null),
       ("x_range_default", .arr [jsNum 0, jsNum 1]), ("x_range_limits", .arr [.null, .null]),
       ("x_points_specified", .arr []), ("points_spacing", .str []),
       ("reverse_scaling", .bool false)] ∧
    ∃ eq, Equation.create toNumber (.map m) = .ok eq ∧
      (∀ kv ∈ m, mapGet eq.equationDict kv.1 = kv.2) ∧
      (∀ k, k ∉ m.map Prod.fst → mapGet eq.equationDict k = mapGet defaultEquationDict k) :=
  ⟨rfl, rfl, rfl, rfl, _, create_map toNumber m,
    mapGet_setAll_of_mem m defaultEquationDict hkeys,
    fun k hk => mapGet_setAll_of_not_mem k m defaultEquationDict hk⟩

theorem constructor_merges_field_by_field_witness :
    ([("x_variable", JSVal.str "T (K)".toList), ("num_of_points", jsNum 10)].map Prod.fst).Nodup ∧
    ∃ eq, Equation.create (fun _ => .nan)
        (.map [("x_variable", .str "T (K)".toList), ("num_of_points", jsNum 10)]) = .ok eq ∧
      mapGet eq.equationDict "num_of_points" = jsNum 10 ∧
      mapGet eq.equationDict "points_spacing" = .str [] :=
  ⟨by decide,
    (constructor_merges_field_by_field (fun _ => .nan)
      [("x_variable", .str "T (K)".toList), ("num_of_points", jsNum 10)] (by decide)).2.2.2.2.imp
      (fun _ h => ⟨h.1, h.2.1 ("num_of_points", jsNum 10) (by simp),
        (h.2.2 "points_spacing" (by decide)).trans rfl⟩)⟩

/-- C18 (what the code does): a plain object, an array, a string and a number all pass
the constructor, which returns the default record without throwing; only a value with a
positive `size`, such as a non-empty `Set`, reaches the `TypeError`. -/
theorem constructor_accepts_non_map (toNumber : JSVal → JSNum) :
    Equation.create toNumber (.obj [("equation_string", .str "y = x".toList)]) =
      .ok ⟨defaultEquationDict⟩ ∧
    Equation.create toNumber (.arr [jsNum 1, jsNum 2]) = .ok ⟨defaultEquationDict⟩ ∧
    Equation.create toNumber (.str "y = x".toList) = .ok ⟨defaultEquationDict⟩ ∧
    Equation.create toNumber (jsNum 5) = .ok ⟨defaultEquationDict⟩ ∧
    Equation.create toNumber (.set []) = .ok ⟨defaultEquationDict⟩ ∧
    Equation.create toNumber (.set [jsNum 1]) = .error (.typeError "initialDict must be a Map.") :=
  ⟨rfl, rfl, rfl, rfl, rfl, rfl⟩

theorem mapSet_mapSet_same (m : List (String × JSVal)) (k : String) (v w : JSVal) :
    mapSet (mapSet m k v) k w = mapSet m k w := by
  induction m with
  | nil => simp [mapSet]
  | cons p m ih =>
    obtain ⟨k0, u⟩ := p
    by_cases h : k0 = k
    · simp [mapSet, h]
    · simp [mapSet, h, ih]

theorem mapSet_eq_self (m : List (String × JSVal)) (k : String) (v : JSVal)
    (h : mapGet m k = v) (hv : v ≠ .undefined) : mapSet m k v = m := by
  induction m with
  | nil => exact absurd h.symm hv
  | cons p m ih =>
    obtain ⟨k0, u⟩ := p
    by_cases h0 : k0 = k
    · simp only [mapGet, h0, if_true] at h
      simp [mapSet, h0, h]
    · simp only [mapGet, h0, if_false] at h
      simp [mapSet, h0, ih h]

theorem addEntries_cons_ok (toStr : JSVal → List Char) (eq : Equation)
    (cm : List (String × JSVal)) (name : String) (value : JSVal)
    (rest : List (String × JSVal))
    (hcm : mapGet eq.equationDict "constants" = .map cm)
    (hv : validateUnit (value.asString toStr) = .ok ()) :
    addEntries toStr eq ((name, value) :: rest) =
      addEntries toStr
        ⟨mapSet eq.equationDict "constants" (.map (mapSet cm name value))⟩ rest := by
  simp only [addEntries, hv, hcm]

theorem addEntries_cons_invalid (toStr : JSVal → List Char) (eq : Equation)
    (name : String) (value : JSVal) (rest : List (String × JSVal)) (e : JSError)
    (hv : validateUnit (value.asString toStr) = .error e) :
    addEntries toStr eq ((name, value) :: rest) = ⟨.error e, eq⟩ := by
  simp only [addEntries, hv]

/-- Entries that all pass `validateUnit` are all inserted, in order. -/
theorem addEntries_valid (toStr : JSVal → List Char) :
    ∀ (entries : List (String × JSVal)) (eq : Equation) (cm : List (String × JSVal)),
      mapGet eq.equationDict "constants" = .map cm →
      (∀ kv ∈ entries, validateUnit (kv.2.asString toStr) = .ok ()) →
      addEntries toStr eq entries =
        ⟨.ok (), ⟨mapSet eq.equationDict "constants" (.map (setAll cm entries))⟩⟩ := by
  intro entries
  induction entries with
  | nil =>
    intro eq cm hcm _
    have := mapSet_eq_self eq.equationDict "constants" (.map cm) hcm (by simp)
    simp only [setAll, List.foldl_nil, this]
    rfl
  | cons kv rest ih =>
    intro eq cm hcm hvalid
    obtain ⟨name, value⟩ := kv
    rw [addEntries_cons_ok toStr eq cm name value rest hcm
      (hvalid (name, value) (List.mem_cons_self _ _))]
    rw [ih _ (mapSet cm name value) (mapGet_mapSet_same _ _ _)
      (fun kv h => hvalid kv (List.mem_cons_of_mem _ h))]
    simp only [mapSet_mapSet_same, setAll_cons]

/-- Running the entry loop over a concatenation: the second part runs only if the first
part did not throw. -/
theorem addEntries_append (toStr : JSVal → List Char) (b : List (String × JSVal)) :
    ∀ (a : List (String × JSVal)) (eq : Equation),
      addEntries toStr eq (a ++ b) =
        match addEntries toStr eq a with
        | ⟨.ok _, eq'⟩ => addEntries toStr eq' b
        | failed => failed := by
  intro a
  induction a with
  | nil => intro eq; rfl
  | cons kv rest ih =>
    intro eq
    obtain ⟨name, value⟩ := kv
    simp only [List.cons_append, addEntries]
    cases validateUnit (value.asString toStr) with
    | error e => rfl
    | ok u =>
      simp only
      cases mapGet eq.equationDict "constants" with
      | map cm => exact ih _
      | _ => rfl

theorem addMaps_eq_addEntries (toStr : JSVal → List Char) :
    ∀ (maps : List (List (String × JSVal))) (eq : Equation),
      addMaps toStr eq (maps.map JSVal.map) = addEntries toStr eq maps.flatten := by
  intro maps
  induction maps with
  | nil => intro eq; rfl
  | cons m rest ih =>
    intro eq
    simp only [List.map_cons, List.flatten_cons, addMaps, addEntries_append]
    cases h : addEntries toStr eq m with
    | mk result st =>
      cases result with
      | ok u => exact ih st
      | error e => rfl

theorem addEachMap_valid (toStr : JSVal → List Char) :
    ∀ (maps : List (List (String × JSVal))) (eq : Equation) (cm : List (String × JSVal)),
      mapGet eq.equationDict "constants" = .map cm →
      (∀ kv ∈ maps.flatten, validateUnit (kv.2.asString toStr) = .ok ()) →
      maps.foldl (fun e m => (addConstants toStr e (.map m)).state) eq =
        ⟨mapSet eq.equationDict "constants" (.map (setAll cm maps.flatten))⟩ := by
  intro maps
  induction maps with
  | nil =>
    intro eq cm hcm _
    have := mapSet_eq_self eq.equationDict "constants" (.map cm) hcm (by simp)
    simp only [List.flatten_nil, setAll, List.foldl_nil, this]
  | cons m rest ih =>
    intro eq cm hcm hvalid
    have hm : ∀ kv ∈ m, validateUnit (kv.2.asString toStr) = .ok () :=
      fun kv h => hvalid kv (by simp [h])
    have hrest : ∀ kv ∈ rest.flatten, validateUnit (kv.2.asString toStr) = .ok () :=
      fun kv h => hvalid kv (by rw [List.flatten_cons]; exact List.mem_append_right _ h)
    have e1 : (addConstants toStr eq (.map m)).state =
        ⟨mapSet eq.equationDict "constants" (.map (setAll cm m))⟩ := by
      show (addEntries toStr eq m).state = _
      rw [addEntries_valid toStr m eq cm hcm hm]
    rw [List.foldl_cons, e1]
    rw [ih _ (setAll cm m) (mapGet_mapSet_same _ _ _) hrest]
    simp only [mapSet_mapSet_same, List.flatten_cons, setAll_append]

/-- C11: when some value fails `validateUnit`, `addConstants` throws and the constants
mapping afterwards is the mapping before the call updated with exactly the entries that
precede the first invalid entry in iteration order, for one `Map` and for a sequence of
`Map`s alike. -/
theorem addConstants_partial_commit (toStr : JSVal → List Char) (eq : Equation)
    (cm pre post : List (String × JSVal)) (name : String) (bad : JSVal)
    (hcm : mapGet eq.equationDict "constants" = .map cm)
    (hpre : ∀ kv ∈ pre, validateUnit (kv.2.asString toStr) = .ok ())
    (hbad : validateUnit (bad.asString toStr) ≠ .ok ()) :
    (∃ e, addConstants toStr eq (.map (pre ++ (name, bad) :: post)) =
      ⟨.error e, ⟨mapSet eq.equationDict "constants" (.map (setAll cm pre))⟩⟩) ∧
    (∀ maps : List (List (String × JSVal)), maps.flatten = pre ++ (name, bad) :: post →
      ∃ e, addConstants toStr eq (.arr (maps.map JSVal.map)) =
        ⟨.error e, ⟨mapSet eq.equationDict "constants" (.map (setAll cm pre))⟩⟩) ∧
    mapGet (mapSet eq.equationDict "constants" (.map (setAll cm pre))) "constants" =
      .map (setAll cm pre) := by
  obtain ⟨e, he⟩ : ∃ e, validateUnit (bad.asString toStr) = .error e := by
    cases h : validateUnit (bad.asString toStr) with
    | error e => exact ⟨e, rfl⟩
    | ok u => exact absurd h hbad
  have key : addEntries toStr eq (pre ++ (name, bad) :: post) =
      ⟨.error e, ⟨mapSet eq.equationDict "constants" (.map (setAll cm pre))⟩⟩ := by
    rw [addEntries_append, addEntries_valid toStr pre eq cm hcm hpre]
    exact addEntries_cons_invalid toStr _ name bad post e he
  refine ⟨⟨e, key⟩, ?_, mapGet_mapSet_same _ _ _⟩
  intro maps hmaps
  refine ⟨e, ?_⟩
  simp only [addConstants]
  rw [addMaps_eq_addEntries, hmaps, key]

theorem addConstants_partial_commit_witness :
    mapGet defaultEquationDict "constants" = .map [] ∧
    validateUnit ((JSVal.str "abc".toList).asString (fun _ => [])) ≠ .ok () ∧
    ∃ e, addConstants (fun _ => []) ⟨defaultEquationDict⟩
        (.map ([("A", .str "1e13".toList)] ++ ("Ea", .str "abc".toList) ::
          [("R", .str "8.314 J/(mol*K)".toList)])) =
      ⟨.error e, ⟨mapSet defaultEquationDict "constants"
        (.map (setAll [] [("A", .str "1e13".toList)]))⟩⟩ :=
  ⟨rfl, by decide,
    (addConstants_partial_commit (fun _ => []) ⟨defaultEquationDict⟩ []
      [("A", .str "1e13".toList)] [("R", .str "8.314 J/(mol*K)".toList)] "Ea"
      (.str "abc".toList) rfl
      (by
        intro kv h
        simp only [List.mem_singleton] at h
        subst h
        decide)
      (by decide)).1⟩

/-- C12: when every value passes `validateUnit`, `addConstants` succeeds; afterwards every
name given holds the last value given for it and every other name holds what it held
before; a sequence of `Map`s gives the same constants as one call per `Map` in order. -/
theorem addConstants_all_valid (toStr : JSVal → List Char) (eq : Equation)
    (cm entries : List (String × JSVal))
    (hcm : mapGet eq.equationDict "constants" = .map cm)
    (hvalid : ∀ kv ∈ entries, validateUnit (kv.2.asString toStr) = .ok ()) :
    addConstants toStr eq (.map entries) =
      ⟨.ok (), ⟨mapSet eq.equationDict "constants" (.map (setAll cm entries))⟩⟩ ∧
    (∀ maps : List (List (String × JSVal)), maps.flatten = entries →
      addConstants toStr eq (.arr (maps.map JSVal.map)) =
        ⟨.ok (), ⟨mapSet eq.equationDict "constants" (.map (setAll cm entries))⟩⟩ ∧
      maps.foldl (fun e m => (addConstants toStr e (.map m)).state) eq =
        ⟨mapSet eq.equationDict "constants" (.map (setAll cm entries))⟩) ∧
    mapGet (mapSet eq.equationDict "constants" (.map (setAll cm entries))) "constants" =
      .map (setAll cm entries) ∧
    (∀ (a b : List (String × JSVal)) (k : String) (v : JSVal),
      entries = a ++ (k, v) :: b → k ∉ b.map Prod.fst → mapGet (setAll cm entries) k = v) ∧
    (∀ k : String, k ∉ entries.map Prod.fst → mapGet (setAll cm entries) k = mapGet cm k) := by
  refine ⟨addEntries_valid toStr entries eq cm hcm hvalid, ?_, mapGet_mapSet_same _ _ _, ?_, ?_⟩
  · intro maps hmaps
    subst hmaps
    refine ⟨?_, addEachMap_valid toStr maps eq cm hcm hvalid⟩
    simp only [addConstants]
    rw [addMaps_eq_addEntries]
    exact addEntries_valid toStr _ eq cm hcm hvalid
  · intro a b k v he hk
    rw [he]
    exact mapGet_setAll_last cm a b k v hk
  · intro k hk
    exact mapGet_setAll_of_not_mem k entries cm hk

theorem addConstants_all_valid_witness :
    mapGet defaultEquationDict "constants" = .map [] ∧
    addConstants (fun _ => []) ⟨defaultEquationDict⟩
        (.map [("A", .str "1e13".toList), ("R", .str "8.314 J/(mol*K)".toList)]) =
      ⟨.ok (), ⟨mapSet defaultEquationDict "constants"
        (.map (setAll [] [("A", .str "1e13".toList), ("R", .str "8.314 J/(mol*K)".toList)]))⟩⟩ :=
  ⟨rfl,
    (addConstants_all_valid (fun _ => []) ⟨defaultEquationDict⟩ []
      [("A", .str "1e13".toList), ("R", .str "8.314 J/(mol*K)".toList)] rfl
      (by
        intro kv h
        simp only [List.mem_cons, List.mem_singleton, List.not_mem_nil, or_false] at h
        rcases h with rfl | rfl <;> decide)).1⟩

theorem constantsValid_mapSet_other (toStr : JSVal → List Char) (eq : Equation) (key : String)
    (v : JSVal) (hkey : key ≠ "constants") (h : ConstantsValid toStr eq) :
    ConstantsValid toStr ⟨mapSet eq.equationDict key v⟩ := by
  intro cm hcm
  rw [mapGet_mapSet_ne _ _ _ _ hkey] at hcm
  exact h cm hcm

theorem constantsValid_of_state (toStr : JSVal → List Char) (eq : Equation) (key : String)
    (v : JSVal) (o : Outcome) (hkey : key ≠ "constants") (h : ConstantsValid toStr eq)
    (ho : o.state = eq ∨ o.state = ⟨mapSet eq.equationDict key v⟩) :
    ConstantsValid toStr o.state := by
  rcases ho with e | e
  · rw [e]; exact h
  · rw [e]; exact constantsValid_mapSet_other toStr eq key v hkey h

theorem setRangeDefault_state (key message : String) (eq : Equation) (v : JSVal) :
    (setRangeDefault key message eq v).state = eq ∨
      (setRangeDefault key message eq v).state = ⟨mapSet eq.equationDict key v⟩ := by
  by_cases h : ∃ slots, v.arraySlots = some slots ∧ slots.length = 2 ∧
      everySlot JSVal.isNumber slots = true
  · right; rw [(setRangeDefault_slots key message eq v).1 h]
  · left; rw [(setRangeDefault_slots key message eq v).2 h]

theorem setRangeLimits_state (key m1 m2 : String) (eq : Equation) (v : JSVal) :
    (setRangeLimits key m1 m2 eq v).state = eq ∨
      (setRangeLimits key m1 m2 eq v).state = ⟨mapSet eq.equationDict key v⟩ := by
  by_cases h : ∃ slots, v.arraySlots = some slots ∧ slots.length = 2 ∧
      everySlot (fun i => i.isNumber || i.isNull) slots = true
  · right; rw [(setRangeLimits_slots key m1 m2 eq v).1 h]
  · left
    obtain ⟨e, he⟩ := (setRangeLimits_slots key m1 m2 eq v).2 h
    rw [he]

theorem setNumOfPoints_state (eq : Equation) (v : JSVal) :
    (setNumOfPoints eq v).state = eq ∨
      (setNumOfPoints eq v).state = ⟨mapSet eq.equationDict "num_of_points" v⟩ := by
  by_cases h : IsPositiveInteger v
  · right; rw [(setNumOfPoints_spec eq v).1 h]
  · left; rw [(setNumOfPoints_spec eq v).2 h]

theorem addEntries_constantsValid (toStr : JSVal → List Char) :
    ∀ (entries : List (String × JSVal)) (eq : Equation), ConstantsValid toStr eq →
      ConstantsValid toStr (addEntries toStr eq entries).state := by
  intro entries
  induction entries with
  | nil => intro eq h; exact h
  | cons kv rest ih =>
    intro eq h
    obtain ⟨name, value⟩ := kv
    cases hv : validateUnit (value.asString toStr) with
    | error e =>
      rw [addEntries_cons_invalid toStr eq name value rest e hv]
      exact h
    | ok u =>
      cases hcm : mapGet eq.equationDict "constants" with
      | map cm =>
        rw [addEntries_cons_ok toStr eq cm name value rest hcm hv]
        apply ih
        intro cm' hcm' kv hkv
        rw [mapGet_mapSet_same] at hcm'
        cases hcm'
        rcases mem_mapSet cm name value kv hkv with h1 | h1
        · exact h cm hcm kv h1
        · rw [h1]; exact hv
      | _ =>
        simp only [addEntries, hv, hcm]
        exact h

theorem addMaps_constantsValid (toStr : JSVal → List Char) :
    ∀ (items : List JSVal) (eq : Equation), ConstantsValid toStr eq →
      ConstantsValid toStr (addMaps toStr eq items).state := by
  intro items
  induction items with
  | nil => intro eq h; exact h
  | cons item rest ih =>
    intro eq h
    cases item with
    | map entries =>
      have h1 := addEntries_constantsValid toStr entries eq h
      simp only [addMaps]
      cases he : addEntries toStr eq entries with
      | mk result st =>
        rw [he] at h1
        cases result with
        | ok u => exact ih st h1
        | error e => exact h1
    | _ => exact h

theorem call_constantsValid (toStr : JSVal → List Char) (eq : Equation) (c : Call)
    (h : ConstantsValid toStr eq) : ConstantsValid toStr (eq.call toStr c).state := by
  cases c with
  | addConstants constants =>
    cases constants with
    | map entries => exact addEntries_constantsValid toStr entries eq h
    | arr items => exact addMaps_constantsValid toStr items eq h
    | sparse slots => exact addMaps_constantsValid toStr _ eq h
    | _ => exact h
  | setXVariable v => exact constantsValid_mapSet_other toStr eq _ v (by decide) h
  | setYVariable v => exact constantsValid_mapSet_other toStr eq _ v (by decide) h
  | setZVariable v => exact constantsValid_mapSet_other toStr eq _ v (by decide) h
  | setEquation v => exact constantsValid_mapSet_other toStr eq _ v (by decide) h
  | setXRangeDefault v =>
    exact constantsValid_of_state toStr eq _ v _ (by decide) h (setRangeDefault_state _ _ eq v)
  | setYRangeDefault v =>
    exact constantsValid_of_state toStr eq _ v _ (by decide) h (setRangeDefault_state _ _ eq v)
  | setZRangeDefault v =>
    exact constantsValid_of_state toStr eq _ v _ (by decide) h (setRangeDefault_state _ _ eq v)
  | setXRangeLimits v =>
    exact constantsValid_of_state toStr eq _ v _ (by decide) h (setRangeLimits_state _ _ _ eq v)
  | setYRangeLimits v =>
    exact constantsValid_of_state toStr eq _ v _ (by decide) h (setRangeLimits_state _ _ _ eq v)
  | setZRangeLimits v =>
    exact constantsValid_of_state toStr eq _ v _ (by decide) h (setRangeLimits_state _ _ _ eq v)
  | setNumOfPoints v =>
    exact constantsValid_of_state toStr eq _ v _ (by decide) h (setNumOfPoints_state eq v)

/-- The constructor copies an invalid constant from the caller's `Map` into the record. -/
theorem constants_invariant_counterexample :
    ∃ eq, Equation.create (fun _ => .nan)
        (.map [("constants", .map [("A", .str "abc".toList)])]) = .ok eq ∧
      eq.after (fun _ => []) [] = eq ∧
      mapGet eq.equationDict "constants" = .map [("A", .str "abc".toList)] ∧
      validateUnit ((JSVal.str "abc".toList).asString (fun _ => [])) ≠ .ok () ∧
      ¬ ConstantsValid (fun _ => []) eq := by
  refine ⟨_, rfl, rfl, rfl, by decide, ?_⟩
  intro h
  have := h [("A", .str "abc".toList)] rfl ("A", .str "abc".toList) (List.mem_singleton.2 rfl)
  exact absurd this (by decide)

/-- C13 (amended): a record whose constants all pass `validateUnit` (such as the record
the constructor builds without argument) keeps that property under every sequence of
setter and `addConstants` calls, whether they return or throw. -/
theorem constants_stay_valid (toNumber : JSVal → JSNum) (toStr : JSVal → List Char)
    (eq0 : Equation) (calls : List Call) (h0 : ConstantsValid toStr eq0) :
    ConstantsValid toStr (eq0.after toStr calls) ∧
    ∃ eq, Equation.create toNumber .null = .ok eq ∧
      ConstantsValid toStr (eq.after toStr calls) := by
  have key : ∀ (cs : List Call) (e : Equation), ConstantsValid toStr e →
      ConstantsValid toStr (e.after toStr cs) := by
    intro cs
    induction cs with
    | nil => intro e h; exact h
    | cons c rest ih =>
      intro e h
      exact ih _ (call_constantsValid toStr e c h)
  refine ⟨key calls eq0 h0, ⟨defaultEquationDict⟩, rfl, key calls _ ?_⟩
  intro cm hcm kv hkv
  have : cm = [] := by
    have h : mapGet defaultEquationDict "constants" = .map [] := rfl
    rw [h] at hcm
    cases hcm
    rfl
  rw [this] at hkv
  simp at hkv

theorem constants_stay_valid_witness :
    ConstantsValid (fun _ => []) ⟨[("constants", .map [("A", .str "1e13".toList)])]⟩ ∧
    ConstantsValid (fun _ => [])
      (Equation.after (fun _ => []) ⟨[("constants", .map [("A", .str "1e13".toList)])]⟩
        [.addConstants (.map [("Ea", .str "abc".toList)]), .setNumOfPoints (jsNum 0)]) :=
  have h : ConstantsValid (fun _ => [])
      ⟨[("constants", .map [("A", .str "1e13".toList)])]⟩ := by
    intro cm hcm kv hkv
    have e : mapGet [("constants", JSVal.map [("A", .str "1e13".toList)])] "constants" =
        .map [("A", .str "1e13".toList)] := rfl
    rw [show (Equation.mk [("constants", JSVal.map [("A", .str "1e13".toList)])]).equationDict =
      [("constants", JSVal.map [("A", .str "1e13".toList)])] from rfl, e] at hcm
    cases hcm
    simp only [List.mem_singleton] at hkv
    subst hkv
    decide
  ⟨h, (constants_stay_valid (fun _ => .nan) (fun _ => [])
    ⟨[("constants", .map [("A", .str "1e13".toList)])]⟩
    [.addConstants (.map [("Ea", .str "abc".toList)]), .setNumOfPoints (jsNum 0)] h).1⟩

theorem replaceGo_lit (c : Char) (tpl : List ReplTok) :
    ∀ (s before : List Char),
      replaceGo (Re.lit c) tpl 0 before s =
        s.flatMap (fun x => if x = c then expandTemplate tpl ⟨[], [], []⟩ else [x]) := by
  intro s
  induction s with
  | nil =>
    intro before
    simp [replaceGo, Re.lit, run_chr_nil]
  | cons x r ih =>
    intro before
    by_cases h : x = c
    · subst h
      have e : (Re.lit x).run ⟨before, x :: r, []⟩ = [⟨x :: before, r, []⟩] := by
        simp [Re.lit, run_chr_cons]
      have e2 : expandTemplate tpl ⟨x :: before, r, []⟩ = expandTemplate tpl ⟨[], [], []⟩ := rfl
      simp only [replaceGo, e, List.head?_cons, List.length_cons, List.flatMap_cons, if_true, e2]
      have : r.length + 1 - r.length = 1 := by omega
      simp only [this, Nat.succ_ne_zero, if_false, Nat.sub_self]
      rw [ih]
    · have e : (Re.lit c).run ⟨before, x :: r, []⟩ = [] := by
        simp [Re.lit, run_chr_cons, h]
      simp only [replaceGo, e, List.head?_nil, List.flatMap_cons, h, if_false]
      rw [ih]
      rfl

theorem replaceCarets_eq (s : List Char) :
    replaceCarets s = s.flatMap (fun x => if x = '^' then ['*', '*'] else [x]) := by
  unfold replaceCarets Re.replaceAll
  rw [replaceGo_lit]
  rfl

theorem replaceCarets_append (a b : List Char) :
    replaceCarets (a ++ b) = replaceCarets a ++ replaceCarets b := by
  simp [replaceCarets_eq, List.flatMap_append]

theorem replaceCarets_cons_eq (b : List Char) :
    replaceCarets ('=' :: b) = '=' :: replaceCarets b := by
  simp [replaceCarets_eq, List.flatMap_cons]

theorem not_mem_replaceCarets (a : List Char) (h : '=' ∉ a) : '=' ∉ replaceCarets a := by
  rw [replaceCarets_eq]
  intro hm
  rw [List.mem_flatMap] at hm
  obtain ⟨x, hx, hm⟩ := hm
  by_cases hc : x = '^'
  · simp [hc] at hm
  · simp only [hc, if_false, List.mem_singleton] at hm
    exact h (hm ▸ hx)

theorem splitGo_cons_no (sep cur r : List Char) (c : Char)
    (h : sep.isPrefixOf (c :: r) = false) :
    splitGo sep 0 cur (c :: r) = splitGo sep 0 (c :: cur) r := by
  simp [splitGo, h]

theorem splitGo_cons_eq (cur r : List Char) :
    splitGo ['='] 0 cur ('=' :: r) = cur.reverse :: splitGo ['='] 0 [] r := by
  simp [splitGo, List.isPrefixOf]

theorem isPrefixOf_eq_false (x : Char) (r : List Char) (h : x ≠ '=') :
    (['='].isPrefixOf (x :: r)) = false := by
  simp [List.isPrefixOf, Ne.symm h]

theorem splitGo_eq :
    ∀ (a : List Char) (cur : List Char), '=' ∉ a →
      splitGo ['='] 0 cur a = [cur.reverse ++ a] := by
  intro a
  induction a with
  | nil => intro cur _; simp [splitGo]
  | cons x r ih =>
    intro cur h
    simp only [List.mem_cons, not_or] at h
    rw [splitGo_cons_no _ _ _ _ (isPrefixOf_eq_false x r (Ne.symm h.1)), ih _ h.2]
    simp

theorem splitGo_eq_split :
    ∀ (a cur b : List Char), '=' ∉ a →
      splitGo ['='] 0 cur (a ++ '=' :: b) = (cur.reverse ++ a) :: splitGo ['='] 0 [] b := by
  intro a
  induction a with
  | nil =>
    intro cur b _
    simp [splitGo_cons_eq]
  | cons x r ih =>
    intro cur b h
    simp only [List.mem_cons, not_or] at h
    rw [List.cons_append, splitGo_cons_no _ _ _ _ (isPrefixOf_eq_false x _ (Ne.symm h.1)),
      ih _ _ h.2]
    simp

theorem splitOn_eq_head (t : List Char) :
    (splitOn ['='] t).head? = some (t.takeWhile (fun c => c != '=')) := by
  have key : ∀ (t cur : List Char),
      (splitGo ['='] 0 cur t).head? = some (cur.reverse ++ t.takeWhile (fun c => c != '=')) := by
    intro t
    induction t with
    | nil => intro cur; simp [splitGo]
    | cons x r ih =>
      intro cur
      by_cases hx : x = '='
      · subst hx
        simp [splitGo_cons_eq]
      · rw [splitGo_cons_no _ _ _ _ (isPrefixOf_eq_false x r hx), ih]
        simp [List.takeWhile_cons, hx]
  have := key t []
  simpa [splitOn] using this

theorem leftHandSide_eq (s : List Char) :
    leftHandSide s = trim ((replaceCarets s).takeWhile (fun c => c != '=')) := by
  unfold leftHandSide
  rw [List.head?_map, splitOn_eq_head]
  rfl

theorem splitOn_one_equals (l r : List Char) (hl : '=' ∉ l) (hr : '=' ∉ r) :
    splitOn ['='] (replaceCarets (l ++ '=' :: r)) = [replaceCarets l, replaceCarets r] := by
  rw [replaceCarets_append, replaceCarets_cons_eq]
  have e : splitOn ['='] (replaceCarets l ++ '=' :: replaceCarets r) =
      splitGo ['='] 0 [] (replaceCarets l ++ '=' :: replaceCarets r) := rfl
  rw [e, splitGo_eq_split _ _ _ (not_mem_replaceCarets l hl),
    splitGo_eq _ _ (not_mem_replaceCarets r hr)]
  simp

/-- With the global `jsonInput` declared: when the text before the first `=` (with `^`
replaced by `**`, trimmed) is not exactly the dependent variable, `solveEquation` returns
`null`; and whether `jsonInput` is declared or not, nothing is handed to the expression
evaluator.  The equation "2*k = A*T" with dependent variable "k" is such a case. -/
theorem solveEquation_rejects_unisolated
    (mathEvaluate : JSVal → List (String × JSVal) → Except String JSVal)
    (input : JSVal) (equationString : List Char) (independentVariables : JSVal)
    (dependentVariable : List Char)
    (h : trim ((replaceCarets equationString).takeWhile (fun c => c != '=')) ≠
      dependentVariable) :
    (solveEquation mathEvaluate (.value input) equationString independentVariables
      dependentVariable).outcome = .ok .null ∧
    (∀ g, (solveEquation mathEvaluate g equationString independentVariables
      dependentVariable).evaluatorCalls = []) ∧
    trim ((replaceCarets "2*k = A*T".toList).takeWhile (fun c => c != '=')) ≠ "k".toList := by
  rw [← leftHandSide_eq] at h
  refine ⟨?_, ?_, by decide⟩
  · simp [solveEquation, h]
  · intro g
    cases g with
    | undeclared => rfl
    | value v => simp [solveEquation, h]

/-- C3 (what the code does): in a program that declares no global `jsonInput`, as the
repository leaves it, the call on "2*k = A*T" with dependent variable "k" does not return
`null`: it throws a `ReferenceError`, because the first statement of `solveEquation` reads
`jsonInput` before the `try` block is entered.  Nothing is handed to the evaluator and
nothing is written with `console.error`. -/
theorem solveEquation_unisolated_throws :
    leftHandSide "2*k = A*T".toList ≠ "k".toList ∧
    ∀ (mathEvaluate : JSVal → List (String × JSVal) → Except String JSVal)
      (independentVariables : JSVal),
      solveEquation mathEvaluate .undeclared "2*k = A*T".toList independentVariables
        "k".toList = ⟨.error (.referenceError "jsonInput is not defined"), [], []⟩ :=
  ⟨by decide, fun _ _ => rfl⟩

theorem sides_one_equals (l r : List Char) (hl : '=' ∉ l) (hr : '=' ∉ r) :
    leftHandSide (l ++ '=' :: r) = trim (replaceCarets l) ∧
    rightHandSide (l ++ '=' :: r) = .str (trim (replaceCarets r)) := by
  unfold leftHandSide rightHandSide
  rw [splitOn_one_equals l r hl hr]
  exact ⟨rfl, rfl⟩

/-- With the global `jsonInput` declared and `jsonInput.equation.constants` an object: for
an equation "d = rhs" with a single `=` on which the evaluator succeeds, `solveEquation`
returns the evaluator's value of `rhs` (trimmed, `^` replaced by `**`) under the scope
that holds every constant and every independent variable, a name in both taking the
independent variable's value. -/
theorem solveEquation_returns_evaluated_rhs
    (mathEvaluate : JSVal → List (String × JSVal) → Except String JSVal)
    (input value : JSVal) (constants vars : List (String × JSVal))
    (l r dependentVariable : List Char)
    (hl : '=' ∉ l) (hr : '=' ∉ r) (hd : trim (replaceCarets l) = dependentVariable)
    (hin : (getProp input "equation").bind (fun e => getProp e "constants") =
      .ok (.obj constants))
    (hev : mathEvaluate (.str (trim (replaceCarets r)))
      (setAll (setAll [] constants) vars) = .ok value) :
    solveEquation mathEvaluate (.value input) (l ++ '=' :: r) (.obj vars)
        dependentVariable =
      ⟨.ok value,
        [(.str (trim (replaceCarets r)), setAll (setAll [] constants) vars)], []⟩ ∧
    (∀ (a b : List (String × JSVal)) (k : String) (x : JSVal),
      vars = a ++ (k, x) :: b → k ∉ b.map Prod.fst →
      mapGet (setAll (setAll [] constants) vars) k = x) ∧
    (∀ (a b : List (String × JSVal)) (k : String) (x : JSVal),
      constants = a ++ (k, x) :: b → k ∉ b.map Prod.fst → k ∉ vars.map Prod.fst →
      mapGet (setAll (setAll [] constants) vars) k = x) := by
  obtain ⟨e1, e2⟩ := sides_one_equals l r hl hr
  refine ⟨?_, ?_, ?_⟩
  · have hlhs : ¬ leftHandSide (l ++ '=' :: r) ≠ dependentVariable := by
      rw [e1, hd]; simp
    simp only [solveEquation, hlhs, if_false, hin, e2, ownProps, hev]
  · intro a b k x hv hk
    rw [hv]
    exact mapGet_setAll_last _ a b k x hk
  · intro a b k x hc hk hkv
    rw [mapGet_setAll_of_not_mem k vars _ hkv, hc]
    exact mapGet_setAll_last _ a b k x hk

/-- C4 (what the code does): on the repository's test input, which defines `jsonData` and
no `jsonInput`, the call `solveEquation(equationString, variables, "k")` returns no value,
whatever the evaluator would give: it throws a `ReferenceError` from its first statement,
before the scope is built, and the evaluator is never called.  The equation of the test
input has one `=` and its left-hand side is the dependent variable. -/
theorem solveEquation_test_input_throws :
    '=' ∉ "k ".toList ∧ '=' ∉ " A * e^((-Ea) / (R * T))".toList ∧
    leftHandSide ("k ".toList ++ '=' :: " A * e^((-Ea) / (R * T))".toList) = "k".toList ∧
    ∀ (mathEvaluate : JSVal → List (String × JSVal) → Except String JSVal),
      solveEquation mathEvaluate .undeclared
        ("k ".toList ++ '=' :: " A * e^((-Ea) / (R * T))".toList) arrheniusVariables
        "k".toList = ⟨.error (.referenceError "jsonInput is not defined"), [], []⟩ :=
  ⟨by decide, by decide, by decide, fun _ => rfl⟩

/-- C5 (what the code does): when the global `jsonInput` is not declared, as after the
repository's test input, which defines `jsonData` only, `solveEquation` throws a
`ReferenceError` from its first statement, which stands outside the `try` block. -/
theorem solveEquation_throws_without_jsonInput
    (mathEvaluate : JSVal → List (String × JSVal) → Except String JSVal)
    (equationString dependentVariable : List Char) (independentVariables : JSVal) :
    (solveEquation mathEvaluate .undeclared equationString independentVariables
      dependentVariable).outcome = .error (.referenceError "jsonInput is not defined") ∧
    (solveEquation (constantEvaluator (jsNum 1)) .undeclared
      "k = A * e^((-Ea) / (R * T))".toList arrheniusVariables "k".toList).outcome =
      .error (.referenceError "jsonInput is not defined") :=
  ⟨rfl, rfl⟩

/-- C6 (counterexample): a bad left-hand side and a failing evaluator give the same
returned result. -/
theorem solveEquation_outcomes_counterexample :
    leftHandSide "2*k = A*T".toList ≠ "k".toList ∧
    leftHandSide "k = A*T".toList = "k".toList ∧
    (solveEquation failingEvaluator (.value arrheniusData) "2*k = A*T".toList
      arrheniusVariables "k".toList).outcome =
    (solveEquation failingEvaluator (.value arrheniusData) "k = A*T".toList
      arrheniusVariables "k".toList).outcome :=
  ⟨by decide, by decide, rfl⟩

/-- C6 (amended): with the global `jsonInput` declared, an equation whose left-hand side
is not the bare dependent variable and an equation with a correct left-hand side on which
the evaluator fails both make `solveEquation` return `null`, so the two returned results
are equal; the first call hands nothing to the evaluator and logs the message about the
left-hand side. -/
theorem solveEquation_failures_return_null
    (mathEvaluate : JSVal → List (String × JSVal) → Except String JSVal)
    (input independentVariables : JSVal) (bad good dependentVariable : List Char)
    (hbad : leftHandSide bad ≠ dependentVariable)
    (hgood : leftHandSide good = dependentVariable)
    (hev : ∀ constants,
      (getProp input "equation").bind (fun e => getProp e "constants") = .ok constants →
      ∃ msg, mathEvaluate (rightHandSide good)
        (setAll (setAll [] (ownProps constants)) (ownProps independentVariables)) =
          .error msg) :
    solveEquation mathEvaluate (.value input) bad independentVariables dependentVariable =
      ⟨.ok .null, [], ["Dependent variable '" ++ String.mk dependentVariable ++
        "' is not properly isolated on the left-hand side."]⟩ ∧
    (solveEquation mathEvaluate (.value input) good independentVariables
      dependentVariable).outcome = .ok .null ∧
    (solveEquation mathEvaluate (.value input) bad independentVariables
      dependentVariable).outcome =
    (solveEquation mathEvaluate (.value input) good independentVariables
      dependentVariable).outcome := by
  have h1 : solveEquation mathEvaluate (.value input) bad independentVariables
      dependentVariable =
      ⟨.ok .null, [], ["Dependent variable '" ++ String.mk dependentVariable ++
        "' is not properly isolated on the left-hand side."]⟩ := by
    simp only [solveEquation, hbad, if_true, ne_eq, not_false_eq_true]
  have h2 : (solveEquation mathEvaluate (.value input) good independentVariables
      dependentVariable).outcome = .ok .null := by
    have h : ¬ leftHandSide good ≠ dependentVariable := by rw [hgood]; simp
    cases hc : (getProp input "equation").bind (fun e => getProp e "constants") with
    | error e => simp only [solveEquation, h, if_false, hc]
    | ok constants =>
      obtain ⟨msg, hmsg⟩ := hev constants hc
      simp only [solveEquation, h, if_false, hc, hmsg]
  exact ⟨h1, h2, by rw [h1, h2]⟩

theorem solveEquation_failures_return_null_witness :
    leftHandSide "2*k = A*T".toList ≠ "k".toList ∧
    leftHandSide "k = A*T".toList = "k".toList ∧
    (solveEquation failingEvaluator (.value arrheniusData) "2*k = A*T".toList
      arrheniusVariables "k".toList).outcome = .ok .null ∧
    (solveEquation failingEvaluator (.value arrheniusData) "k = A*T".toList
      arrheniusVariables "k".toList).outcome = .ok .null :=
  ⟨by decide, by decide,
    congrArg SolveRun.outcome (solveEquation_failures_return_null failingEvaluator arrheniusData
      arrheniusVariables "2*k = A*T".toList "k = A*T".toList "k".toList
      (by decide) (by decide) (fun _ _ => ⟨_, rfl⟩)).1,
    (solveEquation_failures_return_null failingEvaluator arrheniusData
      arrheniusVariables "2*k = A*T".toList "k = A*T".toList "k".toList
      (by decide) (by decide) (fun _ _ => ⟨_, rfl⟩)).2.1⟩

/-- C7: for every unit string `u` and every backend, `getUnitsScalingRatio(u, u)` returns
exactly 1 without registering a unit, without asking the backend for a conversion and
without throwing. -/
theorem getUnitsScalingRatio_same_units
    (backend : List Char → List Char → Except BackendError ℚ) (u : List Char) :
    getUnitsScalingRatio backend u u = ⟨.ok 1, [], []⟩ := by
  simp [getUnitsScalingRatio]

/-- C8 (what the code does): with the backend of the source, seconds convert to
milliseconds with ratio 1000, but milliseconds do not convert back: the call throws. -/
theorem getUnitsScalingRatio_no_inverse_for_ms :
    (getUnitsScalingRatio unitpy_U_PYTHON "s".toList "ms".toList).outcome = .ok 1000 ∧
    (getUnitsScalingRatio unitpy_U_PYTHON "ms".toList "s".toList).outcome =
      .error (.error ("Error during unit conversion in getUnitsScalingRatio: " ++
        "_PYTHON placeholder: Cannot convert ms to s. Implement your unit conversion logic." ++
        ". Ensure all unit definitions are correctly set. Unit 1: ms, Unit 2: s")) ∧
    (getUnitsScalingRatio unitpy_U_PYTHON "kg".toList "g".toList).outcome = .ok 1000 ∧
    (getUnitsScalingRatio unitpy_U_PYTHON "g".toList "kg".toList).outcome = .ok (1 / 1000) := by
  refine ⟨rfl, rfl, rfl, ?_⟩
  have h : (getUnitsScalingRatio unitpy_U_PYTHON "g".toList "kg".toList).outcome = .ok 0.001 :=
    rfl
  rw [h]
  norm_num

/-- C10 (what the code does): the micro sign U+00B5 is tagged, but a unit written with the
Greek mu U+03BC, or with U+1D6C2 or U+1D6C1, comes back unchanged. -/
theorem tagMicroUnits_misses_named_symbols :
    tagMicroUnits [microSign, 'm'] = "<microfrogm>".toList ∧
    tagMicroUnits [greekMu, 'm'] = [greekMu, 'm'] ∧
    tagMicroUnits [mathMu, 'm'] = [mathMu, 'm'] ∧
    tagMicroUnits [mathBoldMu, 'm'] = [mathBoldMu, 'm'] ∧
    greekMu ∉ microSymbols.flatten ∧ mathMu ∉ microSymbols.flatten ∧
    mathBoldMu ∉ microSymbols.flatten := by
  decide

/-- A string that already holds a placeholder token does not come back from tagging and
untagging. -/
theorem tag_untag_counterexample :
    microSymbols.any (fun symbol =>
      includes ([microSign, 'm'] ++ "<microfrogs>".toList) symbol) = true ∧
    untagMicroUnits (tagMicroUnits ([microSign, 'm'] ++ "<microfrogs>".toList)) =
      [microSign, 'm', microSign, 's'] ∧
    untagMicroUnits (tagMicroUnits ([microSign, 'm'] ++ "<microfrogs>".toList)) ≠
      [microSign, 'm'] ++ "<microfrogs>".toList := by
  decide

theorem splitGo_cur (m : List Char) :
    ∀ (t cur : List Char) (k : Nat),
      ∃ h tl, splitGo m k [] t = h :: tl ∧ splitGo m k cur t = (cur.reverse ++ h) :: tl := by
  intro t
  induction t with
  | nil => intro cur k; exact ⟨[], [], by simp [splitGo], by simp [splitGo]⟩
  | cons c r ih =>
    intro cur k
    cases k with
    | succ k =>
      obtain ⟨h, tl, e1, e2⟩ := ih cur k
      exact ⟨h, tl, by simp only [splitGo, e1], by simp only [splitGo, e2]⟩
    | zero =>
      by_cases hp : m.isPrefixOf (c :: r) = true
      · exact ⟨[], splitGo m (m.length - 1) [] r, by simp [splitGo, hp], by simp [splitGo, hp]⟩
      · obtain ⟨h, tl, e1, e2⟩ := ih (c :: cur) 0
        obtain ⟨h', tl', e1', e2'⟩ := ih [c] 0
        rw [e1] at e1'
        cases e1'
        refine ⟨c :: h, tl, ?_, ?_⟩
        · simp only [splitGo, hp, if_false, e2']
          simp
        · simp only [splitGo, hp, if_false, e2]
          simp

theorem splitGo_skip (m : List Char) :
    ∀ (xs t cur : List Char), splitGo m xs.length cur (xs ++ t) = splitGo m 0 cur t := by
  intro xs
  induction xs with
  | nil => intro t cur; rfl
  | cons x xs ih =>
    intro t cur
    cases h : xs ++ t with
    | nil =>
      have hx : xs = [] ∧ t = [] := by simpa using h
      simp [hx.1, hx.2, splitGo]
    | cons y ys =>
      simp only [List.length_cons, List.cons_append, splitGo]
      exact ih t cur

theorem joinWith_append_head (rep a h : List Char) (tl : List (List Char)) :
    joinWith rep ((a ++ h) :: tl) = a ++ joinWith rep (h :: tl) := by
  cases tl with
  | nil => simp [joinWith]
  | cons x xs => simp [joinWith]

theorem replaceStr_nil (m rep : List Char) (hm : m ≠ []) : replaceStr m rep [] = [] := by
  have : m.isEmpty = false := by cases m <;> simp_all
  simp [replaceStr, splitOn, this, splitGo, joinWith]

/-- Where the text does not start with `m`, the first character is copied. -/
theorem replaceStr_cons (m rep t : List Char) (c : Char) (hm : m ≠ [])
    (hp : m.isPrefixOf (c :: t) = false) :
    replaceStr m rep (c :: t) = c :: replaceStr m rep t := by
  have he : m.isEmpty = false := by cases m <;> simp_all
  obtain ⟨h, tl, e1, e2⟩ := splitGo_cur m t [c] 0
  simp only [replaceStr, splitOn, he, Bool.false_eq_true, if_false, splitGo, hp, e2, e1]
  exact joinWith_append_head rep [c] h tl

/-- Where the text starts with `m`, the occurrence is replaced by `rep`. -/
theorem replaceStr_prefix (m rep t : List Char) (hm : m ≠ []) :
    replaceStr m rep (m ++ t) = rep ++ replaceStr m rep t := by
  have he : m.isEmpty = false := by cases m <;> simp_all
  cases m with
  | nil => exact absurd rfl hm
  | cons c ms =>
    have hp : (c :: ms).isPrefixOf (c :: ms ++ t) = true := by simp
    obtain ⟨h, tl, e1, _⟩ := splitGo_cur (c :: ms) t [] 0
    have hs : splitGo (c :: ms) ms.length [] (ms ++ t) = splitGo (c :: ms) 0 [] t :=
      splitGo_skip (c :: ms) ms t []
    simp only [replaceStr, splitOn, he, Bool.false_eq_true, if_false, List.cons_append]
    have hp' : (c :: ms).isPrefixOf (c :: (ms ++ t)) = true := by simp
    simp only [splitGo, hp', if_true, List.reverse_nil, List.length_cons, Nat.add_sub_cancel, hs,
      e1, joinWith]
    simp

/-- A run of characters that differ from the head of `m` is copied. -/
theorem replaceStr_copy (m rep : List Char) (c0 : Char) (ms : List Char) (hm : m = c0 :: ms) :
    ∀ (xs t : List Char), (∀ x ∈ xs, x ≠ c0) →
      replaceStr m rep (xs ++ t) = xs ++ replaceStr m rep t := by
  intro xs
  induction xs with
  | nil => intro t _; rfl
  | cons x xs ih =>
    intro t h
    have hx : x ≠ c0 := h x (List.mem_cons_self _ _)
    have hp : m.isPrefixOf (x :: (xs ++ t)) = false := by
      rw [hm]
      simp [List.isPrefixOf, Ne.symm hx]
    rw [List.cons_append, replaceStr_cons m rep _ x (by rw [hm]; simp) hp,
      ih t (fun y hy => h y (List.mem_cons_of_mem _ hy))]
    rfl

/-- Induction along the left-to-right scan of the micro pattern: a text is empty, starts
with a character that begins no match, or starts with a maximal match. -/
theorem scan_induction {P : List Char → Prop} (h0 : P [])
    (h1 : ∀ c r, (isMicro c && startsWithLetter r) = false → P r → P (c :: r))
    (h2 : ∀ c X rest, isMicro c = true → X ≠ [] → (∀ x ∈ X, x.isAlpha = true) →
      startsWithLetter rest = false → P rest → P (c :: (X ++ rest))) :
    ∀ s, P s := by
  intro s
  generalize hn : s.length = n
  induction n using Nat.strong_induction_on generalizing s with
  | _ n ih =>
    cases s with
    | nil => exact h0
    | cons c r =>
      by_cases hu : (isMicro c && startsWithLetter r) = true
      · rw [Bool.and_eq_true] at hu
        have hsplit : r = r.takeWhile Char.isAlpha ++ r.dropWhile Char.isAlpha :=
          (List.takeWhile_append_dropWhile _ r).symm
        have hX : r.takeWhile Char.isAlpha ≠ [] := by
          cases r with
          | nil => simp [startsWithLetter] at hu
          | cons x r' =>
            have hx : x.isAlpha = true := by simpa [startsWithLetter] using hu.2
            simp [List.takeWhile_cons, hx]
        have hrest : startsWithLetter (r.dropWhile Char.isAlpha) = false := by
          cases hd : r.dropWhile Char.isAlpha with
          | nil => rfl
          | cons y ys =>
            have := List.head_dropWhile_not Char.isAlpha r (by rw [hd]; simp)
            simp only [hd, List.head_cons] at this
            simpa [startsWithLetter] using this
        have hlen : (r.dropWhile Char.isAlpha).length < n := by
          have h1 : (r.dropWhile Char.isAlpha).length ≤ r.length :=
            (List.dropWhile_sublist _).length_le
          rw [← hn]
          simp only [List.length_cons]
          omega
        have := h2 c (r.takeWhile Char.isAlpha) (r.dropWhile Char.isAlpha) hu.1 hX
          (fun x hx => List.mem_takeWhile_imp hx) hrest (ih _ hlen _ rfl)
        rwa [← hsplit] at this
      · have hu' : (isMicro c && startsWithLetter r) = false := by simpa using hu
        exact h1 c r hu' (ih r.length (by rw [← hn]; simp) r rfl)

theorem isMicro_cases (c : Char) (h : isMicro c = true) : c = microSign ∨ c = '?' := by
  simp only [isMicro, microSymbols, List.flatten, List.contains_eq_any_beq, List.any_cons,
    List.any_nil, List.cons_append, List.nil_append, Bool.or_false, Bool.or_eq_true,
    beq_iff_eq] at h
  rcases h with h | h | h | h | h | h
  · exact Or.inl h
  · exact Or.inl h
  · exact Or.inr h
  · exact Or.inr h
  · exact Or.inr h
  · exact Or.inr h

theorem isMicro_not_alpha (c : Char) (h : isMicro c = true) : c.isAlpha = false := by
  rcases isMicro_cases c h with rfl | rfl <;> decide

theorem isMicro_ne_lt (c : Char) (h : isMicro c = true) : c ≠ '<' ∧ c ≠ '>' := by
  rcases isMicro_cases c h with rfl | rfl <;> decide

theorem charRuns_cons (p : Char → Bool) (l r : List Char) (c : Char)
    (k : List (Nat × List Char)) :
    charRuns p l (c :: r) k =
      if p c = true then charRuns p (c :: l) r k ++ [⟨l, c :: r, k⟩] else [⟨l, c :: r, k⟩] := rfl

theorem head_charRuns_letters (k : List (Nat × List Char)) :
    ∀ (X l rest : List Char), (∀ x ∈ X, x.isAlpha = true) → startsWithLetter rest = false →
      (charRuns Char.isAlpha l (X ++ rest) k).head? = some ⟨X.reverse ++ l, rest, k⟩ := by
  intro X
  induction X with
  | nil =>
    intro l rest _ hrest
    cases rest with
    | nil => rfl
    | cons y ys =>
      have hy : y.isAlpha = false := by simpa [startsWithLetter] using hrest
      simp [charRuns, hy]
  | cons x X ih =>
    intro l rest hX hrest
    have hx : x.isAlpha = true := hX x (List.mem_cons_self _ _)
    have := ih (x :: l) rest (fun y hy => hX y (List.mem_cons_of_mem _ hy)) hrest
    rw [List.cons_append, charRuns_cons, if_pos hx, List.head?_append, this]
    simp

theorem run_plus_chr_cons (p : Char → Bool) (l r : List Char) (x : Char)
    (k : List (Nat × List Char)) :
    (Re.plus (Re.chr p)).run ⟨l, x :: r, k⟩ = if p x = true then charRuns p (x :: l) r k else [] := by
  by_cases h : p x = true
  · have e : (Re.plus (Re.chr p)).run ⟨l, x :: r, k⟩ =
        ((Re.chr p).run ⟨l, x :: r, k⟩).flatMap (Re.star (Re.chr p)).run := rfl
    rw [e, run_chr_cons]
    simp only [h, if_true, List.flatMap_cons, List.flatMap_nil, List.append_nil]
    exact run_star_chr p _
  · have e : (Re.plus (Re.chr p)).run ⟨l, x :: r, k⟩ =
        ((Re.chr p).run ⟨l, x :: r, k⟩).flatMap (Re.star (Re.chr p)).run := rfl
    rw [e, run_chr_cons]
    simp [h]

theorem run_plus_chr_nil (p : Char → Bool) (l : List Char) (k : List (Nat × List Char)) :
    (Re.plus (Re.chr p)).run ⟨l, [], k⟩ = [] := rfl

theorem run_plus_not_letter (l r : List Char) (k : List (Nat × List Char))
    (h : startsWithLetter r = false) :
    (Re.plus (Re.chr Char.isAlpha)).run ⟨l, r, k⟩ = [] := by
  cases r with
  | nil => rfl
  | cons y ys =>
    have hy : y.isAlpha = false := by simpa [startsWithLetter] using h
    rw [run_plus_chr_cons]
    simp [hy]

theorem head_run_plus_letters (l X rest : List Char) (k : List (Nat × List Char))
    (hne : X ≠ []) (hX : ∀ x ∈ X, x.isAlpha = true) (hrest : startsWithLetter rest = false) :
    ((Re.plus (Re.chr Char.isAlpha)).run ⟨l, X ++ rest, k⟩).head? =
      some ⟨X.reverse ++ l, rest, k⟩ := by
  cases X with
  | nil => exact absurd rfl hne
  | cons x X =>
    have hx : x.isAlpha = true := hX x (List.mem_cons_self _ _)
    rw [List.cons_append, run_plus_chr_cons]
    simp only [hx, if_true]
    rw [head_charRuns_letters k X (x :: l) rest (fun y hy => hX y (List.mem_cons_of_mem _ hy))
      hrest]
    simp

theorem run_microPattern_plain (before r : List Char) (c : Char)
    (h : (isMicro c && startsWithLetter r) = false) :
    microPattern.run ⟨before, c :: r, []⟩ = [] := by
  have e : microPattern.run ⟨before, c :: r, []⟩ =
      ((Re.chr isMicro).run ⟨before, c :: r, []⟩).flatMap
        (Re.grp 1 (Re.plus (Re.chr Char.isAlpha))).run := rfl
  rw [e, run_chr_cons]
  by_cases hc : isMicro c = true
  · have hr : startsWithLetter r = false := by simpa [hc] using h
    have e2 : (Re.grp 1 (Re.plus (Re.chr Char.isAlpha))).run ⟨c :: before, r, []⟩ = [] := by
      have e3 : (Re.grp 1 (Re.plus (Re.chr Char.isAlpha))).run ⟨c :: before, r, []⟩ =
          ((Re.plus (Re.chr Char.isAlpha)).run ⟨c :: before, r, []⟩).map
            (fun st' => { st' with caps := (1, consumed ⟨c :: before, r, []⟩ st') :: st'.caps }) :=
        rfl
      rw [e3, run_plus_not_letter _ _ _ hr]
      rfl
    simp [hc, e2]
  · simp [hc]

theorem run_microPattern_unit (before X rest : List Char) (c : Char) (hc : isMicro c = true)
    (hne : X ≠ []) (hX : ∀ x ∈ X, x.isAlpha = true) (hrest : startsWithLetter rest = false) :
    ∃ m, (microPattern.run ⟨before, c :: (X ++ rest), []⟩).head? = some m ∧ m.after = rest := by
  have e : microPattern.run ⟨before, c :: (X ++ rest), []⟩ =
      ((Re.chr isMicro).run ⟨before, c :: (X ++ rest), []⟩).flatMap
        (Re.grp 1 (Re.plus (Re.chr Char.isAlpha))).run := rfl
  have e3 : (Re.grp 1 (Re.plus (Re.chr Char.isAlpha))).run ⟨c :: before, X ++ rest, []⟩ =
      ((Re.plus (Re.chr Char.isAlpha)).run ⟨c :: before, X ++ rest, []⟩).map
        (fun st' => { st' with caps :=
          (1, consumed ⟨c :: before, X ++ rest, []⟩ st') :: st'.caps }) := rfl
  rw [e, run_chr_cons]
  simp only [hc, if_true, List.flatMap_cons, List.flatMap_nil, List.append_nil, e3,
    List.head?_map, head_run_plus_letters _ X rest [] hne hX hrest, Option.map_some']
  exact ⟨_, rfl, rfl⟩

theorem matchAllGo_skip (re : Re) :
    ∀ (xs before t : List Char),
      matchAllGo re xs.length before (xs ++ t) = matchAllGo re 0 (xs.reverse ++ before) t := by
  intro xs
  induction xs with
  | nil => intro before t; rfl
  | cons x xs ih =>
    intro before t
    have e : matchAllGo re (xs.length + 1) before (x :: (xs ++ t)) =
        matchAllGo re xs.length (x :: before) (xs ++ t) := by
      simp only [matchAllGo]
    rw [List.length_cons, List.cons_append, e, ih]
    simp

theorem matchAllGo_nomatch (re : Re) (before r : List Char) (c : Char)
    (h : re.run ⟨before, c :: r, []⟩ = []) :
    matchAllGo re 0 before (c :: r) = matchAllGo re 0 (c :: before) r := by
  simp only [matchAllGo, h, List.head?_nil]

theorem matchAllGo_match (re : Re) (before X rest : List Char) (c : Char) (m : MState)
    (h : (re.run ⟨before, c :: (X ++ rest), []⟩).head? = some m) (hm : m.after = rest) :
    matchAllGo re 0 before (c :: (X ++ rest)) =
      (c :: X) :: matchAllGo re 0 (X.reverse ++ c :: before) rest := by
  have hlen : (c :: (X ++ rest)).length - m.after.length = X.length + 1 := by
    rw [hm]
    simp only [List.length_cons, List.length_append]
    omega
  simp only [matchAllGo, h, hlen, Nat.succ_ne_zero, if_false, Nat.add_sub_cancel,
    matchAllGo_skip]
  congr 1
  have : (c :: (X ++ rest)).take (X.length + 1) = c :: X := by
    simp [List.take_succ_cons]
  exact this

theorem isUnit_mem_matchAll (u s : List Char) (h : IsUnit u s) :
    ∀ before, u ∈ matchAllGo microPattern 0 before s := by
  induction h with
  | here c X rest hc hne hX hrest =>
    intro before
    obtain ⟨m, hm, ha⟩ := run_microPattern_unit before X rest c hc hne hX hrest
    rw [matchAllGo_match _ _ _ _ _ m hm ha]
    exact List.mem_cons_self _ _
  | afterPlain u c r hp _ ih =>
    intro before
    rw [matchAllGo_nomatch _ _ _ _ (run_microPattern_plain before r c hp)]
    exact ih _
  | afterUnit u c X rest hc hne hX hrest _ ih =>
    intro before
    obtain ⟨m, hm, ha⟩ := run_microPattern_unit before X rest c hc hne hX hrest
    rw [matchAllGo_match _ _ _ _ _ m hm ha]
    exact List.mem_cons_of_mem _ (ih _)

theorem matchAll_shape :
    ∀ (s before : List Char), ∀ m ∈ matchAllGo microPattern 0 before s,
      ∃ c X, m = c :: X ∧ isMicro c = true ∧ X ≠ [] ∧ ∀ x ∈ X, x.isAlpha = true := by
  intro s
  induction s using scan_induction with
  | h0 =>
    intro before m hm
    have e : microPattern.run ⟨before, [], []⟩ = [] := rfl
    simp [matchAllGo, e] at hm
  | h1 c r hp ih =>
    intro before m hm
    rw [matchAllGo_nomatch _ _ _ _ (run_microPattern_plain before r c hp)] at hm
    exact ih _ m hm
  | h2 c X rest hc hne hX hrest ih =>
    intro before m hm
    obtain ⟨m', hm', ha⟩ := run_microPattern_unit before X rest c hc hne hX hrest
    rw [matchAllGo_match _ _ _ _ _ m' hm' ha] at hm
    rcases List.mem_cons.mp hm with rfl | hm
    · exact ⟨c, X, rfl, hc, hne, hX⟩
    · exact ih _ m hm

theorem rendered_refl : ∀ s, Rendered [] s s := by
  intro s
  induction s using scan_induction with
  | h0 => exact Rendered.nil
  | h1 c r hp ih => exact Rendered.plain c r r hp ih
  | h2 c X rest hc hne hX hrest ih =>
    exact Rendered.untouched c X rest rest hc hne hX hrest (List.not_mem_nil _) ih

theorem frogified_cons (c : Char) (X : List Char) :
    frogified (c :: X) = "<microfrog".toList ++ X ++ ['>'] := rfl

theorem rendered_head (S : List (List Char)) (r t : List Char) (h : Rendered S r t)
    (hr : startsWithLetter r = false) : startsWithLetter t = false := by
  cases h with
  | nil => rfl
  | plain c r' t' _ _ => exact hr
  | tagged c X rest t' _ _ _ _ _ _ => rfl
  | untouched c X rest t' _ _ _ _ _ _ => exact hr

theorem letters_not_prefix (Y t : List Char) (hne : Y ≠ []) (hY : ∀ y ∈ Y, y.isAlpha = true)
    (ht : startsWithLetter t = false) : Y.isPrefixOf t = false := by
  cases Y with
  | nil => exact absurd rfl hne
  | cons y Y =>
    cases t with
    | nil => rfl
    | cons x t =>
      have hy : y.isAlpha = true := hY y (List.mem_cons_self _ _)
      have hx : x.isAlpha = false := by simpa [startsWithLetter] using ht
      have : y ≠ x := by
        intro e
        rw [e, hx] at hy
        exact absurd hy (by simp)
      simp [List.isPrefixOf, this]

theorem frogified_chars (c0 c : Char) (X : List Char) (hc0 : isMicro c0 = true)
    (hX : ∀ x ∈ X, x.isAlpha = true) : ∀ x ∈ frogified (c :: X), x ≠ c0 := by
  intro x hx
  rw [frogified_cons] at hx
  simp only [List.mem_append, List.mem_singleton] at hx
  rcases hx with (hx | hx) | hx
  · rcases isMicro_cases c0 hc0 with rfl | rfl
    · revert x
      decide
    · revert x
      decide
  · intro e
    have := hX x hx
    rw [e, isMicro_not_alpha c0 hc0] at this
    exact absurd this (by simp)
  · rw [hx]
    exact (isMicro_ne_lt c0 hc0).2.symm

/-- One step of the replacement loop of `tagMicroUnits`: replacing the occurrences of a
match string `c0 :: Y` tags exactly the maximal matches equal to it, provided every
longer maximal match is tagged already. -/
theorem rendered_step (S : List (List Char)) (c0 : Char) (Y : List Char)
    (hc0 : isMicro c0 = true) (hY : Y ≠ []) (hYl : ∀ y ∈ Y, y.isAlpha = true)
    (s t : List Char) (hr : Rendered S s t) :
    (∀ u, IsUnit u s → (c0 :: Y).length < u.length → u ∈ S) →
    Rendered ((c0 :: Y) :: S) s (replaceStr (c0 :: Y) (frogified (c0 :: Y)) t) := by
  induction hr with
  | nil =>
    intro _
    rw [replaceStr_nil _ _ (by simp)]
    exact Rendered.nil
  | plain c r t' hp hr' ih =>
    intro hlong
    have hpre : (c0 :: Y).isPrefixOf (c :: t') = false := by
      by_cases hc : c0 = c
      · subst hc
        have hr0 : startsWithLetter r = false := by simpa [hc0] using hp
        have := letters_not_prefix Y t' hY hYl (rendered_head S r t' hr' hr0)
        simp [List.isPrefixOf, this]
      · simp [List.isPrefixOf, hc]
    rw [replaceStr_cons _ _ _ _ (by simp) hpre]
    exact Rendered.plain c r _ hp (ih (fun u hu => hlong u (IsUnit.afterPlain u c r hp hu)))
  | tagged c X rest t' hc hne hX hrest hin hr' ih =>
    intro hlong
    rw [replaceStr_copy (c0 :: Y) _ c0 Y rfl (frogified (c :: X)) t'
      (frogified_chars c0 c X hc0 hX)]
    exact Rendered.tagged c X rest _ hc hne hX hrest (List.mem_cons_of_mem _ hin)
      (ih (fun u hu => hlong u (IsUnit.afterUnit u c X rest hc hne hX hrest hu)))
  | untouched c X rest t' hc hne hX hrest hnin hr' ih =>
    intro hlong
    have ih' := ih (fun u hu => hlong u (IsUnit.afterUnit u c X rest hc hne hX hrest hu))
    by_cases heq : c :: X = c0 :: Y
    · have e : c :: (X ++ t') = (c0 :: Y) ++ t' := by rw [← heq]; rfl
      rw [e, replaceStr_prefix _ _ _ (by simp), ← heq]
      exact Rendered.tagged c X rest _ hc hne hX hrest (List.mem_cons_self _ _)
        (by rw [heq]; exact ih')
    · have ht' : startsWithLetter t' = false := rendered_head S rest t' hr' hrest
      have hpre : (c0 :: Y).isPrefixOf (c :: (X ++ t')) = false := by
        by_cases hcc : c0 = c
        · subst hcc
          have hXY : X ≠ Y := fun e => heq (by rw [e])
          have hnp : ¬ Y <+: X ++ t' := by
            intro hp
            rcases List.prefix_or_prefix_of_prefix hp (List.prefix_append X t') with h1 | h1
            · have hlen : Y.length < X.length := by
                rcases Nat.lt_or_ge Y.length X.length with h | h
                · exact h
                · exact absurd (h1.eq_of_length (Nat.le_antisymm h1.length_le h)).symm hXY
              exact hnin (hlong _ (IsUnit.here c0 X rest hc hne hX hrest)
                (by simpa using hlen))
            · obtain ⟨Y', hY'⟩ := h1
              have hY'ne : Y' ≠ [] := by
                rintro rfl
                exact hXY (by simpa using hY')
              rw [← hY', List.prefix_append_right_inj] at hp
              have hlet : ∀ y ∈ Y', y.isAlpha = true :=
                fun y hy => hYl y (by rw [← hY']; exact List.mem_append_right _ hy)
              have := letters_not_prefix Y' t' hY'ne hlet ht'
              rw [← List.isPrefixOf_iff_prefix] at hp
              rw [hp] at this
              exact absurd this (by simp)
          have : Y.isPrefixOf (X ++ t') = false := by
            cases h : Y.isPrefixOf (X ++ t') with
            | false => rfl
            | true => exact absurd (List.isPrefixOf_iff_prefix.1 h) hnp
          simp [List.isPrefixOf, this]
        · simp [List.isPrefixOf, hcc]
      rw [replaceStr_cons _ _ _ _ (by simp) hpre,
        replaceStr_copy (c0 :: Y) _ c0 Y rfl X t' (fun x hx e => by
          have := hX x hx
          rw [e, isMicro_not_alpha c0 hc0] at this
          exact absurd this (by simp))]
      refine Rendered.untouched c X rest _ hc hne hX hrest ?_ ih'
      intro hmem
      rcases List.mem_cons.mp hmem with h | h
      · exact heq h
      · exact hnin h

theorem tag_fold (s : List Char) :
    ∀ (L S : List (List Char)) (t : List Char), Rendered S s t →
      L.Pairwise (fun a b => a.length ≥ b.length) →
      (∀ m ∈ L, ∃ c X, m = c :: X ∧ isMicro c = true ∧ X ≠ [] ∧ ∀ x ∈ X, x.isAlpha = true) →
      (∀ u, IsUnit u s → u ∈ S ∨ u ∈ L) →
      ∃ S', Rendered S' s
          (L.foldl (fun acc m => joinWith (frogified m) (splitOn m acc)) t) ∧
        ∀ u, IsUnit u s → u ∈ S' := by
  intro L
  induction L with
  | nil =>
    intro S t hr _ _ hcover
    refine ⟨S, hr, fun u hu => ?_⟩
    rcases hcover u hu with h | h
    · exact h
    · simp at h
  | cons m L ih =>
    intro S t hr hsorted hshape hcover
    obtain ⟨c0, Y, rfl, hc0, hY, hYl⟩ := hshape m (List.mem_cons_self _ _)
    rw [List.pairwise_cons] at hsorted
    have hstep := rendered_step S c0 Y hc0 hY hYl s t hr (by
      intro u hu hlen
      rcases hcover u hu with h | h
      · exact h
      · rcases List.mem_cons.mp h with h | h
        · rw [h] at hlen
          exact absurd hlen (Nat.lt_irrefl _)
        · have := hsorted.1 u h
          omega)
    rw [List.foldl_cons]
    exact ih ((c0 :: Y) :: S) _ hstep hsorted.2
      (fun m hm => hshape m (List.mem_cons_of_mem _ hm))
      (fun u hu => by
        rcases hcover u hu with h | h
        · exact Or.inl (List.mem_cons_of_mem _ h)
        · rcases List.mem_cons.mp h with h | h
          · exact Or.inl (h ▸ List.mem_cons_self _ _)
          · exact Or.inr h)

theorem pairwise_sortLongestFirst (l : List (List Char)) :
    (sortLongestFirst l).Pairwise (fun a b => jsLength a ≥ jsLength b) := by
  haveI : IsTotal (List Char) (fun a b => jsLength a ≥ jsLength b) :=
    ⟨fun a b => Nat.le_total (jsLength b) (jsLength a)⟩
  haveI : IsTrans (List Char) (fun a b => jsLength a ≥ jsLength b) :=
    ⟨fun a b c h1 h2 => Nat.le_trans h2 h1⟩
  exact List.sorted_insertionSort (fun a b => jsLength a ≥ jsLength b) l

theorem jsLength_cons (c : Char) (s : List Char) :
    jsLength (c :: s) = (if c.toNat < 0x10000 then 1 else 2) + jsLength s := by
  simp [jsLength]

theorem jsLength_letters : ∀ (X : List Char), (∀ x ∈ X, x.isAlpha = true) →
    jsLength X = X.length := by
  intro X
  induction X with
  | nil => intro _; rfl
  | cons x X ih =>
    intro h
    have hx : x.toNat < 0x10000 := by
      have := h x (List.mem_cons_self _ _)
      simp only [Char.isAlpha, Char.isUpper, Char.isLower, Bool.or_eq_true, Bool.and_eq_true,
        decide_eq_true_eq] at this
      rcases this with h1 | h1
      · have h4 : x.toNat ≤ 90 := h1.2
        omega
      · have h4 : x.toNat ≤ 122 := h1.2
        omega
    rw [jsLength_cons, if_pos hx, ih (fun y hy => h y (List.mem_cons_of_mem _ hy)),
      List.length_cons]
    omega

theorem jsLength_micro (c : Char) (X : List Char) (hc : isMicro c = true)
    (hX : ∀ x ∈ X, x.isAlpha = true) : jsLength (c :: X) = (c :: X).length := by
  have hlt : c.toNat < 0x10000 := by
    rcases isMicro_cases c hc with h | h <;> rw [h] <;> decide
  rw [jsLength_cons, if_pos hlt, jsLength_letters X hX, List.length_cons]
  omega

theorem mem_sortLongestFirst (l : List (List Char)) (m : List Char) :
    m ∈ sortLongestFirst l ↔ m ∈ l :=
  (List.perm_insertionSort _ l).mem_iff

theorem isUnit_head_mem (u s : List Char) (h : IsUnit u s) :
    ∃ c X, u = c :: X ∧ isMicro c = true ∧ c ∈ s := by
  induction h with
  | here c X rest hc _ _ _ => exact ⟨c, X, rfl, hc, List.mem_cons_self _ _⟩
  | afterPlain u c r _ _ ih =>
    obtain ⟨c', X', e, hc', hm⟩ := ih
    exact ⟨c', X', e, hc', List.mem_cons_of_mem _ hm⟩
  | afterUnit u c X rest _ _ _ _ _ ih =>
    obtain ⟨c', X', e, hc', hm⟩ := ih
    exact ⟨c', X', e, hc', List.mem_cons_of_mem _ (List.mem_append_right _ hm)⟩

theorem includes_singleton (s : List Char) (c : Char) (h : c ∈ s) : includes s [c] = true := by
  induction s with
  | nil => simp at h
  | cons x s ih =>
    rcases List.mem_cons.mp h with rfl | h
    · simp [includes, List.tails, List.isPrefixOf]
    · have := ih h
      simp only [includes, List.tails, List.any_cons] at this ⊢
      rw [this]
      simp

/-- Without a question mark in the text, `tagMicroUnits` tags every maximal match. -/
theorem tagMicroUnits_rendered (s : List Char) (hq : '?' ∉ s) :
    ∃ S, Rendered S s (tagMicroUnits s) ∧ ∀ u, IsUnit u s → u ∈ S := by
  by_cases hg : microSymbols.any (fun symbol => includes s symbol) = true
  · have e : tagMicroUnits s =
        (sortLongestFirst (distinctValues (microPattern.matchAll s))).foldl
          (fun acc m => joinWith (frogified m) (splitOn m acc)) s := by
      simp only [tagMicroUnits, hg, Bool.not_true, Bool.false_eq_true, if_false]
    rw [e]
    have hshape : ∀ m ∈ sortLongestFirst (distinctValues (microPattern.matchAll s)),
        ∃ c X, m = c :: X ∧ isMicro c = true ∧ X ≠ [] ∧ ∀ x ∈ X, x.isAlpha = true :=
      fun m hm => matchAll_shape s [] m
        ((mem_distinctValues _ m).1 ((mem_sortLongestFirst _ m).1 hm))
    have hsorted : (sortLongestFirst (distinctValues (microPattern.matchAll s))).Pairwise
        (fun a b => a.length ≥ b.length) := by
      refine (pairwise_sortLongestFirst _).imp_of_mem ?_
      intro a b ha hb hab
      obtain ⟨ca, Xa, rfl, hca, _, hXa⟩ := hshape a ha
      obtain ⟨cb, Xb, rfl, hcb, _, hXb⟩ := hshape b hb
      rw [jsLength_micro ca Xa hca hXa, jsLength_micro cb Xb hcb hXb] at hab
      exact hab
    exact tag_fold s _ [] s (rendered_refl s) hsorted hshape
      (fun u hu => Or.inr ((mem_sortLongestFirst _ u).2
        ((mem_distinctValues _ u).2 (isUnit_mem_matchAll u s hu []))))
  · have e : tagMicroUnits s = s := by
      simp only [tagMicroUnits, hg, Bool.not_false, if_true]
    rw [e]
    refine ⟨[], rendered_refl s, fun u hu => ?_⟩
    exfalso
    obtain ⟨c, X, _, hc, hm⟩ := isUnit_head_mem u s hu
    rcases isMicro_cases c hc with rfl | rfl
    · apply hg
      have := includes_singleton s microSign hm
      simp [microSymbols, this]
    · exact hq hm

theorem replaceGo_skip (re : Re) (tpl : List ReplTok) :
    ∀ (xs before t : List Char),
      replaceGo re tpl xs.length before (xs ++ t) = replaceGo re tpl 0 (xs.reverse ++ before) t := by
  intro xs
  induction xs with
  | nil => intro before t; rfl
  | cons x xs ih =>
    intro before t
    have e : replaceGo re tpl (xs.length + 1) before (x :: (xs ++ t)) =
        replaceGo re tpl xs.length (x :: before) (xs ++ t) := by
      simp only [replaceGo]
    rw [List.length_cons, List.cons_append, e, ih]
    simp

theorem replaceGo_nomatch (re : Re) (tpl : List ReplTok) (before r : List Char) (c : Char)
    (h : re.run ⟨before, c :: r, []⟩ = []) :
    replaceGo re tpl 0 before (c :: r) = c :: replaceGo re tpl 0 (c :: before) r := by
  simp only [replaceGo, h, List.head?_nil]

theorem replaceGo_match (re : Re) (tpl : List ReplTok) (before X rest : List Char) (c : Char)
    (m : MState) (h : (re.run ⟨before, c :: (X ++ rest), []⟩).head? = some m)
    (hm : m.after = rest) :
    replaceGo re tpl 0 before (c :: (X ++ rest)) =
      expandTemplate tpl m ++ replaceGo re tpl 0 (X.reverse ++ c :: before) rest := by
  have hlen : (c :: (X ++ rest)).length - m.after.length = X.length + 1 := by
    rw [hm]
    simp only [List.length_cons, List.length_append]
    omega
  simp only [replaceGo, h, hlen, Nat.succ_ne_zero, if_false, Nat.add_sub_cancel, replaceGo_skip]

theorem run_frogPattern_ne (before t : List Char) (c : Char) (hc : c ≠ '<') :
    frogPattern.run ⟨before, c :: t, []⟩ = [] := by
  have hb : (c == '<') = false := by simpa using hc
  simp [frogPattern, Re.str, Re.run, Re.lit, hb]

theorem run_frogPattern_nil (before : List Char) : frogPattern.run ⟨before, [], []⟩ = [] := rfl

theorem run_frog_literal (l t : List Char) (k : List (Nat × List Char)) :
    (Re.str "<microfrog".toList).run ⟨l, "<microfrog".toList ++ t, k⟩ =
      [⟨"<microfrog".toList.reverse ++ l, t, k⟩] := rfl

theorem consumed_append (l X rest rest' : List Char) (k k' : List (Nat × List Char)) :
    consumed ⟨l, rest', k'⟩ ⟨X.reverse ++ l, rest, k⟩ = X := by
  simp [consumed]

theorem run_frogPattern_token (before X rest : List Char) (hne : X ≠ [])
    (hX : ∀ x ∈ X, x.isAlpha = true) :
    ∃ m, (frogPattern.run ⟨before, "<microfrog".toList ++ (X ++ '>' :: rest), []⟩).head? =
        some m ∧ m.after = rest ∧ m.caps.lookup 1 = some X := by
  have e : frogPattern.run ⟨before, "<microfrog".toList ++ (X ++ '>' :: rest), []⟩ =
      ((Re.str "<microfrog".toList).run
        ⟨before, "<microfrog".toList ++ (X ++ '>' :: rest), []⟩).flatMap
        (fun st1 => (((Re.plus (Re.chr Char.isAlpha)).run st1).map
          (fun st' => { st' with caps := (1, consumed st1 st') :: st'.caps })).flatMap
            (Re.lit '>').run) := rfl
  have hgt : startsWithLetter ('>' :: rest) = false := rfl
  have hh := head_run_plus_letters ("<microfrog".toList.reverse ++ before) X ('>' :: rest) []
    hne hX hgt
  obtain ⟨tl, htl⟩ : ∃ tl, (Re.plus (Re.chr Char.isAlpha)).run
      ⟨"<microfrog".toList.reverse ++ before, X ++ '>' :: rest, []⟩ =
      ⟨X.reverse ++ ("<microfrog".toList.reverse ++ before), '>' :: rest, []⟩ :: tl := by
    cases hl : (Re.plus (Re.chr Char.isAlpha)).run
        ⟨"<microfrog".toList.reverse ++ before, X ++ '>' :: rest, []⟩ with
    | nil => rw [hl] at hh; simp at hh
    | cons a tl =>
      rw [hl] at hh
      simp only [List.head?_cons, Option.some.injEq] at hh
      exact ⟨tl, by rw [hh]⟩
  rw [e, run_frog_literal]
  simp only [List.flatMap_cons, List.flatMap_nil, List.append_nil, htl, List.map_cons,
    consumed_append]
  refine ⟨⟨'>' :: (X.reverse ++ ("<microfrog".toList.reverse ++ before)), rest, [(1, X)]⟩,
    ?_, rfl, ?_⟩
  · have e2 : (Re.lit '>').run
        ⟨X.reverse ++ ("<microfrog".toList.reverse ++ before), '>' :: rest, [(1, X)]⟩ =
        [⟨'>' :: (X.reverse ++ ("<microfrog".toList.reverse ++ before)), rest, [(1, X)]⟩] := by
      simp [Re.lit, run_chr_cons]
    rw [e2]
    rfl
  · simp [List.lookup]

theorem frogified_append (c : Char) (X t : List Char) :
    frogified (c :: X) ++ t = "<microfrog".toList ++ (X ++ '>' :: t) := by
  simp [frogified_cons]

theorem run_str (lit : List Char) (hne : lit ≠ []) :
    ∀ (l t : List Char) (k : List (Nat × List Char)),
      (Re.str lit).run ⟨l, t, k⟩ =
        if lit.isPrefixOf t = true then [⟨lit.reverse ++ l, t.drop lit.length, k⟩] else [] := by
  induction lit with
  | nil => exact absurd rfl hne
  | cons c cs ih =>
    intro l t k
    cases cs with
    | nil =>
      cases t with
      | nil => rfl
      | cons x t =>
        have e : (Re.str [c]).run ⟨l, x :: t, k⟩ = (Re.lit c).run ⟨l, x :: t, k⟩ := rfl
        rw [e, Re.lit, run_chr_cons]
        by_cases h : x = c
        · subst h
          simp [List.isPrefixOf]
        · have h' : ¬ c = x := fun e => h e.symm
          simp [List.isPrefixOf, h, h']
    | cons c' cs' =>
      have e : (Re.str (c :: c' :: cs')).run ⟨l, t, k⟩ =
          ((Re.lit c).run ⟨l, t, k⟩).flatMap (Re.str (c' :: cs')).run := rfl
      rw [e]
      cases t with
      | nil => rfl
      | cons x t =>
        rw [Re.lit, run_chr_cons]
        by_cases h : x = c
        · subst h
          simp only [beq_self_eq_true, if_true, List.flatMap_cons, List.flatMap_nil,
            List.append_nil, ih (by simp)]
          by_cases hp : (c' :: cs').isPrefixOf t = true
          · have : (x :: c' :: cs').isPrefixOf (x :: t) = true := by
              simpa [List.isPrefixOf] using hp
            simp [hp, this]
          · have : ¬ (x :: c' :: cs').isPrefixOf (x :: t) = true := by
              simpa [List.isPrefixOf] using hp
            simp [hp, this]
        · have h' : ¬ c = x := fun e => h e.symm
          simp [List.isPrefixOf, h, h']

theorem run_frogPattern_no_literal (before t : List Char)
    (h : "<microfrog".toList.isPrefixOf t = false) :
    frogPattern.run ⟨before, t, []⟩ = [] := by
  have e : frogPattern.run ⟨before, t, []⟩ =
      ((Re.str "<microfrog".toList).run ⟨before, t, []⟩).flatMap
        (Re.seq (Re.grp 1 (Re.plus (Re.chr Char.isAlpha))) (Re.lit '>')).run := rfl
  rw [e, run_str _ (by decide), h]
  rfl

theorem includes_cons (t sub : List Char) (c : Char) :
    includes (c :: t) sub = (sub.isPrefixOf (c :: t) || includes t sub) := by
  simp [includes, List.tails]

theorem includes_cons_false (t sub : List Char) (c : Char) (h : includes (c :: t) sub = false) :
    includes t sub = false := by
  rw [includes_cons, Bool.or_eq_false_iff] at h
  exact h.2

theorem includes_append_false (sub : List Char) :
    ∀ (a b : List Char), includes (a ++ b) sub = false → includes b sub = false := by
  intro a
  induction a with
  | nil => intro b h; exact h
  | cons x a ih => intro b h; exact ih b (includes_cons_false _ _ _ h)

/-- A run of letters at the start of a rendered text stands at the start of the original
text as well. -/
theorem rendered_letters_prefix (S : List (List Char)) :
    ∀ (W r t : List Char), Rendered S r t → (∀ w ∈ W, w.isAlpha = true) →
      W.isPrefixOf t = true → W.isPrefixOf r = true := by
  intro W
  induction W with
  | nil => intro r t _ _ _; simp
  | cons w W ih =>
    intro r t hr hW hp
    have hw : w.isAlpha = true := hW w (List.mem_cons_self _ _)
    cases hr with
    | nil => simp [List.isPrefixOf] at hp
    | plain c r' t' _ hr' =>
      simp only [List.isPrefixOf, Bool.and_eq_true, beq_iff_eq] at hp ⊢
      exact ⟨hp.1, ih r' t' hr' (fun x hx => hW x (List.mem_cons_of_mem _ hx)) hp.2⟩
    | tagged c X rest t' _ _ _ _ _ _ =>
      rw [frogified_cons] at hp
      simp only [String.toList, List.cons_append, List.isPrefixOf, Bool.and_eq_true,
        beq_iff_eq] at hp
      rw [hp.1] at hw
      exact absurd hw (by decide)
    | untouched c X rest t' hc _ _ _ _ _ =>
      simp only [List.isPrefixOf, Bool.and_eq_true, beq_iff_eq] at hp
      rw [hp.1, isMicro_not_alpha c hc] at hw
      exact absurd hw (by simp)

/-- Untagging a text in which every maximal match is tagged gives the original text back,
when the original holds no `?` and nowhere the text `<microfrog`. -/
theorem untag_rendered (S : List (List Char)) (s t : List Char) (hr : Rendered S s t) :
    (∀ u, IsUnit u s → u ∈ S) → includes s "<microfrog".toList = false → '?' ∉ s →
    ∀ before, replaceGo frogPattern [.lit microSign, .group 1] 0 before t = s := by
  induction hr with
  | nil =>
    intro _ _ _ before
    simp only [replaceGo, run_frogPattern_nil, List.head?_nil]
  | plain c r t' hp hr' ih =>
    intro hall hinc hq before
    have hnp : "<microfrog".toList.isPrefixOf (c :: t') = false := by
      cases h : "<microfrog".toList.isPrefixOf (c :: t') with
      | false => rfl
      | true =>
        exfalso
        have h1 : c = '<' ∧ "microfrog".toList.isPrefixOf t' = true := by
          have h2 : "<microfrog".toList = '<' :: "microfrog".toList := rfl
          rw [h2] at h
          simp only [List.isPrefixOf, Bool.and_eq_true, beq_iff_eq] at h
          exact ⟨h.1.symm, h.2⟩
        have h3 := rendered_letters_prefix S "microfrog".toList r t' hr' (by decide) h1.2
        rw [includes_cons, Bool.or_eq_false_iff] at hinc
        have h4 : "<microfrog".toList.isPrefixOf (c :: r) = true := by
          have h2 : "<microfrog".toList = '<' :: "microfrog".toList := rfl
          rw [h2, h1.1]
          simp only [List.isPrefixOf, Bool.and_eq_true, beq_iff_eq]
          exact ⟨trivial, h3⟩
        rw [hinc.1] at h4
        exact absurd h4 (by simp)
    rw [replaceGo_nomatch _ _ _ _ _ (run_frogPattern_no_literal before (c :: t') hnp),
      ih (fun u hu => hall u (IsUnit.afterPlain u c r hp hu))
        (includes_cons_false _ _ _ hinc) (fun h => hq (List.mem_cons_of_mem _ h))]
  | tagged c X rest t' hc hne hX hrest _ _ ih =>
    intro hall hinc hq before
    have hcm : c = microSign := by
      rcases isMicro_cases c hc with h | h
      · exact h
      · exact absurd (h ▸ List.mem_cons_self _ _) hq
    obtain ⟨m, hm, ha, hcap⟩ := run_frogPattern_token before X t' hne hX
    have e : frogified (c :: X) ++ t' = '<' :: (("microfrog".toList ++ (X ++ ['>'])) ++ t') := by
      rw [frogified_append]
      simp
    have e' : "<microfrog".toList ++ (X ++ '>' :: t') =
        '<' :: (("microfrog".toList ++ (X ++ ['>'])) ++ t') := by
      simp
    rw [e'] at hm
    rw [e, replaceGo_match _ _ _ _ _ _ m hm ha]
    have hexp : expandTemplate [.lit microSign, .group 1] m = microSign :: X := by
      simp [expandTemplate, hcap]
    rw [hexp, ih (fun u hu => hall u (IsUnit.afterUnit u c X rest hc hne hX hrest hu))
      (includes_append_false _ X rest (includes_cons_false _ _ _ hinc))
      (fun h => hq (List.mem_cons_of_mem _ (List.mem_append_right _ h))), hcm]
    rfl
  | untouched c X rest t' hc hne hX hrest hnin _ _ =>
    intro hall _ _ _
    exact absurd (hall _ (IsUnit.here c X rest hc hne hX hrest)) hnin

theorem includes_prefix (sub t : List Char) : includes (sub ++ t) sub = true := by
  cases h : sub ++ t with
  | nil =>
    have hs : sub = [] := by
      have := congrArg List.length h
      simp at this
      exact this.1
    simp [includes, hs]
  | cons x xs =>
    have hp : sub.isPrefixOf (x :: xs) = true := by
      rw [← h]
      simp
    simp [includes, List.tails, hp]

theorem rendered_eq_of_no_token (S : List (List Char)) (s t : List Char) (hr : Rendered S s t) :
    (∀ u, IsUnit u s → u ∈ S) → includes t "<microfrog".toList = false → t = s := by
  induction hr with
  | nil => intro _ _; rfl
  | plain c r t' hp _ ih =>
    intro hall hinc
    rw [ih (fun u hu => hall u (IsUnit.afterPlain u c r hp hu)) (includes_cons_false _ _ _ hinc)]
  | tagged c X rest t' _ _ _ _ _ _ _ =>
    intro _ hinc
    rw [frogified_append, includes_prefix] at hinc
    exact absurd hinc (by simp)
  | untouched c X rest t' hc hne hX hrest hnin _ _ =>
    intro hall _
    exact absurd (hall _ (IsUnit.here c X rest hc hne hX hrest)) hnin

/-- C9 (amended): on every string that holds no `?` and nowhere the text `<microfrog`, in
particular on every such string that contains the micro sign U+00B5, tagging and then
untagging gives the string back. -/
theorem untag_tag_roundtrip (s : List Char)
    (hfrog : includes s "<microfrog".toList = false) (hq : '?' ∉ s) :
    untagMicroUnits (tagMicroUnits s) = s := by
  obtain ⟨S, hr, hall⟩ := tagMicroUnits_rendered s hq
  by_cases hinc : includes (tagMicroUnits s) "<microfrog".toList = true
  · have e : untagMicroUnits (tagMicroUnits s) =
        frogPattern.replaceAll [.lit microSign, .group 1] (tagMicroUnits s) := by
      simp only [untagMicroUnits, hinc, Bool.not_true, Bool.false_eq_true, if_false]
    rw [e]
    exact untag_rendered S s _ hr hall hfrog hq []
  · have hinc' : includes (tagMicroUnits s) "<microfrog".toList = false := by simpa using hinc
    have e : untagMicroUnits (tagMicroUnits s) = tagMicroUnits s := by
      simp only [untagMicroUnits, hinc', Bool.not_false, if_true]
    rw [e]
    exact rendered_eq_of_no_token S s _ hr hall hinc'

theorem untag_tag_roundtrip_witness :
    includes ([microSign, 'm', 'o', 'l', '/'] ++ "<kg>*".toList ++ [microSign, 'm'])
      "<microfrog".toList = false ∧
    '?' ∉ [microSign, 'm', 'o', 'l', '/'] ++ "<kg>*".toList ++ [microSign, 'm'] ∧
    untagMicroUnits (tagMicroUnits
      ([microSign, 'm', 'o', 'l', '/'] ++ "<kg>*".toList ++ [microSign, 'm'])) =
      [microSign, 'm', 'o', 'l', '/'] ++ "<kg>*".toList ++ [microSign, 'm'] :=
  ⟨by decide, by decide,
    untag_tag_roundtrip ([microSign, 'm', 'o', 'l', '/'] ++ "<kg>*".toList ++ [microSign, 'm'])
      (by decide) (by decide)⟩


/-! ### Scaling of data values -/

theorem mul_one_eq (a : JSNum) : a.mul (.fin 1) = a := by
  cases a <;> simp [JSNum.mul]

theorem keys_mapSet (f : List (String × JSVal)) (k : String) (v : JSVal)
    (h : mapGet f k ≠ .undefined) : (mapSet f k v).map Prod.fst = f.map Prod.fst := by
  induction f with
  | nil => exact absurd rfl h
  | cons kv rest ih =>
    obtain ⟨k', w⟩ := kv
    by_cases hk : k' = k
    · simp [mapSet, hk]
    · have h' : mapGet rest k ≠ .undefined := by simpa [mapGet, hk] using h
      simp [mapSet, hk, ih h']

theorem truthy_arr (items : List JSVal) : (JSVal.arr items).truthy = true := rfl

theorem scaleAxis_skip (parseText : JSVal → JSNum) (fields : List (String × JSVal))
    (name sourceName : String) (source : GlobalBinding) :
    scaleAxis parseText (.obj fields) name sourceName source (.fin 1) = .ok (.obj fields) := by
  simp [scaleAxis, getProp]

theorem scaleAxis_falsy (parseText : JSVal → JSNum) (fields : List (String × JSVal))
    (name sourceName : String) (source : GlobalBinding) (factor : JSNum)
    (h : (mapGet fields name).truthy = false) :
    scaleAxis parseText (.obj fields) name sourceName source factor = .ok (.obj fields) := by
  simp [scaleAxis, getProp, h]

theorem scaleAxis_numbers (parseText : JSVal → JSNum) (fields : List (String × JSVal))
    (name sourceName : String) (factor : JSNum) (values : List JSNum)
    (h : mapGet fields name = .arr (values.map .num)) :
    scaleAxis parseText (.obj fields) name sourceName (.value (.obj fields)) factor =
      .ok (.obj (mapSet fields name (.arr (values.map (fun a => .num (a.mul factor)))))) := by
  by_cases hf : factor = .fin 1
  · subst hf
    rw [scaleAxis_skip]
    have e : (values.map (fun a => JSVal.num (a.mul (.fin 1)))) = values.map .num := by
      apply List.map_congr_left
      intro a _
      rw [mul_one_eq]
    rw [e, ← h, mapSet_eq_self _ _ _ rfl]
    rw [h]
    exact fun hh => JSVal.noConfusion hh
  · simp [scaleAxis, getProp, h, JSVal.truthy, hf, scaleValues, Except.bind, setProp,
      List.map_map, Function.comp_def, parseFloat]

theorem scaleAxis_undeclared (parseText : JSVal → JSNum) (series current : JSVal)
    (name sourceName : String) (factor : JSNum) (h : getProp series name = .ok current)
    (ht : current.truthy = true) (hf : factor ≠ .fin 1) :
    scaleAxis parseText series name sourceName .undeclared factor =
      .error (.referenceError (sourceName ++ " is not defined")) := by
  simp [scaleAxis, h, ht, hf]

/-- C21 (what the code does): with the name `datasereriesDict` not declared, a call of `scaleDataseriesDict`
on a series that has an `x` array with a factor for `x` other than 1 throws a
`ReferenceError` and leaves the series as it was: no `x` value is scaled. -/
theorem scaleDataseriesDict_x_throws (parseText : JSVal → JSNum) (series : JSVal)
    (xs : List JSVal) (fx fy fz : JSNum) (hx : getProp series "x" = .ok (.arr xs))
    (hfx : fx ≠ .fin 1) :
    scaleDataseriesDict .undeclared parseText series fx fy fz =
      ⟨.error (.referenceError "datasereriesDict is not defined"), series⟩ := by
  rw [scaleDataseriesDict, scaleAxis_undeclared parseText series _ "x" _ fx hx rfl hfx]
  rfl

theorem scaleDataseriesDict_x_throws_witness :
    scaleDataseriesDict .undeclared (fun _ => .nan)
        (.obj sampleSeries) (.fin 2) (.fin 1) (.fin 1) =
      ⟨.error (.referenceError "datasereriesDict is not defined"), .obj sampleSeries⟩ :=
  scaleDataseriesDict_x_throws _ _ [jsNum 1, jsNum 2] _ _ _ rfl (by decide)

/-- C22: for a series whose `y` is an array of numbers and whose `z` is an array of
numbers or absent, `scaleDataseriesDict(series, 1, fy, fz)` returns the series object
itself, in which `y[i]` is multiplied by `fy` and `z[i]`, when `z` is present, by `fz`;
`x` and every other field are what they were, in the same order; with `fy = fz = 1` the
series is unchanged. -/
theorem scaleDataseriesDict_scales_y_and_z (global : GlobalBinding) (parseText : JSVal → JSNum)
    (fields : List (String × JSVal)) (ys zs : List JSNum) (fy fz : JSNum)
    (hy : mapGet fields "y" = .arr (ys.map .num))
    (hz : mapGet fields "z" = .arr (zs.map .num) ∨ mapGet fields "z" = .undefined) :
    ∃ scaled : List (String × JSVal),
      scaleDataseriesDict global parseText (.obj fields) (.fin 1) fy fz =
        ⟨.ok (.obj scaled), .obj scaled⟩ ∧
      mapGet scaled "y" = .arr (ys.map (fun a => .num (a.mul fy))) ∧
      (mapGet fields "z" = .arr (zs.map .num) →
        mapGet scaled "z" = .arr (zs.map (fun a => .num (a.mul fz)))) ∧
      (mapGet fields "z" = .undefined → mapGet scaled "z" = .undefined) ∧
      (∀ k : String, k ≠ "y" → k ≠ "z" → mapGet scaled k = mapGet fields k) ∧
      scaled.map Prod.fst = fields.map Prod.fst ∧
      (fy = .fin 1 → fz = .fin 1 → scaled = fields) := by
  have hyne : mapGet fields "y" ≠ .undefined := by
    rw [hy]; exact fun hh => JSVal.noConfusion hh
  have hzy : ∀ v, mapGet (mapSet fields "y" v) "z" = mapGet fields "z" :=
    fun v => mapGet_mapSet_ne _ _ _ _ (by decide)
  have e1 : scaleDataseriesDict global parseText (.obj fields) (.fin 1) fy fz =
      match scaleAxis parseText
          (.obj (mapSet fields "y" (.arr (ys.map (fun a => .num (a.mul fy)))))) "z"
          "dataseriesDict"
          (.value (.obj (mapSet fields "y" (.arr (ys.map (fun a => .num (a.mul fy)))))))
          fz with
      | .error e => ⟨.error e, .obj (mapSet fields "y" (.arr (ys.map (fun a => .num (a.mul fy)))))⟩
      | .ok afterZ => ⟨.ok afterZ, afterZ⟩ := by
    simp only [scaleDataseriesDict, scaleAxis_skip, scaleAxis_numbers parseText fields "y"
      "dataseriesDict" fy ys hy]
  rcases hz with hz | hz
  · have hz' : mapGet (mapSet fields "y" (.arr (ys.map (fun a => .num (a.mul fy))))) "z" =
        .arr (zs.map .num) := by rw [hzy, hz]
    have hzne : mapGet (mapSet fields "y" (.arr (ys.map (fun a => .num (a.mul fy))))) "z" ≠
        .undefined := by rw [hz']; exact fun hh => JSVal.noConfusion hh
    refine ⟨mapSet (mapSet fields "y" (.arr (ys.map (fun a => .num (a.mul fy))))) "z"
      (.arr (zs.map (fun a => .num (a.mul fz)))), ?_, ?_, ?_, ?_, ?_, ?_, ?_⟩
    · rw [e1, scaleAxis_numbers parseText _ "z" "dataseriesDict" fz zs hz']
    · rw [mapGet_mapSet_ne _ _ _ _ (by decide), mapGet_mapSet_same]
    · intro _; rw [mapGet_mapSet_same]
    · intro h; rw [hz] at h; exact JSVal.noConfusion h
    · intro k hk1 hk2
      rw [mapGet_mapSet_ne _ _ _ _ (Ne.symm hk2), mapGet_mapSet_ne _ _ _ _ (Ne.symm hk1)]
    · rw [keys_mapSet _ _ _ hzne, keys_mapSet _ _ _ hyne]
    · intro h1 h2
      subst h1 h2
      have ey : (ys.map (fun a => JSVal.num (a.mul (.fin 1)))) = ys.map .num :=
        List.map_congr_left (fun a _ => by rw [mul_one_eq])
      have ez : (zs.map (fun a => JSVal.num (a.mul (.fin 1)))) = zs.map .num :=
        List.map_congr_left (fun a _ => by rw [mul_one_eq])
      rw [ey, ez, mapSet_eq_self fields "y" _ hy (by exact fun hh => JSVal.noConfusion hh),
        mapSet_eq_self fields "z" _ hz (by exact fun hh => JSVal.noConfusion hh)]
  · have hz' : (mapGet (mapSet fields "y" (.arr (ys.map (fun a => .num (a.mul fy))))) "z").truthy
        = false := by rw [hzy, hz]; rfl
    refine ⟨mapSet fields "y" (.arr (ys.map (fun a => .num (a.mul fy)))), ?_, ?_, ?_, ?_, ?_, ?_,
      ?_⟩
    · rw [e1, scaleAxis_falsy parseText _ "z" "dataseriesDict" _ fz hz']
    · rw [mapGet_mapSet_same]
    · intro h; rw [hz] at h; exact JSVal.noConfusion h
    · intro _; rw [hzy, hz]
    · intro k hk1 _
      rw [mapGet_mapSet_ne _ _ _ _ (Ne.symm hk1)]
    · rw [keys_mapSet _ _ _ hyne]
    · intro h1 _
      subst h1
      have ey : (ys.map (fun a => JSVal.num (a.mul (.fin 1)))) = ys.map .num :=
        List.map_congr_left (fun a _ => by rw [mul_one_eq])
      rw [ey, mapSet_eq_self fields "y" _ hy (by exact fun hh => JSVal.noConfusion hh)]

theorem scaleDataseriesDict_scales_y_and_z_witness :
    mapGet sampleSeries "y" = .arr (([.fin 3, .fin 4] : List JSNum).map .num) ∧
    ∃ scaled : List (String × JSVal),
      scaleDataseriesDict .undeclared (fun _ => .nan) (.obj sampleSeries) (.fin 1) (.fin 10)
          (.fin 5) = ⟨.ok (.obj scaled), .obj scaled⟩ ∧
      mapGet scaled "y" = .arr [jsNum (3 * 10), jsNum (4 * 10)] ∧
      mapGet scaled "x" = .arr [jsNum 1, jsNum 2] :=
  ⟨rfl, (scaleDataseriesDict_scales_y_and_z .undeclared (fun _ => .nan) sampleSeries
    [.fin 3, .fin 4] [] (.fin 10) (.fin 5) rfl (Or.inr rfl)).imp
      (fun _ h => ⟨h.1, h.2.1, h.2.2.2.2.1 "x" (by decide) (by decide)⟩)⟩

theorem mapGet_jsonFields (fields : List (String × JSVal)) (k : String) (v : JSVal)
    (h : mapGet fields k = v) (hv : v.isUndefined = false) :
    mapGet (jsonFields fields) k = jsonValue v := by
  induction fields with
  | nil =>
    subst h
    exact absurd hv (by simp [mapGet, JSVal.isUndefined])
  | cons kv rest ih =>
    obtain ⟨k', w⟩ := kv
    by_cases hk : k' = k
    · have hw : w = v := by simpa [mapGet, hk] using h
      subst hw
      simp [jsonFields, hv, mapGet, hk]
    · have h' : mapGet rest k = v := by simpa [mapGet, hk] using h
      by_cases hu : w.isUndefined = true
      · simp [jsonFields, hu, ih h']
      · simp [jsonFields, hu, mapGet, hk, ih h']

/-- C23 (what the code does): with the name `datasereriesDict` not declared, a call of
`scaleFigDictValues` with a factor for `x` other than 1, on a figure whose first series
has an `x` array, throws a `ReferenceError`: no new figure comes back. -/
theorem scaleFigDictValues_x_throws (parseText : JSVal → JSNum)
    (fields seriesFields : List (String × JSVal)) (xs rest : List JSVal) (fx fy : JSNum)
    (hdata : mapGet fields "data" = .arr (.obj seriesFields :: rest))
    (hx : mapGet seriesFields "x" = .arr xs) (hfx : fx ≠ .fin 1) :
    scaleFigDictValues .undeclared parseText (.obj fields) fx fy =
      some (.error (.referenceError "datasereriesDict is not defined")) := by
  have h1 := mapGet_jsonFields fields "data" _ hdata rfl
  have h2 := mapGet_jsonFields seriesFields "x" _ hx rfl
  have h3 : jsonValue (.arr (.obj seriesFields :: rest)) =
      .arr (.obj (jsonFields seriesFields) :: jsonItems rest) := by
    simp [jsonValue, jsonItems]
  have h4 : jsonValue (.arr xs) = .arr (jsonItems xs) := by simp [jsonValue]
  rw [h3] at h1
  rw [h4] at h2
  have h5 := scaleAxis_undeclared parseText (.obj (jsonFields seriesFields)) (.arr (jsonItems xs))
    "x" "datasereriesDict" fx (by simp [getProp, h2]) rfl hfx
  simp [scaleFigDictValues, jsonCopy, JSVal.isUndefined, jsonValue, getProp, h1,
    scaleEachSeries, scaleDataseriesDict, h5]

theorem scaleFigDictValues_x_throws_witness :
    scaleFigDictValues .undeclared (fun _ => .nan) (.obj sampleFigure) (.fin 2) (.fin 1) =
      some (.error (.referenceError "datasereriesDict is not defined")) :=
  scaleFigDictValues_x_throws _ sampleFigure sampleSeries [jsNum 1, jsNum 2] [] _ _ rfl rfl
    (by decide)


/-! ### The retry of `getUnitsScalingRatio` and its error messages -/

theorem includes_append_left (sub : List Char) :
    ∀ (a t : List Char), includes t sub = true → includes (a ++ t) sub = true := by
  intro a
  induction a with
  | nil => intro t h; exact h
  | cons x a ih =>
    intro t h
    rw [List.cons_append, includes_cons, ih t h, Bool.or_true]

theorem includes_infix (a sub b : List Char) : includes (a ++ (sub ++ b)) sub = true :=
  includes_append_left sub a _ ( includes_prefix sub b)

theorem includes_suffix (a sub : List Char) : includes (a ++ sub) sub = true := by
  have := includes_infix a sub []
  rwa [List.append_nil] at this

/-- C30: when the two unit strings differ and the first conversion attempt fails, the
backend is asked exactly twice: for the processed pair, then for the pair with
`convertInverseUnits` applied to both processed strings.  The call returns the ratio of
the second attempt when that succeeds, and throws exactly when the second attempt fails
as well. -/
theorem getUnitsScalingRatio_retries_once
    (backend : List Char → List Char → Except BackendError ℚ) (u1 u2 : List Char)
    (e : BackendError) (hne : u1 ≠ u2)
    (hfail : backend (removeTaggedStrings (tagMicroUnits (replaceCarets u1)))
      (removeTaggedStrings (tagMicroUnits (replaceCarets u2))) = .error e) :
    (getUnitsScalingRatio backend u1 u2).conversions =
      [(removeTaggedStrings (tagMicroUnits (replaceCarets u1)),
          removeTaggedStrings (tagMicroUnits (replaceCarets u2))),
        (convertInverseUnits (removeTaggedStrings (tagMicroUnits (replaceCarets u1))) 100,
          convertInverseUnits (removeTaggedStrings (tagMicroUnits (replaceCarets u2))) 100)] ∧
    (∀ ratio, backend
        (convertInverseUnits (removeTaggedStrings (tagMicroUnits (replaceCarets u1))) 100)
        (convertInverseUnits (removeTaggedStrings (tagMicroUnits (replaceCarets u2))) 100) =
          .ok ratio → (getUnitsScalingRatio backend u1 u2).outcome = .ok ratio) ∧
    ((∃ err, (getUnitsScalingRatio backend u1 u2).outcome = .error err) ↔
      ∃ e2, backend
        (convertInverseUnits (removeTaggedStrings (tagMicroUnits (replaceCarets u1))) 100)
        (convertInverseUnits (removeTaggedStrings (tagMicroUnits (replaceCarets u2))) 100) =
          .error e2) := by
  simp only [getUnitsScalingRatio, if_neg hne, hfail]
  cases h2 : backend
      (convertInverseUnits (removeTaggedStrings (tagMicroUnits (replaceCarets u1))) 100)
      (convertInverseUnits (removeTaggedStrings (tagMicroUnits (replaceCarets u2))) 100) with
  | ok ratio => simp
  | error e2 => simp

theorem getUnitsScalingRatio_retries_once_witness :
    (getUnitsScalingRatio unitpy_U_PYTHON "1/s".toList "(s)**(-1)".toList).outcome = .ok 1 ∧
    (getUnitsScalingRatio unitpy_U_PYTHON "1/s".toList "(s)**(-1)".toList).conversions =
      [("1/s".toList, "(s)**(-1)".toList), ("(s)**(-1)".toList, "(s)**(-1)".toList)] :=
  ⟨(getUnitsScalingRatio_retries_once unitpy_U_PYTHON "1/s".toList "(s)**(-1)".toList
      ⟨"Error", "_PYTHON placeholder: Cannot convert 1/s to (s)**(-1). " ++
        "Implement your unit conversion logic."⟩ (by decide) rfl).2.1 1 rfl,
    (getUnitsScalingRatio_retries_once unitpy_U_PYTHON "1/s".toList "(s)**(-1)".toList
      ⟨"Error", "_PYTHON placeholder: Cannot convert 1/s to (s)**(-1). " ++
        "Implement your unit conversion logic."⟩ (by decide) rfl).1⟩

theorem includes_self (sub : List Char) : includes sub sub = true := by
  have := includes_prefix sub []
  rwa [List.append_nil] at this

theorem isKnownFailure_iff (e : BackendError) :
    isKnownFailure e = true ↔
      (e.name = "Error" ∧ (messageIncludes e.message "Cannot convert" ||
        messageIncludes e.message "Missing key") = true) ∨
      (e.name = "Error" ∧ (messageIncludes e.message "invalid" ||
        messageIncludes e.message "formatted") = true) := by
  simp only [isKnownFailure, Bool.and_eq_true, Bool.or_eq_true, decide_eq_true_eq]
  tauto

theorem conversionError_message (e : BackendError) (u1 u2 p1 p2 : List Char) :
    messageIncludes (conversionError e u1 u2 p1 p2).message (String.mk u1) = true ∧
    messageIncludes (conversionError e u1 u2 p1 p2).message (String.mk u2) = true ∧
    messageIncludes (conversionError e u1 u2 p1 p2).message e.message = true ∧
    (isKnownFailure e = false →
      messageIncludes (conversionError e u1 u2 p1 p2).message (String.mk p1) = true ∧
      messageIncludes (conversionError e u1 u2 p1 p2).message (String.mk p2) = true) := by
  unfold conversionError
  split_ifs with h1 h2
  · refine ⟨?_, ?_, ?_, ?_⟩
    · simp only [JSError.message, messageIncludes, String.toList, String.data_append,
        List.append_assoc]
      repeat (first | exact includes_self _ | exact includes_prefix _ _ | apply includes_append_left)
    · simp only [JSError.message, messageIncludes, String.toList, String.data_append,
        List.append_assoc]
      repeat (first | exact includes_self _ | exact includes_prefix _ _ | apply includes_append_left)
    · simp only [JSError.message, messageIncludes, String.toList, String.data_append,
        List.append_assoc]
      repeat (first | exact includes_self _ | exact includes_prefix _ _ | apply includes_append_left)
    · intro hk
      have := (isKnownFailure_iff e).2 (Or.inl h1)
      rw [hk] at this
      exact absurd this (by decide)
  · refine ⟨?_, ?_, ?_, ?_⟩
    · simp only [JSError.message, messageIncludes, String.toList, String.data_append,
        List.append_assoc]
      repeat (first | exact includes_self _ | exact includes_prefix _ _ | apply includes_append_left)
    · simp only [JSError.message, messageIncludes, String.toList, String.data_append,
        List.append_assoc]
      repeat (first | exact includes_self _ | exact includes_prefix _ _ | apply includes_append_left)
    · simp only [JSError.message, messageIncludes, String.toList, String.data_append,
        List.append_assoc]
      repeat (first | exact includes_self _ | exact includes_prefix _ _ | apply includes_append_left)
    · intro hk
      have := (isKnownFailure_iff e).2 (Or.inr h2)
      rw [hk] at this
      exact absurd this (by decide)
  · refine ⟨?_, ?_, ?_, ?_⟩
    · simp only [JSError.message, messageIncludes, String.toList, String.data_append,
        List.append_assoc]
      repeat (first | exact includes_self _ | exact includes_prefix _ _ | apply includes_append_left)
    · simp only [JSError.message, messageIncludes, String.toList, String.data_append,
        List.append_assoc]
      repeat (first | exact includes_self _ | exact includes_prefix _ _ | apply includes_append_left)
    · simp only [JSError.message, messageIncludes, String.toList, String.data_append,
        List.append_assoc]
      repeat (first | exact includes_self _ | exact includes_prefix _ _ | apply includes_append_left)
    · intro _
      constructor
      · simp only [JSError.message, messageIncludes, String.toList, String.data_append,
          List.append_assoc]
        repeat (first | exact includes_self _ | exact includes_prefix _ _ | apply includes_append_left)
      · simp only [JSError.message, messageIncludes, String.toList, String.data_append,
          List.append_assoc]
        repeat (first | exact includes_self _ | exact includes_prefix _ _ | apply includes_append_left)

/-- Whether the processed strings occur in the message depends on what the backend says:
were the backend replaced by one whose error is named `Error` and says only "Missing key",
the call on `m^2` and `s^2` would throw a message that holds both original strings but
neither of the processed strings `m**2` and `s**2` handed to the backend. -/
theorem replaced_backend_message :
    (getUnitsScalingRatio missingKeyBackend "m^2".toList "s^2".toList).conversions =
      [("m**2".toList, "s**2".toList), ("m**2".toList, "s**2".toList)] ∧
    (getUnitsScalingRatio missingKeyBackend "m^2".toList "s^2".toList).outcome =
      .error (.error ("Error during unit conversion in getUnitsScalingRatio: Missing key. " ++
        "Ensure all unit definitions are correctly set. Unit 1: m^2, Unit 2: s^2")) ∧
    messageIncludes ("Error during unit conversion in getUnitsScalingRatio: Missing key. " ++
        "Ensure all unit definitions are correctly set. Unit 1: m^2, Unit 2: s^2") "m**2" = false ∧
    messageIncludes ("Error during unit conversion in getUnitsScalingRatio: Missing key. " ++
        "Ensure all unit definitions are correctly set. Unit 1: m^2, Unit 2: s^2") "s**2" = false :=
  ⟨rfl, rfl, rfl, rfl⟩

/-- For every backend: whenever `getUnitsScalingRatio` throws, the second attempt has failed
with some backend error, and the message thrown holds both original unit strings and the
message of that backend error; when the backend error is none of the kinds the source
recognises, the message holds both processed strings of the second attempt as well. -/
theorem error_message_holds_backend_message
    (backend : List Char → List Char → Except BackendError ℚ) (u1 u2 : List Char)
    (err : JSError) (h : (getUnitsScalingRatio backend u1 u2).outcome = .error err) :
    messageIncludes err.message (String.mk u1) = true ∧
    messageIncludes err.message (String.mk u2) = true ∧
    ∃ e2, backend
        (convertInverseUnits (removeTaggedStrings (tagMicroUnits (replaceCarets u1))) 100)
        (convertInverseUnits (removeTaggedStrings (tagMicroUnits (replaceCarets u2))) 100) =
          .error e2 ∧
      messageIncludes err.message e2.message = true ∧
      (isKnownFailure e2 = false →
        messageIncludes err.message (String.mk
          (convertInverseUnits (removeTaggedStrings (tagMicroUnits (replaceCarets u1))) 100))
          = true ∧
        messageIncludes err.message (String.mk
          (convertInverseUnits (removeTaggedStrings (tagMicroUnits (replaceCarets u2))) 100))
          = true) := by
  by_cases hne : u1 = u2
  · simp [getUnitsScalingRatio, hne] at h
  · simp only [getUnitsScalingRatio, if_neg hne] at h
    cases h1 : backend (removeTaggedStrings (tagMicroUnits (replaceCarets u1)))
        (removeTaggedStrings (tagMicroUnits (replaceCarets u2))) with
    | ok ratio => simp [h1] at h
    | error e1 =>
      cases h2 : backend
          (convertInverseUnits (removeTaggedStrings (tagMicroUnits (replaceCarets u1))) 100)
          (convertInverseUnits (removeTaggedStrings (tagMicroUnits (replaceCarets u2))) 100) with
      | ok ratio => simp [h1, h2] at h
      | error e2 =>
        simp only [h1, h2, Except.error.injEq] at h
        subst h
        have hm := conversionError_message e2 u1 u2
          (convertInverseUnits (removeTaggedStrings (tagMicroUnits (replaceCarets u1))) 100)
          (convertInverseUnits (removeTaggedStrings (tagMicroUnits (replaceCarets u2))) 100)
        exact ⟨hm.1, hm.2.1, e2, rfl, hm.2.2.1, hm.2.2.2⟩

theorem includes_iff_within (s sub : List Char) : includes s sub = true ↔ sub <:+: s := by
  unfold includes
  rw [List.any_eq_true, List.infix_iff_prefix_suffix]
  constructor
  · rintro ⟨t, ht, hp⟩
    exact ⟨t, List.isPrefixOf_iff_prefix.1 hp, (List.mem_tails _ _).1 ht⟩
  · rintro ⟨t, hp, ht⟩
    exact ⟨t, (List.mem_tails _ _).2 ht, List.isPrefixOf_iff_prefix.2 hp⟩

theorem includes_trans (a b c : List Char) (h1 : includes a b = true)
    (h2 : includes b c = true) : includes a c = true := by
  rw [includes_iff_within] at h1 h2 ⊢
  exact h2.trans h1

theorem unitpy_error (unit targetUnits : List Char) (e : BackendError)
    (h : unitpy_U_PYTHON unit targetUnits = .error e) :
    e.message = "_PYTHON placeholder: Cannot convert " ++ String.mk unit ++ " to " ++
      String.mk targetUnits ++ ". Implement your unit conversion logic." := by
  unfold unitpy_U_PYTHON at h
  split_ifs at h
  simp only [Except.error.injEq] at h
  rw [← h]

theorem unitpy_error_names_units (unit targetUnits : List Char) (e : BackendError)
    (h : unitpy_U_PYTHON unit targetUnits = .error e) :
    messageIncludes e.message (String.mk unit) = true ∧
    messageIncludes e.message (String.mk targetUnits) = true := by
  rw [unitpy_error unit targetUnits e h]
  constructor
  · simp only [messageIncludes, String.toList, String.data_append, List.append_assoc]
    repeat (first | exact includes_self _ | exact includes_prefix _ _ | apply includes_append_left)
  · simp only [messageIncludes, String.toList, String.data_append, List.append_assoc]
    repeat (first | exact includes_self _ | exact includes_prefix _ _ | apply includes_append_left)

/-- C29: whenever `getUnitsScalingRatio(unitA, unitB)`, with the conversion backend of the
source, throws, the second of its two conversion attempts was made on the strings that
`convertInverseUnits` gives for the two processed strings, and the message of the error
thrown contains both original unit strings and both of those strings handed to the
backend on the retry. -/
theorem error_message_names_units (u1 u2 : List Char) (err : JSError)
    (h : (getUnitsScalingRatio unitpy_U_PYTHON u1 u2).outcome = .error err) :
    (getUnitsScalingRatio unitpy_U_PYTHON u1 u2).conversions =
      [(removeTaggedStrings (tagMicroUnits (replaceCarets u1)),
        removeTaggedStrings (tagMicroUnits (replaceCarets u2))),
       (convertInverseUnits (removeTaggedStrings (tagMicroUnits (replaceCarets u1))) 100,
        convertInverseUnits (removeTaggedStrings (tagMicroUnits (replaceCarets u2))) 100)] ∧
    messageIncludes err.message (String.mk u1) = true ∧
    messageIncludes err.message (String.mk u2) = true ∧
    messageIncludes err.message (String.mk
      (convertInverseUnits (removeTaggedStrings (tagMicroUnits (replaceCarets u1))) 100)) =
        true ∧
    messageIncludes err.message (String.mk
      (convertInverseUnits (removeTaggedStrings (tagMicroUnits (replaceCarets u2))) 100)) =
        true := by
  obtain ⟨h1, h2, e2, he2, hm, _⟩ := error_message_holds_backend_message unitpy_U_PYTHON u1 u2 err h
  obtain ⟨hp1, hp2⟩ := unitpy_error_names_units _ _ e2 he2
  refine ⟨?_, h1, h2, includes_trans _ _ _ hm hp1, includes_trans _ _ _ hm hp2⟩
  by_cases hne : u1 = u2
  · simp [getUnitsScalingRatio, hne] at h
  · cases hf : unitpy_U_PYTHON (removeTaggedStrings (tagMicroUnits (replaceCarets u1)))
        (removeTaggedStrings (tagMicroUnits (replaceCarets u2))) with
    | ok ratio => simp [getUnitsScalingRatio, hne, hf] at h
    | error e1 => simp only [getUnitsScalingRatio, if_neg hne, hf, he2]

theorem error_message_names_units_witness :
    (getUnitsScalingRatio unitpy_U_PYTHON "1/ms".toList "s^2".toList).outcome =
      .error (.error ("Error during unit conversion in getUnitsScalingRatio: " ++
        "_PYTHON placeholder: Cannot convert (ms)**(-1) to s**2. " ++
        "Implement your unit conversion logic." ++
        ". Ensure all unit definitions are correctly set. Unit 1: 1/ms, Unit 2: s^2")) ∧
    messageIncludes ("Error during unit conversion in getUnitsScalingRatio: " ++
        "_PYTHON placeholder: Cannot convert (ms)**(-1) to s**2. " ++
        "Implement your unit conversion logic." ++
        ". Ensure all unit definitions are correctly set. Unit 1: 1/ms, Unit 2: s^2")
      "(ms)**(-1)" = true :=
  ⟨rfl, (error_message_names_units "1/ms".toList "s^2".toList _ rfl).2.2.2.1⟩


/-! ### Tags: `extractTaggedStrings` and `removeTaggedStrings` -/

theorem tagScan_no_close : ∀ (r : List Char) (o : Option (List Char)), '>' ∉ r →
    tagScan o r = [] := by
  intro r
  induction r with
  | nil => intro o _; cases o <;> rfl
  | cons c r ih =>
    intro o h
    have hc : c ≠ '>' := fun e => h (by simp [e])
    have hr : '>' ∉ r := fun e => h (List.mem_cons_of_mem _ e)
    cases o with
    | none => simp [tagScan, ih _ hr]
    | some acc => simp [tagScan, hc, ih _ hr]

theorem tagScan_close : ∀ (X acc rest : List Char), '>' ∉ X →
    tagScan (some acc) (X ++ '>' :: rest) = (acc.reverse ++ X) :: tagScan none rest := by
  intro X
  induction X with
  | nil => intro acc rest _; simp [tagScan]
  | cons x X ih =>
    intro acc rest h
    have hx : x ≠ '>' := fun e => h (by simp [e])
    have hX : '>' ∉ X := fun e => h (List.mem_cons_of_mem _ e)
    simp [tagScan, hx, ih _ _ hX]

/-- What the tag pattern yields at a `<`: the runs of characters other than `>`, longest
first, each continued by the closing `>`. -/
theorem run_tagPattern_open (before r : List Char) :
    tagPattern.run ⟨before, '<' :: r, []⟩ =
      (charRuns (fun c => c != '>') ('<' :: before) r []).flatMap
        (fun st' => (Re.lit '>').run
          { st' with caps := (1, consumed ⟨'<' :: before, r, []⟩ st') :: st'.caps }) := by
  have e : tagPattern.run ⟨before, '<' :: r, []⟩ =
      ((Re.lit '<').run ⟨before, '<' :: r, []⟩).flatMap
        (fun st1 => (((Re.star (Re.chr (fun c => c != '>'))).run st1).map
          (fun st' => { st' with caps := (1, consumed st1 st') :: st'.caps })).flatMap
            (Re.lit '>').run) := rfl
  have e1 : (Re.lit '<').run ⟨before, '<' :: r, []⟩ = [⟨'<' :: before, r, []⟩] := rfl
  rw [e, e1]
  simp only [List.flatMap_cons, List.flatMap_nil, List.append_nil, run_star_chr]
  rw [List.flatMap_map]

theorem run_tagPattern_ne (before r : List Char) (c : Char) (hc : c ≠ '<') :
    tagPattern.run ⟨before, c :: r, []⟩ = [] := by
  have e : tagPattern.run ⟨before, c :: r, []⟩ =
      ((Re.lit '<').run ⟨before, c :: r, []⟩).flatMap
        (Re.seq (Re.grp 1 (Re.star (Re.chr (fun c => c != '>')))) (Re.lit '>')).run := rfl
  have hb : (c == '<') = false := by simpa using hc
  rw [e, Re.lit, run_chr_cons]
  simp [hb]

theorem run_tagPattern_nil (before : List Char) : tagPattern.run ⟨before, [], []⟩ = [] := rfl

theorem closeRuns_none (g : MState → List MState)
    (hg : ∀ st : MState, st.after.head? ≠ some '>' → g st = []) (k : List (Nat × List Char)) :
    ∀ (r l : List Char), '>' ∉ r → (charRuns (fun c => c != '>') l r k).flatMap g = [] := by
  intro r
  induction r with
  | nil =>
    intro l _
    simp [charRuns, hg]
  | cons x r ih =>
    intro l h
    have hx : x ≠ '>' := fun e => h (by simp [e])
    have hr : '>' ∉ r := fun e => h (List.mem_cons_of_mem _ e)
    rw [charRuns_cons]
    simp only [bne_iff_ne, ne_eq, hx, not_false_eq_true, if_true, List.flatMap_append, ih _ hr,
      List.flatMap_cons, List.flatMap_nil, List.append_nil, List.nil_append]
    exact hg _ (by simp [hx])

theorem closeRuns_some (g : MState → List MState)
    (hg : ∀ st : MState, st.after.head? ≠ some '>' → g st = []) (k : List (Nat × List Char))
    (rest : List Char) :
    ∀ (X l : List Char), '>' ∉ X →
      (charRuns (fun c => c != '>') l (X ++ '>' :: rest) k).flatMap g =
        g ⟨X.reverse ++ l, '>' :: rest, k⟩ := by
  intro X
  induction X with
  | nil =>
    intro l _
    simp [charRuns]
  | cons x X ih =>
    intro l h
    have hx : x ≠ '>' := fun e => h (by simp [e])
    have hX : '>' ∉ X := fun e => h (List.mem_cons_of_mem _ e)
    rw [List.cons_append, charRuns_cons]
    simp only [bne_iff_ne, ne_eq, hx, not_false_eq_true, if_true, List.flatMap_append, ih _ hX,
      List.flatMap_cons, List.flatMap_nil, List.append_nil]
    rw [hg ⟨l, x :: (X ++ '>' :: rest), k⟩ (by simp [hx])]
    simp

theorem closeGroup_ne (st0 st : MState) (h : st.after.head? ≠ some '>') :
    (Re.lit '>').run { st with caps := (1, consumed st0 st) :: st.caps } = [] := by
  obtain ⟨l, a, k⟩ := st
  cases a with
  | nil => rfl
  | cons x a =>
    have hx : (x == '>') = false := by simpa using h
    rw [Re.lit, run_chr_cons]
    simp [hx]

theorem run_tagPattern_unclosed (before r : List Char) (h : '>' ∉ r) :
    tagPattern.run ⟨before, '<' :: r, []⟩ = [] := by
  rw [run_tagPattern_open]
  exact closeRuns_none _ (closeGroup_ne _) [] r _ h

theorem run_tagPattern_tag (before X rest : List Char) (h : '>' ∉ X) :
    tagPattern.run ⟨before, '<' :: (X ++ '>' :: rest), []⟩ =
      [⟨'>' :: (X.reverse ++ '<' :: before), rest, [(1, X)]⟩] := by
  rw [run_tagPattern_open, closeRuns_some _ (closeGroup_ne _) [] rest X _ h]
  simp only [consumed_append]
  rfl

theorem split_at_close (r : List Char) (h : '>' ∈ r) :
    ∃ X rest, r = X ++ '>' :: rest ∧ '>' ∉ X := by
  induction r with
  | nil => simp at h
  | cons x r ih =>
    by_cases hx : x = '>'
    · exact ⟨[], r, by simp [hx], by simp⟩
    · have hr : '>' ∈ r := by
        rcases List.mem_cons.1 h with e | e
        · exact absurd e.symm hx
        · exact e
      obtain ⟨X, rest, e, hX⟩ := ih hr
      refine ⟨x :: X, rest, by simp [e], ?_⟩
      intro hm
      rcases List.mem_cons.1 hm with e' | e'
      · exact hx e'.symm
      · exact hX e'

/-- The matches of the tag pattern are the tags of the scan, each with its brackets. -/
theorem matchAll_tagPattern (s : List Char) :
    ∀ before, matchAllGo tagPattern 0 before s =
      (tagScan none s).map (fun content => '<' :: (content ++ ['>'])) := by
  generalize hn : s.length = n
  induction n using Nat.strong_induction_on generalizing s with
  | _ n ih =>
    intro before
    cases s with
    | nil => simp [matchAllGo, run_tagPattern_nil, tagScan]
    | cons c r =>
      by_cases hc : c = '<'
      · subst hc
        by_cases hr : '>' ∈ r
        · obtain ⟨X, rest, e, hX⟩ := split_at_close r hr
          subst e
          have e2 : '<' :: (X ++ '>' :: rest) = '<' :: ((X ++ ['>']) ++ rest) := by simp
          have hrun := run_tagPattern_tag before X rest hX
          rw [e2] at hrun
          rw [e2, matchAllGo_match tagPattern before (X ++ ['>']) rest '<' _
            (by rw [hrun]; rfl) rfl]
          have hlen : rest.length < n := by
            rw [← hn]; simp only [List.length_cons, List.length_append]; omega
          rw [ih _ hlen rest rfl, ← e2]
          simp [tagScan, tagScan_close X [] rest hX]
        · rw [matchAllGo_nomatch _ _ _ _ (run_tagPattern_unclosed before r hr)]
          have hlen : r.length < n := by rw [← hn]; simp
          rw [ih _ hlen r rfl]
          simp [tagScan, tagScan_no_close r _ hr]
      · rw [matchAllGo_nomatch _ _ _ _ (run_tagPattern_ne before r c hc)]
        have hlen : r.length < n := by rw [← hn]; simp
        rw [ih _ hlen r rfl]
        simp [tagScan, hc]

theorem sliceInner_wrap (content : List Char) :
    sliceInner ('<' :: (content ++ ['>'])) = content := by
  simp [sliceInner]

theorem extractTaggedStrings_eq (text : List Char) :
    extractTaggedStrings text = sortLongestFirst (distinctValues (tagContents text)) := by
  unfold extractTaggedStrings Re.matchAll tagContents
  rw [matchAll_tagPattern, List.map_map]
  congr 2
  conv_rhs => rw [← List.map_id (tagScan none text)]
  apply List.map_congr_left
  intro content _
  exact sliceInner_wrap content

theorem tagScan_some_ne_nil : ∀ (b acc c : List Char),
    tagScan (some acc) (b ++ '>' :: c) ≠ [] := by
  intro b
  induction b with
  | nil => intro acc c; simp [tagScan]
  | cons x b ih =>
    intro acc c
    by_cases hx : x = '>'
    · simp [tagScan, hx]
    · simpa [tagScan, hx] using ih (x :: acc) c

theorem tagScan_none_ne_nil : ∀ (a b c : List Char),
    tagScan none (a ++ '<' :: (b ++ '>' :: c)) ≠ [] := by
  intro a
  induction a with
  | nil => intro b c; simpa [tagScan] using tagScan_some_ne_nil b [] c
  | cons x a ih =>
    intro b c
    by_cases hx : x = '<'
    · have := tagScan_some_ne_nil (a ++ '<' :: b) [] c
      simpa [tagScan, hx] using this
    · simpa [tagScan, hx] using ih b c

theorem tagContents_eq_nil_iff (text : List Char) :
    tagContents text = [] ↔ ¬ ∃ a b c, text = a ++ '<' :: (b ++ '>' :: c) := by
  constructor
  · rintro h ⟨a, b, c, rfl⟩
    exact tagScan_none_ne_nil a b c h
  · intro h
    unfold tagContents
    induction text with
    | nil => rfl
    | cons x r ih =>
      by_cases hx : x = '<'
      · subst hx
        by_cases hr : '>' ∈ r
        · obtain ⟨X, rest, e, _⟩ := split_at_close r hr
          exact absurd ⟨[], X, rest, by simp [e]⟩ h
        · simp [tagScan, tagScan_no_close r _ hr]
      · simp only [tagScan, hx, if_false]
        apply ih
        rintro ⟨a, b, c, e⟩
        exact h ⟨x :: a, b, c, by simp [e]⟩

/-- C24: `extractTaggedStrings(text)` holds exactly the contents of the `<...>` tags of the
text, each once, ordered by non-increasing length (the `length` of JavaScript); it is
empty exactly when the text has no tag, that is no `<` with a `>` somewhere after it. -/
theorem extractTaggedStrings_distinct_contents (text : List Char) :
    (∀ t, t ∈ extractTaggedStrings text ↔ t ∈ tagContents text) ∧
    (extractTaggedStrings text).Nodup ∧
    (extractTaggedStrings text).Pairwise (fun a b => jsLength a ≥ jsLength b) ∧
    (extractTaggedStrings text = [] ↔ ¬ ∃ a b c, text = a ++ '<' :: (b ++ '>' :: c)) := by
  have hperm : (extractTaggedStrings text).Perm (distinctValues (tagContents text)) := by
    rw [extractTaggedStrings_eq]
    exact List.perm_insertionSort _ _
  refine ⟨?_, ?_, ?_, ?_⟩
  · intro t
    rw [hperm.mem_iff, mem_distinctValues]
  · exact hperm.nodup_iff.2 (nodup_distinctValues _)
  · rw [extractTaggedStrings_eq]
    exact pairwise_sortLongestFirst _
  · rw [← tagContents_eq_nil_iff]
    constructor
    · intro h
      rw [h] at hperm
      have h2 := hperm.symm.eq_nil
      by_contra hne
      obtain ⟨t, ht⟩ := List.exists_mem_of_ne_nil _ hne
      have := (mem_distinctValues (tagContents text) t).2 ht
      rw [h2] at this
      simp at this
    · intro h
      rw [extractTaggedStrings_eq, h]
      rfl


/-! ### Inverse units: `convertInverseUnits` -/

theorem lazyRuns_cons (p : Char → Bool) (l r : List Char) (c : Char)
    (k : List (Nat × List Char)) :
    lazyRuns p l (c :: r) k =
      ⟨l, c :: r, k⟩ :: (if p c = true then lazyRuns p (c :: l) r k else []) := rfl

theorem lazyLoop_chr (p : Char → Bool) (k : List (Nat × List Char)) :
    ∀ (r l : List Char) (n : Nat), r.length ≤ n →
      lazyLoop (Re.chr p).run n ⟨l, r, k⟩ = lazyRuns p l r k := by
  intro r
  induction r with
  | nil =>
    intro l n _
    cases n <;> simp [lazyLoop, lazyRuns, run_chr_nil]
  | cons c r ih =>
    intro l n hn
    cases n with
    | zero => simp at hn
    | succ n =>
      have hn' : r.length ≤ n := by simpa using hn
      by_cases h : p c = true
      · simp [lazyLoop, lazyRuns, run_chr_cons, h, ih (c :: l) n hn']
      · simp [lazyLoop, lazyRuns, run_chr_cons, h]

theorem run_lazyStar_chr (p : Char → Bool) (st : MState) :
    (Re.lazyStar (Re.chr p)).run st = lazyRuns p st.before st.after st.caps := by
  obtain ⟨l, r, k⟩ := st
  simp only [Re.run]
  exact lazyLoop_chr p k r l r.length (le_refl _)

theorem mem_lazyRuns (p : Char → Bool) (k : List (Nat × List Char)) (st' : MState) :
    ∀ (r l : List Char), st' ∈ lazyRuns p l r k →
      ∃ ds rest, r = ds ++ rest ∧ st' = ⟨ds.reverse ++ l, rest, k⟩ := by
  intro r
  induction r with
  | nil =>
    intro l h
    simp only [lazyRuns, List.mem_singleton] at h
    exact ⟨[], [], rfl, by simpa using h⟩
  | cons c r ih =>
    intro l h
    rw [lazyRuns_cons, List.mem_cons] at h
    rcases h with h | h
    · exact ⟨[], c :: r, rfl, by simpa using h⟩
    · by_cases hp : p c = true
      · rw [if_pos hp] at h
        obtain ⟨ds, rest, h1, h2⟩ := ih (c :: l) h
        exact ⟨c :: ds, rest, by simp [h1], by simp [h2]⟩
      · rw [if_neg hp] at h
        simp at h

theorem occurrences_inverse_cons (c : Char) (r : List Char) :
    inverseCount (c :: r) = (if c = '1' ∧ r.head? = some '/' then 1 else 0) + inverseCount r := by
  unfold inverseCount occurrences
  rw [List.tails_cons, List.countP_cons, Nat.add_comm]
  congr 1
  cases r with
  | nil => by_cases h : c = '1' <;> simp [List.isPrefixOf, h]
  | cons x r =>
    by_cases h : c = '1'
    · by_cases hx : x = '/'
      · simp [List.isPrefixOf, h, hx]
      · have hx' : ¬ '/' = x := fun e => hx e.symm
        simp [List.isPrefixOf, h, hx, hx']
    · have h' : ¬ '1' = c := fun e => h e.symm
      simp [List.isPrefixOf, h, h']

theorem inverseCount_nil : inverseCount [] = 0 := rfl

theorem inverseCount_append : ∀ (a b : List Char),
    inverseCount (a ++ b) = inverseCount a + inverseCount b +
      (if a.getLast? = some '1' ∧ b.head? = some '/' then 1 else 0) := by
  intro a
  induction a with
  | nil => intro b; simp [inverseCount_nil]
  | cons c a ih =>
    intro b
    rw [List.cons_append, occurrences_inverse_cons, occurrences_inverse_cons, ih]
    cases a with
    | nil => simp [inverseCount_nil]; omega
    | cons x a =>
      simp only [List.cons_append, List.head?_cons, List.getLast?_cons_cons]
      omega

theorem inverseCount_replacement (G t : List Char) :
    inverseCount ('(' :: (G ++ (")**(-1)".toList ++ t))) = inverseCount G + inverseCount t := by
  have e1 : inverseCount ")**(-1)".toList = 0 := by decide
  have e2 : (")**(-1)".toList).getLast? = some ')' := by decide
  have e3 : (")**(-1)".toList ++ t).head? = some ')' := rfl
  rw [occurrences_inverse_cons, inverseCount_append G, inverseCount_append ")**(-1)".toList t,
    e1, e2, e3]
  simp

/-- One replacement scan of `convertInverseUnits`, for a pattern whose matches start with a
character other than `/`, end with a character other than `1` and lose one occurrence of
`1/` when replaced: the scan leaves the text as it is or lowers the number of occurrences
of `1/`; and its result starts with `/` exactly when the text does. -/
theorem replaceGo_inverse_measure (re : Re)
    (hnil : ∀ before, re.run ⟨before, [], []⟩ = [])
    (hshape : ∀ before c r m, (re.run ⟨before, c :: r, []⟩).head? = some m →
      ∃ X G rest, r = X ++ rest ∧ m.after = rest ∧ c ≠ '/' ∧ (c :: X).getLast? ≠ some '1' ∧
        expandTemplate inverseTemplate m = '(' :: (G ++ ")**(-1)".toList) ∧
        inverseCount (c :: X) = inverseCount G + 1) :
    ∀ (s before : List Char),
      ((replaceGo re inverseTemplate 0 before s).head? = some '/' ↔ s.head? = some '/') ∧
      (replaceGo re inverseTemplate 0 before s = s ∨
        inverseCount (replaceGo re inverseTemplate 0 before s) < inverseCount s) := by
  intro s
  generalize hn : s.length = n
  induction n using Nat.strong_induction_on generalizing s with
  | _ n ih =>
    intro before
    cases s with
    | nil => simp [replaceGo, hnil]
    | cons c r =>
      cases hh : (re.run ⟨before, c :: r, []⟩).head? with
      | none =>
        have hrun : re.run ⟨before, c :: r, []⟩ = [] := List.head?_eq_none_iff.1 hh
        rw [replaceGo_nomatch re _ before r c hrun]
        have hlen : r.length < n := by rw [← hn]; simp
        obtain ⟨ha, hb⟩ := ih _ hlen r rfl (c :: before)
        refine ⟨by simp, ?_⟩
        rcases hb with hb | hb
        · left; rw [hb]
        · right
          rw [occurrences_inverse_cons, occurrences_inverse_cons]
          have hi : (if c = '1' ∧
              (replaceGo re inverseTemplate 0 (c :: before) r).head? = some '/' then 1 else 0) =
              (if c = '1' ∧ r.head? = some '/' then 1 else 0) := by
            simp only [ha]
          rw [hi]
          omega
      | some m =>
        obtain ⟨X, G, rest, hr, hm, hc, hlast, htpl, hcount⟩ := hshape before c r m hh
        subst hr
        rw [replaceGo_match re _ before X rest c m hh hm, htpl]
        have hlen : rest.length < n := by
          rw [← hn]; simp only [List.length_cons, List.length_append]; omega
        obtain ⟨_, hb⟩ := ih _ hlen rest rfl (X.reverse ++ c :: before)
        have hle : inverseCount (replaceGo re inverseTemplate 0 (X.reverse ++ c :: before) rest) ≤
            inverseCount rest := by
          rcases hb with hb | hb
          · rw [hb]
          · exact Nat.le_of_lt hb
        refine ⟨?_, Or.inr ?_⟩
        · simp [hc]
        · have e1 : '(' :: (G ++ ")**(-1)".toList) ++
              replaceGo re inverseTemplate 0 (X.reverse ++ c :: before) rest =
              '(' :: (G ++ (")**(-1)".toList ++
                replaceGo re inverseTemplate 0 (X.reverse ++ c :: before) rest)) := by
            simp
          have e2 : c :: (X ++ rest) = (c :: X) ++ rest := rfl
          rw [e1, inverseCount_replacement, e2, inverseCount_append, hcount]
          have e3 : (if (c :: X).getLast? = some '1' ∧ rest.head? = some '/' then 1 else 0) = 0 := by
            simp [hlast]
          rw [e3]
          omega

theorem mem_run_str (lit : List Char) (hne : lit ≠ []) (l t : List Char)
    (k : List (Nat × List Char)) (m : MState) (h : m ∈ (Re.str lit).run ⟨l, t, k⟩) :
    ∃ t', t = lit ++ t' ∧ m = ⟨lit.reverse ++ l, t', k⟩ := by
  rw [run_str lit hne] at h
  by_cases hp : lit.isPrefixOf t = true
  · rw [if_pos hp, List.mem_singleton] at h
    obtain ⟨t', rfl⟩ := List.isPrefixOf_iff_prefix.1 hp
    exact ⟨t', rfl, by simpa using h⟩
  · rw [if_neg hp] at h
    simp at h

theorem not_alpha_one : ('1' : Char).isAlpha = false := by decide

theorem getLast?_letters (a : List Char) (ds : List Char) (hne : ds ≠ [])
    (hds : ∀ x ∈ ds, x.isAlpha = true) : (a ++ ds).getLast? ≠ some '1' := by
  rw [List.getLast?_append_of_ne_nil _ hne]
  intro h
  have hm := List.mem_of_getLast?_eq_some h
  have := hds _ hm
  rw [not_alpha_one] at this
  exact Bool.noConfusion this

theorem run_simpleInverse_nil (before : List Char) :
    simpleInversePattern.run ⟨before, [], []⟩ = [] := rfl

theorem run_nestedInverse_nil (before : List Char) :
    nestedInversePattern.run ⟨before, [], []⟩ = [] := rfl

theorem expand_inverseTemplate (l a G : List Char) (k : List (Nat × List Char)) :
    expandTemplate inverseTemplate ⟨l, a, (1, G) :: k⟩ = '(' :: (G ++ ")**(-1)".toList) := by
  simp [expandTemplate, inverseTemplate, List.lookup]

/-- Every match of `/1\/([a-zA-Z]+)/` is `1/` and a run of letters, which the group holds. -/
theorem mem_run_simpleInverse (before t : List Char) (m : MState)
    (h : m ∈ simpleInversePattern.run ⟨before, t, []⟩) :
    ∃ ds rest, ds ≠ [] ∧ (∀ x ∈ ds, x.isAlpha = true) ∧ t = '1' :: '/' :: (ds ++ rest) ∧
      m = ⟨ds.reverse ++ '/' :: '1' :: before, rest, [(1, ds)]⟩ := by
  unfold simpleInversePattern at h
  rw [mem_run_seq] at h
  obtain ⟨m1, h1, h2⟩ := h
  obtain ⟨t', rfl, rfl⟩ := mem_run_str "1/".toList (by decide) before t [] m1 h1
  rw [mem_run_grp] at h2
  obtain ⟨m2, h3, rfl⟩ := h2
  rw [mem_run_plus_chr] at h3
  obtain ⟨ds, rest, hne, hsplit, hds, rfl⟩ := h3
  simp only at hsplit
  refine ⟨ds, rest, hne, hds, by rw [hsplit]; rfl, ?_⟩
  simp only [consumed_append]
  rfl

theorem shape_simpleInverse (before : List Char) (c : Char) (r : List Char) (m : MState)
    (h : (simpleInversePattern.run ⟨before, c :: r, []⟩).head? = some m) :
    ∃ X G rest, r = X ++ rest ∧ m.after = rest ∧ c ≠ '/' ∧ (c :: X).getLast? ≠ some '1' ∧
      expandTemplate inverseTemplate m = '(' :: (G ++ ")**(-1)".toList) ∧
      inverseCount (c :: X) = inverseCount G + 1 := by
  obtain ⟨ds, rest, hne, hds, ht, rfl⟩ := mem_run_simpleInverse before _ m (List.mem_of_mem_head? h)
  simp only [List.cons.injEq] at ht
  obtain ⟨rfl, rfl⟩ := ht
  refine ⟨'/' :: ds, ds, rest, rfl, rfl, by decide, ?_, expand_inverseTemplate _ _ _ _, ?_⟩
  · exact getLast?_letters ['1', '/'] ds hne hds
  · rw [occurrences_inverse_cons, occurrences_inverse_cons]
    simp
    omega

/-- Every match of `/1\/\((1\/.*?)\)/` is `1/(`, the group `1/...` and the closing `)`. -/
theorem mem_run_nestedInverse (before t : List Char) (m : MState)
    (h : m ∈ nestedInversePattern.run ⟨before, t, []⟩) :
    ∃ ds rest, t = "1/(1/".toList ++ (ds ++ ')' :: rest) ∧
      m = ⟨')' :: (ds.reverse ++ "1/(1/".toList.reverse ++ before), rest,
        [(1, '1' :: '/' :: ds)]⟩ := by
  unfold nestedInversePattern at h
  rw [mem_run_seq] at h
  obtain ⟨m1, h1, h2⟩ := h
  obtain ⟨t1, rfl, rfl⟩ := mem_run_str "1/(".toList (by decide) before t [] m1 h1
  rw [mem_run_seq] at h2
  obtain ⟨m3, h3, h4⟩ := h2
  rw [mem_run_grp] at h3
  obtain ⟨m2, h5, rfl⟩ := h3
  rw [mem_run_seq] at h5
  obtain ⟨m1', h6, h7⟩ := h5
  obtain ⟨t2, rfl, rfl⟩ := mem_run_str "1/".toList (by decide) _ t1 [] m1' h6
  rw [run_lazyStar_chr] at h7
  obtain ⟨ds, rest2, rfl, rfl⟩ := mem_lazyRuns _ _ _ _ _ h7
  have hc : consumed ⟨"1/(".toList.reverse ++ before, "1/".toList ++ (ds ++ rest2), []⟩
      ⟨ds.reverse ++ ("1/".toList.reverse ++ ("1/(".toList.reverse ++ before)), rest2, []⟩ =
      '1' :: '/' :: ds := by
    have := consumed_append ("1/(".toList.reverse ++ before) ('1' :: '/' :: ds) rest2
      ("1/".toList ++ (ds ++ rest2)) [] []
    simpa using this
  rw [Re.lit, mem_run_chr] at h4
  obtain ⟨c, r, hafter, hcc, rfl⟩ := h4
  simp only at hafter
  have hc' : c = ')' := by simpa using hcc
  subst hc'
  subst hafter
  refine ⟨ds, r, by simp, ?_⟩
  simp only [hc]
  simp

theorem shape_nestedInverse (before : List Char) (c : Char) (r : List Char) (m : MState)
    (h : (nestedInversePattern.run ⟨before, c :: r, []⟩).head? = some m) :
    ∃ X G rest, r = X ++ rest ∧ m.after = rest ∧ c ≠ '/' ∧ (c :: X).getLast? ≠ some '1' ∧
      expandTemplate inverseTemplate m = '(' :: (G ++ ")**(-1)".toList) ∧
      inverseCount (c :: X) = inverseCount G + 1 := by
  obtain ⟨ds, rest, ht, rfl⟩ := mem_run_nestedInverse before _ m (List.mem_of_mem_head? h)
  have ht' : c :: r = '1' :: ("/(1/".toList ++ ds ++ [')'] ++ rest) := by
    rw [ht]; simp
  simp only [List.cons.injEq] at ht'
  obtain ⟨rfl, rfl⟩ := ht'
  refine ⟨"/(1/".toList ++ ds ++ [')'], '1' :: '/' :: ds, rest, rfl, rfl, by decide, ?_,
    expand_inverseTemplate _ _ _ _, ?_⟩
  · have e' : '1' :: ("/(1/".toList ++ ds ++ [')']) = ('1' :: ("/(1/".toList ++ ds)) ++ [')'] := by
      simp
    rw [e', List.getLast?_append_of_ne_nil _ (by simp)]
    simp
  · have e : '1' :: ("/(1/".toList ++ ds ++ [')']) =
        '1' :: '/' :: '(' :: (('1' :: '/' :: ds) ++ [')']) := by simp
    rw [e, occurrences_inverse_cons, occurrences_inverse_cons, occurrences_inverse_cons,
      inverseCount_append]
    simp [inverseCount_nil, occurrences_inverse_cons]
    omega

/-- One pass of `convertInverseUnits` leaves the expression as it is or lowers the number
of occurrences of `1/` in it. -/
theorem convertInversePass_measure (expression : List Char) :
    convertInversePass expression = expression ∨
      inverseCount (convertInversePass expression) < inverseCount expression := by
  unfold convertInversePass Re.replaceAll
  have h1 := (replaceGo_inverse_measure nestedInversePattern run_nestedInverse_nil
    shape_nestedInverse expression []).2
  have h2 := (replaceGo_inverse_measure simpleInversePattern run_simpleInverse_nil
    shape_simpleInverse (replaceGo nestedInversePattern inverseTemplate 0 [] expression) []).2
  rcases h1 with h1 | h1
  · rw [h1] at h2 ⊢
    exact h2
  · right
    rcases h2 with h2 | h2
    · rw [h2]; exact h1
    · exact Nat.lt_trans h2 h1

theorem convertInverseUnits_succ (expression : List Char) (depth : Nat) :
    convertInverseUnits expression (depth + 1) =
      if convertInversePass expression = expression then expression
      else convertInverseUnits (convertInversePass expression) depth := rfl

theorem convertInverseUnits_of_fixed (r : List Char) (depth : Nat)
    (h : convertInversePass r = r) : convertInverseUnits r depth = r := by
  cases depth with
  | zero => rfl
  | succ d => rw [convertInverseUnits_succ, if_pos h]

theorem convertInverseUnits_passes : ∀ (depth : Nat) (expression : List Char),
    ∃ n, n ≤ depth ∧ convertInverseUnits expression depth = convertInversePass^[n] expression ∧
      (n < depth → convertInversePass (convertInverseUnits expression depth) =
        convertInverseUnits expression depth) := by
  intro depth
  induction depth with
  | zero => intro e; exact ⟨0, le_refl _, rfl, fun h => absurd h (Nat.lt_irrefl 0)⟩
  | succ d ih =>
    intro e
    rw [convertInverseUnits_succ]
    by_cases h : convertInversePass e = e
    · rw [if_pos h]
      exact ⟨0, Nat.zero_le _, rfl, fun _ => h⟩
    · rw [if_neg h]
      obtain ⟨n, hn, e1, e2⟩ := ih (convertInversePass e)
      refine ⟨n + 1, Nat.succ_le_succ hn, ?_, fun hlt => e2 (Nat.lt_of_succ_lt_succ hlt)⟩
      rw [e1, Function.iterate_succ_apply]

theorem convertInverseUnits_fixed : ∀ (depth : Nat) (expression : List Char),
    inverseCount expression < depth →
      convertInversePass (convertInverseUnits expression depth) =
        convertInverseUnits expression depth := by
  intro depth
  induction depth with
  | zero => intro e h; exact absurd h (Nat.not_lt_zero _)
  | succ d ih =>
    intro e h
    rw [convertInverseUnits_succ]
    by_cases hp : convertInversePass e = e
    · rw [if_pos hp]; exact hp
    · rw [if_neg hp]
      apply ih
      rcases convertInversePass_measure e with h1 | h1
      · exact absurd h1 hp
      · omega

/-- C28: `convertInverseUnits(expression, depth)` is the expression after some number
`n ≤ depth` of rewriting passes, and a fixed point of the pass whenever `n < depth`.  For
an expression with fewer than 100 occurrences of `1/`, the result `r` with the default
depth 100 is a fixed point: one more pass leaves `r` unchanged, and
`convertInverseUnits(r) = r`. -/
theorem convertInverseUnits_reaches_fixed_point (expression : List Char) :
    (∀ depth, ∃ n, n ≤ depth ∧
      convertInverseUnits expression depth = convertInversePass^[n] expression ∧
      (n < depth → convertInversePass (convertInverseUnits expression depth) =
        convertInverseUnits expression depth)) ∧
    (inverseCount expression < 100 →
      convertInversePass (convertInverseUnits expression 100) =
        convertInverseUnits expression 100 ∧
      convertInverseUnits (convertInverseUnits expression 100) 100 =
        convertInverseUnits expression 100) := by
  refine ⟨fun depth => convertInverseUnits_passes depth expression, fun h => ?_⟩
  have hfix := convertInverseUnits_fixed 100 expression h
  exact ⟨hfix, convertInverseUnits_of_fixed _ 100 hfix⟩

theorem convertInverseUnits_reaches_fixed_point_witness :
    inverseCount "1/(1/bar)*1/s".toList < 100 ∧
    convertInverseUnits "1/(1/bar)*1/s".toList 100 = "((bar)**(-1))**(-1)*(s)**(-1)".toList ∧
    convertInversePass "((bar)**(-1))**(-1)*(s)**(-1)".toList =
      "((bar)**(-1))**(-1)*(s)**(-1)".toList :=
  ⟨by decide, rfl,
    ((convertInverseUnits_reaches_fixed_point "1/(1/bar)*1/s".toList).2 (by decide)).1⟩


theorem run_nestedInverse_ne (before r : List Char) (c : Char) (hc : c ≠ '1') :
    nestedInversePattern.run ⟨before, c :: r, []⟩ = [] := by
  rw [List.eq_nil_iff_forall_not_mem]
  intro m hm
  obtain ⟨ds, rest, ht, _⟩ := mem_run_nestedInverse before _ m hm
  have : c = '1' := by
    have h0 := congrArg List.head? ht
    simpa using h0
  exact hc this

theorem run_simpleInverse_ne (before r : List Char) (c : Char) (hc : c ≠ '1') :
    simpleInversePattern.run ⟨before, c :: r, []⟩ = [] := by
  rw [List.eq_nil_iff_forall_not_mem]
  intro m hm
  obtain ⟨ds, rest, _, _, ht, _⟩ := mem_run_simpleInverse before _ m hm
  simp only [List.cons.injEq] at ht
  exact hc ht.1

/-- A scan copies a stretch of text at none of whose characters the pattern matches. -/
theorem replaceGo_copy (re : Re) (tpl : List ReplTok)
    (p : Char → Prop) (hp : ∀ c, p c → ∀ before r, re.run ⟨before, c :: r, []⟩ = []) :
    ∀ (t before rest : List Char), (∀ c ∈ t, p c) →
      replaceGo re tpl 0 before (t ++ rest) = t ++ replaceGo re tpl 0 (t.reverse ++ before) rest := by
  intro t
  induction t with
  | nil => intro before rest _; rfl
  | cons c t ih =>
    intro before rest h
    rw [List.cons_append, replaceGo_nomatch re tpl before _ c
      (hp c (h c (List.mem_cons_self _ _)) before _),
      ih (c :: before) rest (fun x hx => h x (List.mem_cons_of_mem _ hx))]
    simp

theorem replaceGo_nil (re : Re) (tpl : List ReplTok) (before : List Char)
    (h : re.run ⟨before, [], []⟩ = []) : replaceGo re tpl 0 before [] = [] := by
  simp [replaceGo, h]

theorem letter_ne_one (x : Char) (h : x.isAlpha = true) : x ≠ '1' := by
  intro e
  rw [e, not_alpha_one] at h
  exact Bool.noConfusion h

theorem inverseCount_letters : ∀ (X : List Char), (∀ x ∈ X, x.isAlpha = true) →
    inverseCount X = 0 := by
  intro X
  induction X with
  | nil => intro _; rfl
  | cons x X ih =>
    intro h
    rw [occurrences_inverse_cons, ih (fun y hy => h y (List.mem_cons_of_mem _ hy))]
    simp [letter_ne_one x (h x (List.mem_cons_self _ _))]

theorem convertInversePass_of_count_zero (s : List Char) (h : inverseCount s = 0) :
    convertInversePass s = s := by
  rcases convertInversePass_measure s with h1 | h1
  · exact h1
  · omega

/-- The match of `/1\/([a-zA-Z]+)/` at `1/`, a run of letters and no further letter. -/
theorem head_run_simpleInverse (before X rest : List Char) (hne : X ≠ [])
    (hX : ∀ x ∈ X, x.isAlpha = true) (hrest : startsWithLetter rest = false) :
    (simpleInversePattern.run ⟨before, '1' :: '/' :: (X ++ rest), []⟩).head? =
      some ⟨X.reverse ++ '/' :: '1' :: before, rest, [(1, X)]⟩ := by
  have e : simpleInversePattern.run ⟨before, '1' :: '/' :: (X ++ rest), []⟩ =
      ((Re.plus (Re.chr Char.isAlpha)).run ⟨'/' :: '1' :: before, X ++ rest, []⟩).map
        (fun st' => { st' with caps :=
          (1, consumed ⟨'/' :: '1' :: before, X ++ rest, []⟩ st') :: st'.caps }) := by
    have e0 : simpleInversePattern.run ⟨before, '1' :: '/' :: (X ++ rest), []⟩ =
        ((Re.str "1/".toList).run ⟨before, '1' :: '/' :: (X ++ rest), []⟩).flatMap
          (Re.grp 1 (Re.plus (Re.chr Char.isAlpha))).run := rfl
    have e1 : (Re.str "1/".toList).run ⟨before, '1' :: '/' :: (X ++ rest), []⟩ =
        [⟨'/' :: '1' :: before, X ++ rest, []⟩] := rfl
    rw [e0, e1]
    simp only [List.flatMap_cons, List.flatMap_nil, List.append_nil]
    rfl
  rw [e, List.head?_map, head_run_plus_letters _ X rest [] hne hX hrest]
  simp only [Option.map_some', consumed_append]

theorem replaceAll_simpleInverse_unit (before X rest : List Char) (hne : X ≠ [])
    (hX : ∀ x ∈ X, x.isAlpha = true) (hrest : startsWithLetter rest = false) :
    replaceGo simpleInversePattern inverseTemplate 0 before ('1' :: '/' :: (X ++ rest)) =
      '(' :: (X ++ ")**(-1)".toList) ++
        replaceGo simpleInversePattern inverseTemplate 0 (X.reverse ++ '/' :: '1' :: before)
          rest := by
  have h := head_run_simpleInverse before X rest hne hX hrest
  have e : '1' :: '/' :: (X ++ rest) = '1' :: ((['/'] ++ X) ++ rest) := by simp
  rw [e] at h ⊢
  rw [replaceGo_match simpleInversePattern inverseTemplate before (['/'] ++ X) rest '1' _ h rfl,
    expand_inverseTemplate]
  simp

theorem lazyRuns_close (p : Char → Bool) (g : MState → List MState)
    (hg : ∀ st : MState, st.after.head? ≠ some ')' → g st = []) (k : List (Nat × List Char))
    (rest : List Char) :
    ∀ (X l : List Char), (∀ x ∈ X, p x = true ∧ x ≠ ')') →
      ∃ tl, (lazyRuns p l (X ++ ')' :: rest) k).flatMap g =
        g ⟨X.reverse ++ l, ')' :: rest, k⟩ ++ tl := by
  intro X
  induction X with
  | nil =>
    intro l _
    exact ⟨_, by rw [List.nil_append, lazyRuns_cons, List.flatMap_cons]; rfl⟩
  | cons x X ih =>
    intro l h
    obtain ⟨hx1, hx2⟩ := h x (List.mem_cons_self _ _)
    obtain ⟨tl, htl⟩ := ih (x :: l) (fun y hy => h y (List.mem_cons_of_mem _ hy))
    refine ⟨tl, ?_⟩
    rw [List.cons_append, lazyRuns_cons, if_pos hx1, List.flatMap_cons, htl,
      hg ⟨l, x :: (X ++ ')' :: rest), k⟩ (by simp [hx2])]
    simp

theorem closeParen_ne (st0 st : MState) (h : st.after.head? ≠ some ')') :
    (Re.lit ')').run { st with caps := (1, consumed st0 st) :: st.caps } = [] := by
  obtain ⟨l, a, k⟩ := st
  cases a with
  | nil => rfl
  | cons x a =>
    have hx : (x == ')') = false := by simpa using h
    rw [Re.lit, run_chr_cons]
    simp [hx]

theorem letter_props (x : Char) (h : x.isAlpha = true) :
    (!isLineTerminator x) = true ∧ x ≠ ')' := by
  have h1 : x ≠ ')' := by
    intro e; rw [e] at h; exact absurd h (by decide)
  have h2 : x ≠ '\n' := by
    intro e; rw [e] at h; exact absurd h (by decide)
  have h3 : x ≠ '\r' := by
    intro e; rw [e] at h; exact absurd h (by decide)
  have h4 : x ≠ Char.ofNat 0x2028 := by
    intro e; rw [e] at h; exact absurd h (by decide)
  have h5 : x ≠ Char.ofNat 0x2029 := by
    intro e; rw [e] at h; exact absurd h (by decide)
  refine ⟨?_, h1⟩
  simp [isLineTerminator, h2, h3, h4, h5]

/-- The match of `/1\/\((1\/.*?)\)/` at `1/(1/`, a run of letters and `)`. -/
theorem head_run_nestedInverse (before X rest : List Char) (hX : ∀ x ∈ X, x.isAlpha = true) :
    (nestedInversePattern.run
        ⟨before, '1' :: '/' :: '(' :: '1' :: '/' :: (X ++ ')' :: rest), []⟩).head? =
      some ⟨')' :: (X.reverse ++ '/' :: '1' :: '(' :: '/' :: '1' :: before), rest,
        [(1, '1' :: '/' :: X)]⟩ := by
  have e : nestedInversePattern.run
        ⟨before, '1' :: '/' :: '(' :: '1' :: '/' :: (X ++ ')' :: rest), []⟩ =
      ((Re.lazyStar (Re.chr (fun c => !isLineTerminator c))).run
          ⟨'/' :: '1' :: '(' :: '/' :: '1' :: before, X ++ ')' :: rest, []⟩).flatMap
        (fun st' => (Re.lit ')').run { st' with caps :=
          (1, consumed ⟨'(' :: '/' :: '1' :: before, '1' :: '/' :: (X ++ ')' :: rest), []⟩ st')
            :: st'.caps }) := by
    have e0 : nestedInversePattern.run
          ⟨before, '1' :: '/' :: '(' :: '1' :: '/' :: (X ++ ')' :: rest), []⟩ =
        ((Re.str "1/(".toList).run
            ⟨before, '1' :: '/' :: '(' :: '1' :: '/' :: (X ++ ')' :: rest), []⟩).flatMap
          (fun st1 => ((((Re.str "1/".toList).run st1).flatMap
            (Re.lazyStar (Re.chr (fun c => !isLineTerminator c))).run).map
              (fun st' => { st' with caps := (1, consumed st1 st') :: st'.caps })).flatMap
                (Re.lit ')').run) := rfl
    have e1 : (Re.str "1/(".toList).run
          ⟨before, '1' :: '/' :: '(' :: '1' :: '/' :: (X ++ ')' :: rest), []⟩ =
        [⟨'(' :: '/' :: '1' :: before, '1' :: '/' :: (X ++ ')' :: rest), []⟩] := rfl
    have e2 : (Re.str "1/".toList).run
          ⟨'(' :: '/' :: '1' :: before, '1' :: '/' :: (X ++ ')' :: rest), []⟩ =
        [⟨'/' :: '1' :: '(' :: '/' :: '1' :: before, X ++ ')' :: rest, []⟩] := rfl
    rw [e0, e1]
    simp only [List.flatMap_cons, List.flatMap_nil, List.append_nil, e2]
    rw [List.flatMap_map]
  rw [e, run_lazyStar_chr]
  obtain ⟨tl, htl⟩ := lazyRuns_close (fun c => !isLineTerminator c) _
    (closeParen_ne ⟨'(' :: '/' :: '1' :: before, '1' :: '/' :: (X ++ ')' :: rest), []⟩) [] rest X
    ('/' :: '1' :: '(' :: '/' :: '1' :: before) (fun x hx => letter_props x (hX x hx))
  simp only at htl ⊢
  rw [htl]
  have hc : consumed ⟨'(' :: '/' :: '1' :: before, '1' :: '/' :: (X ++ ')' :: rest), []⟩
      ⟨X.reverse ++ '/' :: '1' :: '(' :: '/' :: '1' :: before, ')' :: rest, []⟩ =
      '1' :: '/' :: X := by
    have := consumed_append ('(' :: '/' :: '1' :: before) ('1' :: '/' :: X) (')' :: rest)
      ('1' :: '/' :: (X ++ ')' :: rest)) [] []
    simpa using this
  rw [hc]
  rfl

theorem replaceGo_simple_tail (before : List Char) :
    replaceGo simpleInversePattern inverseTemplate 0 before ")**(-1)".toList =
      ")**(-1)".toList := by
  rcases (replaceGo_inverse_measure simpleInversePattern run_simpleInverse_nil
    shape_simpleInverse ")**(-1)".toList before).2 with h | h
  · exact h
  · have e : inverseCount ")**(-1)".toList = 0 := by decide
    omega

theorem pass_simple_unit (X : List Char) (hne : X ≠ []) (hX : ∀ x ∈ X, x.isAlpha = true) :
    convertInversePass ('1' :: '/' :: X) = '(' :: (X ++ ")**(-1)".toList) := by
  have h0 : nestedInversePattern.run ⟨[], '1' :: '/' :: X, []⟩ = [] := by
    rw [List.eq_nil_iff_forall_not_mem]
    intro m hm
    obtain ⟨ds, rest, ht, _⟩ := mem_run_nestedInverse [] _ m hm
    cases X with
    | nil => exact hne rfl
    | cons x X =>
      have hx : x = '(' := by
        have := congrArg (fun l => l[2]?) ht
        simpa using this
      have := hX x (List.mem_cons_self _ _)
      rw [hx] at this
      exact absurd this (by decide)
  have h1 : replaceGo nestedInversePattern inverseTemplate 0 [] ('1' :: '/' :: X) =
      '1' :: '/' :: X := by
    rw [replaceGo_nomatch _ _ _ _ _ h0]
    have hc := replaceGo_copy nestedInversePattern inverseTemplate (fun c => c ≠ '1')
      (fun c hc before r => run_nestedInverse_ne before r c hc) ('/' :: X) ['1'] []
      (by
        intro c hc
        rcases List.mem_cons.1 hc with e | e
        · rw [e]; decide
        · exact letter_ne_one c (hX c e))
    rw [List.append_nil] at hc
    rw [hc, replaceGo_nil _ _ _ (run_nestedInverse_nil _)]
    simp
  unfold convertInversePass Re.replaceAll
  rw [h1]
  have h2 := replaceAll_simpleInverse_unit [] X [] hne hX rfl
  rw [List.append_nil] at h2
  rw [h2, replaceGo_nil _ _ _ (run_simpleInverse_nil _)]
  simp

theorem pass_nested_unit (X : List Char) (hne : X ≠ []) (hX : ∀ x ∈ X, x.isAlpha = true) :
    convertInversePass ("1/(1/".toList ++ (X ++ [')'])) =
      '(' :: '(' :: (X ++ ")**(-1))**(-1)".toList) := by
  have h1 : replaceGo nestedInversePattern inverseTemplate 0 [] ("1/(1/".toList ++ (X ++ [')'])) =
      '(' :: '1' :: '/' :: (X ++ ")**(-1)".toList) := by
    have h := head_run_nestedInverse [] X [] hX
    have e : "1/(1/".toList ++ (X ++ [')']) = '1' :: (("/(1/".toList ++ X ++ [')']) ++ []) := by
      simp
    have e' : '1' :: '/' :: '(' :: '1' :: '/' :: (X ++ [')']) =
        '1' :: (("/(1/".toList ++ X ++ [')']) ++ []) := by simp
    rw [e'] at h
    rw [e, replaceGo_match nestedInversePattern inverseTemplate [] ("/(1/".toList ++ X ++ [')'])
      [] '1' _ h rfl, expand_inverseTemplate, replaceGo_nil _ _ _ (run_nestedInverse_nil _)]
    simp
  unfold convertInversePass Re.replaceAll
  rw [h1, replaceGo_nomatch _ _ _ _ _ (run_simpleInverse_ne [] _ '(' (by decide)),
    replaceAll_simpleInverse_unit ['('] X ")**(-1)".toList hne hX rfl, replaceGo_simple_tail]
  simp

theorem inverseCount_result (X t : List Char) (hX : ∀ x ∈ X, x.isAlpha = true)
    (ht : inverseCount t = 0) (hh : t.head? ≠ some '/') : inverseCount (X ++ t) = 0 := by
  rw [inverseCount_append, inverseCount_letters X hX, ht]
  simp [hh]

/-- C27: for every non-empty string `X` of ASCII letters, `convertInverseUnits("1/" + X)` is
`"(" + X + ")**(-1)"` and `convertInverseUnits("1/(1/" + X + ")")` is
`"((" + X + ")**(-1))**(-1)"`, with the default depth 100. -/
theorem convertInverseUnits_reciprocal (X : List Char) (hne : X ≠ [])
    (hX : ∀ x ∈ X, x.isAlpha = true) :
    convertInverseUnits ("1/".toList ++ X) 100 = "(".toList ++ X ++ ")**(-1)".toList ∧
    convertInverseUnits ("1/(1/".toList ++ X ++ ")".toList) 100 =
      "((".toList ++ X ++ ")**(-1))**(-1)".toList := by
  constructor
  · have e1 : "1/".toList ++ X = '1' :: '/' :: X := rfl
    have e2 : "(".toList ++ X ++ ")**(-1)".toList = '(' :: (X ++ ")**(-1)".toList) := rfl
    have hp := pass_simple_unit X hne hX
    have hfix : convertInversePass ('(' :: (X ++ ")**(-1)".toList)) =
        '(' :: (X ++ ")**(-1)".toList) := by
      apply convertInversePass_of_count_zero
      rw [occurrences_inverse_cons, inverseCount_result X _ hX (by decide) (by decide)]
      simp
    rw [e1, e2, convertInverseUnits_succ, hp, if_neg (by simp),
      convertInverseUnits_of_fixed _ _ hfix]
  · have e1 : "1/(1/".toList ++ X ++ ")".toList = "1/(1/".toList ++ (X ++ [')']) := by simp
    have e2 : "((".toList ++ X ++ ")**(-1))**(-1)".toList =
        '(' :: '(' :: (X ++ ")**(-1))**(-1)".toList) := rfl
    have hp := pass_nested_unit X hne hX
    have hfix : convertInversePass ('(' :: '(' :: (X ++ ")**(-1))**(-1)".toList)) =
        '(' :: '(' :: (X ++ ")**(-1))**(-1)".toList) := by
      apply convertInversePass_of_count_zero
      rw [occurrences_inverse_cons, occurrences_inverse_cons,
        inverseCount_result X _ hX (by decide) (by decide)]
      simp
    rw [e1, e2, convertInverseUnits_succ, hp, if_neg (by simp),
      convertInverseUnits_of_fixed _ _ hfix]

theorem convertInverseUnits_reciprocal_witness :
    convertInverseUnits "1/bar".toList 100 = "(bar)**(-1)".toList ∧
    convertInverseUnits "1/(1/bar)".toList 100 = "((bar)**(-1))**(-1)".toList :=
  convertInverseUnits_reciprocal "bar".toList (by decide) (by decide)


/-! ### Markup of custom units: `returnCustomUnitsMarkup` -/

theorem mem_run_wordb (st st' : MState) :
    st' ∈ Re.wordb.run st ↔
      (isWordAt st.before.head? != isWordAt st.after.head?) = true ∧ st' = st := by
  by_cases h : (isWordAt st.before.head? != isWordAt st.after.head?) = true
  · simp [Re.run, h]
  · simp [Re.run, h]

/-- Every match of the word pattern of a token is the token, between two word boundaries. -/
theorem mem_run_wordPattern (t : List Char) (hne : t ≠ []) (l b : List Char) (m : MState)
    (h : m ∈ (wordPattern t).run ⟨l, b, []⟩) :
    ∃ b', b = t ++ b' ∧ (isWordAt l.head? != isWordAt b.head?) = true ∧
      (isWordAt (t.reverse ++ l).head? != isWordAt b'.head?) = true ∧
      m = ⟨t.reverse ++ l, b', []⟩ := by
  unfold wordPattern at h
  rw [mem_run_seq] at h
  obtain ⟨m1, h1, h2⟩ := h
  rw [mem_run_wordb] at h1
  obtain ⟨hb1, rfl⟩ := h1
  rw [mem_run_seq] at h2
  obtain ⟨m2, h3, h4⟩ := h2
  obtain ⟨b', rfl, rfl⟩ := mem_run_str t hne l b [] m2 h3
  rw [mem_run_wordb] at h4
  obtain ⟨hb2, rfl⟩ := h4
  exact ⟨b', rfl, hb1, hb2, rfl⟩

theorem head?_word (t rest : List Char) (hne : t ≠ []) (ht : ∀ c ∈ t, isWordChar c = true) :
    isWordAt (t ++ rest).head? = true := by
  cases t with
  | nil => exact absurd rfl hne
  | cons c t => simpa [isWordAt] using ht c (List.mem_cons_self _ _)

theorem head?_reverse_word (t rest : List Char) (hne : t ≠ [])
    (ht : ∀ c ∈ t, isWordChar c = true) : isWordAt (t.reverse ++ rest).head? = true := by
  apply head?_word _ _ (by simpa using hne)
  intro c hc
  exact ht c (List.mem_reverse.1 hc)

/-- A scan changes nothing in a text in which the pattern matches nowhere. -/
theorem replaceGo_no_match (re : Re) (tpl : List ReplTok) :
    ∀ (s before : List Char),
      (∀ a b, s = a ++ b → re.run ⟨a.reverse ++ before, b, []⟩ = []) →
      replaceGo re tpl 0 before s = s := by
  intro s
  induction s with
  | nil =>
    intro before h
    exact replaceGo_nil re tpl before (by simpa using h [] [] rfl)
  | cons c r ih =>
    intro before h
    rw [replaceGo_nomatch re tpl before r c (by simpa using h [] (c :: r) rfl),
      ih (c :: before) (fun a b e => by
        have := h (c :: a) b (by rw [e]; rfl)
        simpa using this)]

theorem alphanum_word (c : Char) (h : c.isAlphanum = true) : isWordChar c = true := by
  simp only [Char.isAlphanum, Bool.or_eq_true] at h
  simp only [isWordChar, Bool.or_eq_true]
  exact Or.inl h

theorem alphanum_not_syntax (c : Char) (h : c.isAlphanum = true) : isSyntaxChar c = false := by
  by_contra hs
  rw [Bool.not_eq_false] at hs
  have hx' : c ∈ ['^', '$', '\\', '.', '*', '+', '?', '(', ')', '[', ']', '{', '}', '|'] := by
    simpa [isSyntaxChar] using hs
  simp only [List.mem_cons, List.mem_singleton, List.not_mem_nil, or_false] at hx'
  rcases hx' with e | e | e | e | e | e | e | e | e | e | e | e | e | e <;>
    (rw [e] at h; exact absurd h (by decide))

theorem markup_guard (L : List (List Char)) (hL : ∀ t ∈ L, ∀ c ∈ t, c.isAlphanum = true) :
    L.all (fun customUnit => customUnit.all (fun c => !isSyntaxChar c)) = true := by
  simp only [List.all_eq_true, Bool.not_eq_true']
  intro t ht c hc
  exact alphanum_not_syntax c (hL t ht c hc)

/-- C26: for a non-empty token `t` of ASCII letters and digits and a unit string `s` in
which every occurrence of `t` has a word character right before it or right after it,
`returnCustomUnitsMarkup(s, [t])` is `s`. -/
theorem returnCustomUnitsMarkup_inside_word (t s : List Char) (hne : t ≠ [])
    (ht : ∀ c ∈ t, c.isAlphanum = true)
    (hocc : ∀ a b, s = a ++ t ++ b → isWordAt a.getLast? = true ∨ isWordAt b.head? = true) :
    returnCustomUnitsMarkup s [t] = some s := by
  have htw : ∀ c ∈ t, isWordChar c = true := fun c hc => alphanum_word c (ht c hc)
  have hguard := markup_guard [t] (by
    intro u hu c hc
    rw [List.mem_singleton] at hu
    subst hu
    exact ht c hc)
  have hsort : sortLongestFirst [t] = [t] := rfl
  rw [returnCustomUnitsMarkup, if_pos hguard, hsort]
  simp only [List.foldl_cons, List.foldl_nil, Re.replaceAll]
  congr 1
  apply replaceGo_no_match
  intro a b e
  rw [List.eq_nil_iff_forall_not_mem]
  intro m hm
  obtain ⟨b', rfl, hb1, hb2, _⟩ := mem_run_wordPattern t hne _ _ m hm
  rw [head?_word t b' hne htw] at hb1
  rw [head?_reverse_word t _ hne htw] at hb2
  rw [List.append_nil, List.head?_reverse] at hb1
  rcases hocc a b' (by rw [e, List.append_assoc]) with h | h
  · rw [h] at hb1
    exact absurd hb1 (by decide)
  · rw [h] at hb2
    exact absurd hb2 (by decide)

theorem returnCustomUnitsMarkup_inside_word_witness :
    returnCustomUnitsMarkup "mm".toList ["m".toList] = some "mm".toList :=
  returnCustomUnitsMarkup_inside_word "m".toList "mm".toList (by decide) (by decide) (by
    intro a b e
    have e1 : "mm".toList = ['m', 'm'] := rfl
    have e2 : "m".toList = ['m'] := rfl
    rw [e1, e2] at e
    cases a with
    | nil =>
      right
      simp only [List.nil_append, List.singleton_append, List.cons.injEq, true_and] at e
      rw [← e]; rfl
    | cons x a =>
      left
      cases a with
      | nil =>
        simp only [List.cons_append, List.nil_append, List.cons.injEq] at e
        rw [← e.1]; rfl
      | cons y a =>
        have hlen := congrArg List.length e
        simp only [List.length_cons, List.length_append, List.length_nil] at hlen
        omega)


/-- Induction along the words of a text: a text is empty, starts with a character that is
no word character, or starts with a whole word. -/
theorem word_induction {P : List Char → Prop} (h0 : P [])
    (h1 : ∀ c r, isWordChar c = false → P r → P (c :: r))
    (h2 : ∀ w r, w ≠ [] → (∀ x ∈ w, isWordChar x = true) → startsWithWord r = false →
      P r → P (w ++ r)) :
    ∀ s, P s := by
  intro s
  generalize hn : s.length = n
  induction n using Nat.strong_induction_on generalizing s with
  | _ n ih =>
    cases s with
    | nil => exact h0
    | cons c r =>
      by_cases hc : isWordChar c = true
      · have hsplit : c :: r = (c :: r).takeWhile isWordChar ++ (c :: r).dropWhile isWordChar :=
          (List.takeWhile_append_dropWhile _ _).symm
        have hw : (c :: r).takeWhile isWordChar ≠ [] := by
          simp [List.takeWhile_cons, hc]
        have hrest : startsWithWord ((c :: r).dropWhile isWordChar) = false := by
          cases hd : (c :: r).dropWhile isWordChar with
          | nil => rfl
          | cons y ys =>
            have := List.head_dropWhile_not isWordChar (c :: r) (by rw [hd]; simp)
            simp only [hd, List.head_cons] at this
            simpa [startsWithWord] using this
        have hlen : ((c :: r).dropWhile isWordChar).length < n := by
          have h3 := congrArg List.length hsplit
          rw [List.length_append] at h3
          have h4 : 0 < ((c :: r).takeWhile isWordChar).length := List.length_pos.2 hw
          omega
        rw [hsplit]
        exact h2 _ _ hw (fun x hx => List.mem_takeWhile_imp hx) hrest (ih _ hlen _ rfl)
      · have hc' : isWordChar c = false := by simpa using hc
        exact h1 c r hc' (ih _ (by rw [← hn]; simp) r rfl)

theorem marked_refl : ∀ s, Marked [] s s := by
  intro s
  induction s using word_induction with
  | h0 => exact Marked.nil
  | h1 c r hc ih => exact Marked.sep c r r hc ih
  | h2 w r hne hw hr ih => exact Marked.word w r r hne hw hr (by simp) ih

theorem marked_head (S : List (List Char)) (r t : List Char) (h : Marked S r t)
    (hr : startsWithWord r = false) : startsWithWord t = false := by
  cases h with
  | nil => rfl
  | sep c r' t' hc _ => simpa [startsWithWord] using hc
  | word w r' t' hne hw _ _ _ =>
    cases w with
    | nil => exact absurd rfl hne
    | cons x w =>
      have := hw x (List.mem_cons_self _ _)
      simp [startsWithWord, this] at hr
  | wrapped w r' t' hne hw _ _ _ =>
    cases w with
    | nil => exact absurd rfl hne
    | cons x w =>
      have := hw x (List.mem_cons_self _ _)
      simp [startsWithWord, this] at hr

theorem startsWithWord_eq (r : List Char) : isWordAt r.head? = startsWithWord r := by
  cases r <;> rfl

theorem word_prefix_unique : ∀ (t w b rest : List Char),
    (∀ c ∈ t, isWordChar c = true) → (∀ c ∈ w, isWordChar c = true) →
    startsWithWord b = false → startsWithWord rest = false → t ++ b = w ++ rest →
    t = w ∧ b = rest := by
  intro t
  induction t with
  | nil =>
    intro w b rest _ hw hb _ e
    cases w with
    | nil => exact ⟨rfl, by simpa using e⟩
    | cons x w =>
      simp only [List.nil_append, List.cons_append] at e
      rw [e] at hb
      have := hw x (List.mem_cons_self _ _)
      simp [startsWithWord, this] at hb
  | cons c t ih =>
    intro w b rest ht hw hb hr e
    cases w with
    | nil =>
      simp only [List.nil_append, List.cons_append] at e
      rw [← e] at hr
      have := ht c (List.mem_cons_self _ _)
      simp [startsWithWord, this] at hr
    | cons x w =>
      simp only [List.cons_append, List.cons.injEq] at e
      obtain ⟨h1, h2⟩ := ih w b rest (fun y hy => ht y (List.mem_cons_of_mem _ hy))
        (fun y hy => hw y (List.mem_cons_of_mem _ hy)) hb hr e.2
      exact ⟨by rw [e.1, h1], h2⟩

theorem run_wordb (l a : List Char) (k : List (Nat × List Char)) :
    Re.wordb.run ⟨l, a, k⟩ =
      if (isWordAt l.head? != isWordAt a.head?) = true then [⟨l, a, k⟩] else [] := rfl

theorem run_wordPattern_nil (t : List Char) (hne : t ≠ []) (before : List Char) :
    (wordPattern t).run ⟨before, [], []⟩ = [] := by
  rw [List.eq_nil_iff_forall_not_mem]
  intro m hm
  obtain ⟨b', e, _⟩ := mem_run_wordPattern t hne _ _ m hm
  cases t with
  | nil => exact hne rfl
  | cons c t => simp at e

theorem run_wordPattern_sep (t : List Char) (hne : t ≠ []) (ht : ∀ c ∈ t, isWordChar c = true)
    (before rest : List Char) (c : Char) (hc : isWordChar c = false) :
    (wordPattern t).run ⟨before, c :: rest, []⟩ = [] := by
  rw [List.eq_nil_iff_forall_not_mem]
  intro m hm
  obtain ⟨b', e, _⟩ := mem_run_wordPattern t hne _ _ m hm
  cases t with
  | nil => exact hne rfl
  | cons x t =>
    simp only [List.cons_append, List.cons.injEq] at e
    have := ht x (List.mem_cons_self _ _)
    rw [← e.1, hc] at this
    exact Bool.noConfusion this

theorem run_wordPattern_inside (t : List Char) (hne : t ≠ []) (before rest : List Char)
    (c : Char) (hb : isWordAt before.head? = true) (hc : isWordChar c = true) :
    (wordPattern t).run ⟨before, c :: rest, []⟩ = [] := by
  rw [List.eq_nil_iff_forall_not_mem]
  intro m hm
  obtain ⟨b', _, h1, _⟩ := mem_run_wordPattern t hne _ _ m hm
  have h3 : isWordAt (c :: rest).head? = true := by simpa [isWordAt] using hc
  rw [hb, h3] at h1
  exact absurd h1 (by decide)

theorem run_wordPattern_other (t : List Char) (hne : t ≠ [])
    (ht : ∀ c ∈ t, isWordChar c = true) (before w rest : List Char)
    (hw : ∀ c ∈ w, isWordChar c = true) (hr : startsWithWord rest = false) (hwt : w ≠ t) :
    (wordPattern t).run ⟨before, w ++ rest, []⟩ = [] := by
  rw [List.eq_nil_iff_forall_not_mem]
  intro m hm
  obtain ⟨b', e, _, h2, _⟩ := mem_run_wordPattern t hne _ _ m hm
  rw [head?_reverse_word t _ hne ht, startsWithWord_eq] at h2
  have hb' : startsWithWord b' = false := by
    cases hh : startsWithWord b' with
    | false => rfl
    | true => rw [hh] at h2; exact absurd h2 (by decide)
  exact hwt (word_prefix_unique t w b' rest ht hw hb' hr e.symm).1.symm

theorem run_wordPattern_token (t : List Char) (hne : t ≠ [])
    (ht : ∀ c ∈ t, isWordChar c = true) (before rest : List Char)
    (hb : isWordAt before.head? = false) (hr : startsWithWord rest = false) :
    (wordPattern t).run ⟨before, t ++ rest, []⟩ = [⟨t.reverse ++ before, rest, []⟩] := by
  have e : (wordPattern t).run ⟨before, t ++ rest, []⟩ =
      (Re.wordb.run ⟨before, t ++ rest, []⟩).flatMap
        (fun st1 => ((Re.str t).run st1).flatMap Re.wordb.run) := rfl
  have e1 : Re.wordb.run ⟨before, t ++ rest, []⟩ = [⟨before, t ++ rest, []⟩] := by
    rw [run_wordb, hb, head?_word t rest hne ht]
    rfl
  have e2 : Re.wordb.run ⟨t.reverse ++ before, rest, []⟩ = [⟨t.reverse ++ before, rest, []⟩] := by
    rw [run_wordb, head?_reverse_word t before hne ht, startsWithWord_eq, hr]
    rfl
  rw [e, e1]
  simp only [List.flatMap_cons, List.flatMap_nil, List.append_nil, run_str t hne]
  have hp : t.isPrefixOf (t ++ rest) = true := List.isPrefixOf_iff_prefix.2 (List.prefix_append _ _)
  rw [if_pos hp, List.drop_left]
  simp only [List.flatMap_cons, List.flatMap_nil, List.append_nil, e2]

theorem copy_word_tail (t : List Char) (hne : t ≠ []) (tpl : List ReplTok) :
    ∀ (w before rest : List Char), (∀ c ∈ w, isWordChar c = true) →
      isWordAt before.head? = true →
      replaceGo (wordPattern t) tpl 0 before (w ++ rest) =
        w ++ replaceGo (wordPattern t) tpl 0 (w.reverse ++ before) rest := by
  intro w
  induction w with
  | nil => intro before rest _ _; rfl
  | cons c w ih =>
    intro before rest hw hb
    have hc := hw c (List.mem_cons_self _ _)
    rw [List.cons_append, replaceGo_nomatch _ _ _ _ _
      (run_wordPattern_inside t hne before (w ++ rest) c hb hc),
      ih (c :: before) rest (fun y hy => hw y (List.mem_cons_of_mem _ hy))
        (by simpa [isWordAt] using hc)]
    simp

theorem copy_word (t : List Char) (hne : t ≠ []) (ht : ∀ c ∈ t, isWordChar c = true)
    (tpl : List ReplTok) (w before rest : List Char) (hw : ∀ c ∈ w, isWordChar c = true)
    (hr : startsWithWord rest = false) (hwt : w ≠ t) :
    replaceGo (wordPattern t) tpl 0 before (w ++ rest) =
      w ++ replaceGo (wordPattern t) tpl 0 (w.reverse ++ before) rest := by
  cases w with
  | nil => rfl
  | cons c w =>
    have h0 := run_wordPattern_other t hne ht before (c :: w) rest hw hr hwt
    rw [List.cons_append] at h0 ⊢
    rw [replaceGo_nomatch _ _ _ _ _ h0,
      copy_word_tail t hne tpl w (c :: before) rest (fun y hy => hw y (List.mem_cons_of_mem _ hy))
        (by simpa [isWordAt] using hw c (List.mem_cons_self _ _))]
    simp

theorem expand_markupTemplate (t : List Char) (m : MState) :
    expandTemplate (markupTemplate t) m = '<' :: (t ++ ['>']) := by
  have h : ∀ (l : List Char), (l.map ReplTok.lit).flatMap (fun tok =>
      match tok with
      | .lit c => [c]
      | .group n => (m.caps.lookup n).getD []) = l := by
    intro l
    induction l with
    | nil => rfl
    | cons c l ih => simp only [List.map_cons, List.flatMap_cons, ih]; rfl
  simp only [expandTemplate, markupTemplate, List.flatMap_cons, List.flatMap_append, h,
    List.flatMap_nil]
  rfl

theorem not_word_lt : isWordChar '<' = false := by decide

theorem not_word_gt : isWordChar '>' = false := by decide

/-- One round of `returnCustomUnitsMarkup`: the words equal to the token, not wrapped so
far, get their brackets; everything else stays. -/
theorem marked_step (S : List (List Char)) (t : List Char) (hne : t ≠ [])
    (ht : ∀ c ∈ t, isWordChar c = true) (hS : t ∉ S) (s u : List Char) (h : Marked S s u) :
    ∀ before, (startsWithWord s = true → isWordAt before.head? = false) →
      Marked (t :: S) s (replaceGo (wordPattern t) (markupTemplate t) 0 before u) := by
  induction h with
  | nil =>
    intro before _
    rw [replaceGo_nil _ _ _ (run_wordPattern_nil t hne before)]
    exact Marked.nil
  | sep c r t' hc _ ih =>
    intro before _
    rw [replaceGo_nomatch _ _ _ _ _ (run_wordPattern_sep t hne ht before t' c hc)]
    exact Marked.sep c r _ hc (ih (c :: before) (fun _ => by simpa [isWordAt] using hc))
  | word w r t' hwne hw hr hwS hm ih =>
    intro before hb
    have hr' := marked_head S r t' hm hr
    have hstart : startsWithWord (w ++ r) = true := by
      rw [← startsWithWord_eq]; exact head?_word w r hwne hw
    by_cases hwt : w = t
    · subst hwt
      have hrun := run_wordPattern_token w hne ht before t' (hb hstart) hr'
      cases w with
      | nil => exact absurd rfl hne
      | cons c w =>
        simp only [List.cons_append] at hrun ⊢
        rw [replaceGo_match _ _ before w t' c _ (by rw [hrun]; rfl) rfl, expand_markupTemplate]
        have := Marked.wrapped (c :: w) r _ hwne hw hr (List.mem_cons_self _ S)
          (ih (w.reverse ++ c :: before) (fun h => by rw [hr] at h; exact Bool.noConfusion h))
        simpa using this
    · rw [copy_word t hne ht _ w before t' hw hr' hwt]
      exact Marked.word w r _ hwne hw hr
        (by
          intro hmem
          rcases List.mem_cons.1 hmem with e | e
          · exact hwt e
          · exact hwS e)
        (ih (w.reverse ++ before) (fun h => by rw [hr] at h; exact Bool.noConfusion h))
  | wrapped w r t' hwne hw hr hwS hm ih =>
    intro before _
    have hwt : w ≠ t := fun e => hS (e ▸ hwS)
    have hgt : startsWithWord ('>' :: t') = false := not_word_gt
    rw [replaceGo_nomatch _ _ _ _ _ (run_wordPattern_sep t hne ht before _ '<' not_word_lt),
      copy_word t hne ht _ w ('<' :: before) ('>' :: t') hw hgt hwt,
      replaceGo_nomatch _ _ _ _ _ (run_wordPattern_sep t hne ht _ t' '>' not_word_gt)]
    exact Marked.wrapped w r _ hwne hw hr (List.mem_cons_of_mem _ hwS)
      (ih ('>' :: (w.reverse ++ '<' :: before))
        (fun h => by rw [hr] at h; exact Bool.noConfusion h))

theorem word_ne_lt (x : Char) (h : isWordChar x = true) : x ≠ '<' := by
  intro e; rw [e, not_word_lt] at h; exact Bool.noConfusion h

theorem word_ne_gt (x : Char) (h : isWordChar x = true) : x ≠ '>' := by
  intro e; rw [e, not_word_gt] at h; exact Bool.noConfusion h

/-- Removing the tags of a marked text gives the text back, when the text itself holds
no bracket. -/
theorem marked_remove (S : List (List Char)) (s u : List Char) (h : Marked S s u) :
    '<' ∉ s → '>' ∉ s → ∀ before, replaceGo tagPattern [.group 1] 0 before u = s := by
  induction h with
  | nil =>
    intro _ _ before
    exact replaceGo_nil _ _ _ (run_tagPattern_nil before)
  | sep c r t' _ _ ih =>
    intro h1 h2 before
    have hc : c ≠ '<' := fun e => h1 (by simp [e])
    rw [replaceGo_nomatch _ _ _ _ _ (run_tagPattern_ne before t' c hc),
      ih (fun e => h1 (List.mem_cons_of_mem _ e)) (fun e => h2 (List.mem_cons_of_mem _ e))]
  | word w r t' _ hw _ _ _ ih =>
    intro h1 h2 before
    rw [replaceGo_copy tagPattern _ (fun c => c ≠ '<')
      (fun c hc before r => run_tagPattern_ne before r c hc) w before t'
      (fun c hc => word_ne_lt c (hw c hc)),
      ih (fun e => h1 (List.mem_append_right _ e)) (fun e => h2 (List.mem_append_right _ e))]
  | wrapped w r t' _ hw _ _ _ ih =>
    intro h1 h2 before
    have hgt : '>' ∉ w := fun e => word_ne_gt _ (hw _ e) rfl
    have hrun := run_tagPattern_tag before w t' hgt
    have e : '<' :: (w ++ '>' :: t') = '<' :: ((w ++ ['>']) ++ t') := by simp
    rw [e] at hrun ⊢
    rw [replaceGo_match tagPattern _ before (w ++ ['>']) t' '<' _ (by rw [hrun]; rfl) rfl,
      ih (fun e => h1 (List.mem_append_right _ e)) (fun e => h2 (List.mem_append_right _ e))]
    simp [expandTemplate, List.lookup]

theorem marked_fold (s : List Char) :
    ∀ (L S : List (List Char)) (u : List Char), Marked S s u →
      (∀ t ∈ L, t ≠ [] ∧ ∀ c ∈ t, isWordChar c = true) → L.Nodup → (∀ t ∈ L, t ∉ S) →
      ∃ S', Marked S' s (L.foldl
        (fun unitsString customUnit =>
          (wordPattern customUnit).replaceAll (markupTemplate customUnit) unitsString) u) ∧
        ∀ w, w ∈ S' ↔ w ∈ S ∨ w ∈ L := by
  intro L
  induction L with
  | nil =>
    intro S u h _ _ _
    exact ⟨S, h, fun w => by simp⟩
  | cons t L ih =>
    intro S u h hL hnd hS
    rw [List.nodup_cons] at hnd
    obtain ⟨htne, htw⟩ := hL t (List.mem_cons_self _ _)
    have hstep := marked_step S t htne htw (hS t (List.mem_cons_self _ _)) s u h []
      (fun _ => rfl)
    obtain ⟨S', h1, h2⟩ := ih (t :: S) _ hstep (fun x hx => hL x (List.mem_cons_of_mem _ hx))
      hnd.2 (by
        intro x hx hmem
        rcases List.mem_cons.1 hmem with e | e
        · exact hnd.1 (e ▸ hx)
        · exact hS x (List.mem_cons_of_mem _ hx) e)
    refine ⟨S', h1, fun w => ?_⟩
    rw [h2 w]
    simp only [List.mem_cons]
    tauto

theorem marked_congr (S S' : List (List Char)) (s u : List Char) (h : Marked S s u)
    (hS : ∀ w, w ∈ S ↔ w ∈ S') : Marked S' s u := by
  induction h with
  | nil => exact Marked.nil
  | sep c r t hc _ ih => exact Marked.sep c r t hc ih
  | word w r t hne hw hr hwS _ ih =>
    exact Marked.word w r t hne hw hr (fun e => hwS ((hS w).2 e)) ih
  | wrapped w r t hne hw hr hwS _ ih =>
    exact Marked.wrapped w r t hne hw hr ((hS w).1 hwS) ih

/-- C25 (counterexample): with the token `m` listed twice, the unit string `m` is wrapped
twice, and removing the tags of the result gives `<m>`, not `m`. -/
theorem markup_roundtrip_counterexample :
    returnCustomUnitsMarkup "m".toList ["m".toList, "m".toList] = some "<<m>>".toList ∧
    removeTaggedStrings "<<m>>".toList = "<m>".toList ∧
    removeTaggedStrings "<<m>>".toList ≠ "m".toList := by
  refine ⟨rfl, rfl, by decide⟩

/-- C25 (amended): for a unit string `s` without `<` and `>` and a list `L` of non-empty
tokens of ASCII letters and digits, in any order but without repeats,
`returnCustomUnitsMarkup(s, L)` is `s` with exactly the whole words that are tokens of `L`
wrapped in one pair of brackets, and removing the tags gives `s` back. -/
theorem markup_roundtrip (s : List Char) (L : List (List Char)) (h1 : '<' ∉ s) (h2 : '>' ∉ s)
    (hL : ∀ t ∈ L, t ≠ [] ∧ ∀ c ∈ t, c.isAlphanum = true) (hnd : L.Nodup) :
    ∃ marked, returnCustomUnitsMarkup s L = some marked ∧ Marked L s marked ∧
      removeTaggedStrings marked = s := by
  have hguard := markup_guard L (fun t ht => (hL t ht).2)
  have hperm : (sortLongestFirst L).Perm L := List.perm_insertionSort _ L
  obtain ⟨S', hm, hS'⟩ := marked_fold s (sortLongestFirst L) [] s (marked_refl s)
    (fun t ht => ⟨(hL t (hperm.mem_iff.1 ht)).1,
      fun c hc => alphanum_word c ((hL t (hperm.mem_iff.1 ht)).2 c hc)⟩)
    (hperm.nodup_iff.2 hnd) (fun t _ => by simp)
  refine ⟨_, by rw [returnCustomUnitsMarkup, if_pos hguard], ?_, ?_⟩
  · exact marked_congr S' L s _ hm (fun w => by rw [hS' w, hperm.mem_iff]; simp)
  · exact marked_remove S' s _ hm h1 h2 []

theorem markup_roundtrip_witness :
    returnCustomUnitsMarkup "mm*m/kg".toList ["m".toList, "kg".toList] =
      some "mm*<m>/<kg>".toList ∧
    removeTaggedStrings "mm*<m>/<kg>".toList = "mm*m/kg".toList := by
  obtain ⟨marked, e1, _, e2⟩ := markup_roundtrip "mm*m/kg".toList ["m".toList, "kg".toList]
    (by decide) (by decide) (by decide) (by decide)
  have e3 : returnCustomUnitsMarkup "mm*m/kg".toList ["m".toList, "kg".toList] =
      some "mm*<m>/<kg>".toList := rfl
  rw [e3] at e1
  have e4 : marked = "mm*<m>/<kg>".toList := (Option.some.inj e1).symm
  rw [e4] at e2
  exact ⟨e3, e2⟩


/-! ### Further properties of `validateUnit` and `solveEquation` -/

/-- C37 (counterexample): `validateUnit` throws for "-5 V" and for ".5 m". -/
theorem validateUnit_signed_counterexample :
    (∃ msg, validateUnit "-5 V".toList = .error msg) ∧
    (∃ msg, validateUnit ".5 m".toList = .error msg) :=
  ⟨(validateUnit_error_iff _).2 (by decide), (validateUnit_error_iff _).2 (by decide)⟩

/-- C37 (amended): `validateUnit` returns without error for every literal made of digits,
optionally followed by a dot and digits, followed by any unit suffix without a line
terminator; it throws for every value that starts with `-` or with `.`. -/
theorem validateUnit_unsigned_literals (ds fs suffix : List Char) (hds : ds ≠ [])
    (hd : ∀ c ∈ ds, c.isDigit = true) (hf : ∀ c ∈ fs, c.isDigit = true)
    (hs : ∀ c ∈ suffix, isLineTerminator c = false) :
    validateUnit (ds ++ suffix) = .ok () ∧
    (fs ≠ [] → validateUnit (ds ++ '.' :: fs ++ suffix) = .ok ()) ∧
    (∀ rest, ∃ msg, validateUnit ('-' :: rest) = .error msg) ∧
    (∀ rest, ∃ msg, validateUnit ('.' :: rest) = .error msg) := by
  have hno : ∀ (c : Char) (rest : List Char), c.isDigit = false →
      ∃ msg, validateUnit (c :: rest) = .error msg := by
    intro c rest hc
    rw [validateUnit_error_iff, unitPattern_test_iff]
    rintro ⟨ds', frac, suffix', e, hne, hdig, _⟩
    cases ds' with
    | nil => exact hne rfl
    | cons d ds' =>
      simp only [List.cons_append, List.cons.injEq] at e
      have := hdig d (List.mem_cons_self _ _)
      rw [← e.1, hc] at this
      exact Bool.noConfusion this
  refine ⟨?_, ?_, fun rest => hno '-' rest (by decide), fun rest => hno '.' rest (by decide)⟩
  · rw [validateUnit_ok_iff, unitPattern_test_iff]
    exact ⟨ds, [], suffix, by simp, hds, hd, Or.inl rfl, hs⟩
  · intro hfs
    rw [validateUnit_ok_iff, unitPattern_test_iff]
    exact ⟨ds, '.' :: fs, suffix, by simp, hds, hd, Or.inr ⟨fs, hfs, hf, rfl⟩, hs⟩

theorem validateUnit_unsigned_literals_witness :
    validateUnit "5 V".toList = .ok () ∧ validateUnit "0.5 m".toList = .ok () :=
  ⟨(validateUnit_unsigned_literals "5".toList "5".toList " V".toList (by decide) (by decide)
      (by decide) (by decide)).1,
    (validateUnit_unsigned_literals "0".toList "5".toList " m".toList (by decide) (by decide)
      (by decide) (by decide)).2.1 (by decide)⟩

theorem splitOn_two_equals (l m r : List Char) (hl : '=' ∉ l) (hm : '=' ∉ m) :
    ∃ rest, splitOn ['='] (replaceCarets (l ++ '=' :: (m ++ '=' :: r))) =
      replaceCarets l :: replaceCarets m :: rest := by
  rw [replaceCarets_append, replaceCarets_cons_eq, replaceCarets_append, replaceCarets_cons_eq]
  have e : splitOn ['='] (replaceCarets l ++ '=' :: (replaceCarets m ++ '=' :: replaceCarets r)) =
      splitGo ['='] 0 [] (replaceCarets l ++ '=' :: (replaceCarets m ++ '=' :: replaceCarets r)) :=
    rfl
  rw [e, splitGo_eq_split _ _ _ (not_mem_replaceCarets l hl),
    splitGo_eq_split _ _ _ (not_mem_replaceCarets m hm)]
  exact ⟨splitGo ['='] 0 [] (replaceCarets r), by simp⟩

theorem sides_two_equals (l m r : List Char) (hl : '=' ∉ l) (hm : '=' ∉ m) :
    leftHandSide (l ++ '=' :: (m ++ '=' :: r)) = trim (replaceCarets l) ∧
    rightHandSide (l ++ '=' :: (m ++ '=' :: r)) = .str (trim (replaceCarets m)) := by
  obtain ⟨rest, e⟩ := splitOn_two_equals l m r hl hm
  unfold leftHandSide rightHandSide
  rw [e]
  exact ⟨rfl, by simp⟩

/-- C34 (counterexample): for the equation "k = A = T" the evaluator is handed "A", the
text between the first and the second `=`, not "A = T", the text after the first `=`. -/
theorem solveEquation_second_equals_counterexample :
    (solveEquation (constantEvaluator (jsNum 1)) (.value arrheniusData) "k = A = T".toList
      arrheniusVariables "k".toList).evaluatorCalls.map Prod.fst = [.str "A".toList] ∧
    trim (replaceCarets " A = T".toList) = "A = T".toList ∧
    "A".toList ≠ "A = T".toList :=
  ⟨rfl, by decide, by decide⟩

/-- C34 (amended): for an equation string with more than one `=`, the expression
`solveEquation` hands to the evaluator is the text between the first and the second `=`
(trimmed, `^` replaced by `**`); what follows the second `=` is dropped. -/
theorem solveEquation_takes_second_piece
    (mathEvaluate : JSVal → List (String × JSVal) → Except String JSVal)
    (input : JSVal) (constants vars : List (String × JSVal))
    (l m r dependentVariable : List Char)
    (hl : '=' ∉ l) (hm : '=' ∉ m) (hd : trim (replaceCarets l) = dependentVariable)
    (hin : (getProp input "equation").bind (fun e => getProp e "constants") =
      .ok (.obj constants)) :
    rightHandSide (l ++ '=' :: (m ++ '=' :: r)) = .str (trim (replaceCarets m)) ∧
    (solveEquation mathEvaluate (.value input) (l ++ '=' :: (m ++ '=' :: r)) (.obj vars)
        dependentVariable).evaluatorCalls =
      [(.str (trim (replaceCarets m)), setAll (setAll [] constants) vars)] := by
  obtain ⟨h1, h2⟩ := sides_two_equals l m r hl hm
  refine ⟨h2, ?_⟩
  unfold solveEquation
  simp only [h1, h2, hd, ne_eq, not_true_eq_false, if_false, hin, ownProps]
  cases mathEvaluate (.str (trim (replaceCarets m))) (setAll (setAll [] constants) vars) <;> rfl

theorem solveEquation_takes_second_piece_witness :
    (solveEquation (constantEvaluator (jsNum 1)) (.value arrheniusData) "k = A = T".toList
      (.obj []) "k".toList).evaluatorCalls =
      [(.str "A".toList, setAll (setAll []
        [("R", jsNum 8.314), ("A", jsNum 1e13), ("e", jsNum 2.71828)]) [])] :=
  (solveEquation_takes_second_piece (constantEvaluator (jsNum 1)) arrheniusData
    [("R", jsNum 8.314), ("A", jsNum 1e13), ("e", jsNum 2.71828)] [] "k ".toList " A ".toList
    " T".toList "k".toList (by decide) (by decide) (by decide) rfl).2


/-! ### The three-dimensional branch of `getZMatrix` -/

theorem fillCell_three_undefined {α : Type} [DecidableEq α] (dim : JSVal)
    (xPoints yPoints : List α) (zPoints : List JSVal) (uniqueX uniqueY : List α)
    (st : List (List JSVal) × Nat) (x y : α) (hdim : dim.isThree = true)
    (hz : (zAt zPoints st.2).isUndefined = true) :
    fillCell dim xPoints yPoints zPoints uniqueX uniqueY st x y = st := by
  simp [fillCell, hdim, hz]

/-- Once `zPoints[pointIndex]` is `undefined`, the three-dimensional branch writes nothing
more: `pointIndex` does not move. -/
theorem fillAll_three_stuck {α : Type} [DecidableEq α] (dim : JSVal)
    (xPoints yPoints : List α) (zPoints : List JSVal) (uniqueX uniqueY : List α)
    (hdim : dim.isThree = true) :
    ∀ (pairs : List (α × α)) (st : List (List JSVal) × Nat),
      (zAt zPoints st.2).isUndefined = true →
      fillAll dim xPoints yPoints zPoints uniqueX uniqueY pairs st = st := by
  intro pairs
  induction pairs with
  | nil => intro st _; rfl
  | cons q qs ih =>
    intro st hz
    have e : fillAll dim xPoints yPoints zPoints uniqueX uniqueY (q :: qs) st =
        fillAll dim xPoints yPoints zPoints uniqueX uniqueY qs
          (fillCell dim xPoints yPoints zPoints uniqueX uniqueY st q.1 q.2) := rfl
    rw [e, fillCell_three_undefined _ _ _ _ _ _ _ _ _ hdim hz, ih st hz]

theorem zAt_beyond (zPoints : List JSVal) (k : Nat) (h : zPoints.length ≤ k) :
    (zAt zPoints k).isUndefined = true := by
  unfold zAt
  rw [List.getD_eq_default _ _ h]
  rfl

/-- A cell whose position in the walk lies at or beyond the end of `zPoints` is left as it
was by the three-dimensional branch. -/
theorem fillAll_three_beyond {α : Type} [DecidableEq α] (dim : JSVal)
    (xPoints yPoints : List α) (zPoints : List JSVal) (uniqueX uniqueY : List α) (i j : Nat)
    (hdim : dim.isThree = true) :
    ∀ (pairs : List (α × α)) (st : List (List JSVal) × Nat),
      (pairs.map (fun p => (uniqueX.indexOf p.1, uniqueY.indexOf p.2))).Nodup →
      ∀ (t : Nat) (p : α × α), pairs[t]? = some p →
        uniqueX.indexOf p.1 = i → uniqueY.indexOf p.2 = j → zPoints.length ≤ st.2 + t →
        cellAt (fillAll dim xPoints yPoints zPoints uniqueX uniqueY pairs st).1 i j =
          cellAt st.1 i j := by
  intro pairs
  induction pairs with
  | nil => intro st _ t p hp; simp at hp
  | cons q qs ih =>
    intro st hnd t p hp hpi hpj hlen
    have e : fillAll dim xPoints yPoints zPoints uniqueX uniqueY (q :: qs) st =
        fillAll dim xPoints yPoints zPoints uniqueX uniqueY qs
          (fillCell dim xPoints yPoints zPoints uniqueX uniqueY st q.1 q.2) := rfl
    rw [List.map_cons, List.nodup_cons] at hnd
    by_cases hz : (zAt zPoints st.2).isUndefined = true
    · rw [fillAll_three_stuck _ _ _ _ _ _ hdim _ st hz]
    · have hz' : (zAt zPoints st.2).isUndefined = false := by simpa using hz
      rw [e, fillCell_three _ _ _ _ _ _ _ _ _ hdim hz']
      cases t with
      | zero =>
        exact absurd (zAt_beyond zPoints st.2 (by simpa using hlen)) hz
      | succ t =>
        simp only [List.getElem?_cons_succ] at hp
        rw [ih _ hnd.2 t p hp hpi hpj (by simp only; omega)]
        apply cellAt_setCell_ne
        intro hcontra
        apply hnd.1
        rw [List.mem_map]
        exact ⟨p, List.getElem?_mem hp, by rw [hcontra.1, hcontra.2, hpi, hpj]⟩

/-- In the three-dimensional branch, when the first `U * V` entries of `zPoints` are
defined, the cell `(i, j)` holds the entry at position `i * V + j`. -/
theorem getZMatrix_three_cell {α : Type} [LinearOrder α] (eq : Equation)
    (xPoints yPoints : List α) (zPoints : List JSVal)
    (hdim : (mapGet eq.equationDict "graphical_dimensionality").isThree = true)
    (hdef : ∀ p, p < (sortAscending (distinctValues xPoints)).length *
      (sortAscending (distinctValues yPoints)).length → (zAt zPoints p).isUndefined = false)
    (i j : Nat) (hi : i < (sortAscending (distinctValues xPoints)).length)
    (hj : j < (sortAscending (distinctValues yPoints)).length) :
    cellAt (getZMatrix eq xPoints yPoints zPoints) i j =
      some (zAt zPoints (i * (sortAscending (distinctValues yPoints)).length + j)) := by
  rw [getZMatrix_eq_fillAll]
  have := fillAll_three (mapGet eq.equationDict "graphical_dimensionality") xPoints yPoints
    zPoints (sortAscending (distinctValues xPoints)) (sortAscending (distinctValues yPoints))
    _ _ i j hdim hi hj _ (_, 0)
    (nodup_addresses _ _ (nodup_unique xPoints) (nodup_unique yPoints)) (hasShape_init _ _)
    (fun t ht => by
      rw [length_pairs] at ht
      simpa using hdef t ht)
    (i * (sortAscending (distinctValues yPoints)).length + j) _
    (pairs_getElem? _ _ i j hi hj)
    (List.indexOf_getElem (nodup_unique xPoints) i hi)
    (List.indexOf_getElem (nodup_unique yPoints) j hj)
  simpa using this

theorem getZMatrix_three_nan {α : Type} [LinearOrder α] (eq : Equation)
    (xPoints yPoints : List α) (zPoints : List JSVal)
    (hdim : (mapGet eq.equationDict "graphical_dimensionality").isThree = true)
    (i j : Nat) (hi : i < (sortAscending (distinctValues xPoints)).length)
    (hj : j < (sortAscending (distinctValues yPoints)).length)
    (hlen : zPoints.length ≤ i * (sortAscending (distinctValues yPoints)).length + j) :
    cellAt (getZMatrix eq xPoints yPoints zPoints) i j = some (JSVal.num .nan) := by
  rw [getZMatrix_eq_fillAll]
  rw [fillAll_three_beyond (mapGet eq.equationDict "graphical_dimensionality") xPoints yPoints
    zPoints (sortAscending (distinctValues xPoints)) (sortAscending (distinctValues yPoints))
    i j hdim _ (_, 0)
    (nodup_addresses _ _ (nodup_unique xPoints) (nodup_unique yPoints))
    (i * (sortAscending (distinctValues yPoints)).length + j) _
    (pairs_getElem? _ _ i j hi hj)
    (List.indexOf_getElem (nodup_unique xPoints) i hi)
    (List.indexOf_getElem (nodup_unique yPoints) j hj) (by simpa using hlen)]
  exact cellAt_init _ _ _ _ hi hj

theorem unique_congr {α : Type} [LinearOrder α] (xs xs' : List α)
    (h : ∀ v, v ∈ xs' ↔ v ∈ xs) :
    sortAscending (distinctValues xs') = sortAscending (distinctValues xs) :=
  sortAscending_distinctValues_eq xs' _ (sorted_sortAscending _ (nodup_distinctValues xs))
    (fun v => by rw [mem_unique, h])

theorem fillCell_three_indep {α : Type} [DecidableEq α] (dim : JSVal)
    (xPoints yPoints xPoints' yPoints' : List α) (zPoints : List JSVal)
    (uniqueX uniqueY : List α) (hdim : dim.isThree = true) :
    fillCell dim xPoints' yPoints' zPoints uniqueX uniqueY =
      fillCell dim xPoints yPoints zPoints uniqueX uniqueY := by
  funext st x y
  simp [fillCell, hdim]

/-- In the three-dimensional branch the matrix depends on the coordinates only through
the sets of x values and of y values. -/
theorem getZMatrix_three_order {α : Type} [LinearOrder α] (eq : Equation)
    (xPoints yPoints xPoints' yPoints' : List α) (zPoints : List JSVal)
    (hdim : (mapGet eq.equationDict "graphical_dimensionality").isThree = true)
    (hx : ∀ v, v ∈ xPoints' ↔ v ∈ xPoints) (hy : ∀ v, v ∈ yPoints' ↔ v ∈ yPoints) :
    getZMatrix eq xPoints' yPoints' zPoints = getZMatrix eq xPoints yPoints zPoints := by
  unfold getZMatrix
  simp only
  rw [unique_congr xPoints xPoints' hx, unique_congr yPoints yPoints' hy,
    fillCell_three_indep _ xPoints yPoints xPoints' yPoints' zPoints _ _ hdim]

theorem isThree_of_eq (v : JSVal) (h : v = .num (.fin 3)) : v.isThree = true := by
  rw [h]; rfl

/-- C36: for a record whose `graphical_dimensionality` is 3, with `U` distinct x values and
`V` distinct y values: when `zPoints` has at least `U * V` entries and its first `U * V`
entries are defined, `getZMatrix` returns the `U`-by-`V` matrix `M` with
`M[i][j] = zPoints[i * V + j]`; the matrix is the same for every order (and repetition) of
the x values and of the y values; and when `zPoints` has fewer than `U * V` entries, every
cell from position `length(zPoints)` onward, in row-major order, is `NaN`. -/
theorem getZMatrix_positional {α : Type} [LinearOrder α] (eq : Equation)
    (xPoints yPoints : List α) (zPoints : List JSVal)
    (hdim : mapGet eq.equationDict "graphical_dimensionality" = .num (.fin 3)) :
    HasShape (getZMatrix eq xPoints yPoints zPoints)
      (sortAscending (distinctValues xPoints)).length
      (sortAscending (distinctValues yPoints)).length ∧
    ((sortAscending (distinctValues xPoints)).length *
        (sortAscending (distinctValues yPoints)).length ≤ zPoints.length →
      (∀ p z, p < (sortAscending (distinctValues xPoints)).length *
        (sortAscending (distinctValues yPoints)).length → zPoints[p]? = some z →
          z.isUndefined = false) →
      ∀ i j, i < (sortAscending (distinctValues xPoints)).length →
        j < (sortAscending (distinctValues yPoints)).length →
        cellAt (getZMatrix eq xPoints yPoints zPoints) i j =
          zPoints[i * (sortAscending (distinctValues yPoints)).length + j]?) ∧
    (∀ xPoints' yPoints' : List α, (∀ v, v ∈ xPoints' ↔ v ∈ xPoints) →
      (∀ v, v ∈ yPoints' ↔ v ∈ yPoints) →
      getZMatrix eq xPoints' yPoints' zPoints = getZMatrix eq xPoints yPoints zPoints) ∧
    (zPoints.length < (sortAscending (distinctValues xPoints)).length *
        (sortAscending (distinctValues yPoints)).length →
      ∀ i j, i < (sortAscending (distinctValues xPoints)).length →
        j < (sortAscending (distinctValues yPoints)).length →
        zPoints.length ≤ i * (sortAscending (distinctValues yPoints)).length + j →
        cellAt (getZMatrix eq xPoints yPoints zPoints) i j = some (JSVal.num .nan)) := by
  have h3 := isThree_of_eq _ hdim
  refine ⟨getZMatrix_shape eq xPoints yPoints zPoints, ?_,
    fun xPoints' yPoints' hx hy => getZMatrix_three_order eq _ _ _ _ zPoints h3 hx hy,
    fun _ i j hi hj hlen => getZMatrix_three_nan eq xPoints yPoints zPoints h3 i j hi hj hlen⟩
  intro hlen hdef i j hi hj
  have hp : i * (sortAscending (distinctValues yPoints)).length + j <
      (sortAscending (distinctValues xPoints)).length *
        (sortAscending (distinctValues yPoints)).length := by
    calc i * (sortAscending (distinctValues yPoints)).length + j
        < i * (sortAscending (distinctValues yPoints)).length +
            (sortAscending (distinctValues yPoints)).length := by omega
      _ = (i + 1) * (sortAscending (distinctValues yPoints)).length := by ring
      _ ≤ _ := Nat.mul_le_mul_right _ hi
  rw [getZMatrix_three_cell eq xPoints yPoints zPoints h3 (fun p hp' => by
    have hpl : p < zPoints.length := by omega
    unfold zAt
    rw [List.getD_eq_getElem _ _ hpl]
    exact hdef p _ hp' (List.getElem?_eq_getElem hpl)) i j hi hj]
  unfold zAt
  rw [List.getD_eq_getElem _ _ (by omega), List.getElem?_eq_getElem (by omega)]

theorem getZMatrix_positional_witness :
    cellAt (getZMatrix surfaceRecord [(2 : ℚ), 2, 1, 1] [10, 20, 10, 20]
      [jsNum 1, jsNum 2, jsNum 3, jsNum 4]) 1 0 = some (jsNum 3) ∧
    cellAt (getZMatrix surfaceRecord [(2 : ℚ), 2, 1, 1] [10, 20, 10, 20]
      [jsNum 1, jsNum 2, jsNum 3]) 1 1 = some (JSVal.num .nan) := by
  have h := getZMatrix_positional surfaceRecord [(2 : ℚ), 2, 1, 1] [10, 20, 10, 20]
    [jsNum 1, jsNum 2, jsNum 3, jsNum 4] rfl
  have h' := getZMatrix_positional surfaceRecord [(2 : ℚ), 2, 1, 1] [10, 20, 10, 20]
    [jsNum 1, jsNum 2, jsNum 3] rfl
  have eU : (sortAscending (distinctValues [(2 : ℚ), 2, 1, 1])).length = 2 := by decide
  have eV : (sortAscending (distinctValues [(10 : ℚ), 20, 10, 20])).length = 2 := by decide
  constructor
  · have := h.2.1 (by rw [eU, eV]; decide) (by
      intro p z hp hz
      rw [eU, eV] at hp
      have hp4 : p < 4 := hp
      interval_cases p <;> simp at hz <;> rw [← hz] <;> rfl) 1 0 (by rw [eU]; decide)
      (by rw [eV]; decide)
    rw [this, eV]
    rfl
  · exact h'.2.2.2 (by rw [eU, eV]; decide) 1 1 (by rw [eU]; decide) (by rw [eV]; decide)
      (by rw [eV]; decide)

/-- C35 (counterexample): with x listed in descending order, x = [2, 2, 1, 1],
y = [10, 20, 10, 20], z = [1, 2, 3, 4], the first sample is (2, 10) with z = 1, but the
cell at the row of x = 2 and the column of y = 10 holds 3. -/
theorem getZMatrix_order_counterexample :
    (sortAscending (distinctValues [(2 : ℚ), 2, 1, 1])).indexOf 2 = 1 ∧
    (sortAscending (distinctValues [(10 : ℚ), 20, 10, 20])).indexOf 10 = 0 ∧
    cellAt (getZMatrix surfaceRecord [(2 : ℚ), 2, 1, 1] [10, 20, 10, 20]
      [jsNum 1, jsNum 2, jsNum 3, jsNum 4]) 1 0 = some (jsNum 3) ∧
    jsNum 3 ≠ jsNum 1 := by
  refine ⟨by decide, by decide, ?_, fun h => absurd (jsNum_injective 3 1 h) (by norm_num)⟩
  have h := getZMatrix_three_cell surfaceRecord [(2 : ℚ), 2, 1, 1] [10, 20, 10, 20]
    [jsNum 1, jsNum 2, jsNum 3, jsNum 4] rfl (by
      intro p hp
      have eU : (sortAscending (distinctValues [(2 : ℚ), 2, 1, 1])).length = 2 := by decide
      have eV : (sortAscending (distinctValues [(10 : ℚ), 20, 10, 20])).length = 2 := by decide
      rw [eU, eV] at hp
      have hp4 : p < 4 := hp
      interval_cases p <;> rfl) 1 0 (by decide) (by decide)
  rw [h]
  have eV : (sortAscending (distinctValues [(10 : ℚ), 20, 10, 20])).length = 2 := by decide
  rw [eV]
  rfl

/-- C35 (amended): for a record whose `graphical_dimensionality` is 3 and parallel arrays
that list the full grid in nested ascending order (sample `k` has the x of rank `k / V`
and the y of rank `k % V`, with `V` the number of distinct y values), the cell at the row
of `x_k` and the column of `y_k` holds `z_k`, for every sample `k` whose `z_k` is defined. -/
theorem getZMatrix_nested_samples {α : Type} [LinearOrder α] (eq : Equation)
    (xPoints yPoints : List α) (zPoints : List JSVal)
    (hdim : mapGet eq.equationDict "graphical_dimensionality" = .num (.fin 3))
    (hlen : zPoints.length = (sortAscending (distinctValues xPoints)).length *
      (sortAscending (distinctValues yPoints)).length)
    (hdef : ∀ z ∈ zPoints, z.isUndefined = false)
    (hx : ∀ k, k < zPoints.length → xPoints[k]? =
      (sortAscending (distinctValues xPoints))[k /
        (sortAscending (distinctValues yPoints)).length]?)
    (hy : ∀ k, k < zPoints.length → yPoints[k]? =
      (sortAscending (distinctValues yPoints))[k %
        (sortAscending (distinctValues yPoints)).length]?)
    (k : Nat) (x y : α) (z : JSVal) (hxk : xPoints[k]? = some x) (hyk : yPoints[k]? = some y)
    (hzk : zPoints[k]? = some z) :
    cellAt (getZMatrix eq xPoints yPoints zPoints)
      ((sortAscending (distinctValues xPoints)).indexOf x)
      ((sortAscending (distinctValues yPoints)).indexOf y) = some z := by
  have hk : k < zPoints.length := (List.getElem?_eq_some_iff.1 hzk).1
  have hxs := hx k hk
  have hys := hy k hk
  rw [hxk] at hxs
  rw [hyk] at hys
  obtain ⟨hi, hxi⟩ := List.getElem?_eq_some_iff.1 hxs.symm
  obtain ⟨hj, hyj⟩ := List.getElem?_eq_some_iff.1 hys.symm
  have ei := List.indexOf_getElem (nodup_unique xPoints) _ hi
  have ej := List.indexOf_getElem (nodup_unique yPoints) _ hj
  rw [hxi] at ei
  rw [hyj] at ej
  rw [ei, ej, getZMatrix_three_cell eq xPoints yPoints zPoints (isThree_of_eq _ hdim) (fun p hp => by
    have hpl : p < zPoints.length := by omega
    unfold zAt
    rw [List.getD_eq_getElem _ _ hpl]
    exact hdef _ (List.getElem_mem _)) _ _ hi hj, Nat.div_add_mod']
  unfold zAt
  rw [List.getD_eq_getElem _ _ hk]
  rw [List.getElem?_eq_getElem hk] at hzk
  exact hzk

theorem getZMatrix_nested_samples_witness :
    cellAt (getZMatrix surfaceRecord [(1 : ℚ), 1, 2, 2] [10, 20, 10, 20]
      [jsNum 1, jsNum 2, jsNum 3, jsNum 4])
      ((sortAscending (distinctValues [(1 : ℚ), 1, 2, 2])).indexOf 2)
      ((sortAscending (distinctValues [(10 : ℚ), 20, 10, 20])).indexOf 10) = some (jsNum 3) :=
  getZMatrix_nested_samples surfaceRecord [(1 : ℚ), 1, 2, 2] [10, 20, 10, 20]
    [jsNum 1, jsNum 2, jsNum 3, jsNum 4] rfl (by decide)
    (by
      intro z hz
      simp only [List.mem_cons, List.mem_singleton, List.not_mem_nil, or_false] at hz
      rcases hz with h | h | h | h <;> rw [h] <;> rfl)
    (by
      intro k hk
      have hk4 : k < 4 := hk
      have eV : (sortAscending (distinctValues [(10 : ℚ), 20, 10, 20])).length = 2 := by decide
      rw [eV]
      interval_cases k <;> decide)
    (by
      intro k hk
      have hk4 : k < 4 := hk
      have eV : (sortAscending (distinctValues [(10 : ℚ), 20, 10, 20])).length = 2 := by decide
      rw [eV]
      interval_cases k <;> decide)
    2 2 10 (jsNum 3) rfl rfl rfl


/-! ### Evaluation of a record: `evaluateEquation` -/

/-- C31: `evaluateEquation(true)` replaces the record's map by, and returns, a map whose
keys are exactly `x_units`, `y_units`, `x_points`, `y_points`, followed by `z_units`,
`z_points` exactly when the evaluated `graphical_dimensionality` is 3, each with the value
that the map returned by `evaluateEquationDict` has for that key; no other field is left. -/
theorem evaluateEquation_reduced_record
    (evaluateEquationDict : List (String × JSVal) → JSVal → List (String × JSVal))
    (eq : Equation) (verbose : JSVal) :
    (evaluateEquation evaluateEquationDict eq (.bool true) verbose).state.equationDict =
      (evaluateEquation evaluateEquationDict eq (.bool true) verbose).returned ∧
    (evaluateEquation evaluateEquationDict eq (.bool true) verbose).returned.map Prod.fst =
      (if (evaluatedDimensionality (evaluateEquationDict eq.equationDict verbose)).isThree
        then ["x_units", "y_units", "x_points", "y_points", "z_units", "z_points"]
        else ["x_units", "y_units", "x_points", "y_points"]) ∧
    ∀ kv ∈ (evaluateEquation evaluateEquationDict eq (.bool true) verbose).returned,
      kv.2 = mapGet (evaluateEquationDict eq.equationDict verbose) kv.1 := by
  have hne : ∀ (m : List (String × JSVal)) (k k' : String) (v : JSVal), k ≠ k' →
      mapGet (mapSet m k v) k' = mapGet m k' := fun m k k' v h => mapGet_mapSet_ne m k k' v h
  have hd : (if mapHas (evaluateEquationDict eq.equationDict verbose) "graphical_dimensionality"
      then mapGet (evaluateEquationDict eq.equationDict verbose) "graphical_dimensionality"
      else jsNum 2) = evaluatedDimensionality (evaluateEquationDict eq.equationDict verbose) := rfl
  refine ⟨rfl, ?_, ?_⟩
  · unfold evaluateEquation
    simp only [JSVal.isTrue, if_true, hd]
    by_cases h3 : (evaluatedDimensionality
        (evaluateEquationDict eq.equationDict verbose)).isThree = true
    · simp [h3, mapSet]
    · simp [h3, mapSet]
  · unfold evaluateEquation
    simp only [JSVal.isTrue, if_true, hd]
    by_cases h3 : (evaluatedDimensionality
        (evaluateEquationDict eq.equationDict verbose)).isThree = true
    · simp [h3, mapSet, mapGet_mapSet_same, hne]
    · simp [h3, mapSet, mapGet_mapSet_same, hne]

theorem mapHas_mapSet_same (m : List (String × JSVal)) (k : String) (v : JSVal) :
    mapHas (mapSet m k v) k = true := by
  induction m with
  | nil => simp [mapSet, mapHas]
  | cons p m ih =>
    obtain ⟨k0, w⟩ := p
    by_cases h : k0 = k
    · simp [mapSet, mapHas, h]
    · simp [mapSet, mapHas, h, ih]

theorem mapHas_mapSet_of_has (m : List (String × JSVal)) (k k' : String) (v : JSVal)
    (h : mapHas m k' = true) : mapHas (mapSet m k v) k' = true := by
  by_cases hk : k = k'
  · subst hk
    exact mapHas_mapSet_same m k v
  · induction m with
    | nil => simp [mapHas] at h
    | cons p m ih =>
      obtain ⟨k0, w⟩ := p
      by_cases h0 : k0 = k
      · subst h0
        have : mapHas m k' = true := by simpa [mapHas, hk] using h
        simp [mapSet, mapHas, hk, this]
      · by_cases h1 : k0 = k'
        · subst h1
          simp [mapSet, mapHas, h0]
        · have : mapHas m k' = true := by simpa [mapHas, h1] using h
          simp [mapSet, mapHas, h0, h1, ih this]

theorem mapSet_eq_self_of_has (m : List (String × JSVal)) (k : String) (v : JSVal)
    (hh : mapHas m k = true) (h : mapGet m k = v) : mapSet m k v = m := by
  induction m with
  | nil => simp [mapHas] at hh
  | cons p m ih =>
    obtain ⟨k0, u⟩ := p
    by_cases h0 : k0 = k
    · simp only [mapGet, h0, if_true] at h
      simp [mapSet, h0, h]
    · simp only [mapGet, h0, if_false] at h
      have hh' : mapHas m k = true := by simpa [mapHas, h0] using hh
      simp [mapSet, h0, ih hh' h]

theorem mapHas_setAll_of_mem (entries : List (String × JSVal)) :
    ∀ (m : List (String × JSVal)), ∀ kv ∈ entries, mapHas (setAll m entries) kv.1 = true := by
  induction entries with
  | nil => intro m kv h; simp at h
  | cons p rest ih =>
    intro m kv hkv
    rw [setAll_cons]
    rcases List.mem_cons.mp hkv with rfl | h
    · have : ∀ (r m' : List (String × JSVal)), mapHas m' kv.1 = true →
          mapHas (setAll m' r) kv.1 = true := by
        intro r
        induction r with
        | nil => intro m' h; exact h
        | cons q r ihr =>
          intro m' h
          rw [setAll_cons]
          exact ihr _ (mapHas_mapSet_of_has _ _ _ _ h)
      exact this rest _ (mapHas_mapSet_same _ _ _)
    · exact ih _ kv h

theorem setAll_eq_self_of_holds : ∀ (entries m : List (String × JSVal)),
    (∀ kv ∈ entries, mapHas m kv.1 = true ∧ mapGet m kv.1 = kv.2) → setAll m entries = m := by
  intro entries
  induction entries with
  | nil => intro m _; rfl
  | cons p rest ih =>
    intro m h
    obtain ⟨h1, h2⟩ := h p (List.mem_cons_self _ _)
    rw [setAll_cons, mapSet_eq_self_of_has m p.1 p.2 h1 h2]
    exact ih m (fun kv hkv => h kv (List.mem_cons_of_mem _ hkv))

/-- Writing the same entries twice is the same as writing them once. -/
theorem setAll_idempotent (m entries : List (String × JSVal))
    (hnd : (entries.map Prod.fst).Nodup) :
    setAll (setAll m entries) entries = setAll m entries :=
  setAll_eq_self_of_holds entries _ (fun kv hkv =>
    ⟨mapHas_setAll_of_mem entries m kv hkv, mapGet_setAll_of_mem entries m hnd kv hkv⟩)

theorem evaluate_setAll (evaluateEquationDict : List (String × JSVal) → JSVal →
    List (String × JSVal)) (verbose : JSVal)
    (hpure : ∀ d k v, k ∈ outputKeys →
      evaluateEquationDict (mapSet d k v) verbose = evaluateEquationDict d verbose) :
    ∀ (entries d : List (String × JSVal)), (∀ kv ∈ entries, kv.1 ∈ outputKeys) →
      evaluateEquationDict (setAll d entries) verbose = evaluateEquationDict d verbose := by
  intro entries
  induction entries with
  | nil => intro d _; rfl
  | cons p rest ih =>
    intro d h
    rw [setAll_cons, ih _ (fun kv hkv => h kv (List.mem_cons_of_mem _ hkv)),
      hpure d p.1 p.2 (h p (List.mem_cons_self _ _))]

/-- The record after `evaluateEquation(false)`: the output fields written in order. -/
theorem evaluateEquation_state
    (evaluateEquationDict : List (String × JSVal) → JSVal → List (String × JSVal))
    (eq : Equation) (verbose : JSVal) :
    (evaluateEquation evaluateEquationDict eq (.bool false) verbose).state.equationDict =
      setAll eq.equationDict
        (if (evaluatedDimensionality (evaluateEquationDict eq.equationDict verbose)).isThree then
          outputKeys.map (fun k => (k, mapGet (evaluateEquationDict eq.equationDict verbose) k))
        else
          (outputKeys.take 4).map
            (fun k => (k, mapGet (evaluateEquationDict eq.equationDict verbose) k))) := by
  have hd : (if mapHas (evaluateEquationDict eq.equationDict verbose) "graphical_dimensionality"
      then mapGet (evaluateEquationDict eq.equationDict verbose) "graphical_dimensionality"
      else jsNum 2) = evaluatedDimensionality (evaluateEquationDict eq.equationDict verbose) := rfl
  unfold evaluateEquation
  simp only [JSVal.isTrue, Bool.false_eq_true, if_false, hd]
  by_cases h3 : (evaluatedDimensionality
      (evaluateEquationDict eq.equationDict verbose)).isThree = true
  · rw [if_pos h3, if_pos h3]; rfl
  · rw [if_neg h3, if_neg h3]; rfl

/-- C32: `evaluateEquation(false)` changes no field of the record other than `x_units`,
`y_units`, `x_points`, `y_points`, and, when the evaluated dimensionality is 3, `z_units`
and `z_points`; and for an
`evaluateEquationDict` whose result does not depend on these output fields, calling it
twice in a row leaves the record as it is after one call. -/
theorem evaluateEquation_frame_and_idempotent
    (evaluateEquationDict : List (String × JSVal) → JSVal → List (String × JSVal))
    (eq : Equation) (verbose : JSVal)
    (hpure : ∀ d k v, k ∈ outputKeys →
      evaluateEquationDict (mapSet d k v) verbose = evaluateEquationDict d verbose) :
    (∀ k : String, k ∉ outputKeys →
      mapGet (evaluateEquation evaluateEquationDict eq (.bool false) verbose).state.equationDict k
        = mapGet eq.equationDict k) ∧
    ((evaluatedDimensionality (evaluateEquationDict eq.equationDict verbose)).isThree = false →
      ∀ k : String, k = "z_units" ∨ k = "z_points" →
      mapGet (evaluateEquation evaluateEquationDict eq (.bool false) verbose).state.equationDict k
        = mapGet eq.equationDict k) ∧
    (evaluateEquation evaluateEquationDict
        (evaluateEquation evaluateEquationDict eq (.bool false) verbose).state (.bool false)
        verbose).state.equationDict =
      (evaluateEquation evaluateEquationDict eq (.bool false) verbose).state.equationDict := by
  refine ⟨?_, ?_, ?_⟩
  · intro k hk
    rw [evaluateEquation_state]
    apply mapGet_setAll_of_not_mem
    by_cases h3 : (evaluatedDimensionality
        (evaluateEquationDict eq.equationDict verbose)).isThree = true
    · rw [if_pos h3]
      simpa [List.map_map, Function.comp_def] using hk
    · rw [if_neg h3]
      intro hmem
      simp only [List.map_map, Function.comp_def, List.map_id'] at hmem
      exact hk (List.mem_of_mem_take hmem)
  · intro h3 k hk
    rw [evaluateEquation_state, h3]
    apply mapGet_setAll_of_not_mem
    rcases hk with rfl | rfl <;> simp [outputKeys, List.map_map, Function.comp_def]
  · rw [evaluateEquation_state evaluateEquationDict
      (evaluateEquation evaluateEquationDict eq (.bool false) verbose).state, evaluateEquation_state]
    have he : ∀ entries : List (String × JSVal), (∀ kv ∈ entries, kv.1 ∈ outputKeys) →
        evaluateEquationDict (setAll eq.equationDict entries) verbose =
          evaluateEquationDict eq.equationDict verbose :=
      fun entries h => evaluate_setAll evaluateEquationDict verbose hpure entries _ h
    by_cases h3 : (evaluatedDimensionality
        (evaluateEquationDict eq.equationDict verbose)).isThree = true
    · rw [if_pos h3]
      have e := he (outputKeys.map
        (fun k => (k, mapGet (evaluateEquationDict eq.equationDict verbose) k)))
        (by intro kv hkv; rw [List.mem_map] at hkv; obtain ⟨k, hk, rfl⟩ := hkv; exact hk)
      rw [e, if_pos h3]
      exact setAll_idempotent _ _ (by
        rw [List.map_map]
        have : (Prod.fst ∘ fun k => (k, mapGet (evaluateEquationDict eq.equationDict verbose) k))
            = id := rfl
        rw [this, List.map_id]
        decide)
    · rw [if_neg h3]
      have e := he ((outputKeys.take 4).map
        (fun k => (k, mapGet (evaluateEquationDict eq.equationDict verbose) k)))
        (by
          intro kv hkv
          rw [List.mem_map] at hkv
          obtain ⟨k, hk, rfl⟩ := hkv
          exact List.mem_of_mem_take hk)
      rw [e, if_neg h3]
      exact setAll_idempotent _ _ (by
        rw [List.map_map]
        have : (Prod.fst ∘ fun k => (k, mapGet (evaluateEquationDict eq.equationDict verbose) k))
            = id := rfl
        rw [this, List.map_id]
        decide)

theorem evaluateEquation_frame_and_idempotent_witness :
    mapGet (evaluateEquation planarEvaluator planarRecord (.bool false)
      (.bool false)).state.equationDict "graphical_dimensionality" = .num (.fin 2) ∧
    (evaluateEquation planarEvaluator
        (evaluateEquation planarEvaluator planarRecord (.bool false) (.bool false)).state
        (.bool false) (.bool false)).state.equationDict =
      (evaluateEquation planarEvaluator planarRecord (.bool false)
        (.bool false)).state.equationDict :=
  ⟨(evaluateEquation_frame_and_idempotent planarEvaluator planarRecord (.bool false)
      (fun _ _ _ _ => rfl)).1 "graphical_dimensionality" (by decide),
    (evaluateEquation_frame_and_idempotent planarEvaluator planarRecord (.bool false)
      (fun _ _ _ _ => rfl)).2.2⟩

/-! ### The range sampler -/

theorem linearSamples_length (lo hi : ℚ) (n : Nat) : (linearSamples lo hi n).length = n := by
  unfold linearSamples
  rw [List.length_map, List.length_range]

theorem linear_step_nonneg (lo hi : ℚ) (n : Nat) (h : lo ≤ hi) (hn : 2 ≤ n) :
    0 ≤ (hi - lo) / ((n : ℚ) - 1) := by
  apply div_nonneg
  · linarith
  · have : (2 : ℚ) ≤ (n : ℚ) := by exact_mod_cast hn
    linarith

theorem linear_sample_mono (lo hi : ℚ) (n : Nat) (h : lo ≤ hi) (hn : 0 < n) (i j : Nat)
    (hij : i ≤ j) :
    (if n = 1 then lo else lo + (i : ℚ) * (hi - lo) / ((n : ℚ) - 1)) ≤
      (if n = 1 then lo else lo + (j : ℚ) * (hi - lo) / ((n : ℚ) - 1)) := by
  by_cases h1 : n = 1
  · simp [h1]
  · simp only [h1, if_false]
    have hs := linear_step_nonneg lo hi n h (by omega)
    have hc : (i : ℚ) ≤ (j : ℚ) := by exact_mod_cast hij
    rw [mul_div_assoc, mul_div_assoc]
    nlinarith

theorem linearSamples_sorted (lo hi : ℚ) (n : Nat) (h : lo ≤ hi) (hn : 0 < n) :
    (linearSamples lo hi n).Sorted (fun a b => a ≤ b) := by
  unfold linearSamples List.Sorted
  rw [List.pairwise_map]
  exact (List.pairwise_lt_range n).imp
    (fun hij => linear_sample_mono lo hi n h hn _ _ (Nat.le_of_lt hij))

theorem linearSamples_head (lo hi : ℚ) (n : Nat) (hn : 0 < n) :
    (linearSamples lo hi n).head? = some lo := by
  obtain ⟨m, rfl⟩ : ∃ m, n = m + 1 := ⟨n - 1, by omega⟩
  unfold linearSamples
  rw [List.range_succ_eq_map]
  simp

theorem linearSamples_last (lo hi : ℚ) (n : Nat) (hn : 2 ≤ n) :
    (linearSamples lo hi n).getLast? = some hi := by
  obtain ⟨m, rfl⟩ : ∃ m, n = m + 1 := ⟨n - 1, by omega⟩
  have hm : (m : ℚ) ≠ 0 := by
    exact_mod_cast (by omega : m ≠ 0)
  unfold linearSamples
  rw [List.range_succ, List.map_append]
  simp only [List.map_cons, List.map_nil, List.getLast?_append_of_ne_nil _ (List.cons_ne_nil _ _),
    List.getLast?_singleton]
  have h1 : ¬ m + 1 = 1 := by omega
  simp only [h1, if_false, Nat.cast_add, Nat.cast_one, add_sub_cancel_right]
  congr 1
  field_simp

theorem linearSamples_bounds (lo hi : ℚ) (n : Nat) (h : lo ≤ hi) (hn : 0 < n) :
    ∀ v ∈ linearSamples lo hi n, lo ≤ v ∧ v ≤ hi := by
  intro v hv
  unfold linearSamples at hv
  rw [List.mem_map] at hv
  obtain ⟨i, hi', rfl⟩ := hv
  rw [List.mem_range] at hi'
  by_cases h1 : n = 1
  · simp [h1, h]
  · have h2 : 2 ≤ n := by omega
    have h0 := linear_sample_mono lo hi n h hn 0 i (Nat.zero_le _)
    have h3 := linear_sample_mono lo hi n h hn i (n - 1) (by omega)
    simp only [h1, if_false, Nat.cast_zero, zero_mul, zero_div, add_zero] at h0 h3 ⊢
    refine ⟨h0, le_trans h3 (le_of_eq ?_)⟩
    have hc : ((n - 1 : Nat) : ℚ) = (n : ℚ) - 1 := by
      rw [Nat.cast_sub (by omega)]; simp
    have hne : (n : ℚ) - 1 ≠ 0 := by
      have : (2 : ℚ) ≤ (n : ℚ) := by exact_mod_cast h2
      linarith
    rw [hc]
    field_simp

theorem linearSamples_within (lo hi : ℚ) (n : Nat) (limits : Option ℚ × Option ℚ)
    (h : lo ≤ hi) (hn : 0 < n) (hlow : ∀ low, limits.1 = some low → low ≤ lo)
    (hhigh : ∀ high, limits.2 = some high → hi ≤ high) :
    (linearSamples lo hi n).all (withinLimits limits) = true := by
  rw [List.all_eq_true]
  intro v hv
  obtain ⟨h1, h2⟩ := linearSamples_bounds lo hi n h hn v hv
  obtain ⟨l1, l2⟩ := limits
  unfold withinLimits
  cases l1 with
  | none =>
    cases l2 with
    | none => rfl
    | some high => simpa using le_trans h2 (hhigh high rfl)
  | some low =>
    cases l2 with
    | none => simpa using le_trans (hlow low rfl) h1
    | some high =>
      simp only [Bool.and_eq_true, decide_eq_true_eq]
      exact ⟨le_trans (hlow low rfl) h1, le_trans h2 (hhigh high rfl)⟩

/-- C33 (against the sampler modelled from the specification): for a range from `lo` to
`hi` with `lo ≤ hi` that lies within the limits that are set, and a positive `n`, sampling
with linear spacing, no explicit points and no reversal gives exactly `n` values in
non-decreasing order, the first of which is `lo` and, for `n ≥ 2`, the last of which is
`hi`. -/
theorem rangeSampler_linear (logSamples : ℚ → ℚ → Nat → List ℚ) (lo hi : ℚ) (n : Nat)
    (limits : Option ℚ × Option ℚ) (h : lo ≤ hi) (hn : 0 < n)
    (hlow : ∀ low, limits.1 = some low → low ≤ lo)
    (hhigh : ∀ high, limits.2 = some high → hi ≤ high) :
    ∃ samples, rangeSampler logSamples [] (lo, hi) n .linear limits false = .ok samples ∧
      samples.length = n ∧ samples.Sorted (fun a b => a ≤ b) ∧ samples.head? = some lo ∧
      (2 ≤ n → samples.getLast? = some hi) := by
  have hall := linearSamples_within lo hi n limits h hn hlow hhigh
  refine ⟨linearSamples lo hi n, ?_, linearSamples_length lo hi n,
    linearSamples_sorted lo hi n h hn, linearSamples_head lo hi n hn,
    linearSamples_last lo hi n⟩
  simp [rangeSampler, hall]

theorem rangeSampler_linear_witness :
    ∃ samples, rangeSampler (fun _ _ _ => []) [] (0, 10) 5 .linear (none, some 20) false =
        .ok samples ∧
      samples.length = 5 ∧ samples.Sorted (fun a b => a ≤ b) ∧ samples.head? = some 0 ∧
      (2 ≤ 5 → samples.getLast? = some 10) :=
  rangeSampler_linear (fun _ _ _ => []) 0 10 5 (none, some 20)
    (by norm_num) (by norm_num) (by intro low h; simp at h)
    (by intro high h; simp at h; rw [← h]; norm_num)

/-! ### Plot styles -/

/-- C39 (what the code does): an array whose length is not 2 is not rejected.  It falls
into the object branch, gets the two properties assigned as empty strings and yields a
style with two empty strings; numbers, booleans and `undefined` are rejected with the
"Invalid plot style" error. -/
theorem parsePlotStyle_array_not_rejected :
    parsePlotStyle (.arr []) =
      .ok ⟨.str [], .str [], [("trace_styles_collection", .str []), ("layout_style", .str [])]⟩ ∧
    parsePlotStyle (.arr [jsNum 1, jsNum 2, jsNum 3]) =
      .ok ⟨.str [], .str [], [("trace_styles_collection", .str []), ("layout_style", .str [])]⟩ ∧
    (∀ x, parsePlotStyle (.num x) = .error (.error ("Invalid plot style: Must be null, " ++
      "a string, an array of two items, or an object with valid fields."))) ∧
    (∀ b, parsePlotStyle (.bool b) = .error (.error ("Invalid plot style: Must be null, " ++
      "a string, an array of two items, or an object with valid fields."))) ∧
    parsePlotStyle .undefined = .error (.error ("Invalid plot style: Must be null, " ++
      "a string, an array of two items, or an object with valid fields.")) :=
  ⟨rfl, rfl, fun _ => rfl, fun _ => rfl, rfl⟩

/-! ### Tagging as a single pass -/

theorem run_microPattern_unit_caps (before X rest : List Char) (c : Char)
    (hc : isMicro c = true) (hne : X ≠ []) (hX : ∀ x ∈ X, x.isAlpha = true)
    (hrest : startsWithLetter rest = false) :
    ∃ m, (microPattern.run ⟨before, c :: (X ++ rest), []⟩).head? = some m ∧ m.after = rest ∧
      m.caps.lookup 1 = some X := by
  have e : microPattern.run ⟨before, c :: (X ++ rest), []⟩ =
      ((Re.chr isMicro).run ⟨before, c :: (X ++ rest), []⟩).flatMap
        (Re.grp 1 (Re.plus (Re.chr Char.isAlpha))).run := rfl
  have e3 : (Re.grp 1 (Re.plus (Re.chr Char.isAlpha))).run ⟨c :: before, X ++ rest, []⟩ =
      ((Re.plus (Re.chr Char.isAlpha)).run ⟨c :: before, X ++ rest, []⟩).map
        (fun st' => { st' with caps :=
          (1, consumed ⟨c :: before, X ++ rest, []⟩ st') :: st'.caps }) := rfl
  rw [e, run_chr_cons]
  simp only [hc, if_true, List.flatMap_cons, List.flatMap_nil, List.append_nil, e3,
    List.head?_map, head_run_plus_letters _ X rest [] hne hX hrest, Option.map_some']
  refine ⟨_, rfl, rfl, ?_⟩
  simp [List.lookup, consumed_append]

theorem expand_placeholder (m : MState) (X : List Char) (h : m.caps.lookup 1 = some X) :
    expandTemplate ("<microfrog".toList.map ReplTok.lit ++ [.group 1, .lit '>']) m =
      "<microfrog".toList ++ (X ++ ['>']) := by
  simp [expandTemplate, h]

theorem singlePass_rendered (S : List (List Char)) (s t : List Char) (hr : Rendered S s t) :
    (∀ u, IsUnit u s → u ∈ S) → ∀ before,
      replaceGo microPattern ("<microfrog".toList.map ReplTok.lit ++ [.group 1, .lit '>'])
        0 before s = t := by
  induction hr with
  | nil => intro _ before; rfl
  | plain c r t hp _ ih =>
    intro hall before
    rw [replaceGo_nomatch _ _ _ _ _ (run_microPattern_plain before r c hp),
      ih (fun u hu => hall u (IsUnit.afterPlain u c r hp hu))]
  | tagged c X rest t hc hne hX hrest _ _ ih =>
    intro hall before
    obtain ⟨m, hm, ha, hcap⟩ := run_microPattern_unit_caps before X rest c hc hne hX hrest
    rw [replaceGo_match _ _ _ _ _ _ m hm ha, expand_placeholder m X hcap,
      ih (fun u hu => hall u (IsUnit.afterUnit u c X rest hc hne hX hrest hu)),
      frogified_append]
    simp
  | untouched c X rest t hc hne hX hrest hnot _ _ =>
    intro hall
    exact absurd (hall _ (IsUnit.here c X rest hc hne hX hrest)) hnot

/-- On a text without a question mark, `tagMicroUnits` and the single pass agree. -/
theorem tagMicroUnits_eq_singlePass (s : List Char) (hq : '?' ∉ s) :
    tagMicroUnits s = tagSinglePass s := by
  obtain ⟨S, hr, hall⟩ := tagMicroUnits_rendered s hq
  exact (singlePass_rendered S s _ hr hall []).symm

/-- C38 (what the code does): on the text `?m` the two procedures part.  The question mark
belongs to the symbol class and the single pass tags the match, but the first test of
`tagMicroUnits` looks for the micro sign or for two question marks in a row, finds
neither, and returns the text as it came.  With two question marks, or with the micro
sign, the two procedures agree. -/
theorem tagMicroUnits_single_question_mark :
    isMicro '?' = true ∧
    tagMicroUnits ['?', 'm'] = ['?', 'm'] ∧
    tagSinglePass ['?', 'm'] = "<microfrogm>".toList ∧
    tagMicroUnits "??m".toList = "?<microfrogm>".toList ∧
    tagSinglePass "??m".toList = "?<microfrogm>".toList ∧
    tagMicroUnits [microSign, 'm'] = tagSinglePass [microSign, 'm'] := by
  decide

theorem tagMicroUnits_rendered_or_same (s : List Char) :
    tagMicroUnits s = s ∨
      ∃ S, Rendered S s (tagMicroUnits s) ∧ ∀ u, IsUnit u s → u ∈ S := by
  by_cases hg : microSymbols.any (fun symbol => includes s symbol) = true
  · right
    have e : tagMicroUnits s =
        (sortLongestFirst (distinctValues (microPattern.matchAll s))).foldl
          (fun acc m => joinWith (frogified m) (splitOn m acc)) s := by
      simp only [tagMicroUnits, hg, Bool.not_true, Bool.false_eq_true, if_false]
    rw [e]
    have hshape : ∀ m ∈ sortLongestFirst (distinctValues (microPattern.matchAll s)),
        ∃ c X, m = c :: X ∧ isMicro c = true ∧ X ≠ [] ∧ ∀ x ∈ X, x.isAlpha = true :=
      fun m hm => matchAll_shape s [] m
        ((mem_distinctValues _ m).1 ((mem_sortLongestFirst _ m).1 hm))
    have hsorted : (sortLongestFirst (distinctValues (microPattern.matchAll s))).Pairwise
        (fun a b => a.length ≥ b.length) := by
      refine (pairwise_sortLongestFirst _).imp_of_mem ?_
      intro a b ha hb hab
      obtain ⟨ca, Xa, rfl, hca, _, hXa⟩ := hshape a ha
      obtain ⟨cb, Xb, rfl, hcb, _, hXb⟩ := hshape b hb
      rw [jsLength_micro ca Xa hca hXa, jsLength_micro cb Xb hcb hXb] at hab
      exact hab
    exact tag_fold s _ [] s (rendered_refl s) hsorted hshape
      (fun u hu => Or.inr ((mem_sortLongestFirst _ u).2
        ((mem_distinctValues _ u).2 (isUnit_mem_matchAll u s hu []))))
  · left
    simp only [tagMicroUnits, hg, Bool.not_false, if_true]

theorem matchAllGo_copy (xs : List Char) (hxs : ∀ x ∈ xs, isMicro x = false) :
    ∀ (before rest : List Char),
      matchAllGo microPattern 0 before (xs ++ rest) =
        matchAllGo microPattern 0 (xs.reverse ++ before) rest := by
  induction xs with
  | nil => intro before rest; rfl
  | cons x xs ih =>
    intro before rest
    have hx : (isMicro x && startsWithLetter (xs ++ rest)) = false := by
      simp [hxs x (List.mem_cons_self _ _)]
    rw [List.cons_append, matchAllGo_nomatch _ _ _ _ (run_microPattern_plain before _ x hx),
      ih (fun y hy => hxs y (List.mem_cons_of_mem _ hy))]
    simp

theorem matchAllGo_rendered (S : List (List Char)) (s t : List Char) (hr : Rendered S s t) :
    (∀ u, IsUnit u s → u ∈ S) → ∀ before, matchAllGo microPattern 0 before t = [] := by
  induction hr with
  | nil => intro _ before; rfl
  | plain c r t hp hr' ih =>
    intro hall before
    have hp' : (isMicro c && startsWithLetter t) = false := by
      by_cases hc : isMicro c = true
      · have hr0 : startsWithLetter r = false := by simpa [hc] using hp
        simp [rendered_head S r t hr' hr0]
      · simp [hc]
    rw [matchAllGo_nomatch _ _ _ _ (run_microPattern_plain before t c hp')]
    exact ih (fun u hu => hall u (IsUnit.afterPlain u c r hp hu)) _
  | tagged c X rest t hc hne hX hrest _ _ ih =>
    intro hall before
    have hchars : ∀ x ∈ frogified (c :: X), isMicro x = false := by
      intro x hx
      by_contra hm
      have hm' : isMicro x = true := by simpa using hm
      exact frogified_chars x c X hm' hX x hx rfl
    rw [matchAllGo_copy _ hchars]
    exact ih (fun u hu => hall u (IsUnit.afterUnit u c X rest hc hne hX hrest hu)) _
  | untouched c X rest t hc hne hX hrest hnot _ _ =>
    intro hall
    exact absurd (hall _ (IsUnit.here c X rest hc hne hX hrest)) hnot

theorem tagMicroUnits_no_match (t : List Char) (h : microPattern.matchAll t = []) :
    tagMicroUnits t = t := by
  unfold tagMicroUnits
  rw [h]
  split_ifs
  · rfl
  · rfl

/-- Tagging twice gives what tagging once gives, on every text. -/
theorem tagMicroUnits_idempotent (s : List Char) :
    tagMicroUnits (tagMicroUnits s) = tagMicroUnits s := by
  rcases tagMicroUnits_rendered_or_same s with h | ⟨S, hr, hall⟩
  · rw [h, h]
  · exact tagMicroUnits_no_match _ (matchAllGo_rendered S s _ hr hall [])

/-- A text without a character of the symbol class comes back from `tagMicroUnits` as it
went in. -/
theorem tagMicroUnits_plain (s : List Char) (h : ∀ c ∈ s, isMicro c = false) :
    tagMicroUnits s = s := by
  apply tagMicroUnits_no_match
  have := matchAllGo_copy s h [] []
  rw [List.append_nil] at this
  exact this

/-! ### Bubble sizes -/

theorem foldl_max_fin (rest : List ℚ) :
    ∀ z, (rest.map JSNum.fin).foldl JSNum.max (.fin z) = .fin (rest.foldl max z) := by
  induction rest with
  | nil => intro z; rfl
  | cons x rest ih =>
    intro z
    simp only [List.map_cons, List.foldl_cons]
    have e : JSNum.max (.fin z) (.fin x) = .fin (max z x) := rfl
    rw [e, ih]

theorem mathMax_fin (zs : List ℚ) (hne : zs ≠ []) :
    mathMax (zs.map JSNum.fin) = .fin (largest zs) := by
  cases zs with
  | nil => exact absurd rfl hne
  | cons z rest =>
    have e : mathMax ((z :: rest).map JSNum.fin) =
        (rest.map JSNum.fin).foldl JSNum.max (.fin z) := rfl
    rw [e, foldl_max_fin]
    rfl

theorem foldl_max_ge (rest : List ℚ) :
    ∀ z, z ≤ rest.foldl max z ∧ ∀ x ∈ rest, x ≤ rest.foldl max z := by
  induction rest with
  | nil => intro z; exact ⟨le_refl _, fun x hx => absurd hx (List.not_mem_nil _)⟩
  | cons y rest ih =>
    intro z
    obtain ⟨h1, h2⟩ := ih (max z y)
    refine ⟨le_trans (le_max_left _ _) h1, fun x hx => ?_⟩
    rcases List.mem_cons.mp hx with rfl | hx
    · exact le_trans (le_max_right _ _) h1
    · exact h2 x hx

theorem foldl_max_mem (rest : List ℚ) :
    ∀ z, rest.foldl max z = z ∨ rest.foldl max z ∈ rest := by
  induction rest with
  | nil => intro z; exact Or.inl rfl
  | cons y rest ih =>
    intro z
    rcases ih (max z y) with h | h
    · rcases max_choice z y with e | e
      · left; rw [List.foldl_cons, h, e]
      · right; rw [List.foldl_cons, h, e]; exact List.mem_cons_self _ _
    · right; exact List.mem_cons_of_mem _ h

theorem le_largest (zs : List ℚ) : ∀ z ∈ zs, z ≤ largest zs := by
  cases zs with
  | nil => intro z hz; exact absurd hz (List.not_mem_nil _)
  | cons a rest =>
    intro z hz
    rcases List.mem_cons.mp hz with rfl | hz
    · exact (foldl_max_ge rest _).1
    · exact (foldl_max_ge rest a).2 z hz

theorem largest_mem (zs : List ℚ) (hne : zs ≠ []) : largest zs ∈ zs := by
  cases zs with
  | nil => exact absurd rfl hne
  | cons a rest =>
    rcases foldl_max_mem rest a with h | h
    · have : largest (a :: rest) = a := h
      rw [this]; exact List.mem_cons_self _ _
    · exact List.mem_cons_of_mem _ h

theorem normalizeToMax_fin (toNumber : JSVal → JSNum) (zs : List ℚ) (hne : zs ≠ []) :
    normalizeToMax toNumber (zs.map jsNum) =
      if largest zs = 0 then zs.map (fun _ => jsNum 0)
      else zs.map (fun z => jsNum (z / largest zs)) := by
  have e : (zs.map jsNum).map (JSVal.asNumber toNumber) = zs.map JSNum.fin := by
    rw [List.map_map]; rfl
  unfold normalizeToMax
  rw [e, mathMax_fin zs hne]
  by_cases h0 : largest zs = 0
  · rw [if_pos (by rw [h0]), if_pos h0, List.map_map]
    rfl
  · have h1 : ¬ (JSNum.fin (largest zs) = JSNum.fin 0) := by
      intro h; exact h0 (by injection h)
    simp only [h1, h0, if_false, List.map_map]
    apply List.map_congr_left
    intro z _
    simp [Function.comp, jsNum, JSVal.asNumber, JSNum.div, h0]

theorem scaled_fin (toNumber : JSVal → JSNum) (zs : List ℚ) (hne : zs ≠ []) (bubble : JSVal)
    (B : ℚ) (hB : bubble.asNumber toNumber = .fin B) :
    (normalizeToMax toNumber (zs.map jsNum)).map
        (fun value => .num ((value.asNumber toNumber).mul (bubble.asNumber toNumber))) =
      (zs.map (fun z => if largest zs = 0 then 0 * B else z / largest zs * B)).map jsNum := by
  rw [normalizeToMax_fin toNumber zs hne, hB]
  by_cases h0 : largest zs = 0
  · simp only [h0, if_true, List.map_map]
    rfl
  · simp only [h0, if_false, List.map_map]
    rfl

theorem prepareBubbleSizes_core (toNumber : JSVal → JSNum) (dataSeries m0 : List (String × JSVal))
    (zs : List ℚ) (B : ℚ) (hm : mapGet dataSeries "marker" = .obj m0) (hne : zs ≠ [])
    (hz : mapGet dataSeries "z_points" = .arr (zs.map jsNum) ∨
      ((mapGet dataSeries "z_points").truthy = false ∧
        mapGet dataSeries "z" = .arr (zs.map jsNum)))
    (hB : ((mapGet dataSeries "max_bubble_size").truthy = false ∧ B = 10) ∨
      (mapGet dataSeries "max_bubble_size" = jsNum B ∧ 0 < B)) :
    prepareBubbleSizes toNumber dataSeries =
      some (.ok (mapSet (mapSet dataSeries "marker" (.obj (mapSet (mapSet (mapSet m0 "size"
        (.arr (zs.map jsNum))) "size" (.arr (normalizeToMax toNumber (zs.map jsNum)))) "size"
        (.arr ((zs.map (fun z => if largest zs = 0 then 0 * B else z / largest zs * B)).map
          jsNum))))) "text" (.arr (zs.map jsNum)))) := by
  have ht : (mapGet dataSeries "marker").truthy = true := by rw [hm]; rfl
  have hto : (JSVal.obj m0).truthy = true := rfl
  have hta : (JSVal.arr (zs.map jsNum)).truthy = true := rfl
  have hth : (JSVal.arr (zs.map jsNum)).hasHoles = false := rfl
  have hbub : ∃ bubble, (if (mapGet dataSeries "max_bubble_size").truthy then
      mapGet dataSeries "max_bubble_size" else jsNum 10) = bubble ∧
      bubble.asNumber toNumber = .fin B := by
    rcases hB with ⟨h, rfl⟩ | ⟨h, hpos⟩
    · exact ⟨jsNum 10, by simp [h], rfl⟩
    · refine ⟨jsNum B, ?_, rfl⟩
      rw [h]
      have : (jsNum B).truthy = true := by
        simp [jsNum, JSVal.truthy, ne_of_gt hpos]
      rw [if_pos this]
  obtain ⟨bubble, hb1, hb2⟩ := hbub
  have hsc := scaled_fin toNumber zs hne bubble B hb2
  rcases hz with hz | ⟨hzf, hz⟩
  · have hzt : (mapGet dataSeries "z_points").truthy = true := by rw [hz]; rfl
    unfold prepareBubbleSizes
    simp only [ht, hto, hta, hth, Bool.not_true, Bool.false_eq_true, if_false, hm, hzt, if_true,
      mapGet_mapSet_same, hz, JSVal.arrayItems, hb1, hsc,
      mapGet_mapSet_ne _ "marker" "z_points" _ (by decide),
      mapGet_mapSet_ne _ "marker" "z" _ (by decide)]
  · have hzt : (mapGet dataSeries "z").truthy = true := by rw [hz]; rfl
    unfold prepareBubbleSizes
    simp only [ht, hto, hta, hth, Bool.not_true, Bool.false_eq_true, if_false, hm, hzt, hzf,
      if_true, mapGet_mapSet_same, hz, JSVal.arrayItems, hb1, hsc,
      mapGet_mapSet_ne _ "marker" "z_points" _ (by decide),
      mapGet_mapSet_ne _ "marker" "z" _ (by decide)]

theorem prepareBubbleSizes_no_marker (toNumber : JSVal → JSNum)
    (dataSeries : List (String × JSVal)) (h : (mapGet dataSeries "marker").truthy = false) :
    prepareBubbleSizes toNumber dataSeries =
      prepareBubbleSizes toNumber (mapSet dataSeries "marker" (.obj [])) := by
  have hto : (JSVal.obj []).truthy = true := rfl
  unfold prepareBubbleSizes
  simp only [h, hto, mapGet_mapSet_same, Bool.not_false, Bool.not_true, Bool.false_eq_true,
    if_true, if_false]

theorem bubble_sizes_bounded (zs : List ℚ) (B : ℚ) (hne : zs ≠ []) (hB : 0 < B)
    (hpos : 0 ≤ largest zs) :
    (∀ s ∈ zs.map (fun z => if largest zs = 0 then 0 * B else z / largest zs * B), s ≤ B) ∧
    (largest zs ≠ 0 →
      B ∈ zs.map (fun z => if largest zs = 0 then 0 * B else z / largest zs * B)) := by
  constructor
  · intro s hs
    rw [List.mem_map] at hs
    obtain ⟨z, hz, rfl⟩ := hs
    by_cases h0 : largest zs = 0
    · simp only [h0, if_true, zero_mul]
      exact le_of_lt hB
    · simp only [h0, if_false]
      have hl : 0 < largest zs := lt_of_le_of_ne hpos (Ne.symm h0)
      have h1 : z / largest zs ≤ 1 := (div_le_one hl).2 (le_largest zs z hz)
      exact mul_le_of_le_one_left (le_of_lt hB) h1
  · intro h0
    rw [List.mem_map]
    refine ⟨largest zs, largest_mem zs hne, ?_⟩
    simp only [h0, if_false]
    rw [div_self h0, one_mul]

/-- C40 (amended): for a data series whose `marker` is missing (or falsy) or a plain object,
whose `z_points` (or, when `z_points` is falsy, whose `z`) is a non-empty array of finite
numbers with largest value at least zero, and whose `max_bubble_size` is a positive
number `B` (or is falsy, and then `B` is 10), `prepareBubbleSizes` returns the series with
as many marker sizes as there are values, every size at most `B`, and one size equal to `B`
when the largest value is not zero. -/
theorem prepareBubbleSizes_bounded (toNumber : JSVal → JSNum)
    (dataSeries : List (String × JSVal)) (zs : List ℚ) (B : ℚ) (hne : zs ≠ [])
    (hmarker : (mapGet dataSeries "marker").truthy = false ∨
      ∃ m0, mapGet dataSeries "marker" = .obj m0)
    (hz : mapGet dataSeries "z_points" = .arr (zs.map jsNum) ∨
      ((mapGet dataSeries "z_points").truthy = false ∧
        mapGet dataSeries "z" = .arr (zs.map jsNum)))
    (hB : ((mapGet dataSeries "max_bubble_size").truthy = false ∧ B = 10) ∨
      (mapGet dataSeries "max_bubble_size" = jsNum B ∧ 0 < B))
    (hpos : 0 ≤ largest zs) :
    ∃ (out marker : List (String × JSVal)) (sizes : List ℚ),
      prepareBubbleSizes toNumber dataSeries = some (.ok out) ∧
      mapGet out "marker" = .obj marker ∧ mapGet marker "size" = .arr (sizes.map jsNum) ∧
      sizes.length = zs.length ∧ (∀ s ∈ sizes, s ≤ B) ∧ (largest zs ≠ 0 → B ∈ sizes) := by
  have hBpos : 0 < B := by
    rcases hB with ⟨_, rfl⟩ | ⟨_, h⟩
    · norm_num
    · exact h
  obtain ⟨hle, hmem⟩ := bubble_sizes_bounded zs B hne hBpos hpos
  rcases hmarker with hf | ⟨m0, hm⟩
  · have hcore := prepareBubbleSizes_core toNumber (mapSet dataSeries "marker" (.obj [])) []
      zs B (mapGet_mapSet_same _ _ _) hne
      (by rw [mapGet_mapSet_ne _ "marker" "z_points" _ (by decide),
            mapGet_mapSet_ne _ "marker" "z" _ (by decide)]; exact hz)
      (by rw [mapGet_mapSet_ne _ "marker" "max_bubble_size" _ (by decide)]; exact hB)
    rw [← prepareBubbleSizes_no_marker toNumber dataSeries hf] at hcore
    exact ⟨_, _, zs.map (fun z => if largest zs = 0 then 0 * B else z / largest zs * B),
      hcore,
      (mapGet_mapSet_ne _ "text" "marker" _ (by decide)).trans (mapGet_mapSet_same _ _ _),
      mapGet_mapSet_same _ _ _, by simp, hle, hmem⟩
  · have hcore := prepareBubbleSizes_core toNumber dataSeries m0 zs B hm hne hz hB
    exact ⟨_, _, zs.map (fun z => if largest zs = 0 then 0 * B else z / largest zs * B),
      hcore,
      (mapGet_mapSet_ne _ "text" "marker" _ (by decide)).trans (mapGet_mapSet_same _ _ _),
      mapGet_mapSet_same _ _ _, by simp, hle, hmem⟩

theorem prepareBubbleSizes_bounded_witness :
    ∃ (out marker : List (String × JSVal)) (sizes : List ℚ),
      prepareBubbleSizes (fun _ => .nan) bubbleSeries = some (.ok out) ∧
      mapGet out "marker" = .obj marker ∧ mapGet marker "size" = .arr (sizes.map jsNum) ∧
      sizes.length = 3 ∧ (∀ s ∈ sizes, s ≤ 10) ∧ (largest [1, 2, 4] ≠ 0 → (10 : ℚ) ∈ sizes) :=
  prepareBubbleSizes_bounded (fun _ => .nan) bubbleSeries [1, 2, 4] 10 (by simp)
    (Or.inl rfl) (Or.inr ⟨rfl, rfl⟩) (Or.inl ⟨rfl, rfl⟩) (by norm_num [largest])

/-- C40 (counterexample): with `z` values -2 and -1 the marker sizes are 20 and 10, the
first above the default maximum of 10; with `z` values 1 and 2 and `max_bubble_size` -5 the
sizes are -5/2 and -5, the first above -5. -/
theorem prepareBubbleSizes_counterexample :
    prepareBubbleSizes (fun _ => .nan) negativeSeries =
      some (.ok [("z", .arr [jsNum (-2), jsNum (-1)]),
        ("marker", .obj [("size", .arr [jsNum 20, jsNum 10])]),
        ("text", .arr [jsNum (-2), jsNum (-1)])]) ∧
    prepareBubbleSizes (fun _ => .nan) negativeBubbleSeries =
      some (.ok [("z", .arr [jsNum 1, jsNum 2]), ("max_bubble_size", jsNum (-5)),
        ("marker", .obj [("size", .arr [jsNum (-5 / 2), jsNum (-5)])]),
        ("text", .arr [jsNum 1, jsNum 2])]) := by
  constructor
  · simp [prepareBubbleSizes, negativeSeries, mapGet, mapSet, JSVal.truthy, JSVal.arrayItems,
      JSVal.hasHoles, normalizeToMax, mathMax, JSNum.max, JSVal.asNumber, jsNum, JSNum.div, JSNum.mul]
    norm_num
  · simp [prepareBubbleSizes, negativeBubbleSeries, mapGet, mapSet, JSVal.truthy,
      JSVal.arrayItems, JSVal.hasHoles, normalizeToMax, mathMax, JSNum.max, JSVal.asNumber, jsNum, JSNum.div,
      JSNum.mul]
    norm_num

end JSONGrapher
